import Mathlib

/-! pathracer: profile-HMM alignment against a graph

A shallow embedding of `assembler/src/projects/pathracer/hmmpath.hpp` and
`assembler/src/projects/pathracer/depth_filter.hpp`, followed by theorems about it.

Conventions of the embedding.

* `std::unordered_map<K, V>` is an association list `List (K × V)`; the list order is
  the iteration order of the container.  A well-formed container has pairwise distinct
  keys (`wf`).  `insert` appends a key that is absent and leaves the container alone
  otherwise, exactly as `std::unordered_map::insert` reports through its `bool`.
* `score_t` (a `double` declared in a header that is not part of the sources at hand) is a
  type parameter `S` with a linear order, an addition, a zero and an element `⊤` for
  `std::numeric_limits<score_t>::infinity()`.  The definitions form every sum as the
  code does, from left to right, and assume no law of the addition; NaN is not modelled
  (the order is linear).  A theorem names the laws it relies on: those of exact
  arithmetic (an ordered monoid in which `⊤` absorbs), or those of `RoundedAdd`, which
  hold for the rounded addition of binary64 numbers (the model `Double` below).
* `PathLinkRef` is a pointer to a shared `PathLink`.  The embedding stores the node it
  points to by value.  No node is written to after a reference to it has been handed
  out in the code modelled here, so the value reads the same as the pointee.
* `size_t` is `Nat`, with `% 2 ^ 64` where a product can wrap; `INF` is `2 ^ 64 - 1`.
* An `assert` that fails, and a recursion or loop that outruns the fuel given to it, end
  a call without a value (`Abort`, `none`).  The theorems say how much fuel is enough.
* The depth filter handed to the insertion loop is a predicate on cursors.
-/

namespace impl

/-! ## Containers -/

section Containers

variable {K V : Type} [DecidableEq K]

/-- Lookup `std::unordered_map::find`, `none` standing for `end()`. -/
def find : List (K × V) → K → Option V
  | [], _ => none
  | kv :: rest, k => if kv.1 = k then some kv.2 else find rest k

/-- Membership test `std::unordered_map::count`. -/
def count (m : List (K × V)) (k : K) : Bool := (find m k).isSome

/-- Insertion `std::unordered_map::insert`: the container afterwards and the `bool` of
the returned pair (whether the key was inserted). -/
def insert (m : List (K × V)) (k : K) (v : V) : List (K × V) × Bool :=
  if count m k then (m, false) else (m ++ [(k, v)], true)

/-- Assignment `it->second = v` through the iterator of the entry with key `k`. -/
def assign : List (K × V) → K → V → List (K × V)
  | [], _, _ => []
  | kv :: rest, k, v => if kv.1 = k then (kv.1, v) :: rest else kv :: assign rest k v

/-- The keys of a container, in iteration order. -/
def keys (m : List (K × V)) : List K := m.map Prod.fst

/-- Well-formed container: no key occurs twice. -/
def wf (m : List (K × V)) : Prop := (keys m).Nodup

instance wf_decidable (m : List (K × V)) : Decidable (wf m) := by
  unfold wf; infer_instance

/-- Loop of `FilterMapMixin::filter_key`: erase the entries whose key satisfies the
predicate, count the erasures. -/
def filter_key (predicate : K → Bool) : List (K × V) → List (K × V) × Nat
  | [] => ([], 0)
  | kv :: rest =>
    let r := filter_key predicate rest
    if predicate kv.1 then (r.1, r.2 + 1) else (kv :: r.1, r.2)

/-- Loop of `FilterMapMixin::filter_key_value`: erase the entries that satisfy the
predicate, count the erasures. -/
def filter_key_value (predicate : K × V → Bool) : List (K × V) → List (K × V) × Nat
  | [] => ([], 0)
  | kv :: rest =>
    let r := filter_key_value predicate rest
    if predicate kv then (r.1, r.2 + 1) else (kv :: r.1, r.2)

end Containers

/-! ## Score filter -/

section ScoreFilter

variable {K V S : Type} [LinearOrder S]

/-- Collect `ScoresFilterMapMixin::scores`: the score of every entry, in iteration
order. -/
def scores (score_fnc : K × V → S) (m : List (K × V)) : List S := m.map score_fnc

/-- Rearrangement `std::nth_element(first, first + k, last)`: afterwards the element at
position `k` is the one a full sort would put there.  The embedding sorts the whole
range, which is one of the outcomes the standard allows; only position `k` is read. -/
def nth_element (xs : List S) (_k : Nat) : List S := xs.insertionSort (· ≤ ·)

/-- Method `ScoresFilterMapMixin::score_filter(n, score)`: the container afterwards and
the returned count. -/
def score_filter (score_fnc : K × V → S) (n : Nat) (score : S) (m : List (K × V)) :
    List (K × V) × Nat :=
  let n := min n m.length
  if n = 0 then ([], 0)
  else
    match (nth_element (scores score_fnc m) (n - 1)).get? (n - 1) with
    | none => (m, 0)
    | some s =>
      let score := min score s
      filter_key_value (fun kv => decide (score_fnc kv > score)) m

end ScoreFilter

/-! ## Backpointer nodes -/

/-- Modelled from the spec: class `PathLink` of `pathtree.hpp`, which is not among the
sources at hand.  The spec gives a node a best score and the predecessor entries
`(predecessor cursor, score, predecessor node)`, of which an implementation "may keep
exactly one best"; this model keeps exactly one.  `create` is a node on which no update
has been made yet, `master_source` is the root ("no predecessor, score 0"), and
`link gp score pl` is a node whose best predecessor entry is `(gp, score, pl)`.  Event
tags are left out: `set_event` writes them and nothing in the code modelled here reads
them. -/
inductive PathLink (GraphCursor S : Type) : Type where
  | create : PathLink GraphCursor S
  | master_source : PathLink GraphCursor S
  | link (gp : GraphCursor) (score : S) (pl : PathLink GraphCursor S) : PathLink GraphCursor S
deriving DecidableEq

namespace PathLink

variable {GraphCursor S : Type} [LinearOrder S] [Add S] [Zero S] [Top S]

/-- Modelled from the spec: `PathLink::score`, the best score recorded so far; the root
has score 0 and a node without any recorded predecessor has no finite score. -/
def score : PathLink GraphCursor S → S
  | create => ⊤
  | master_source => 0
  | link _ s _ => s

/-- Modelled from the spec: `PathLink::best_ancestor`, "the single best (predecessor
cursor, score, predecessor node) triple"; `none` when the node has no predecessor entry
(the source dereferences the result without a check). -/
def best_ancestor : PathLink GraphCursor S → Option (GraphCursor × S × PathLink GraphCursor S)
  | link gp s pl => some (gp, s, pl)
  | _ => none

/-- Modelled from the spec: `PathLink::update`, a relaxation: "if `score` strictly
improves the node's current best, record it and return true (accepted), else false".  A
node that has no entry yet has no current best, so its first update is recorded. -/
def update (node : PathLink GraphCursor S) (gp : GraphCursor) (score : S)
    (pl : PathLink GraphCursor S) : PathLink GraphCursor S × Bool :=
  match node with
  | create => (link gp score pl, true)
  | master_source => if score < 0 then (link gp score pl, true) else (master_source, false)
  | link g s p => if score < s then (link gp score pl, true) else (link g s p, false)

/-- Modelled from the spec: `PathLink::clone`, a copy "that breaks aliasing with the
original"; on values it is the identity. -/
def clone (node : PathLink GraphCursor S) : PathLink GraphCursor S := node

end PathLink

/-! ## Frontiers -/

/-- Struct `ScoredPLink`. -/
structure ScoredPLink (GraphCursor S : Type) where
  plink : PathLink GraphCursor S
  score : S
deriving DecidableEq

/-- Struct `State`: what the state iterators of a frontier yield. -/
structure State (GraphCursor S : Type) where
  cursor : GraphCursor
  plink : PathLink GraphCursor S
  score : S
deriving DecidableEq

/-- Score that a range of states gives a cursor, a cursor without a state counting as
`+infinity`. -/
def states_score_at {GraphCursor S : Type} [DecidableEq GraphCursor] [Top S]
    (Ss : List (State GraphCursor S)) (c : GraphCursor) : S :=
  match Ss.find? (fun st => decide (st.cursor = c)) with
  | none => ⊤
  | some st => st.score

/-- Class `DeletionStateSet`: an unordered map from cursors to `ScoredPLink`. -/
abbrev DeletionStateSet (GraphCursor S : Type) := List (GraphCursor × ScoredPLink GraphCursor S)

/-- Class `StateSet`: an unordered map from cursors to backpointer nodes. -/
abbrev StateSet (GraphCursor S : Type) := List (GraphCursor × PathLink GraphCursor S)

namespace DeletionStateSet

variable {GraphCursor S : Type} [DecidableEq GraphCursor] [LinearOrder S] [Add S] [Zero S] [Top S]

/-- Function `DeletionStateSet::kv2state`. -/
def kv2state (kv : GraphCursor × ScoredPLink GraphCursor S) : State GraphCursor S :=
  { cursor := kv.1, plink := kv.2.plink, score := kv.2.score }

/-- Range `StateMap::states()` of a `DeletionStateSet`. -/
def states (D : DeletionStateSet GraphCursor S) : List (State GraphCursor S) := D.map kv2state

/-- Function `DeletionStateSet::score_fnc`. -/
def score_fnc (kv : GraphCursor × ScoredPLink GraphCursor S) : S := kv.2.score

/-- Method `DeletionStateSet::update`: the set afterwards and the returned flag. -/
def update (D : DeletionStateSet GraphCursor S) (cursor : GraphCursor) (score : S)
    (plink : PathLink GraphCursor S) : DeletionStateSet GraphCursor S × Bool :=
  let it_fl := insert D cursor { plink := plink, score := score }
  if it_fl.2 then (it_fl.1, true)
  else
    match find it_fl.1 cursor with
    | none => (it_fl.1, false)
    | some prev =>
      if prev.score > score then (assign it_fl.1 cursor { plink := plink, score := score }, true)
      else (it_fl.1, false)

/-- Method `DeletionStateSet::merge`: the set afterwards and the returned count. -/
def merge (D : DeletionStateSet GraphCursor S) (Ss : List (State GraphCursor S)) (fee : S) :
    DeletionStateSet GraphCursor S × Nat :=
  Ss.foldl
    (fun acc state =>
      let r := update acc.1 state.cursor (state.score + fee) state.plink
      (r.1, acc.2 + (if r.2 then 1 else 0)))
    (D, 0)

/-- Method `DeletionStateSet::increment`. -/
def increment (D : DeletionStateSet GraphCursor S) (fee : S) : DeletionStateSet GraphCursor S :=
  D.map (fun kv => (kv.1, { kv.2 with score := kv.2.score + fee }))

/-- Score of the entry at a cursor, an absent entry counting as `+infinity`. -/
def score_at (D : DeletionStateSet GraphCursor S) (c : GraphCursor) : S :=
  match find D c with
  | none => ⊤
  | some v => v.score

end DeletionStateSet

namespace StateSet

variable {GraphCursor S : Type} [DecidableEq GraphCursor] [LinearOrder S] [Add S] [Zero S] [Top S]

/-- Function `StateSet::kv2state`. -/
def kv2state (kv : GraphCursor × PathLink GraphCursor S) : State GraphCursor S :=
  { cursor := kv.1, plink := kv.2, score := kv.2.score }

/-- Range `StateMap::states()` of a `StateSet`. -/
def states (M : StateSet GraphCursor S) : List (State GraphCursor S) := M.map kv2state

/-- Function `StateSet::score_fnc`. -/
def score_fnc (kv : GraphCursor × PathLink GraphCursor S) : S := kv.2.score

/-- Method `StateSet::clone`. -/
def clone (M : StateSet GraphCursor S) : StateSet GraphCursor S :=
  M.map (fun kv => (kv.1, kv.2.clone))

/-- Method `StateSet::update`: the set afterwards and the returned flag. -/
def update (M : StateSet GraphCursor S) (cursor : GraphCursor) (score : S)
    (src : GraphCursor) (plink : PathLink GraphCursor S) : StateSet GraphCursor S × Bool :=
  let it_fl := insert M cursor PathLink.create
  match find it_fl.1 cursor with
  | none => (it_fl.1, false)
  | some node =>
    let prev : S := if it_fl.2 then ⊤ else node.score
    (assign it_fl.1 cursor (node.update src score plink).1, decide (prev > score))

/-- Score of the entry at a cursor, an absent entry counting as `+infinity`. -/
def score_at (M : StateSet GraphCursor S) (c : GraphCursor) : S :=
  match find M c with
  | none => ⊤
  | some node => node.score

end StateSet

/-! ## The collaborators: graph cursors and fees -/

/-- Modelled from the spec: the cursor contract (`cursor.hpp` is not among the sources):
"`is_empty() -> bool`; `letter() -> symbol`; `next() -> sequence of Cursor`;
`prev() -> sequence of Cursor`", and the sentinel `GraphCursor()` as `empty`.  The
operations of a cursor type are collected in one record, taken as a parameter. -/
structure Cursor (GraphCursor : Type) where
  empty : GraphCursor
  is_empty : GraphCursor → Bool
  letter : GraphCursor → Char
  next : GraphCursor → List GraphCursor
  prev : GraphCursor → List GraphCursor

/-- Transition index `p7H_MM` of `hmmer.h`. -/
def p7H_MM : Nat := 0
/-- Transition index `p7H_MI` of `hmmer.h`. -/
def p7H_MI : Nat := 1
/-- Transition index `p7H_MD` of `hmmer.h`. -/
def p7H_MD : Nat := 2
/-- Transition index `p7H_IM` of `hmmer.h`. -/
def p7H_IM : Nat := 3
/-- Transition index `p7H_II` of `hmmer.h`. -/
def p7H_II : Nat := 4
/-- Transition index `p7H_DM` of `hmmer.h`. -/
def p7H_DM : Nat := 5
/-- Transition index `p7H_DD` of `hmmer.h`. -/
def p7H_DD : Nat := 6

/-- Modelled from the spec: the fee table `hmm::Fees` (`fees.hpp` is not among the
sources): "`M -> column count`; `t[m][kind] -> cost`; `mat[m][symbol] -> cost`;
`ins[m][symbol] -> cost`; `code(symbol) -> index`".  The tables are total functions of
their indices.  The query `is_i_loop_non_negative(m)`, on which `find_best_path`
chooses the solver of the insertion loop ("dispatch on whether per-step insertion cost
at column `m` is non-negative"), is a field of its own: nothing is assumed about how it
is computed from the tables. -/
structure Fees (S : Type) where
  M : Nat
  t : Nat → Nat → S
  mat : Nat → Nat → S
  ins : Nat → Nat → S
  code : Char → Nat
  is_i_loop_non_negative : Nat → Bool

/-- Laws of the addition of `double` that hold whatever the rounding (NaN apart, and
the two zeros being one number): adding zero changes nothing, and a sum does not fall
when one of its terms grows.  The addition need not be associative. -/
structure RoundedAdd (S : Type) [LinearOrder S] [Add S] [Zero S] : Prop where
  add_zero : ∀ a : S, a + 0 = a
  zero_add : ∀ a : S, 0 + a = a
  add_le_add_right : ∀ a b c : S, a ≤ b → a + c ≤ b + c
  add_le_add_left : ∀ a b c : S, b ≤ c → a + b ≤ a + c

/-! ## The propagation steps of `find_best_path` -/

section Engine

variable {GraphCursor S : Type} [DecidableEq GraphCursor] [LinearOrder S] [Add S] [Zero S] [Top S]

/-- Lambda `transfer` of `find_best_path`; `initial` is the captured seed list, `dst` the
parameter `to` and `src` the range `from.states()`. -/
def transfer (g : Cursor GraphCursor) (code : Char → Nat) (initial : List GraphCursor)
    (dst : StateSet GraphCursor S) (src : List (State GraphCursor S)) (transfer_fee : S)
    (emission_fees : Nat → S) : StateSet GraphCursor S :=
  src.foldl
    (fun dst state =>
      (if g.is_empty state.cursor then initial else g.next state.cursor).foldl
        (fun dst next =>
          let cost := state.score + transfer_fee + emission_fees (code (g.letter next))
          (StateSet.update dst next cost state.cursor state.plink).1)
        dst)
    dst

/-- Lambda `dm_new` of `find_best_path`: the Delete and the Match frontier afterwards. -/
def dm_new (g : Cursor GraphCursor) (fees : Fees S) (initial : List GraphCursor)
    (D : DeletionStateSet GraphCursor S) (M I : StateSet GraphCursor S) (m : Nat) :
    DeletionStateSet GraphCursor S × StateSet GraphCursor S :=
  let preM := D
  let D := DeletionStateSet.increment D (fees.t (m - 1) p7H_DD)
  let D := (DeletionStateSet.merge D (StateSet.states M) (fees.t (m - 1) p7H_MD)).1
  let preM := DeletionStateSet.increment preM (fees.t (m - 1) p7H_DM)
  let preM := (DeletionStateSet.merge preM (StateSet.states M) (fees.t (m - 1) p7H_MM)).1
  let preM := (DeletionStateSet.merge preM (StateSet.states I) (fees.t (m - 1) p7H_IM)).1
  let M : StateSet GraphCursor S := []
  (D, transfer g fees.code initial M (DeletionStateSet.states preM) 0 (fees.mat m))

/-- Lambda `upd_terminal` of `find_best_path`. -/
def upd_terminal (terminal : PathLink GraphCursor S) (Ss : List (State GraphCursor S))
    (fee : S) : PathLink GraphCursor S :=
  Ss.foldl (fun terminal state => (terminal.update state.cursor (state.score + fee) state.plink).1)
    terminal

/-- The terminal merge at the end of `find_best_path`: the node `result.pathlink()`
after the three `upd_terminal` calls, starting from a node without entries. -/
def terminal_merge (g : Cursor GraphCursor) (fees : Fees S) (base : PathLink GraphCursor S)
    (D : DeletionStateSet GraphCursor S) (I M : StateSet GraphCursor S) :
    PathLink GraphCursor S :=
  let terminal : PathLink GraphCursor S := PathLink.create
  let terminal := (terminal.update g.empty ⊤ base).1
  let terminal := upd_terminal terminal (DeletionStateSet.states D) (fees.t fees.M p7H_DM)
  let terminal := upd_terminal terminal (StateSet.states I) (fees.t fees.M p7H_DM)
  upd_terminal terminal (StateSet.states M) (fees.t fees.M p7H_MM)

/-- Struct `QueueElement` of `i_loop_processing_non_negative`. -/
structure QueueElement (GraphCursor S : Type) where
  current_cursor : GraphCursor
  score : S
  source_cursor : GraphCursor
  source_state : PathLink GraphCursor S
deriving DecidableEq

/-- Calls `q.top()` and `q.pop()` of the `std::priority_queue<QueueElement>`, whose
order makes the element of least score the top: the top element and the queue without
it, `none` for an empty queue.  The queue is the list of its elements; among elements
of equal score the one nearest the front is taken. -/
def pop_min : List (QueueElement GraphCursor S) →
    Option (QueueElement GraphCursor S × List (QueueElement GraphCursor S))
  | [] => none
  | e :: rest =>
    match pop_min rest with
    | none => some (e, [])
    | some (b, rest') => if b.score < e.score then some (b, e :: rest') else some (e, rest)

/-- The variables of the `while` loop of `i_loop_processing_non_negative`. -/
structure ILoopState (GraphCursor S : Type) where
  I : StateSet GraphCursor S
  q : List (QueueElement GraphCursor S)
  processed : List GraphCursor
  taken_values : Nat
deriving DecidableEq

/-- The seeding loop of `i_loop_processing_non_negative` (lines 427-437): the queue
after it, `none` when some entry has no best ancestor to dereference. -/
def i_loop_seed (absolute_threshold : S) (filter : GraphCursor → Bool) :
    List (GraphCursor × PathLink GraphCursor S) → List (QueueElement GraphCursor S) →
    Option (List (QueueElement GraphCursor S))
  | [], q => some q
  | kv :: rest, q =>
    match kv.2.best_ancestor with
    | none => none
    | some best =>
      if best.2.1 > absolute_threshold then i_loop_seed absolute_threshold filter rest q
      else if !filter kv.1 then
        i_loop_seed absolute_threshold filter rest
          (q ++ [{ current_cursor := kv.1, score := best.2.1, source_cursor := best.1,
                   source_state := best.2.2 }])
      else i_loop_seed absolute_threshold filter rest q

/-- The inner `for` loop over `elt.current_cursor.next()` (lines 461-470): the queue
after the pushes. -/
def i_loop_push (g : Cursor GraphCursor) (code : Char → Nat) (transfer_fee : S)
    (emission_fees : Nat → S) (filter : GraphCursor → Bool) (processed : List GraphCursor)
    (elt : QueueElement GraphCursor S) (id : PathLink GraphCursor S) :
    List GraphCursor → List (QueueElement GraphCursor S) → List (QueueElement GraphCursor S)
  | [], q => q
  | next :: rest, q =>
    if processed.contains next then
      i_loop_push g code transfer_fee emission_fees filter processed elt id rest q
    else
      let cost := elt.score + transfer_fee + emission_fees (code (g.letter next))
      if !filter next then
        i_loop_push g code transfer_fee emission_fees filter processed elt id rest
          (q ++ [{ current_cursor := next, score := cost,
                   source_cursor := elt.current_cursor, source_state := id }])
      else i_loop_push g code transfer_fee emission_fees filter processed elt id rest q

/-- The `while (!q.empty())` loop of `i_loop_processing_non_negative` (lines 442-471),
run for at most `fuel` iterations: the variables at loop exit, `none` when the fuel is
used up before the loop exits. -/
def i_loop_while (g : Cursor GraphCursor) (code : Char → Nat) (transfer_fee : S)
    (emission_fees : Nat → S) (absolute_threshold : S) (filter : GraphCursor → Bool) :
    Nat → ILoopState GraphCursor S → Option (ILoopState GraphCursor S)
  | 0, _ => none
  | fuel + 1, st =>
    match pop_min st.q with
    | none => some st
    | some (elt, q) =>
      let taken_values := st.taken_values + 1
      if elt.score > absolute_threshold then
        some { st with q := q, taken_values := taken_values }
      else if st.processed.contains elt.current_cursor then
        i_loop_while g code transfer_fee emission_fees absolute_threshold filter fuel
          { st with q := q, taken_values := taken_values }
      else
        let processed := elt.current_cursor :: st.processed
        let I := (StateSet.update st.I elt.current_cursor elt.score elt.source_cursor
                    elt.source_state).1
        match find I elt.current_cursor with
        | none => none
        | some id =>
          let q := i_loop_push g code transfer_fee emission_fees filter processed elt id
                     (g.next elt.current_cursor) q
          i_loop_while g code transfer_fee emission_fees absolute_threshold filter fuel
            { I := I, q := q, processed := processed, taken_values := taken_values }

/-- Lambda `i_loop_processing_non_negative` of `find_best_path`, its `while` loop run
for at most `fuel` iterations.  The argument `filter` is the depth filter, taken as a
predicate on cursors. -/
def i_loop_processing_non_negative (g : Cursor GraphCursor) (fees : Fees S)
    (absolute_threshold : S) (fuel : Nat) (I : StateSet GraphCursor S) (m : Nat)
    (filter : GraphCursor → Bool) : Option (ILoopState GraphCursor S) :=
  let emission_fees := fees.ins m
  let transfer_fee := fees.t m p7H_II
  match i_loop_seed absolute_threshold filter I [] with
  | none => none
  | some q =>
    i_loop_while g fees.code transfer_fee emission_fees absolute_threshold filter fuel
      { I := I, q := q, processed := [], taken_values := 0 }

end Engine

/-! ## Depth estimators (`depth_filter.hpp`) -/

section SetOps

variable {K V : Type} [DecidableEq K]

/-- Assignment `m[k] = v` through `std::unordered_map::operator[]`: overwrite the entry
of `k`, or create it. -/
def set (m : List (K × V)) (k : K) (v : V) : List (K × V) :=
  if count m k then assign m k v else m ++ [(k, v)]

/-- Insertion `std::unordered_set::insert` on a set kept as a list. -/
def set_insert (s : List K) (k : K) : List K := if k ∈ s then s else k :: s

/-- Removal `std::unordered_set::erase` on a set kept as a list. -/
def set_erase (s : List K) (k : K) : List K := s.filter (fun x => decide (x ≠ k))

end SetOps

/-- Constant `INF`: `std::numeric_limits<size_t>::max()` for a 64-bit `size_t`. -/
def INF : Nat := 2 ^ 64 - 1

/-- Constant `DepthAtLeast::STACK_LIMIT`. -/
def STACK_LIMIT : Nat := 50000

/-- The stop test `cursor.letter() == '*' || cursor.letter() == 'X'`. -/
def is_stop {GraphCursor : Type} (g : Cursor GraphCursor) (cursor : GraphCursor) : Bool :=
  g.letter cursor == '*' || g.letter cursor == 'X'

/-- How a call can fail to return a value: an `assert` that does not hold, or the fuel of
the embedding used up. -/
inductive Abort where
  | assertion
  | fuel
deriving DecidableEq

/-- Struct `DepthAtLeast::Estimation`. -/
structure Estimation where
  value : Nat
  exact : Bool
deriving DecidableEq

/-- Class `DepthAtLeast`: its data members. -/
structure DepthAtLeast (GraphCursor : Type) where
  depth_ : List (GraphCursor × Estimation)
  max_stack_size_ : Nat

/-- Class `DepthInt`: its data members. -/
structure DepthInt (GraphCursor : Type) where
  depth_ : List (GraphCursor × Nat)
  max_stack_size_ : Nat

namespace DepthAtLeast

variable {GraphCursor : Type} [DecidableEq GraphCursor]

/-- The statement `return depth_[cursor] = e` of `get_depth_`. -/
def store (self : DepthAtLeast GraphCursor) (cursor : GraphCursor) (e : Estimation)
    (stack : List GraphCursor) : Estimation × List GraphCursor × DepthAtLeast GraphCursor :=
  (e, stack, { self with depth_ := set self.depth_ cursor e })

/-- The `for` loop of `DepthAtLeast::get_depth_` over `nexts` (lines 204-208); `rec` is
the recursive call `get_depth_(n, stack, stack_limit - 1)`.  The loop variables are
`max_child`, `exact`, the in-progress set and the estimator. -/
def children (rec : GraphCursor → List GraphCursor → DepthAtLeast GraphCursor →
      Estimation × List GraphCursor × DepthAtLeast GraphCursor) :
    List GraphCursor → Nat × Bool × List GraphCursor × DepthAtLeast GraphCursor →
    Nat × Bool × List GraphCursor × DepthAtLeast GraphCursor
  | [], acc => acc
  | n :: rest, acc =>
    let result := rec n acc.2.2.1 acc.2.2.2
    children rec rest
      (max acc.1 result.1.value, acc.2.1 && result.1.exact, result.2.1, result.2.2)

/-- The cache test of `get_depth_` (lines 181-185): the cached estimation when the
cursor has one that is exact or above `stack_limit`. -/
def cached_estimation (self : DepthAtLeast GraphCursor) (cursor : GraphCursor)
    (stack_limit : Nat) : Option Estimation :=
  match find self.depth_ cursor with
  | some cached =>
    if cached.exact || decide (cached.value > stack_limit) then some cached else none
  | none => none

/-- The cache test of `depth_at_least` (lines 147-154): the answer when the cached
estimation decides the query. -/
def cached_answer (self : DepthAtLeast GraphCursor) (cursor : GraphCursor) (depth : Nat) :
    Option Bool :=
  match find self.depth_ cursor with
  | some cached =>
    if cached.value ≥ depth then some true else if cached.exact then some false else none
  | none => none

/-- The returns of `get_depth_` that come before the test of `stack_limit` (lines
177-193): the empty cursor, a usable cached estimation, a stop marker, a cursor that is
in progress.  `none` when none of them applies. -/
def early_return (g : Cursor GraphCursor) (stack_limit : Nat) (cursor : GraphCursor)
    (stack : List GraphCursor) (self : DepthAtLeast GraphCursor) :
    Option (Estimation × List GraphCursor × DepthAtLeast GraphCursor) :=
  if g.is_empty cursor then some (store self cursor { value := INF, exact := true } stack)
  else
    match cached_estimation self cursor stack_limit with
    | some cached => some (cached, stack, self)
    | none =>
      if is_stop g cursor then some (store self cursor { value := 0, exact := true } stack)
      else if cursor ∈ stack then
        some (store self cursor { value := INF, exact := true } stack)
      else none

/-- The expansion of a cursor in `get_depth_` (lines 199-217); `rec` is the recursive
call `get_depth_(n, stack, stack_limit - 1)`. -/
def expand (g : Cursor GraphCursor)
    (rec : GraphCursor → List GraphCursor → DepthAtLeast GraphCursor →
      Estimation × List GraphCursor × DepthAtLeast GraphCursor)
    (cursor : GraphCursor) (stack : List GraphCursor) (self : DepthAtLeast GraphCursor) :
    Estimation × List GraphCursor × DepthAtLeast GraphCursor :=
  let nexts := g.next cursor
  let stack := set_insert stack cursor
  let self := { self with max_stack_size_ := max self.max_stack_size_ stack.length }
  let r := children rec nexts (0, true, stack, self)
  let stack := set_erase r.2.2.1 cursor
  if r.1 = INF then store r.2.2.2 cursor { value := INF, exact := true } stack
  else store r.2.2.2 cursor { value := 1 + r.1, exact := r.2.1 } stack

/-- Method `DepthAtLeast::get_depth_`: the returned estimation, the in-progress set and
the estimator afterwards.  The recursion is on `stack_limit`: with `stack_limit == 0`
the method returns `{1, false}` (line 196), otherwise it expands the cursor with
`stack_limit - 1`. -/
def get_depth_ (g : Cursor GraphCursor) :
    Nat → GraphCursor → List GraphCursor → DepthAtLeast GraphCursor →
    Estimation × List GraphCursor × DepthAtLeast GraphCursor
  | 0, cursor, stack, self =>
    match early_return g 0 cursor stack self with
    | some r => r
    | none => store self cursor { value := 1, exact := false } stack
  | limit + 1, cursor, stack, self =>
    match early_return g (limit + 1) cursor stack self with
    | some r => r
    | none => expand g (get_depth_ g limit) cursor stack self

/-- Method `DepthAtLeast::depth_at_least(cursor, size_t depth)` up to its last line;
`again` is the call of itself that the last line makes. -/
def depth_at_least_body (g : Cursor GraphCursor)
    (again : DepthAtLeast GraphCursor → Except Abort (Bool × DepthAtLeast GraphCursor))
    (self : DepthAtLeast GraphCursor) (cursor : GraphCursor) (depth : Nat) :
    Except Abort (Bool × DepthAtLeast GraphCursor) :=
  if depth = 0 then Except.ok (true, self)
  else
    match cached_answer self cursor depth with
    | some answer => Except.ok (answer, self)
    | none =>
      let coef := 2
      let stack_limit := max ((coef * depth) % 2 ^ 64) 10
      if ¬ (stack_limit ≥ depth) then Except.error Abort.assertion
      else if ¬ (stack_limit ≤ STACK_LIMIT) then Except.error Abort.assertion
      else
        let r := get_depth_ g stack_limit cursor [] self
        if ¬ (r.2.1 = []) then Except.error Abort.assertion
        else if ¬ (count r.2.2.depth_ cursor = true) then Except.error Abort.assertion
        else again r.2.2

/-- Method `DepthAtLeast::depth_at_least(cursor, size_t depth)`.  The call of itself in
its last line is made at most `fuel` times in a row. -/
def depth_at_least (g : Cursor GraphCursor) :
    Nat → DepthAtLeast GraphCursor → GraphCursor → Nat →
    Except Abort (Bool × DepthAtLeast GraphCursor)
  | 0, self, cursor, depth =>
    depth_at_least_body g (fun _ => Except.error Abort.fuel) self cursor depth
  | fuel + 1, self, cursor, depth =>
    depth_at_least_body g (fun self' => depth_at_least g fuel self' cursor depth)
      self cursor depth

/-- Method `DepthAtLeast::depth_at_least(cursor, double depth)`; the `double` is a
rational number, whose conversion to `size_t` drops the fraction. -/
def depth_at_least_double (g : Cursor GraphCursor) (fuel : Nat)
    (self : DepthAtLeast GraphCursor) (cursor : GraphCursor) (depth : Rat) :
    Except Abort (Bool × DepthAtLeast GraphCursor) :=
  if depth ≤ 0 then Except.ok (true, self)
  else depth_at_least g fuel self cursor (Int.toNat (Int.floor depth) % 2 ^ 64)

end DepthAtLeast

namespace DepthInt

variable {GraphCursor : Type} [DecidableEq GraphCursor]

/-- The statement `return depth_[cursor] = v` of `get_depth_`. -/
def store (self : DepthInt GraphCursor) (cursor : GraphCursor) (v : Nat)
    (stack : List GraphCursor) : Option (Nat × List GraphCursor × DepthInt GraphCursor) :=
  some (v, stack, { self with depth_ := set self.depth_ cursor v })

/-- The `for` loop of `DepthInt::get_depth_` over `nexts` (lines 107-109); `rec` is the
recursive call.  The loop variables are `max_child`, the in-progress set and the
estimator; `none` when a recursive call has run out of fuel. -/
def children (rec : GraphCursor → List GraphCursor → DepthInt GraphCursor →
      Option (Nat × List GraphCursor × DepthInt GraphCursor)) :
    List GraphCursor → Nat × List GraphCursor × DepthInt GraphCursor →
    Option (Nat × List GraphCursor × DepthInt GraphCursor)
  | [], acc => some acc
  | n :: rest, acc =>
    match rec n acc.2.1 acc.2.2 with
    | none => none
    | some result => children rec rest (max acc.1 result.1, result.2.1, result.2.2)

/-- The returns of `DepthInt::get_depth_` that come before the expansion (lines 86-101):
a cached depth, the empty cursor, a stop marker, a cursor that is in progress.  `none`
when none of them applies. -/
def early_return (g : Cursor GraphCursor) (cursor : GraphCursor) (stack : List GraphCursor)
    (self : DepthInt GraphCursor) : Option (Nat × List GraphCursor × DepthInt GraphCursor) :=
  match find self.depth_ cursor with
  | some cached => some (cached, stack, self)
  | none =>
    if g.is_empty cursor then store self cursor INF stack
    else if is_stop g cursor then store self cursor 0 stack
    else if cursor ∈ stack then store self cursor INF stack
    else none

/-- The expansion of a cursor in `DepthInt::get_depth_` (lines 103-112); `rec` is the
recursive call. -/
def expand (g : Cursor GraphCursor)
    (rec : GraphCursor → List GraphCursor → DepthInt GraphCursor →
      Option (Nat × List GraphCursor × DepthInt GraphCursor))
    (cursor : GraphCursor) (stack : List GraphCursor) (self : DepthInt GraphCursor) :
    Option (Nat × List GraphCursor × DepthInt GraphCursor) :=
  let nexts := g.next cursor
  let stack := set_insert stack cursor
  let self := { self with max_stack_size_ := max self.max_stack_size_ stack.length }
  match children rec nexts (0, stack, self) with
  | none => none
  | some r =>
    let stack := set_erase r.2.1 cursor
    store r.2.2 cursor (if r.1 = INF then INF else 1 + r.1) stack

/-- Method `DepthInt::get_depth_`: the returned depth, the in-progress set and the
estimator afterwards; the recursion is at most `fuel` calls deep, `none` beyond. -/
def get_depth_ (g : Cursor GraphCursor) :
    Nat → GraphCursor → List GraphCursor → DepthInt GraphCursor →
    Option (Nat × List GraphCursor × DepthInt GraphCursor)
  | 0, cursor, stack, self => early_return g cursor stack self
  | fuel + 1, cursor, stack, self =>
    match early_return g cursor stack self with
    | some r => some r
    | none => expand g (get_depth_ g fuel) cursor stack self

/-- Method `DepthInt::depth`: the returned depth and the estimator afterwards; `none`
when the recursion runs out of fuel or the in-progress set is not empty at the end. -/
def depth (g : Cursor GraphCursor) (fuel : Nat) (self : DepthInt GraphCursor)
    (cursor : GraphCursor) : Option (Nat × DepthInt GraphCursor) :=
  match get_depth_ g fuel cursor [] self with
  | none => none
  | some r => if r.2.1 = [] then some (r.1, r.2.2) else none

/-- Method `DepthInt::depth_at_least`. -/
def depth_at_least (g : Cursor GraphCursor) (fuel : Nat) (self : DepthInt GraphCursor)
    (cursor : GraphCursor) (d : Nat) : Option (Bool × DepthInt GraphCursor) :=
  match depth g fuel self cursor with
  | none => none
  | some r => some (decide (r.1 ≥ d), r.2)

end DepthInt

section DepthSpec

variable {GraphCursor : Type} [DecidableEq GraphCursor]

/-- Modelled from the spec: "whether there exists a walk of length ≥ d starting at
`cursor`", with the spec's reading of the two special cursors: the empty sentinel has
every depth ("depth infinity") and a stop marker has depth 0.  A walk of length `d + 1`
from a cursor that is neither is the cursor itself followed by a walk of length `d`
from one of its successors. -/
def walk_at_least (g : Cursor GraphCursor) : Nat → GraphCursor → Bool
  | 0, _ => true
  | d + 1, c =>
    g.is_empty c ||
      (!is_stop g c && (decide (d = 0) || (g.next c).any (fun n => walk_at_least g d n)))

/-- The estimator states that queries can reach: the freshly constructed estimator, and
the estimator after any query that returned.  A query through the `double` overload
either leaves the estimator alone or is a query through the `size_t` overload. -/
inductive DepthAtLeast.Reachable (g : Cursor GraphCursor) : DepthAtLeast GraphCursor → Prop where
  | fresh : DepthAtLeast.Reachable g { depth_ := [], max_stack_size_ := 0 }
  | query (self : DepthAtLeast GraphCursor) (fuel : Nat) (cursor : GraphCursor) (depth : Nat)
      (answer : Bool) (self' : DepthAtLeast GraphCursor)
      (h : DepthAtLeast.Reachable g self)
      (hq : DepthAtLeast.depth_at_least g fuel self cursor depth = Except.ok (answer, self')) :
      DepthAtLeast.Reachable g self'

/-- The states of the exact estimator that queries can reach. -/
inductive DepthInt.Reachable (g : Cursor GraphCursor) : DepthInt GraphCursor → Prop where
  | fresh : DepthInt.Reachable g { depth_ := [], max_stack_size_ := 0 }
  | query (self : DepthInt GraphCursor) (fuel : Nat) (cursor : GraphCursor)
      (value : Nat) (self' : DepthInt GraphCursor)
      (h : DepthInt.Reachable g self)
      (hq : DepthInt.depth g fuel self cursor = some (value, self')) :
      DepthInt.Reachable g self'

/-- A finite graph: a list of cursors that holds the successors of each of its
members. -/
def closed_under_next (g : Cursor GraphCursor) (nodes : List GraphCursor) : Prop :=
  ∀ c ∈ nodes, ∀ n ∈ g.next c, n ∈ nodes

instance closed_under_next_decidable (g : Cursor GraphCursor) (nodes : List GraphCursor) :
    Decidable (closed_under_next g nodes) := by
  unfold closed_under_next; infer_instance

end DepthSpec

/-! ## Auxiliary definitions used in the statements and proofs -/

section Auxiliary

variable {GraphCursor S : Type} [DecidableEq GraphCursor] [LinearOrder S] [Add S] [Zero S] [Top S]

/-- A cursor that is neither the empty sentinel nor a stop marker. -/
def live {GraphCursor : Type} (g : Cursor GraphCursor) (c : GraphCursor) : Prop :=
  g.is_empty c = false ∧ is_stop g c = false

/-- A path of at least one edge all of whose cursors, the last one apart, are live. -/
inductive LivePath {GraphCursor : Type} (g : Cursor GraphCursor) :
    GraphCursor → GraphCursor → Prop where
  | single (a b : GraphCursor) (ha : live g a) (hb : b ∈ g.next a) : LivePath g a b
  | cons (a b c : GraphCursor) (ha : live g a) (hb : b ∈ g.next a) (h : LivePath g b c) :
      LivePath g a c

/-- An estimation that is right for a cursor: its value is a lower bound on the lengths
of the walks from the cursor, and the exact length of the longest one when it is marked
exact and is not `INF`. -/
def Valid {GraphCursor : Type} [DecidableEq GraphCursor] (g : Cursor GraphCursor)
    (c : GraphCursor) (e : Estimation) : Prop :=
  walk_at_least g e.value c = true ∧
    (e.exact = true → e.value < INF → walk_at_least g (e.value + 1) c = false)

/-- Cache invariant of `DepthAtLeast`: every cached estimation is right. -/
def CacheInv {GraphCursor : Type} [DecidableEq GraphCursor] (g : Cursor GraphCursor)
    (depth_ : List (GraphCursor × Estimation)) : Prop :=
  ∀ c e, find depth_ c = some e → Valid g c e

/-- A depth that is right for a cursor: a walk of that length starts at the cursor, and
no longer one when the depth is not `INF`. -/
def ValidI {GraphCursor : Type} [DecidableEq GraphCursor] (g : Cursor GraphCursor)
    (c : GraphCursor) (v : Nat) : Prop :=
  walk_at_least g v c = true ∧ (v < INF → walk_at_least g (v + 1) c = false)

/-- Cache invariant of `DepthInt`: every cached depth is right. -/
def CacheInvI {GraphCursor : Type} [DecidableEq GraphCursor] (g : Cursor GraphCursor)
    (depth_ : List (GraphCursor × Nat)) : Prop :=
  ∀ c v, find depth_ c = some v → ValidI g c v

/-- Invariant of the in-progress set: each of its cursors has a live path to the cursor
being visited. -/
def StackInv {GraphCursor : Type} (g : Cursor GraphCursor) (stack : List GraphCursor)
    (cursor : GraphCursor) : Prop :=
  ∀ s ∈ stack, LivePath g s cursor

/-- The value `DeletionStateSet::update` leaves at the cursor of the state it is given. -/
def merged_value (D : DeletionStateSet GraphCursor S) (fee : S) (st : State GraphCursor S) :
    ScoredPLink GraphCursor S :=
  match find D st.cursor with
  | none => { plink := st.plink, score := st.score + fee }
  | some prev =>
    if st.score + fee < prev.score then { plink := st.plink, score := st.score + fee } else prev

/-- Whether `DeletionStateSet::update` creates or strictly improves the entry. -/
def merge_counts (D : DeletionStateSet GraphCursor S) (fee : S) (st : State GraphCursor S) :
    Bool :=
  (find D st.cursor).isNone || decide (st.score + fee < DeletionStateSet.score_at D st.cursor)

/-- The cursors `transfer` moves to from a cursor: the seed list from the empty cursor,
`next()` from any other. -/
def successors (g : Cursor GraphCursor) (initial : List GraphCursor) (c : GraphCursor) :
    List GraphCursor :=
  if g.is_empty c then initial else g.next c

/-- The arguments of the `to.update` calls that `transfer` makes, in order. -/
def transfer_updates (g : Cursor GraphCursor) (code : Char → Nat) (initial : List GraphCursor)
    (transfer_fee : S) (emission_fees : Nat → S) :
    List (State GraphCursor S) → List (GraphCursor × S × GraphCursor × PathLink GraphCursor S)
  | [] => []
  | state :: rest =>
    (successors g initial state.cursor).map
        (fun next => (next, state.score + transfer_fee + emission_fees (code (g.letter next)),
          state.cursor, state.plink))
      ++ transfer_updates g code initial transfer_fee emission_fees rest

/-- A sequence of `StateSet::update` calls. -/
def apply_updates (M : StateSet GraphCursor S)
    (us : List (GraphCursor × S × GraphCursor × PathLink GraphCursor S)) :
    StateSet GraphCursor S :=
  us.foldl (fun M u => (StateSet.update M u.1 u.2.1 u.2.2.1 u.2.2.2).1) M

/-- The score of pre-Match at a cursor, as the transitions into Match give it: the least
of the Delete score plus `t[m-1][DM]`, the Match score plus `t[m-1][MM]` and the Insert
score plus `t[m-1][IM]`, absent entries counting as `+infinity`. -/
def preM_score (fees : Fees S) (D : DeletionStateSet GraphCursor S)
    (M I : StateSet GraphCursor S) (m : Nat) (c : GraphCursor) : S :=
  min (min (DeletionStateSet.score_at D c + fees.t (m - 1) p7H_DM)
           (StateSet.score_at M c + fees.t (m - 1) p7H_MM))
      (StateSet.score_at I c + fees.t (m - 1) p7H_IM)

/-- The cost `w(n) = t[m][II] + ins[m][code(letter(n))]` of an insertion step onto the
cursor `n` in column `m`. -/
def step_cost (g : Cursor GraphCursor) (fees : Fees S) (m : Nat) (n : GraphCursor) : S :=
  fees.t m p7H_II + fees.ins m (fees.code (g.letter n))

/-- The score `cost` that the insertion loop gives the successor `n` of a cursor of score
`x` in column `m` (lines 378 and 466): `x + t[m][II] + ins[m][code(letter(n))]`, summed
from left to right. -/
def step_score (g : Cursor GraphCursor) (fees : Fees S) (m : Nat) (x : S) (n : GraphCursor) :
    S :=
  x + fees.t m p7H_II + fees.ins m (fees.code (g.letter n))

/-- A walk from a seed and its cost.  A seed is an entry of the incoming Insert frontier
`I0` whose cursor passes the depth filter and whose score is at most the threshold; its
cost is its score.  A walk is extended by a step to a successor that passes the depth
filter; the cost of the longer walk is the cost so far plus `t[m][II]` plus the
emission cost of the successor, summed in this order. -/
inductive SeedWalk (g : Cursor GraphCursor) (fees : Fees S) (m : Nat) (absolute_threshold : S)
    (filter : GraphCursor → Bool) (I0 : StateSet GraphCursor S) : GraphCursor → S → Prop where
  | seed (c : GraphCursor) (node : PathLink GraphCursor S) (hfind : find I0 c = some node)
      (hfilter : filter c = false) (hscore : node.score ≤ absolute_threshold) :
      SeedWalk g fees m absolute_threshold filter I0 c node.score
  | step (u v : GraphCursor) (x : S)
      (h : SeedWalk g fees m absolute_threshold filter I0 u x) (hv : v ∈ g.next u)
      (hfilter : filter v = false) :
      SeedWalk g fees m absolute_threshold filter I0 v (step_score g fees m x v)

/-- Invariant of the `while` loop of `i_loop_processing_non_negative`. -/
structure ILoopInv (g : Cursor GraphCursor) (fees : Fees S) (m : Nat) (absolute_threshold : S)
    (filter : GraphCursor → Bool) (I0 : StateSet GraphCursor S)
    (st : ILoopState GraphCursor S) : Prop where
  queue_sound : ∀ e ∈ st.q,
    SeedWalk g fees m absolute_threshold filter I0 e.current_cursor e.score
  processed_exact : ∀ p ∈ st.processed,
    SeedWalk g fees m absolute_threshold filter I0 p (StateSet.score_at st.I p) ∧
    ∀ x, SeedWalk g fees m absolute_threshold filter I0 p x → StateSet.score_at st.I p ≤ x
  unprocessed_same : ∀ c, c ∉ st.processed → StateSet.score_at st.I c = StateSet.score_at I0 c
  seeds_pending : ∀ c node, find I0 c = some node → filter c = false →
    node.score ≤ absolute_threshold →
    c ∈ st.processed ∨ ∃ e ∈ st.q, e.current_cursor = c ∧ e.score ≤ node.score
  edges_pending : ∀ p ∈ st.processed, ∀ v ∈ g.next p, filter v = false →
    v ∈ st.processed ∨
      ∃ e ∈ st.q, e.current_cursor = v ∧
        e.score ≤ step_score g fees m (StateSet.score_at st.I p) v

/-- A number of iterations that the `while` loop of `i_loop_processing_non_negative`
cannot exceed on the graph with the cursors `nodes`: one for each seed, one for each
edge, one for each cursor. -/
def i_loop_fuel (g : Cursor GraphCursor) (nodes : List GraphCursor)
    (I : StateSet GraphCursor S) : Nat :=
  I.length + (nodes.map (fun v => (g.next v).length + 1)).sum + 1

/-- The quantity that every iteration of the `while` loop decreases: the length of the
queue plus, for each cursor not yet processed, the number of its successors plus one. -/
def i_loop_measure (g : Cursor GraphCursor) (nodes : List GraphCursor)
    (st : ILoopState GraphCursor S) : Nat :=
  st.q.length +
    ((nodes.filter (fun v => !st.processed.contains v)).map
      (fun v => (g.next v).length + 1)).sum

/-- The scores submitted to the terminal node by the terminal merge. -/
def terminal_candidates (fees : Fees S) (D : DeletionStateSet GraphCursor S)
    (I M : StateSet GraphCursor S) : List S :=
  (DeletionStateSet.states D).map (fun st => st.score + fees.t fees.M p7H_DM)
    ++ (StateSet.states I).map (fun st => st.score + fees.t fees.M p7H_DM)
    ++ (StateSet.states M).map (fun st => st.score + fees.t fees.M p7H_MM)

end Auxiliary

/-! ## Example inputs -/

section Examples

/-- A small graph on the cursors `0..4`: `0` is the empty sentinel, `1 → 2`, `2 → 3`,
`2 → 1`, `3 → 4`, and `4` carries the stop letter. -/
def example_graph : Cursor Nat where
  empty := 0
  is_empty := fun c => decide (c = 0)
  letter := fun c => if c = 4 then '*' else 'a'
  next := fun c => if c = 1 then [2] else if c = 2 then [3, 1] else if c = 3 then [4] else []
  prev := fun c => if c = 2 then [1] else if c = 3 then [2] else if c = 1 then [2]
    else if c = 4 then [3] else []

/-- A fee table with integer costs: transition `k` costs `k + 1`, every match emission
costs 2 and every insert emission costs 1. -/
def example_fees : Fees (WithTop Int) where
  M := 1
  t := fun _ k => ((k + 1 : Nat) : WithTop Int)
  mat := fun _ _ => 2
  ins := fun _ _ => 1
  code := fun _ => 0
  is_i_loop_non_negative := fun _ => true

/-- A Delete frontier with two entries. -/
def example_D : DeletionStateSet Nat (WithTop Int) :=
  [(1, { plink := PathLink.master_source, score := 4 }),
   (2, { plink := PathLink.master_source, score := 1 })]

/-- A Match frontier with two entries. -/
def example_M : StateSet Nat (WithTop Int) :=
  [(2, PathLink.link 1 3 PathLink.master_source), (0, PathLink.master_source)]

/-- An Insert frontier with one entry. -/
def example_I : StateSet Nat (WithTop Int) :=
  [(3, PathLink.link 2 5 PathLink.master_source)]

/-- An Insert frontier with two entries, both with a recorded predecessor. -/
def example_I2 : StateSet Nat (WithTop Int) :=
  [(1, PathLink.link 0 7 PathLink.master_source),
   (3, PathLink.link 2 30 PathLink.master_source)]

end Examples

end impl

namespace impl

/-! ## Auxiliary definitions for the depth estimators -/

section Frame

variable {GraphCursor : Type} [DecidableEq GraphCursor]

/-- The cache writes that `get_depth_` makes: it stores `{INF, true}` at the empty
cursor and whatever it computes at the other cursors. -/
def CacheWrites (g : Cursor GraphCursor) (P : List (GraphCursor × Estimation) → Prop) : Prop :=
  ∀ (depth_ : List (GraphCursor × Estimation)) (cursor : GraphCursor) (e : Estimation),
    P depth_ → (g.is_empty cursor = true → e = { value := INF, exact := true }) →
    P (set depth_ cursor e)

/-- A cache in which the empty cursor, when it has an entry, has the entry
`{INF, true}`. -/
def EmptyInv (g : Cursor GraphCursor) (depth_ : List (GraphCursor × Estimation)) : Prop :=
  ∀ c e, g.is_empty c = true → find depth_ c = some e → e = { value := INF, exact := true }

/-- A cursor from which a cycle of live cursors or the empty cursor can be reached
through live cursors: the walks from such a cursor have no longest one. -/
def Unbounded (g : Cursor GraphCursor) (c : GraphCursor) : Prop :=
  ∃ x, LivePath g c x ∧ (g.is_empty x = true ∨ LivePath g x x)

/-- A cache of the exact estimator whose depths are in the range of `size_t`. -/
def BoundI (depth_ : List (GraphCursor × Nat)) : Prop :=
  ∀ c v, find depth_ c = some v → v ≤ INF

/-- A cache whose entry for the cursor `x` settles every visit of `x` with a stack limit
of at most `L`: the entry is exact or its value exceeds `L`. -/
def Covered (depth_ : List (GraphCursor × Estimation)) (x : GraphCursor) (L : Nat) : Prop :=
  ∃ e, find depth_ x = some e ∧ (e.exact = true ∨ L < e.value)

end Frame

/-! ## The expansions that a query makes -/

namespace DepthAtLeast

variable {GraphCursor : Type} [DecidableEq GraphCursor]

/-- The expansions made by the `for` loop of `DepthAtLeast::get_depth_` over `nexts`:
those of the recursive call for the first successor, then those of the loop over the
rest, which runs on what the first call has left; `rec` is the recursive call and `log`
gives its expansions. -/
def children_log (rec : GraphCursor → List GraphCursor → DepthAtLeast GraphCursor →
      Estimation × List GraphCursor × DepthAtLeast GraphCursor)
    (log : GraphCursor → List GraphCursor → DepthAtLeast GraphCursor →
      List (GraphCursor × Nat)) :
    List GraphCursor → Nat × Bool × List GraphCursor × DepthAtLeast GraphCursor →
    List (GraphCursor × Nat)
  | [], _ => []
  | n :: rest, acc =>
    let result := rec n acc.2.2.1 acc.2.2.2
    log n acc.2.2.1 acc.2.2.2 ++
      children_log rec log rest
        (max acc.1 result.1.value, acc.2.1 && result.1.exact, result.2.1, result.2.2)

/-- The expansions that a call of `DepthAtLeast::get_depth_` makes, in the order in
which they begin: an entry `(cursor, stack_limit)` for every execution of
`auto nexts = cursor.next()` (line 199), by the call itself or by a recursive call. -/
def expansions (g : Cursor GraphCursor) :
    Nat → GraphCursor → List GraphCursor → DepthAtLeast GraphCursor →
    List (GraphCursor × Nat)
  | 0, _, _, _ => []
  | limit + 1, cursor, stack, self =>
    match early_return g (limit + 1) cursor stack self with
    | some _ => []
    | none =>
      (cursor, limit + 1) ::
        children_log (get_depth_ g limit) (expansions g limit) (g.next cursor)
          (0, true, set_insert stack cursor,
            { self with
              max_stack_size_ := max self.max_stack_size_ (set_insert stack cursor).length })

/-- The expansions that the call of `get_depth_` in `depth_at_least(cursor, size_t depth)`
makes (line 163); none when the method returns or fails an assertion before that
call. -/
def query_expansions (g : Cursor GraphCursor) (self : DepthAtLeast GraphCursor)
    (cursor : GraphCursor) (depth : Nat) : List (GraphCursor × Nat) :=
  if depth = 0 then []
  else
    match cached_answer self cursor depth with
    | some _ => []
    | none =>
      let stack_limit := max ((2 * depth) % 2 ^ 64) 10
      if ¬ (stack_limit ≥ depth) then []
      else if ¬ (stack_limit ≤ STACK_LIMIT) then []
      else expansions g stack_limit cursor [] self

end DepthAtLeast

namespace DepthInt

variable {GraphCursor : Type} [DecidableEq GraphCursor]

/-- The expansions made by the `for` loop of `DepthInt::get_depth_` over `nexts`; `rec`
is the recursive call and `log` gives its expansions.  The loop stops where a recursive
call has run out of fuel. -/
def children_log (rec : GraphCursor → List GraphCursor → DepthInt GraphCursor →
      Option (Nat × List GraphCursor × DepthInt GraphCursor))
    (log : GraphCursor → List GraphCursor → DepthInt GraphCursor → List GraphCursor) :
    List GraphCursor → Nat × List GraphCursor × DepthInt GraphCursor → List GraphCursor
  | [], _ => []
  | n :: rest, acc =>
    log n acc.2.1 acc.2.2 ++
      match rec n acc.2.1 acc.2.2 with
      | none => []
      | some result => children_log rec log rest (max acc.1 result.1, result.2.1, result.2.2)

/-- The expansions that a call of `DepthInt::get_depth_` makes, in the order in which
they begin: the cursors for which `auto nexts = cursor.next()` (line 103) is executed,
by the call itself or by a recursive call. -/
def expansions (g : Cursor GraphCursor) :
    Nat → GraphCursor → List GraphCursor → DepthInt GraphCursor → List GraphCursor
  | 0, _, _, _ => []
  | fuel + 1, cursor, stack, self =>
    match early_return g cursor stack self with
    | some _ => []
    | none =>
      cursor ::
        children_log (get_depth_ g fuel) (expansions g fuel) (g.next cursor)
          (0, set_insert stack cursor,
            { self with
              max_stack_size_ := max self.max_stack_size_ (set_insert stack cursor).length })

end DepthInt

/-! ## The fixpoint solver of the insertion loop and the main loop -/

section Solver

variable {GraphCursor S : Type} [DecidableEq GraphCursor] [LinearOrder S] [Add S] [Zero S] [Top S]

/-- Range `StateMap::states(container)` of a `StateSet`: the states of the entries with
the keys of `container`, in its order; `none` when a key has no entry (the source
dereferences the result of `find` without a check). -/
def StateSet.states_of (M : StateSet GraphCursor S) :
    List GraphCursor → Option (List (State GraphCursor S))
  | [] => some []
  | k :: rest =>
    match find M k with
    | none => none
    | some node =>
      match StateSet.states_of M rest with
      | none => none
      | some l => some (StateSet.kv2state (k, node) :: l)

/-- The body of the inner loop of `transfer_upd` (lines 377-381), for the state `state`
of the outer loop and the successor `next`: the frontier `to` and the set `updated`
afterwards. -/
def transfer_upd_step (g : Cursor GraphCursor) (code : Char → Nat) (transfer_fee : S)
    (emission_fees : Nat → S) (state : State GraphCursor S)
    (acc : StateSet GraphCursor S × List GraphCursor) (next : GraphCursor) :
    StateSet GraphCursor S × List GraphCursor :=
  let cost := state.score + transfer_fee + emission_fees (code (g.letter next))
  let r := StateSet.update acc.1 next cost state.cursor state.plink
  (r.1, if r.2 then set_insert acc.2 next else acc.2)

/-- The body of the outer loop of `transfer_upd` (lines 373-382): the loop over the
successors of the cursor of `state`. -/
def transfer_upd_state (g : Cursor GraphCursor) (code : Char → Nat) (transfer_fee : S)
    (emission_fees : Nat → S) (acc : StateSet GraphCursor S × List GraphCursor)
    (state : State GraphCursor S) : StateSet GraphCursor S × List GraphCursor :=
  (g.next state.cursor).foldl (transfer_upd_step g code transfer_fee emission_fees state) acc

/-- Lambda `transfer_upd` of `find_best_path`: the frontier `to` afterwards (`dst`) and
the returned set of the cursors for which `to.update` has returned true; `src` is the
range `from.states(keys)`. -/
def transfer_upd (g : Cursor GraphCursor) (code : Char → Nat)
    (dst : StateSet GraphCursor S) (src : List (State GraphCursor S)) (transfer_fee : S)
    (emission_fees : Nat → S) : StateSet GraphCursor S × List GraphCursor :=
  src.foldl (transfer_upd_state g code transfer_fee emission_fees) (dst, [])

/-- The loop `for (const auto &cur : updated) I[cur] = Inew[cur]->clone()` (lines
399-401); `none` when `Inew` has no entry for a cursor (the source would dereference a
null reference). -/
def copy_updated (Inew : StateSet GraphCursor S) :
    List GraphCursor → StateSet GraphCursor S → Option (StateSet GraphCursor S)
  | [], I => some I
  | cur :: rest, I =>
    match find Inew cur with
    | none => none
    | some node => copy_updated Inew rest (set I cur node.clone)

/-- The variables `I`, `Inew` and `updated` of `i_loop_processing_negative`. -/
structure NegState (GraphCursor S : Type) where
  I : StateSet GraphCursor S
  Inew : StateSet GraphCursor S
  updated : List GraphCursor

/-- One iteration of the `for` loop of `i_loop_processing_negative` (lines 395-402). -/
def i_loop_negative_round (g : Cursor GraphCursor) (fees : Fees S) (m : Nat)
    (st : NegState GraphCursor S) : Option (NegState GraphCursor S) :=
  match StateSet.states_of st.I st.updated with
  | none => none
  | some src =>
    let r := transfer_upd g fees.code st.Inew src (fees.t m p7H_II) (fees.ins m)
    match copy_updated r.1 r.2 st.I with
    | none => none
    | some I => some { I := I, Inew := r.1, updated := r.2 }

/-- A number of iterations of the `for` loop of `i_loop_processing_negative`. -/
def i_loop_negative_rounds (g : Cursor GraphCursor) (fees : Fees S) (m : Nat) :
    Nat → NegState GraphCursor S → Option (NegState GraphCursor S)
  | 0, st => some st
  | k + 1, st =>
    match i_loop_negative_round g fees m st with
    | none => none
    | some st' => i_loop_negative_rounds g fees m k st'

/-- Constant `max_insertions` of `i_loop_processing_negative`. -/
def max_insertions : Nat := 30

/-- Lambda `i_loop_processing_negative` of `find_best_path`: the frontier `I`
afterwards, which is `Inew`. -/
def i_loop_processing_negative (g : Cursor GraphCursor) (fees : Fees S)
    (I : StateSet GraphCursor S) (m : Nat) : Option (StateSet GraphCursor S) :=
  let updated := (keys I).foldl set_insert []
  let Inew := StateSet.clone I
  match i_loop_negative_rounds g fees m max_insertions
      { I := I, Inew := Inew, updated := updated } with
  | none => none
  | some st => some st.Inew

/-- Lambda `i_loop_processing` of `find_best_path`: the frontier `I` afterwards. -/
def i_loop_processing (g : Cursor GraphCursor) (fees : Fees S) (absolute_threshold : S)
    (fuel : Nat) (I : StateSet GraphCursor S) (m : Nat) (filter : GraphCursor → Bool) :
    Option (StateSet GraphCursor S) :=
  if fees.is_i_loop_non_negative m then
    match i_loop_processing_non_negative g fees absolute_threshold fuel I m filter with
    | none => none
    | some st => some st.I
  else i_loop_processing_negative g fees I m

/-- The answer of `depth.depth_at_least(cursor, static_cast<double>(n) / 3 - 10)`.  The
estimator answers a query in the same way in every state that earlier queries can have
left it in, so the query is made on a freshly constructed estimator; a query that fails
an assertion has no answer. -/
def depth_query (g : Cursor GraphCursor) (n : Nat) (cursor : GraphCursor) : Option Bool :=
  match DepthAtLeast.depth_at_least_double g 1 { depth_ := [], max_stack_size_ := 0 } cursor
      ((n : Rat) / 3 - 10) with
  | Except.ok r => some r.1
  | Except.error _ => none

/-- Lambda `depth_filter_cursor` of `find_best_path`, for the captured value of
`positions_left`, with the answer that a freshly constructed estimator gives: whether
the cursor is to be evicted.  A query without an answer evicts nothing. -/
def depth_filter_cursor (g : Cursor GraphCursor) (positions_left : Nat)
    (cursor : GraphCursor) : Bool :=
  match depth_query g positions_left cursor with
  | some answer => !answer
  | none => false

/-- The frontiers `I`, `M` and `D` of `find_best_path`. -/
structure Frontiers (GraphCursor S : Type) where
  I : StateSet GraphCursor S
  M : StateSet GraphCursor S
  D : DeletionStateSet GraphCursor S

/-- Lambda `depth_filter_cursor` of `find_best_path` for the captured value of
`positions_left`, the estimator `depth` being given by the answers of its queries:
`depth_at_least cursor d` is what `depth.depth_at_least(cursor, d)` returns. -/
def depth_filter_cursor_with (depth_at_least : GraphCursor → Rat → Bool)
    (positions_left : Nat) (cursor : GraphCursor) : Bool :=
  !depth_at_least cursor ((positions_left : Rat) / 3 - 10)

/-- The body of the loop over the columns `m` of `find_best_path` (lines 521-569), the
logging apart; `filter positions_left` is the lambda `depth_filter_cursor` for the
captured value of `positions_left`, and `fuel` bounds the `while` loop of the insertion
loop. -/
def column_step_with (filter : Nat → GraphCursor → Bool) (g : Cursor GraphCursor)
    (fees : Fees S) (absolute_threshold : S) (fuel : Nat) (initial : List GraphCursor)
    (m : Nat) (fr : Frontiers GraphCursor S) : Option (Frontiers GraphCursor S) :=
  let positions_left := fees.M - m
  let dm := dm_new g fees initial fr.D fr.M fr.I m
  let D := dm.1
  let M := dm.2
  let I : StateSet GraphCursor S := []
  let I := transfer g fees.code initial I (StateSet.states M) (fees.t m p7H_MI) (fees.ins m)
  match i_loop_processing g fees absolute_threshold fuel I m (filter positions_left) with
  | none => none
  | some I =>
    let n_of_states := D.length + I.length + M.length
    let top := n_of_states
    let top := if m > 25 then 1000000 else top
    let top := if m > 100 then 50000 else top
    let top := if m > 500 then 10000 else top
    let I := (score_filter StateSet.score_fnc top absolute_threshold I).1
    let M := (score_filter StateSet.score_fnc top absolute_threshold M).1
    let D := (score_filter DeletionStateSet.score_fnc top absolute_threshold D).1
    let I := (filter_key (filter positions_left) I).1
    let M := (filter_key (filter positions_left) M).1
    let D := (filter_key (filter positions_left) D).1
    some { I := I, M := M, D := D }

/-- The body of the loop over the columns with the lambda `depth_filter_cursor` that
queries a freshly constructed estimator. -/
def column_step (g : Cursor GraphCursor) (fees : Fees S) (absolute_threshold : S)
    (fuel : Nat) (initial : List GraphCursor) (m : Nat) (fr : Frontiers GraphCursor S) :
    Option (Frontiers GraphCursor S) :=
  column_step_with (depth_filter_cursor g) g fees absolute_threshold fuel initial m fr

/-- The loop `for (size_t m = 1; m <= fees.M; ++m)` of `find_best_path`: `k` iterations
from column `m` on. -/
def main_loop (filter : Nat → GraphCursor → Bool) (g : Cursor GraphCursor) (fees : Fees S)
    (absolute_threshold : S) (fuel : Nat) (initial : List GraphCursor) :
    Nat → Nat → Frontiers GraphCursor S → Option (Frontiers GraphCursor S)
  | 0, _, fr => some fr
  | k + 1, m, fr =>
    match column_step_with filter g fees absolute_threshold fuel initial m fr with
    | none => none
    | some fr' => main_loop filter g fees absolute_threshold fuel initial k (m + 1) fr'

/-- Function `find_best_path` up to the end of the loop over the columns (lines
497-570): the frontiers `I`, `M` and `D` of the last column.

The estimator `depth` enters through the answers of its queries: `depth_at_least cursor d`
is what `depth.depth_at_least(cursor, d)` returns.  A query that returns has the same
answer in every state that earlier queries can leave the estimator in (theorem
`depth_at_least_double_determined`), so the answers of a run that returns are the values
of one such function; a run in which a query fails an assertion returns nothing.  The constant `absolute_threshold = 250.0` is a parameter,
and `fuel` bounds the `while` loop of each insertion loop.  `none` stands for a run out
of fuel or a dereference of a missing entry. -/
def find_best_path_columns (g : Cursor GraphCursor) (fees : Fees S) (absolute_threshold : S)
    (fuel : Nat) (depth_at_least : GraphCursor → Rat → Bool)
    (initial_original : List GraphCursor) : Option (Frontiers GraphCursor S) :=
  let initial := initial_original.filter
    (fun cursor => depth_at_least cursor ((fees.M : Rat) / 3 - 10))
  let I : StateSet GraphCursor S := []
  let M : StateSet GraphCursor S := []
  let D : DeletionStateSet GraphCursor S := []
  let base : PathLink GraphCursor S := PathLink.master_source
  let M := set M g.empty base
  let positions_left := fees.M
  let I := transfer g fees.code initial I (StateSet.states M) (fees.t 0 p7H_MI) (fees.ins 0)
  match i_loop_processing g fees absolute_threshold fuel I 0
      (depth_filter_cursor_with depth_at_least positions_left) with
  | none => none
  | some I =>
    main_loop (depth_filter_cursor_with depth_at_least) g fees absolute_threshold fuel initial
      fees.M 1 { I := I, M := M, D := D }

/-- Function `find_best_path`: the node `result.pathlink()` of the returned `PathSet`
before `clip_tails_non_aggressive` (`pathtree.hpp` is not among the sources), which the
terminal merge (lines 574-585) builds from the frontiers of the last column. -/
def find_best_path (g : Cursor GraphCursor) (fees : Fees S) (absolute_threshold : S)
    (fuel : Nat) (depth_at_least : GraphCursor → Rat → Bool)
    (initial_original : List GraphCursor) : Option (PathLink GraphCursor S) :=
  match find_best_path_columns g fees absolute_threshold fuel depth_at_least
      initial_original with
  | none => none
  | some fr => some (terminal_merge g fees PathLink.master_source fr.D fr.I fr.M)

end Solver

/-- Whether a walk of `n` edges starts at the cursor. -/
def has_walk {GraphCursor : Type} (g : Cursor GraphCursor) : Nat → GraphCursor → Bool
  | 0, _ => true
  | n + 1, c => (g.next c).any (fun v => has_walk g n v)

/-- A walk of `n` edges from one cursor to another. -/
inductive PathLen {GraphCursor : Type} (g : Cursor GraphCursor) :
    Nat → GraphCursor → GraphCursor → Prop where
  | start (c : GraphCursor) : PathLen g 0 c c
  | cons (n : Nat) (a b c : GraphCursor) (hb : b ∈ g.next a) (h : PathLen g n b c) :
      PathLen g (n + 1) a c

/-- A walk from an entry of the incoming Insert frontier `I0` and its cost: the score of
the entry, to which every step adds `t[m][II]` and then the emission cost of the cursor
stepped onto, whatever the scores are and whatever the depth filter says. -/
inductive IWalk {GraphCursor S : Type} [DecidableEq GraphCursor]
    [LinearOrder S] [Add S] [Zero S] [Top S] (g : Cursor GraphCursor) (fees : Fees S) (m : Nat)
    (I0 : StateSet GraphCursor S) : GraphCursor → S → Prop where
  | seed (c : GraphCursor) (node : PathLink GraphCursor S) (hfind : find I0 c = some node) :
      IWalk g fees m I0 c node.score
  | step (u v : GraphCursor) (x : S) (h : IWalk g fees m I0 u x) (hv : v ∈ g.next u) :
      IWalk g fees m I0 v (step_score g fees m x v)

/-- Invariant of the `for` loop of `i_loop_processing_negative`, `F` being the score
that `Inew` gives a cursor: `I` has an entry for every cursor of `updated` and gives
every cursor the score `F`; `F` is the cost of a walk or `+infinity`, and is at most
the incoming score; and every edge that leaves a cursor outside `updated` is relaxed. -/
structure NegInv {GraphCursor S : Type} [DecidableEq GraphCursor]
    [LinearOrder S] [Add S] [Zero S] [Top S] (g : Cursor GraphCursor) (fees : Fees S) (m : Nat)
    (I0 : StateSet GraphCursor S) (st : NegState GraphCursor S) : Prop where
  updated_keys : ∀ u ∈ st.updated, u ∈ keys st.I
  same_score : ∀ c, StateSet.score_at st.I c = StateSet.score_at st.Inew c
  sound : ∀ c, StateSet.score_at st.Inew c = ⊤ ∨
    IWalk g fees m I0 c (StateSet.score_at st.Inew c)
  below : ∀ c, StateSet.score_at st.Inew c ≤ StateSet.score_at I0 c
  relaxed : ∀ u, u ∉ st.updated → ∀ v ∈ g.next u,
    StateSet.score_at st.Inew v ≤ step_score g fees m (StateSet.score_at st.Inew u) v

/-- A fee table in which every transition costs 200 and every emission is free. -/
def steep_fees : Fees (WithTop Int) where
  M := 1
  t := fun _ _ => 200
  mat := fun _ _ => 0
  ins := fun _ _ => 0
  code := fun _ => 0
  is_i_loop_non_negative := fun _ => true

/-- An Insert frontier with one entry, of score 240. -/
def example_I3 : StateSet Nat (WithTop Int) :=
  [(1, PathLink.link 0 240 PathLink.master_source)]

/-- A graph in which cursor 3 is reached along `1, 3` and along `1, 2, 3`, followed by
the chain `3, 4, ..., 20`; cursor 0 is the empty sentinel. -/
def chain_graph : Cursor Nat where
  empty := 0
  is_empty := fun c => decide (c = 0)
  letter := fun _ => 'a'
  next := fun c => if c = 1 then [2, 3] else if c = 2 then [3] else if c < 20 then [c + 1] else []
  prev := fun c => if c = 2 then [1] else if c = 3 then [2, 1] else if c ≤ 20 then [c - 1] else []

/-- An estimator whose cache holds an inexact estimation that decides no query above
3. -/
def example_cache : DepthAtLeast Nat :=
  { depth_ := [(1, { value := 3, exact := false })], max_stack_size_ := 0 }

end impl

namespace impl

/-! ## Auxiliary definitions for the insertion loop and the estimators -/

section LoopLogs

variable {GraphCursor S : Type} [DecidableEq GraphCursor] [LinearOrder S] [Add S] [Zero S] [Top S]

/-- The elements that the `while` loop of `i_loop_processing_non_negative` takes from
the queue (`q.top(); q.pop()`, lines 443-444) during its first `fuel` iterations, in
order. -/
def i_loop_popped (g : Cursor GraphCursor) (code : Char → Nat) (transfer_fee : S)
    (emission_fees : Nat → S) (absolute_threshold : S) (filter : GraphCursor → Bool) :
    Nat → ILoopState GraphCursor S → List (QueueElement GraphCursor S)
  | 0, _ => []
  | fuel + 1, st =>
    match pop_min st.q with
    | none => []
    | some (elt, q) =>
      let taken_values := st.taken_values + 1
      elt ::
        (if elt.score > absolute_threshold then []
        else if st.processed.contains elt.current_cursor then
          i_loop_popped g code transfer_fee emission_fees absolute_threshold filter fuel
            { st with q := q, taken_values := taken_values }
        else
          let processed := elt.current_cursor :: st.processed
          let I := (StateSet.update st.I elt.current_cursor elt.score elt.source_cursor
                      elt.source_state).1
          match find I elt.current_cursor with
          | none => []
          | some id =>
            let q := i_loop_push g code transfer_fee emission_fees filter processed elt id
                       (g.next elt.current_cursor) q
            i_loop_popped g code transfer_fee emission_fees absolute_threshold filter fuel
              { I := I, q := q, processed := processed, taken_values := taken_values })

/-- The elements for which the `while` loop of `i_loop_processing_non_negative` calls
`I.update` (line 459) during its first `fuel` iterations, in order. -/
def i_loop_committed (g : Cursor GraphCursor) (code : Char → Nat) (transfer_fee : S)
    (emission_fees : Nat → S) (absolute_threshold : S) (filter : GraphCursor → Bool) :
    Nat → ILoopState GraphCursor S → List (QueueElement GraphCursor S)
  | 0, _ => []
  | fuel + 1, st =>
    match pop_min st.q with
    | none => []
    | some (elt, q) =>
      let taken_values := st.taken_values + 1
      if elt.score > absolute_threshold then []
      else if st.processed.contains elt.current_cursor then
        i_loop_committed g code transfer_fee emission_fees absolute_threshold filter fuel
          { st with q := q, taken_values := taken_values }
      else
        let processed := elt.current_cursor :: st.processed
        let I := (StateSet.update st.I elt.current_cursor elt.score elt.source_cursor
                    elt.source_state).1
        match find I elt.current_cursor with
        | none => [elt]
        | some id =>
          let q := i_loop_push g code transfer_fee emission_fees filter processed elt id
                     (g.next elt.current_cursor) q
          elt ::
            i_loop_committed g code transfer_fee emission_fees absolute_threshold filter fuel
              { I := I, q := q, processed := processed, taken_values := taken_values }

/-- The number of `q.push` calls that the `while` loop of
`i_loop_processing_non_negative` makes (line 468) during its first `fuel` iterations. -/
def i_loop_pushes (g : Cursor GraphCursor) (code : Char → Nat) (transfer_fee : S)
    (emission_fees : Nat → S) (absolute_threshold : S) (filter : GraphCursor → Bool) :
    Nat → ILoopState GraphCursor S → Nat
  | 0, _ => 0
  | fuel + 1, st =>
    match pop_min st.q with
    | none => 0
    | some (elt, q) =>
      let taken_values := st.taken_values + 1
      if elt.score > absolute_threshold then 0
      else if st.processed.contains elt.current_cursor then
        i_loop_pushes g code transfer_fee emission_fees absolute_threshold filter fuel
          { st with q := q, taken_values := taken_values }
      else
        let processed := elt.current_cursor :: st.processed
        let I := (StateSet.update st.I elt.current_cursor elt.score elt.source_cursor
                    elt.source_state).1
        match find I elt.current_cursor with
        | none => 0
        | some id =>
          let q' := i_loop_push g code transfer_fee emission_fees filter processed elt id
                      (g.next elt.current_cursor) q
          (q'.length - q.length) +
            i_loop_pushes g code transfer_fee emission_fees absolute_threshold filter fuel
              { I := I, q := q', processed := processed, taken_values := taken_values }

/-- The state in which the `while` loop of `i_loop_processing_non_negative` starts:
the queue that the seeding loop has filled, nothing processed; `none` when the seeding
loop dereferences a missing best ancestor. -/
def i_loop_start (absolute_threshold : S) (filter : GraphCursor → Bool)
    (I : StateSet GraphCursor S) : Option (ILoopState GraphCursor S) :=
  match i_loop_seed absolute_threshold filter I [] with
  | none => none
  | some q => some { I := I, q := q, processed := [], taken_values := 0 }

end LoopLogs

/-- The estimator states that queries can reach, with the depths of the queries made so
far, the latest first. -/
inductive DepthAtLeast.Queried {GraphCursor : Type} [DecidableEq GraphCursor]
    (g : Cursor GraphCursor) : List Nat → DepthAtLeast GraphCursor → Prop where
  | fresh : DepthAtLeast.Queried g [] { depth_ := [], max_stack_size_ := 0 }
  | query (ds : List Nat) (self : DepthAtLeast GraphCursor) (fuel : Nat)
      (cursor : GraphCursor) (depth : Nat) (answer : Bool) (self' : DepthAtLeast GraphCursor)
      (h : DepthAtLeast.Queried g ds self)
      (hq : DepthAtLeast.depth_at_least g fuel self cursor depth = Except.ok (answer, self')) :
      DepthAtLeast.Queried g (depth :: ds) self'

/-- The estimator that the query `depth_at_least(3, 1)` leaves on the example graph. -/
def example_estimator : DepthAtLeast Nat :=
  { depth_ := [(4, { value := 0, exact := true }), (3, { value := 1, exact := true })],
    max_stack_size_ := 1 }

/-- The state in which the `while` loop of the insertion loop starts on the Insert
frontier `example_I2`: one queue element for each of its two entries. -/
def example_loop_state : ILoopState Nat (WithTop Int) :=
  { I := example_I2,
    q := [{ current_cursor := 1, score := 7, source_cursor := 0,
            source_state := PathLink.master_source },
          { current_cursor := 3, score := 30, source_cursor := 2,
            source_state := PathLink.master_source }],
    processed := [], taken_values := 0 }

/-- The graph with the cursor `1` of letter `x`, whose only successor is the empty
sentinel `0`; the graph has no other edge. -/
def one_edge_graph : Cursor Nat where
  empty := 0
  is_empty := fun c => decide (c = 0)
  letter := fun c => if c = 1 then 'x' else '-'
  next := fun c => if c = 1 then [0] else []
  prev := fun c => if c = 0 then [1] else []

/-- A fee table of a profile of length 1 in which the transitions into and out of the
Delete state cost 1, every other transition costs 5 and every emission is free. -/
def cheap_delete_fees : Fees (WithTop Int) where
  M := 1
  t := fun _ k => if k = p7H_MD ∨ k = p7H_DM then 1 else 5
  mat := fun _ _ => 0
  ins := fun _ _ => 0
  code := fun _ => 0
  is_i_loop_non_negative := fun _ => true

/-- The example frontiers of a column. -/
def example_frontiers : Frontiers Nat (WithTop Int) :=
  { I := example_I, M := example_M, D := example_D }

/-- The example graph with the successors of every cursor enumerated in the opposite
order. -/
def example_graph_rev : Cursor Nat :=
  { example_graph with next := fun c => (example_graph.next c).reverse }

end impl

namespace impl

/-! ## Merging of k-mer clusters (`hamcluster.cpp`) -/

section HamCluster

/-- The operations of class `ConcurrentDSU` (`adt/concurrent_dsu.hpp`, which is not
among the sources) that `hamcluster.cpp` calls, on a type `U` of states of the
structure.  Nothing is assumed about them.  An index that the caller passes as an `int`
is an integer, one that it passes as a `size_t` is a natural number. -/
structure ConcurrentDSU (U : Type) where
  set_size : U → Int → Nat
  find_set : U → Nat → Nat
  unite : U → Nat → Nat → U

/-- Function `canMerge` (lines 62-77).  The sizes are `size_t` values and their sum is
taken modulo `2 ^ 64`; `hardthr * 3 / 4` is `1875`. -/
def canMerge {U : Type} (ops : ConcurrentDSU U) (uf : U) (x y : Int) : Bool :=
  let szx := ops.set_size uf x % 2 ^ 64
  let szy := ops.set_size uf y % 2 ^ 64
  let hardthr := 2500
  if (szx + szy) % 2 ^ 64 > hardthr then false
  else if (decide (szx > hardthr * 3 / 4) && decide (szy > 50)) ||
      (decide (szy > hardthr * 3 / 4) && decide (szx > 50)) then false
  else true

/-- The conversion of a `size_t` index to the `int` parameter of `canMerge`: the value
modulo `2 ^ 32`, read in two's complement. -/
def int_of_size_t (x : Nat) : Int :=
  if x % 2 ^ 32 < 2 ^ 31 then ((x % 2 ^ 32 : Nat) : Int) else ((x % 2 ^ 32 : Nat) : Int) - 2 ^ 32

/-- The test of line 96-98 of `processBlockQuadratic`; `close x y` stands for
`hamdistKMer(kmerx, kmery, tau) <= tau`, a function of the two indices. -/
def merge_test {U : Type} (ops : ConcurrentDSU U) (close : Nat → Nat → Bool) (uf : U)
    (x y : Nat) : Bool :=
  decide (ops.find_set uf x ≠ ops.find_set uf y) &&
    canMerge ops uf (int_of_size_t x) (int_of_size_t y) && close x y

/-- The inner loop of `processBlockQuadratic` (lines 93-101) for the index `x`, over the
indices that follow it in the block (a block of fewer than `2 ^ 32` indices, so that
the counter `j` does not wrap). -/
def processBlockQuadratic_inner {U : Type} (ops : ConcurrentDSU U) (close : Nat → Nat → Bool)
    (x : Nat) : List Nat → U → U
  | [], uf => uf
  | y :: rest, uf =>
    processBlockQuadratic_inner ops close x rest
      (if merge_test ops close uf x y then ops.unite uf x y else uf)

/-- Function `processBlockQuadratic` (lines 85-103): the structure afterwards. -/
def processBlockQuadratic {U : Type} (ops : ConcurrentDSU U) (close : Nat → Nat → Bool) :
    List Nat → U → U
  | [], uf => uf
  | x :: rest, uf =>
    processBlockQuadratic ops close rest (processBlockQuadratic_inner ops close x rest uf)

/-- The `uf.unite(x, y)` calls of the inner loop, each with the state of the structure
in which it is made, in order. -/
def processBlockQuadratic_inner_log {U : Type} (ops : ConcurrentDSU U)
    (close : Nat → Nat → Bool) (x : Nat) : List Nat → U → List (U × Nat × Nat)
  | [], _ => []
  | y :: rest, uf =>
    if merge_test ops close uf x y then
      (uf, x, y) :: processBlockQuadratic_inner_log ops close x rest (ops.unite uf x y)
    else processBlockQuadratic_inner_log ops close x rest uf

/-- The `uf.unite(x, y)` calls of `processBlockQuadratic`, each with the state of the
structure in which it is made, in order. -/
def processBlockQuadratic_log {U : Type} (ops : ConcurrentDSU U) (close : Nat → Nat → Bool) :
    List Nat → U → List (U × Nat × Nat)
  | [], _ => []
  | x :: rest, uf =>
    processBlockQuadratic_inner_log ops close x rest uf
      ++ processBlockQuadratic_log ops close rest
          (processBlockQuadratic_inner ops close x rest uf)

/-- A disjoint-set structure given by the list of its sets, for the examples: the size
of the set of an index, the least member as the representative, and the union of two
sets. -/
def example_dsu : ConcurrentDSU (List (List Nat)) where
  set_size := fun uf x =>
    match uf.find? (fun s => s.contains x.toNat) with
    | some s => s.length
    | none => 0
  find_set := fun uf x =>
    match uf.find? (fun s => s.contains x) with
    | some s => s.foldl min x
    | none => x
  unite := fun uf x y =>
    (uf.filter (fun s => s.contains x || s.contains y)).flatten
      :: uf.filter (fun s => !(s.contains x || s.contains y))

end HamCluster

/-! ## Function `depth_subset` (`depth_filter.hpp`) -/

section DepthSubset

/-- Struct `CursorWithDepth` of `depth_subset`. -/
structure CursorWithDepth (GraphCursor : Type) where
  cursor : GraphCursor
  depth : Nat

variable {GraphCursor : Type} [DecidableEq GraphCursor]

/-- Calls `q.top()` and `q.pop()` of the `std::priority_queue<CursorWithDepth>`, whose
order makes an element of greatest depth the top: the top element and the queue without
it, `none` for an empty queue.  The queue is the list of its elements; among elements
of equal depth the one nearest the front is taken. -/
def pop_max : List (CursorWithDepth GraphCursor) →
    Option (CursorWithDepth GraphCursor × List (CursorWithDepth GraphCursor))
  | [] => none
  | e :: rest =>
    match pop_max rest with
    | none => some (e, [])
    | some (b, rest') => if e.depth < b.depth then some (b, e :: rest') else some (e, rest)

/-- The loop that fills `initial_map` (lines 235-238): `initial_map[c]` is created with
the value 0 when it is missing, and then set to the greater of its value and the given
depth. -/
def depth_subset_initial_map (initial : List (GraphCursor × Nat)) : List (GraphCursor × Nat) :=
  initial.foldl (fun m cd => set m cd.1 (max ((find m cd.1).getD 0) cd.2)) []

/-- The cursors that `depth_subset` steps to from a cursor: `next()` when `forward` is
true, `prev()` otherwise (line 262). -/
def successors_dir (g : Cursor GraphCursor) (forward : Bool) (c : GraphCursor) :
    List GraphCursor :=
  if forward then g.next c else g.prev c

/-- The `for` loop over `cursors` (lines 263-267): the queue after the pushes. -/
def depth_subset_push (visited : List GraphCursor) (depth : Nat) :
    List GraphCursor → List (CursorWithDepth GraphCursor) → List (CursorWithDepth GraphCursor)
  | [], q => q
  | cursor :: rest, q =>
    if !visited.contains cursor then
      depth_subset_push visited depth rest (q ++ [{ cursor := cursor, depth := depth - 1 }])
    else depth_subset_push visited depth rest q

/-- The `while (!q.empty())` loop of `depth_subset` (lines 246-269), run for at most
`fuel` iterations: the set `visited` at loop exit, `none` when the fuel is used up
before the loop exits.  The counter `step` serves the log only. -/
def depth_subset_while (g : Cursor GraphCursor) (forward : Bool) :
    Nat → List (CursorWithDepth GraphCursor) → List GraphCursor → Option (List GraphCursor)
  | 0, _, _ => none
  | fuel + 1, q, visited =>
    match pop_max q with
    | none => some visited
    | some (cursor_with_depth, q) =>
      if visited.contains cursor_with_depth.cursor then
        depth_subset_while g forward fuel q visited
      else
        let visited := set_insert visited cursor_with_depth.cursor
        if cursor_with_depth.depth > 0 then
          let cursors := successors_dir g forward cursor_with_depth.cursor
          depth_subset_while g forward fuel
            (depth_subset_push visited cursor_with_depth.depth cursors q) visited
        else depth_subset_while g forward fuel q visited

/-- Function `depth_subset` on a list of pairs (lines 221-272): the returned vector, which
holds the members of `visited` in its iteration order. -/
def depth_subset (g : Cursor GraphCursor) (fuel : Nat) (initial : List (GraphCursor × Nat))
    (forward : Bool) : Option (List GraphCursor) :=
  let initial_map := depth_subset_initial_map initial
  let q : List (CursorWithDepth GraphCursor) :=
    initial_map.map (fun kv => { cursor := kv.1, depth := kv.2 })
  depth_subset_while g forward fuel q []

/-- Function `depth_subset` on one cursor and one depth (lines 274-277). -/
def depth_subset_single (g : Cursor GraphCursor) (fuel : Nat) (cursor : GraphCursor)
    (depth : Nat) (forward : Bool) : Option (List GraphCursor) :=
  depth_subset g fuel [(cursor, depth)] forward

/-- A walk of `n` steps from one cursor to another along a successor function. -/
inductive Steps (succ : GraphCursor → List GraphCursor) :
    Nat → GraphCursor → GraphCursor → Prop where
  | start (c : GraphCursor) : Steps succ 0 c c
  | snoc (n : Nat) (a b c : GraphCursor) (h : Steps succ n a b) (hc : c ∈ succ b) :
      Steps succ (n + 1) a c

/-- A cursor reached from an initial pair with a number of steps to spare: an initial
cursor with its depth, and a successor of a cursor reached with `r + 1` to spare with
`r`. -/
inductive DepthReach (succ : GraphCursor → List GraphCursor)
    (initial : List (GraphCursor × Nat)) : GraphCursor → Nat → Prop where
  | seed (c : GraphCursor) (k : Nat) (h : (c, k) ∈ initial) : DepthReach succ initial c k
  | step (u w : GraphCursor) (r : Nat) (h : DepthReach succ initial u (r + 1))
      (hw : w ∈ succ u) : DepthReach succ initial w r

/-- Invariant of the `while` loop of `depth_subset`; `D` is the depth with which a
visited cursor was taken from the queue.  Every queue element and every visited cursor
is reached with the depth it carries; a visited cursor is reached with no more to spare
than it carries; the successors of a visited cursor of positive depth are visited or
wait in the queue with at least its depth less one; and so do the initial cursors with
at least their depth. -/
structure SubsetInv (succ : GraphCursor → List GraphCursor)
    (initial : List (GraphCursor × Nat)) (D : GraphCursor → Nat)
    (q : List (CursorWithDepth GraphCursor)) (visited : List GraphCursor) : Prop where
  queue_sound : ∀ e ∈ q, DepthReach succ initial e.cursor e.depth
  visited_sound : ∀ v ∈ visited, DepthReach succ initial v (D v)
  visited_max : ∀ v ∈ visited, ∀ r, DepthReach succ initial v r → r ≤ D v
  edges_pending : ∀ u ∈ visited, 0 < D u → ∀ w ∈ succ u,
    w ∈ visited ∨ ∃ e ∈ q, e.cursor = w ∧ D u - 1 ≤ e.depth
  seeds_pending : ∀ ck ∈ initial,
    ck.1 ∈ visited ∨ ∃ e ∈ q, e.cursor = ck.1 ∧ ck.2 ≤ e.depth

/-- A number of iterations that the `while` loop of `depth_subset` cannot exceed on the
graph with the cursors `nodes`: one for each initial pair, one for each edge, one for
each cursor. -/
def depth_subset_fuel (succ : GraphCursor → List GraphCursor) (nodes : List GraphCursor)
    (initial : List (GraphCursor × Nat)) : Nat :=
  initial.length + (nodes.map (fun v => (succ v).length + 1)).sum + 1

/-- The quantity that every iteration of the `while` loop of `depth_subset` decreases. -/
def depth_subset_measure (succ : GraphCursor → List GraphCursor) (nodes : List GraphCursor)
    (q : List (CursorWithDepth GraphCursor)) (visited : List GraphCursor) : Nat :=
  q.length +
    ((nodes.filter (fun v => !visited.contains v)).map (fun v => (succ v).length + 1)).sum

end DepthSubset

/-! ## Further example data -/

/-- The state in which the `while` loop of the insertion loop of column 0 of the example
profile exits, when started in `example_loop_state` on the example graph. -/
def example_loop_final : ILoopState Nat (WithTop Int) :=
  { I := [(1, PathLink.link 0 7 PathLink.master_source),
          (3, PathLink.link 2 19
                (PathLink.link 1 13 (PathLink.link 0 7 PathLink.master_source))),
          (2, PathLink.link 1 13 (PathLink.link 0 7 PathLink.master_source)),
          (4, PathLink.link 3 25 (PathLink.link 2 19
                (PathLink.link 1 13 (PathLink.link 0 7 PathLink.master_source))))],
    q := [], processed := [4, 3, 2, 1], taken_values := 5 }

end impl

namespace impl

/-! ## A model of `double`

The finite values of a binary64 number are the integer multiples `n * 2^(-1074)` whose
integer `n` has at most 53 significant bits; the model keeps the integer `n`.  A sum is
the exact sum rounded to the nearest such value, ties going to the value with the even
significand.  The element `⊤` is `+infinity`.  Not modelled: NaN, `-infinity`, the sign
of zero, and overflow (a finite sum beyond the largest binary64 number stays finite). -/

/-- The position of the leading bit of `n`: the `k` with `2^k ≤ n < 2^(k+1)`, and `0`
for `n = 0`; the first argument bounds the recursion. -/
def leading_bit : Nat → Nat → Nat
  | 0, _ => 0
  | fuel + 1, n => if n < 2 then 0 else leading_bit fuel (n / 2) + 1

/-- Rounding of a natural number to 53 significant bits, to nearest, ties to even. -/
def round53_nat (n : Nat) : Nat :=
  let e := leading_bit n n - 52
  let q := n / 2 ^ e
  let r := n % 2 ^ e
  if 2 * r < 2 ^ e then q * 2 ^ e
  else if 2 * r = 2 ^ e ∧ q % 2 = 0 then q * 2 ^ e
  else (q + 1) * 2 ^ e

/-- Rounding of an integer to 53 significant bits, to nearest, ties to even. -/
def round53 (n : Int) : Int :=
  if 0 ≤ n then (round53_nat n.toNat : Int) else -(round53_nat (-n).toNat : Int)

/-- Type `double`, NaN and `-infinity` apart: `+infinity`, or the number `n * 2^(-1074)`
for an integer `n` that rounding to 53 significant bits yields. -/
def Double : Type := WithTop {n : Int // ∃ k : Int, round53 k = n}

instance Double.instLinearOrder : LinearOrder Double :=
  inferInstanceAs (LinearOrder (WithTop {n : Int // ∃ k : Int, round53 k = n}))

instance Double.instOrderTop : OrderTop Double :=
  inferInstanceAs (OrderTop (WithTop {n : Int // ∃ k : Int, round53 k = n}))

/-- A finite value as a `double`. -/
def Double.finite (a : {n : Int // ∃ k : Int, round53 k = n}) : Double := WithTop.some a

/-- The `double` nearest to `k * 2^(-1074)`. -/
def Double.scaled (k : Int) : Double := Double.finite ⟨round53 k, k, rfl⟩

/-- The `double` nearest to the integer `k`. -/
def Double.of_int (k : Int) : Double := Double.scaled (k * ((2 ^ 1074 : Nat) : Int))

/-- Operator `+` of `double`: the exact sum, rounded; `+infinity` when a term is
`+infinity`. -/
def Double.add : Double → Double → Double
  | some a, some b => Double.scaled (a.val + b.val)
  | _, _ => ⊤

instance Double.instAdd : Add Double := ⟨Double.add⟩

instance Double.instZero : Zero Double := ⟨Double.scaled 0⟩

/-- The number `0.5`. -/
def Double.half : Double := Double.scaled ((2 ^ 1073 : Nat) : Int)

/-- The number `2^53 = 9007199254740992`, from which on the `double`s are the even
integers. -/
def Double.two53 : Double := Double.of_int 9007199254740992

/-- The number `-2^53`. -/
def Double.neg_two53 : Double := Double.of_int (-9007199254740992)

/-- The answers of `depth.depth_at_least(cursor, d)` that a freshly constructed
estimator gives on the graph `g`; a query that fails an assertion, which has no answer,
counts as answered with true. -/
def fresh_answers {GraphCursor : Type} [DecidableEq GraphCursor] (g : Cursor GraphCursor)
    (cursor : GraphCursor) (d : Rat) : Bool :=
  match DepthAtLeast.depth_at_least_double g 1 { depth_ := [], max_stack_size_ := 0 } cursor d
  with
  | Except.ok r => r.1
  | Except.error _ => true

/-- A graph without dead ends: the cursors 1 and 2 lie on the cycle `1 → 2 → 1`, every
other cursor leads to 1, and no cursor carries a stop letter; cursor 0 is the empty
sentinel. -/
def cycle_graph : Cursor Nat where
  empty := 0
  is_empty := fun c => decide (c = 0)
  letter := fun _ => 'a'
  next := fun c => if c = 1 then [2] else [1]
  prev := fun c => if c = 2 then [1] else [2]

/-- A fee table of `double`s: every transition costs 1, every match emission costs
nothing and every insert emission costs 0.5. -/
def double_fees : Fees Double where
  M := 1
  t := fun _ _ => Double.of_int 1
  mat := fun _ _ => 0
  ins := fun _ _ => Double.half
  code := fun _ => 0
  is_i_loop_non_negative := fun _ => true

/-- An Insert frontier of `double` scores with two entries, both with a recorded
predecessor. -/
def double_I : StateSet Nat Double :=
  [(1, PathLink.link 0 (Double.of_int 7) PathLink.master_source),
   (3, PathLink.link 2 (Double.of_int 30) PathLink.master_source)]

/-- A fee table of `double`s in which every insertion step costs `2^53 + (-2^53) = 0`:
the transitions cost `2^53` and the insert emissions `-2^53`. -/
def cancelling_fees : Fees Double where
  M := 1
  t := fun _ _ => Double.two53
  mat := fun _ _ => 0
  ins := fun _ _ => Double.neg_two53
  code := fun _ => 0
  is_i_loop_non_negative := fun _ => true

/-- A fee table of `double`s of a profile of length 1: the transitions into and out of
the Delete state cost 100, every other transition costs 5, every match emission costs
nothing and every insert emission costs 0.5. -/
def plain_fees : Fees Double where
  M := 1
  t := fun _ k => if k = p7H_MD ∨ k = p7H_DM then Double.of_int 100 else Double.of_int 5
  mat := fun _ _ => 0
  ins := fun _ _ => Double.half
  code := fun _ => 0
  is_i_loop_non_negative := fun _ => true

/-- An Insert frontier of `double` scores with one entry, of score 240. -/
def double_I3 : StateSet Nat Double :=
  [(1, PathLink.link 0 (Double.of_int 240) PathLink.master_source)]

/-- An Insert frontier of `double` scores with the entries of cursor 2, of score 0.5,
and of cursor 1, of score 1. -/
def double_I4 : StateSet Nat Double :=
  [(2, PathLink.link 0 Double.half PathLink.master_source),
   (1, PathLink.link 0 (Double.of_int 1) PathLink.master_source)]

/-- An Insert frontier with the single entry of cursor 1, of score 0.5. -/
def half_I : StateSet Nat Double :=
  [(1, PathLink.link 0 Double.half PathLink.master_source)]

/-- The state in which the `while` loop of the insertion loop starts on the frontier
`double_I`: one queue element for each of its two entries. -/
def double_loop_state : ILoopState Nat Double :=
  { I := double_I,
    q := [{ current_cursor := 1, score := Double.of_int 7, source_cursor := 0,
            source_state := PathLink.master_source },
          { current_cursor := 3, score := Double.of_int 30, source_cursor := 2,
            source_state := PathLink.master_source }],
    processed := [], taken_values := 0 }

/-- The state in which the `while` loop of the insertion loop starts on the frontier
`half_I`. -/
def half_loop_state : ILoopState Nat Double :=
  { I := half_I,
    q := [{ current_cursor := 1, score := Double.half, source_cursor := 0,
            source_state := PathLink.master_source }],
    processed := [], taken_values := 0 }

end impl

namespace impl

set_option linter.unusedSectionVars false
set_option linter.unusedVariables false

/-! # Theorems

## The model of `double`: rounding is monotone -/

section Rounding

theorem leading_bit_eq : ∀ (fuel n : Nat), n ≤ fuel → leading_bit fuel n = Nat.log 2 n := by
  intro fuel
  induction fuel with
  | zero =>
    intro n hn
    have : n = 0 := by omega
    subst this
    simp [leading_bit]
  | succ fuel ih =>
    intro n hn
    unfold leading_bit
    by_cases h : n < 2
    · simp only [h, if_true]
      exact (Nat.log_of_lt h).symm
    · simp only [h, if_false]
      rw [ih (n / 2) (by omega), Nat.log_div_base]
      have : 1 ≤ Nat.log 2 n := by
        have := Nat.log_pos (b := 2) (by omega) (by omega : 2 ≤ n)
        omega
      omega

/-- The exponent of the last kept bit of `n`. -/
theorem round53_nat_eq (n : Nat) :
    round53_nat n =
      if 2 * (n % 2 ^ (Nat.log 2 n - 52)) < 2 ^ (Nat.log 2 n - 52) then
        n / 2 ^ (Nat.log 2 n - 52) * 2 ^ (Nat.log 2 n - 52)
      else if 2 * (n % 2 ^ (Nat.log 2 n - 52)) = 2 ^ (Nat.log 2 n - 52) ∧
          n / 2 ^ (Nat.log 2 n - 52) % 2 = 0 then
        n / 2 ^ (Nat.log 2 n - 52) * 2 ^ (Nat.log 2 n - 52)
      else (n / 2 ^ (Nat.log 2 n - 52) + 1) * 2 ^ (Nat.log 2 n - 52) := by
  unfold round53_nat
  rw [leading_bit_eq n n (le_refl n)]

theorem round53_nat_cases (n : Nat) :
    round53_nat n = n / 2 ^ (Nat.log 2 n - 52) * 2 ^ (Nat.log 2 n - 52) ∨
    round53_nat n = (n / 2 ^ (Nat.log 2 n - 52) + 1) * 2 ^ (Nat.log 2 n - 52) := by
  rw [round53_nat_eq]
  split
  · exact Or.inl rfl
  · split
    · exact Or.inl rfl
    · exact Or.inr rfl

/-- A number whose bits below the last kept one are zero is not changed. -/
theorem round53_nat_of_dvd (n : Nat) (h : 2 ^ (Nat.log 2 n - 52) ∣ n) : round53_nat n = n := by
  rw [round53_nat_eq]
  have hr : n % 2 ^ (Nat.log 2 n - 52) = 0 := Nat.mod_eq_zero_of_dvd h
  have hpos : 0 < 2 ^ (Nat.log 2 n - 52) := Nat.pow_pos (by omega)
  rw [hr]
  simp only [Nat.mul_zero, hpos, if_true]
  exact Nat.div_mul_cancel h

theorem round53_nat_zero : round53_nat 0 = 0 := by
  apply round53_nat_of_dvd
  exact Nat.dvd_zero _

theorem round53_nat_ge (n : Nat) :
    n / 2 ^ (Nat.log 2 n - 52) * 2 ^ (Nat.log 2 n - 52) ≤ round53_nat n := by
  rcases round53_nat_cases n with h | h
  · rw [h]
  · rw [h]
    exact Nat.mul_le_mul_right _ (Nat.le_succ _)

theorem round53_nat_le (n : Nat) :
    round53_nat n ≤ (n / 2 ^ (Nat.log 2 n - 52) + 1) * 2 ^ (Nat.log 2 n - 52) := by
  rcases round53_nat_cases n with h | h
  · rw [h]
    exact Nat.mul_le_mul_right _ (Nat.le_succ _)
  · rw [h]

/-- The rounded number is at least the power of two below the number. -/
theorem pow_le_round53_nat (n : Nat) (hn : n ≠ 0) : 2 ^ Nat.log 2 n ≤ round53_nat n := by
  refine le_trans ?_ (round53_nat_ge n)
  have hle : Nat.log 2 n - 52 ≤ Nat.log 2 n := Nat.sub_le _ _
  have h1 : 2 ^ Nat.log 2 n ≤ n := Nat.pow_log_le_self 2 hn
  have hdvd : 2 ^ (Nat.log 2 n - 52) ∣ 2 ^ Nat.log 2 n := Nat.pow_dvd_pow 2 hle
  have h2 : 2 ^ Nat.log 2 n / 2 ^ (Nat.log 2 n - 52) ≤ n / 2 ^ (Nat.log 2 n - 52) :=
    Nat.div_le_div_right h1
  calc 2 ^ Nat.log 2 n
      = 2 ^ Nat.log 2 n / 2 ^ (Nat.log 2 n - 52) * 2 ^ (Nat.log 2 n - 52) :=
        (Nat.div_mul_cancel hdvd).symm
    _ ≤ n / 2 ^ (Nat.log 2 n - 52) * 2 ^ (Nat.log 2 n - 52) := Nat.mul_le_mul_right _ h2

/-- The rounded number is at most the power of two above the number. -/
theorem round53_nat_le_pow (n : Nat) : round53_nat n ≤ 2 ^ (Nat.log 2 n + 1) := by
  by_cases h52 : Nat.log 2 n ≤ 52
  · have he : Nat.log 2 n - 52 = 0 := by omega
    have : round53_nat n = n := by
      apply round53_nat_of_dvd
      rw [he]; simp
    rw [this]
    exact le_of_lt (Nat.lt_pow_succ_log_self (by omega) n)
  · refine le_trans (round53_nat_le n) ?_
    have hlt : n < 2 ^ (Nat.log 2 n + 1) := Nat.lt_pow_succ_log_self (by omega) n
    have hsplit : 2 ^ (Nat.log 2 n + 1) = 2 ^ 53 * 2 ^ (Nat.log 2 n - 52) := by
      rw [← Nat.pow_add]
      congr 1
      omega
    have hq : n / 2 ^ (Nat.log 2 n - 52) < 2 ^ 53 := by
      rw [Nat.div_lt_iff_lt_mul (Nat.pow_pos (by omega))]
      rw [← hsplit]
      exact hlt
    rw [hsplit]
    exact Nat.mul_le_mul_right _ hq

/-- Rounding a rounded number changes nothing. -/
theorem round53_nat_idem (n : Nat) : round53_nat (round53_nat n) = round53_nat n := by
  by_cases hn : n = 0
  · subst hn
    rw [round53_nat_zero, round53_nat_zero]
  · apply round53_nat_of_dvd
    have hlow := pow_le_round53_nat n hn
    have hhigh := round53_nat_le_pow n
    have hR : round53_nat n ≠ 0 := by
      have : 0 < 2 ^ Nat.log 2 n := Nat.pow_pos (by omega)
      omega
    rcases Nat.lt_or_ge (round53_nat n) (2 ^ (Nat.log 2 n + 1)) with hlt | hge
    · have hlog : Nat.log 2 (round53_nat n) = Nat.log 2 n :=
        Nat.log_eq_of_pow_le_of_lt_pow hlow hlt
      rw [hlog]
      rcases round53_nat_cases n with h | h
      · rw [h]; exact Nat.dvd_mul_left _ _
      · rw [h]; exact Nat.dvd_mul_left _ _
    · have heq : round53_nat n = 2 ^ (Nat.log 2 n + 1) := le_antisymm hhigh hge
      rw [heq, Nat.log_pow (by omega)]
      exact Nat.pow_dvd_pow 2 (Nat.sub_le _ _)

/-- Rounding to nearest, ties to even, is monotone. -/
theorem round53_nat_mono (a b : Nat) (h : a ≤ b) : round53_nat a ≤ round53_nat b := by
  by_cases ha : a = 0
  · subst ha
    rw [round53_nat_zero]
    exact Nat.zero_le _
  have hb : b ≠ 0 := by omega
  have hlog : Nat.log 2 a ≤ Nat.log 2 b := Nat.log_mono_right h
  rcases Nat.lt_or_ge (Nat.log 2 a) (Nat.log 2 b) with hlt | hge
  · calc round53_nat a ≤ 2 ^ (Nat.log 2 a + 1) := round53_nat_le_pow a
      _ ≤ 2 ^ Nat.log 2 b := Nat.pow_le_pow_right (by omega) hlt
      _ ≤ round53_nat b := pow_le_round53_nat b hb
  · have heq : Nat.log 2 a = Nat.log 2 b := le_antisymm hlog hge
    have hq : a / 2 ^ (Nat.log 2 b - 52) ≤ b / 2 ^ (Nat.log 2 b - 52) := Nat.div_le_div_right h
    rcases Nat.lt_or_ge (a / 2 ^ (Nat.log 2 b - 52)) (b / 2 ^ (Nat.log 2 b - 52)) with hqlt | hqge
    · have h1 := round53_nat_le a
      rw [heq] at h1
      refine le_trans h1 (le_trans ?_ (round53_nat_ge b))
      exact Nat.mul_le_mul_right _ hqlt
    · have hqeq : a / 2 ^ (Nat.log 2 b - 52) = b / 2 ^ (Nat.log 2 b - 52) := le_antisymm hq hqge
      have hpos : 0 < 2 ^ (Nat.log 2 b - 52) := Nat.pow_pos (by omega)
      have hr : a % 2 ^ (Nat.log 2 b - 52) ≤ b % 2 ^ (Nat.log 2 b - 52) := by
        have e1 := Nat.div_add_mod a (2 ^ (Nat.log 2 b - 52))
        have e2 := Nat.div_add_mod b (2 ^ (Nat.log 2 b - 52))
        rw [hqeq] at e1
        omega
      rw [round53_nat_eq a, round53_nat_eq b, heq, hqeq]
      split
      · split
        · exact le_refl _
        · split
          · exact le_refl _
          · exact Nat.mul_le_mul_right _ (Nat.le_succ _)
      · rename_i hna
        split
        · rename_i htie
          have hnb : ¬ 2 * (b % 2 ^ (Nat.log 2 b - 52)) < 2 ^ (Nat.log 2 b - 52) := by omega
          simp only [hnb, if_false]
          split
          · exact le_refl _
          · exact Nat.mul_le_mul_right _ (Nat.le_succ _)
        · rename_i hntie
          have hnb : ¬ 2 * (b % 2 ^ (Nat.log 2 b - 52)) < 2 ^ (Nat.log 2 b - 52) := by omega
          have hntb : ¬ (2 * (b % 2 ^ (Nat.log 2 b - 52)) = 2 ^ (Nat.log 2 b - 52) ∧
              b / 2 ^ (Nat.log 2 b - 52) % 2 = 0) := by
            rintro ⟨t1, t2⟩
            apply hntie
            exact ⟨by omega, t2⟩
          simp only [hnb, hntb, if_false]
          exact le_refl _

theorem round53_of_nonneg (n : Int) (h : 0 ≤ n) : round53 n = (round53_nat n.toNat : Int) := by
  unfold round53
  simp only [h, if_true]

theorem round53_of_neg (n : Int) (h : n < 0) : round53 n = -(round53_nat (-n).toNat : Int) := by
  unfold round53
  have : ¬ 0 ≤ n := by omega
  simp only [this, if_false]

theorem round53_mono (a b : Int) (h : a ≤ b) : round53 a ≤ round53 b := by
  by_cases ha : 0 ≤ a
  · have hb : 0 ≤ b := le_trans ha h
    rw [round53_of_nonneg a ha, round53_of_nonneg b hb]
    exact_mod_cast round53_nat_mono _ _ (Int.toNat_le_toNat h)
  · have ha' : a < 0 := by omega
    rw [round53_of_neg a ha']
    by_cases hb : 0 ≤ b
    · rw [round53_of_nonneg b hb]
      have h1 : (0 : Int) ≤ (round53_nat (-a).toNat : Int) := Int.ofNat_nonneg _
      have h2 : (0 : Int) ≤ (round53_nat b.toNat : Int) := Int.ofNat_nonneg _
      omega
    · have hb' : b < 0 := by omega
      rw [round53_of_neg b hb']
      have : (round53_nat (-b).toNat : Int) ≤ (round53_nat (-a).toNat : Int) := by
        exact_mod_cast round53_nat_mono _ _ (Int.toNat_le_toNat (by omega))
      omega

theorem round53_idem (k : Int) : round53 (round53 k) = round53 k := by
  by_cases hk : 0 ≤ k
  · rw [round53_of_nonneg k hk]
    rw [round53_of_nonneg _ (Int.ofNat_nonneg _)]
    simp only [Int.toNat_ofNat, round53_nat_idem]
  · have hk' : k < 0 := by omega
    rw [round53_of_neg k hk']
    by_cases hz : round53_nat (-k).toNat = 0
    · rw [hz]
      simp only [Int.ofNat_zero, neg_zero]
      rw [round53_of_nonneg 0 (le_refl 0)]
      simp [round53_nat_zero]
    · have hneg : -(round53_nat (-k).toNat : Int) < 0 := by
        have : (0 : Int) < (round53_nat (-k).toNat : Int) := by
          exact_mod_cast Nat.pos_of_ne_zero hz
        omega
      rw [round53_of_neg _ hneg]
      simp only [neg_neg, Int.toNat_ofNat, round53_nat_idem]

end Rounding

/-! ## The model of `double`: the laws of `RoundedAdd` -/

section DoubleLaws

theorem Double.cases (P : Double → Prop) (htop : P ⊤) (hfin : ∀ a, P (Double.finite a)) :
    ∀ x, P x := by
  intro x
  cases x with
  | none => exact htop
  | some a => exact hfin a

theorem Double.scaled_val (a : {n : Int // ∃ k : Int, round53 k = n}) :
    Double.scaled a.val = Double.finite a := by
  obtain ⟨n, k, hk⟩ := a
  unfold Double.scaled
  congr 1
  apply Subtype.ext
  simp only
  rw [← hk, round53_idem]

theorem Double.add_finite (a b : {n : Int // ∃ k : Int, round53 k = n}) :
    Double.finite a + Double.finite b = Double.scaled (a.val + b.val) := rfl

theorem Double.add_top (a : Double) : a + (⊤ : Double) = ⊤ := by
  cases a <;> rfl

theorem Double.top_add (a : Double) : (⊤ : Double) + a = ⊤ := by
  cases a <;> rfl

theorem round53_zero : round53 0 = 0 := by
  rw [round53_of_nonneg 0 (le_refl 0)]
  simp [round53_nat_zero]

theorem Double.zero_eq : (0 : Double) = Double.finite ⟨0, 0, round53_zero⟩ := by
  show Double.scaled 0 = _
  unfold Double.scaled
  congr 1

theorem Double.finite_le (a b : {n : Int // ∃ k : Int, round53 k = n}) :
    Double.finite a ≤ Double.finite b ↔ a.val ≤ b.val := by
  unfold Double.finite
  exact WithTop.coe_le_coe.trans Subtype.coe_le_coe.symm

theorem Double.top_not_le (a : {n : Int // ∃ k : Int, round53 k = n}) :
    ¬ ((⊤ : Double) ≤ Double.finite a) := by
  unfold Double.finite
  exact not_le.mpr (WithTop.coe_lt_top a)

theorem Double.scaled_le (x y : Int) (h : x ≤ y) : Double.scaled x ≤ Double.scaled y := by
  unfold Double.scaled
  rw [Double.finite_le]
  exact round53_mono x y h

/-- The model of `double` has the laws of `RoundedAdd`. -/
theorem Double.rounded_add : RoundedAdd Double := by
  refine ⟨?_, ?_, ?_, ?_⟩
  · intro a
    refine Double.cases (fun a => a + 0 = a) ?_ ?_ a
    · exact Double.top_add 0
    · intro a
      rw [Double.zero_eq, Double.add_finite]
      simp only [add_zero]
      exact Double.scaled_val a
  · intro a
    refine Double.cases (fun a => 0 + a = a) ?_ ?_ a
    · exact Double.add_top 0
    · intro a
      rw [Double.zero_eq, Double.add_finite]
      simp only [zero_add]
      exact Double.scaled_val a
  · intro a b c
    refine Double.cases (fun c => a ≤ b → a + c ≤ b + c) ?_ ?_ c
    · intro _
      rw [Double.add_top, Double.add_top]
    · intro c
      refine Double.cases (fun b => a ≤ b → a + Double.finite c ≤ b + Double.finite c) ?_ ?_ b
      · intro _
        rw [Double.top_add]
        exact le_top
      · intro b
        refine Double.cases
          (fun a => a ≤ Double.finite b →
            a + Double.finite c ≤ Double.finite b + Double.finite c) ?_ ?_ a
        · intro h
          exact absurd h (Double.top_not_le b)
        · intro a h
          rw [Double.add_finite, Double.add_finite]
          apply Double.scaled_le
          have := (Double.finite_le a b).mp h
          omega
  · intro a b c
    refine Double.cases (fun a => b ≤ c → a + b ≤ a + c) ?_ ?_ a
    · intro _
      rw [Double.top_add, Double.top_add]
    · intro a
      refine Double.cases (fun c => b ≤ c → Double.finite a + b ≤ Double.finite a + c) ?_ ?_ c
      · intro _
        rw [Double.add_top]
        exact le_top
      · intro c
        refine Double.cases
          (fun b => b ≤ Double.finite c →
            Double.finite a + b ≤ Double.finite a + Double.finite c) ?_ ?_ b
        · intro h
          exact absurd h (Double.top_not_le c)
        · intro b h
          rw [Double.add_finite, Double.add_finite]
          apply Double.scaled_le
          have := (Double.finite_le b c).mp h
          omega

end DoubleLaws

end impl

namespace impl

set_option linter.unusedSectionVars false
set_option linter.unusedVariables false

/-! # Theorems -/

/-! ## Containers: basic facts -/

section ContainerFacts

variable {K V : Type}

theorem filter_key_value_eq (p : K × V → Bool) (m : List (K × V)) :
    filter_key_value p m = (m.filter (fun kv => !p kv), m.countP p) := by
  induction m with
  | nil => rfl
  | cons kv rest ih =>
    simp only [filter_key_value, ih]
    by_cases h : p kv = true
    · simp [h, List.filter_cons, List.countP_cons]
    · simp [h, List.filter_cons, List.countP_cons]

theorem filter_key_eq (p : K → Bool) (m : List (K × V)) :
    filter_key p m = (m.filter (fun kv => !p kv.1), m.countP (fun kv => p kv.1)) := by
  induction m with
  | nil => rfl
  | cons kv rest ih =>
    simp only [filter_key, ih]
    by_cases h : p kv.1 = true
    · simp [h, List.filter_cons, List.countP_cons]
    · simp [h, List.filter_cons, List.countP_cons]

end ContainerFacts

section FindFacts

variable {K V : Type} [DecidableEq K]

theorem find_eq_none_iff (m : List (K × V)) (k : K) : find m k = none ↔ k ∉ keys m := by
  induction m with
  | nil => simp [find, keys]
  | cons kv rest ih =>
    simp only [find, keys, List.map_cons, List.mem_cons, not_or]
    by_cases h : kv.1 = k
    · simp [h]
    · simp only [h, if_false]
      rw [ih]
      simp only [keys]
      constructor
      · intro h2; exact ⟨fun e => h e.symm, h2⟩
      · intro h2; exact h2.2

theorem find_isSome_iff (m : List (K × V)) (k : K) : (find m k).isSome ↔ k ∈ keys m := by
  rw [← not_iff_not, ← find_eq_none_iff]
  cases find m k <;> simp

theorem find_append (m l : List (K × V)) (k : K) :
    find (m ++ l) k = match find m k with
      | some x => some x
      | none => find l k := by
  induction m with
  | nil => simp [find]
  | cons kv rest ih =>
    simp only [List.cons_append, find]
    by_cases h : kv.1 = k
    · simp [h]
    · simp [h, ih]

theorem keys_assign (m : List (K × V)) (k : K) (v : V) : keys (assign m k v) = keys m := by
  induction m with
  | nil => rfl
  | cons kv rest ih =>
    simp only [assign]
    by_cases h : kv.1 = k
    · simp [h, keys]
    · simp only [h, if_false, keys, List.map_cons] at ih ⊢
      rw [ih]

theorem find_assign (m : List (K × V)) (k : K) (v : V) (c : K) :
    find (assign m k v) c = if k = c then (find m k).map (fun _ => v) else find m c := by
  induction m with
  | nil => simp [assign, find]
  | cons kv rest ih =>
    simp only [assign]
    by_cases h : kv.1 = k
    · subst h
      by_cases hc : kv.1 = c
      · simp [find, hc]
      · simp [find, hc]
    · simp only [h, if_false, find]
      by_cases hc : kv.1 = c
      · have : ¬ k = c := fun e => h (hc.trans e.symm)
        simp [hc, this]
      · simp only [hc, if_false, ih]

theorem assign_eq_self (m : List (K × V)) (k : K) (v : V) (h : find m k = some v) :
    assign m k v = m := by
  induction m with
  | nil => rfl
  | cons kv rest ih =>
    simp only [assign]
    by_cases hk : kv.1 = k
    · simp only [find, hk, if_true, Option.some.injEq] at h
      simp only [hk, if_true]
      rw [← h, ← hk]
    · simp only [find, hk, if_false] at h
      simp only [hk, if_false, ih h]

theorem keys_append (m l : List (K × V)) : keys (m ++ l) = keys m ++ keys l := by
  simp [keys]

theorem wf_append_single (m : List (K × V)) (k : K) (v : V) (hm : wf m)
    (hk : find m k = none) : wf (m ++ [(k, v)]) := by
  unfold wf at *
  rw [keys_append]
  have hk2 := (find_eq_none_iff m k).mp hk
  rw [List.nodup_append]
  refine ⟨hm, by simp [keys], ?_⟩
  intro a ha hb
  simp only [keys, List.map_cons, List.map_nil, List.mem_singleton] at hb
  subst hb
  exact hk2 ha

theorem wf_assign (m : List (K × V)) (k : K) (v : V) (hm : wf m) : wf (assign m k v) := by
  unfold wf at *
  rw [keys_assign]; exact hm

end FindFacts


/-! ## Rank of an element of a sorted list -/

section Rank

variable {S : Type} [LinearOrder S]

theorem countP_lt_sorted (l : List S) (hl : l.Sorted (· ≤ ·)) (i : Nat) (x : S)
    (hx : l.get? i = some x) : l.countP (fun y => decide (y < x)) ≤ i := by
  induction l generalizing i with
  | nil => simp at hx
  | cons a t ih =>
    have hs := List.sorted_cons.mp hl
    cases i with
    | zero =>
      simp at hx
      subst hx
      have h0 : (a :: t).countP (fun y => decide (y < a)) = 0 := by
        rw [List.countP_eq_zero]
        intro b hb
        simp only [List.mem_cons] at hb
        rcases hb with rfl | hb
        · simp
        · simpa using hs.1 b hb
      omega
    | succ j =>
      have hx2 : t.get? j = some x := by simpa using hx
      have := ih hs.2 j hx2
      rw [List.countP_cons]
      split <;> omega

theorem countP_le_sorted (l : List S) (hl : l.Sorted (· ≤ ·)) (i : Nat) (x : S)
    (hx : l.get? i = some x) : i + 1 ≤ l.countP (fun y => decide (y ≤ x)) := by
  induction l generalizing i with
  | nil => simp at hx
  | cons a t ih =>
    have hs := List.sorted_cons.mp hl
    cases i with
    | zero =>
      simp at hx
      subst hx
      rw [List.countP_cons]
      simp
    | succ j =>
      have hx2 : t.get? j = some x := by simpa using hx
      have h1 := ih hs.2 j hx2
      have hax : a ≤ x := hs.1 x (List.get?_mem hx2)
      rw [List.countP_cons]
      simp [hax]
      omega

end Rank

/-! ## `score_filter` -/

section ScoreFilterFacts

variable {K V S : Type} [LinearOrder S]

/-- Claim C2.  On a non-empty frontier and for `n ≥ 1`, `score_filter n threshold` keeps
exactly the entries whose score is at most `min threshold s_k`, where `k = min n size`
and `s_k` is the `k`-th smallest score counted with multiplicity (fewer than `k` entries
score strictly below `s_k`, at least `k` entries score at most `s_k`); the entries above
the cutoff are removed, ties at the cutoff stay, and the returned number is the number
of removed entries. -/
theorem score_filter_spec (score_fnc : K × V → S) (n : Nat) (threshold : S)
    (m : List (K × V)) (hm : m ≠ []) (hn : 1 ≤ n) :
    ∃ s_k, s_k ∈ scores score_fnc m ∧
      m.countP (fun kv => decide (score_fnc kv < s_k)) < min n m.length ∧
      min n m.length ≤ m.countP (fun kv => decide (score_fnc kv ≤ s_k)) ∧
      (score_filter score_fnc n threshold m).1
        = m.filter (fun kv => decide (score_fnc kv ≤ min threshold s_k)) ∧
      (score_filter score_fnc n threshold m).2
        = m.countP (fun kv => decide (min threshold s_k < score_fnc kv)) ∧
      (score_filter score_fnc n threshold m).2
        = m.length - (score_filter score_fnc n threshold m).1.length := by
  have hlen : 0 < m.length := List.length_pos.mpr hm
  have hk : min n m.length ≠ 0 := by omega
  have hperm : ((scores score_fnc m).insertionSort (· ≤ ·)).Perm (scores score_fnc m) :=
    List.perm_insertionSort _ _
  have hsorted : ((scores score_fnc m).insertionSort (· ≤ ·)).Sorted (· ≤ ·) :=
    List.sorted_insertionSort _ _
  have hlt : min n m.length - 1 < ((scores score_fnc m).insertionSort (· ≤ ·)).length := by
    rw [hperm.length_eq]; simp [scores]; omega
  obtain ⟨s, hs⟩ : ∃ s, ((scores score_fnc m).insertionSort (· ≤ ·)).get? (min n m.length - 1)
      = some s := ⟨_, List.get?_eq_get hlt⟩
  refine ⟨s, ?_, ?_, ?_, ?_, ?_, ?_⟩
  · exact hperm.subset (List.get?_mem hs)
  · have h1 := countP_lt_sorted _ hsorted _ _ hs
    rw [hperm.countP_eq] at h1
    simp only [scores, List.countP_map] at h1
    have : m.countP (fun kv => decide (score_fnc kv < s))
        = m.countP ((fun y => decide (y < s)) ∘ score_fnc) := rfl
    omega
  · have h1 := countP_le_sorted _ hsorted _ _ hs
    rw [hperm.countP_eq] at h1
    simp only [scores, List.countP_map] at h1
    have : m.countP (fun kv => decide (score_fnc kv ≤ s))
        = m.countP ((fun y => decide (y ≤ s)) ∘ score_fnc) := rfl
    omega
  · simp only [score_filter, nth_element, hk, if_false, hs, filter_key_value_eq]
    congr 1
    funext kv
    by_cases h : score_fnc kv ≤ min threshold s
    · simp [h, not_lt.mpr h]
    · simp [h, not_le.mp h]
  · simp only [score_filter, nth_element, hk, if_false, hs, filter_key_value_eq]
  · simp only [score_filter, nth_element, hk, if_false, hs, filter_key_value_eq]
    have h := List.length_eq_countP_add_countP (fun kv => decide (score_fnc kv > min threshold s)) m
    rw [List.countP_eq_length_filter (fun a => decide ¬ _)] at h
    have h2 : (List.filter (fun kv => !decide (score_fnc kv > min threshold s)) m)
        = List.filter (fun a => decide ¬(decide (score_fnc a > min threshold s) = true)) m := by
      congr 1; funext kv
      by_cases h : score_fnc kv > min threshold s <;> simp [h]
    rw [h2]
    omega

end ScoreFilterFacts

end impl

namespace impl

set_option linter.unusedSectionVars false
set_option linter.unusedVariables false

/-! ## `DeletionStateSet::update` -/

section DeletionFacts

variable {GraphCursor S : Type} [DecidableEq GraphCursor] [LinearOrder S] [Add S] [Zero S] [OrderTop S]

theorem DeletionStateSet.del_update_eq (D : DeletionStateSet GraphCursor S) (c : GraphCursor)
    (s : S) (p : PathLink GraphCursor S) :
    DeletionStateSet.update D c s p =
      match find D c with
      | none => (D ++ [(c, { plink := p, score := s })], true)
      | some prev =>
        if s < prev.score then (assign D c { plink := p, score := s }, true) else (D, false) := by
  unfold DeletionStateSet.update insert count
  cases h : find D c with
  | none => simp
  | some prev => simp [h]

/-- The entry a `DeletionStateSet::update` leaves at the updated cursor. -/
theorem DeletionStateSet.del_find_update (D : DeletionStateSet GraphCursor S) (c : GraphCursor)
    (s : S) (p : PathLink GraphCursor S) (c' : GraphCursor) :
    find (DeletionStateSet.update D c s p).1 c' =
      if c = c' then
        some (match find D c with
          | none => { plink := p, score := s }
          | some prev => if s < prev.score then { plink := p, score := s } else prev)
      else find D c' := by
  rw [DeletionStateSet.del_update_eq]
  cases h : find D c with
  | none =>
    simp only [find_append, find]
    by_cases hc : c = c'
    · subst hc; simp [h]
    · simp only [hc, if_false]
      cases find D c' <;> rfl
  | some prev =>
    by_cases hs : s < prev.score
    · simp only [hs, if_true, find_assign, h, Option.map_some']
    · simp only [hs, if_false]
      by_cases hc : c = c'
      · subst hc; simp [h]
      · simp [hc]

theorem DeletionStateSet.del_wf_update (D : DeletionStateSet GraphCursor S) (c : GraphCursor)
    (s : S) (p : PathLink GraphCursor S) (hD : wf D) : wf (DeletionStateSet.update D c s p).1 := by
  rw [DeletionStateSet.del_update_eq]
  cases h : find D c with
  | none => exact wf_append_single D c _ hD h
  | some prev =>
    by_cases hs : s < prev.score
    · simp only [hs, if_true]; exact wf_assign D c _ hD
    · simp only [hs, if_false]; exact hD

theorem DeletionStateSet.del_update_flag (D : DeletionStateSet GraphCursor S) (c : GraphCursor)
    (s : S) (p : PathLink GraphCursor S) :
    (DeletionStateSet.update D c s p).2 = true ↔
      (find D c = none ∨ ∃ prev, find D c = some prev ∧ s < prev.score) := by
  rw [DeletionStateSet.del_update_eq]
  cases h : find D c with
  | none => simp
  | some prev =>
    by_cases hs : s < prev.score
    · simp [hs]
    · simp [hs]

end DeletionFacts

/-! ## `StateSet::update` -/

section StateSetFacts

variable {GraphCursor S : Type} [DecidableEq GraphCursor] [LinearOrder S] [Add S] [Zero S] [OrderTop S]

theorem StateSet.st_update_eq (M : StateSet GraphCursor S) (c : GraphCursor) (s : S)
    (src : GraphCursor) (p : PathLink GraphCursor S) :
    StateSet.update M c s src p =
      match find M c with
      | none => (M ++ [(c, PathLink.link src s p)], decide (s < ⊤))
      | some node => (assign M c (node.update src s p).1, decide (s < node.score)) := by
  unfold StateSet.update insert count
  cases h : find M c with
  | none =>
    have h2 : find (M ++ [(c, (PathLink.create : PathLink GraphCursor S))]) c
        = some PathLink.create := by
      rw [find_append, h]; simp [find]
    have h3 : assign (M ++ [(c, (PathLink.create : PathLink GraphCursor S))]) c
        (PathLink.link src s p) = M ++ [(c, PathLink.link src s p)] := by
      have hk := (find_eq_none_iff M c).mp h
      clear h h2
      induction M with
      | nil => simp [assign]
      | cons kv rest ih =>
        have hne : ¬ kv.1 = c := by
          intro e; apply hk; simp [keys, e]
        have hk2 : c ∉ keys rest := by
          intro e; apply hk; simp only [keys, List.map_cons, List.mem_cons]; right; exact e
        have ih2 := ih hk2
        simp only [List.cons_append, assign, hne, if_false]
        exact congrArg _ ih2
    simp [h2, PathLink.update, h3]
  | some node => simp [h]

theorem PathLink.score_update (node : PathLink GraphCursor S) (gp : GraphCursor) (s : S)
    (pl : PathLink GraphCursor S) : (node.update gp s pl).1.score = min node.score s := by
  cases node with
  | create => simp [PathLink.update, PathLink.score]
  | master_source =>
    simp only [PathLink.update]
    by_cases h : s < 0
    · simp [h, PathLink.score, min_eq_right (le_of_lt h)]
    · simp [h, PathLink.score, min_eq_left (not_lt.mp h)]
  | link g s0 p =>
    simp only [PathLink.update]
    by_cases h : s < s0
    · simp [h, PathLink.score, min_eq_right (le_of_lt h)]
    · simp [h, PathLink.score, min_eq_left (not_lt.mp h)]

theorem PathLink.pl_update_flag (node : PathLink GraphCursor S) (gp : GraphCursor) (s : S)
    (pl : PathLink GraphCursor S) (h : ¬ s < node.score) (hc : node ≠ PathLink.create) :
    node.update gp s pl = (node, false) := by
  cases node with
  | create => exact absurd rfl hc
  | master_source => simp only [PathLink.score] at h; simp [PathLink.update, h]
  | link g s0 p => simp only [PathLink.score] at h; simp [PathLink.update, h]

theorem PathLink.update_ne_create (node : PathLink GraphCursor S) (gp : GraphCursor) (s : S)
    (pl : PathLink GraphCursor S) : (node.update gp s pl).1 ≠ PathLink.create := by
  cases node with
  | create => simp [PathLink.update]
  | master_source => simp only [PathLink.update]; split <;> simp
  | link g s0 p => simp only [PathLink.update]; split <;> simp

/-- The entry a `StateSet::update` leaves at the updated cursor, and the other entries. -/
theorem StateSet.st_find_update (M : StateSet GraphCursor S) (c : GraphCursor) (s : S)
    (src : GraphCursor) (p : PathLink GraphCursor S) (c' : GraphCursor) :
    find (StateSet.update M c s src p).1 c' =
      if c = c' then
        some (match find M c with
          | none => PathLink.link src s p
          | some node => (node.update src s p).1)
      else find M c' := by
  rw [StateSet.st_update_eq]
  cases h : find M c with
  | none =>
    simp only [find_append, find]
    by_cases hc : c = c'
    · subst hc; simp [h]
    · simp only [hc, if_false]
      cases find M c' <;> rfl
  | some node =>
    simp only [find_assign, h, Option.map_some']

theorem StateSet.score_at_update (M : StateSet GraphCursor S) (c : GraphCursor) (s : S)
    (src : GraphCursor) (p : PathLink GraphCursor S) (c' : GraphCursor) :
    StateSet.score_at (StateSet.update M c s src p).1 c' =
      if c = c' then min (StateSet.score_at M c) s else StateSet.score_at M c' := by
  unfold StateSet.score_at
  rw [StateSet.st_find_update]
  by_cases hc : c = c'
  · simp only [hc, if_true]
    subst hc
    cases h : find M c with
    | none => simp [PathLink.score]
    | some node => simp [PathLink.score_update]
  · simp [hc]

theorem StateSet.st_wf_update (M : StateSet GraphCursor S) (c : GraphCursor) (s : S)
    (src : GraphCursor) (p : PathLink GraphCursor S) (hM : wf M) :
    wf (StateSet.update M c s src p).1 := by
  rw [StateSet.st_update_eq]
  cases h : find M c with
  | none => exact wf_append_single M c _ hM h
  | some node => exact wf_assign M c _ hM

theorem StateSet.st_update_flag (M : StateSet GraphCursor S) (c : GraphCursor) (s : S)
    (src : GraphCursor) (p : PathLink GraphCursor S) :
    (StateSet.update M c s src p).2 = decide (s < StateSet.score_at M c) := by
  rw [StateSet.st_update_eq]
  unfold StateSet.score_at
  cases h : find M c <;> rfl

end StateSetFacts

end impl

namespace impl

set_option linter.unusedSectionVars false
set_option linter.unusedVariables false

/-! ## `DeletionStateSet::merge` -/

section MergeFacts

variable {GraphCursor S : Type} [DecidableEq GraphCursor] [LinearOrderedAddCommMonoidWithTop S]

theorem merge_aux (Ss : List (State GraphCursor S)) (fee : S) :
    ∀ (D : DeletionStateSet GraphCursor S) (n : Nat), (Ss.map State.cursor).Nodup →
      (∀ c, find (Ss.foldl
          (fun acc state =>
            let r := DeletionStateSet.update acc.1 state.cursor (state.score + fee) state.plink
            (r.1, acc.2 + (if r.2 then 1 else 0))) (D, n)).1 c
        = match Ss.find? (fun st => decide (st.cursor = c)) with
          | none => find D c
          | some st => some (merged_value D fee st)) ∧
      (Ss.foldl
          (fun acc state =>
            let r := DeletionStateSet.update acc.1 state.cursor (state.score + fee) state.plink
            (r.1, acc.2 + (if r.2 then 1 else 0))) (D, n)).2
        = n + Ss.countP (merge_counts D fee) ∧
      (wf D → wf (Ss.foldl
          (fun acc state =>
            let r := DeletionStateSet.update acc.1 state.cursor (state.score + fee) state.plink
            (r.1, acc.2 + (if r.2 then 1 else 0))) (D, n)).1) := by
  induction Ss with
  | nil => intro D n _; simp
  | cons st rest ih =>
    intro D n hnd
    simp only [List.map_cons, List.nodup_cons] at hnd
    obtain ⟨hfresh, hnd2⟩ := hnd
    simp only [List.foldl_cons]
    obtain ⟨h1, h2, h3⟩ := ih (DeletionStateSet.update D st.cursor (st.score + fee) st.plink).1
      (n + (if (DeletionStateSet.update D st.cursor (st.score + fee) st.plink).2 then 1 else 0)) hnd2
    have hother : ∀ st' ∈ rest, st.cursor ≠ st'.cursor := by
      intro st' hst' e
      exact hfresh (e ▸ List.mem_map_of_mem State.cursor hst')
    refine ⟨?_, ?_, ?_⟩
    · intro c
      rw [h1 c]
      simp only [List.find?_cons]
      by_cases hc : st.cursor = c
      · have hnone : rest.find? (fun st => decide (st.cursor = c)) = none := by
          rw [List.find?_eq_none]
          intro x hx
          simp only [decide_eq_true_eq]
          intro e
          exact hother x hx (hc.trans e.symm)
        simp only [hnone, hc, decide_True]
        rw [DeletionStateSet.del_find_update]
        subst hc
        simp only [if_true, merged_value] <;> rfl
      · simp only [hc, decide_False]
        cases hf : rest.find? (fun st => decide (st.cursor = c)) with
        | none =>
          simp only
          rw [DeletionStateSet.del_find_update]
          simp [hc]
        | some st' =>
          simp only
          have hmem := List.mem_of_find?_eq_some hf
          have hne := hother st' hmem
          simp only [merged_value, DeletionStateSet.del_find_update, hne, if_false]
    · rw [h2, List.countP_cons]
      have hcongr : rest.countP (merge_counts
          (DeletionStateSet.update D st.cursor (st.score + fee) st.plink).1 fee)
          = rest.countP (merge_counts D fee) := by
        apply List.countP_congr
        intro st' hst'
        have hne := hother st' hst'
        simp only [merge_counts, DeletionStateSet.score_at, DeletionStateSet.del_find_update, hne,
          if_false]
      rw [hcongr]
      have hflag : (DeletionStateSet.update D st.cursor (st.score + fee) st.plink).2
          = merge_counts D fee st := by
        rw [Bool.eq_iff_iff, DeletionStateSet.del_update_flag]
        rcases Option.eq_none_or_eq_some (find D st.cursor) with hfd | ⟨prev, hfd⟩
        · simp [merge_counts, hfd]
        · simp [merge_counts, DeletionStateSet.score_at, hfd]
      rw [hflag]
      cases merge_counts D fee st <;> simp <;> omega
    · intro hD
      exact h3 (DeletionStateSet.del_wf_update D _ _ _ hD)

theorem mem_map_cursor_iff_find (Ss : List (State GraphCursor S)) (c : GraphCursor) :
    c ∈ Ss.map State.cursor ↔ (Ss.find? (fun st => decide (st.cursor = c))).isSome := by
  simp only [List.mem_map, List.find?_isSome, decide_eq_true_eq]

/-- What `DeletionStateSet::merge` leaves: the key set and the scores. -/
theorem DeletionStateSet.merge_facts (D : DeletionStateSet GraphCursor S)
    (Ss : List (State GraphCursor S)) (fee : S) (hD : wf D)
    (hS : (Ss.map State.cursor).Nodup) :
    wf (DeletionStateSet.merge D Ss fee).1 ∧
    (∀ c, c ∈ keys (DeletionStateSet.merge D Ss fee).1 ↔ c ∈ keys D ∨ c ∈ Ss.map State.cursor) ∧
    (∀ c, DeletionStateSet.score_at (DeletionStateSet.merge D Ss fee).1 c
        = min (DeletionStateSet.score_at D c) (states_score_at Ss c + fee)) := by
  obtain ⟨h1, _, h3⟩ := merge_aux Ss fee D 0 hS
  refine ⟨h3 hD, ?_, ?_⟩
  · intro c
    rw [← find_isSome_iff, ← find_isSome_iff, mem_map_cursor_iff_find]
    unfold DeletionStateSet.merge
    rw [h1 c]
    cases Ss.find? (fun st => decide (st.cursor = c)) with
    | none => simp
    | some st => simp
  · intro c
    unfold DeletionStateSet.merge DeletionStateSet.score_at states_score_at
    rw [h1 c]
    cases hf : Ss.find? (fun st => decide (st.cursor = c)) with
    | none => simp
    | some st =>
      have hc : st.cursor = c := by simpa using List.find?_some hf
      simp only [merged_value, hc]
      cases hD : find D c with
      | none => simp
      | some prev =>
        simp only
        by_cases hs : st.score + fee < prev.score
        · simp [hs, min_eq_right (le_of_lt hs)]
        · simp [hs, min_eq_left (not_lt.mp hs)]

/-- Claim C3.  After `D.merge(S, fee)` the cursor set of `D` is the union of the old cursor
sets of `D` and `S`; the score of `D` at a cursor is the minimum of its old score and
the score of `S` there plus the fee (absent entries counting as `+infinity`); and the
returned number counts the cursors of `S` whose entry in `D` was created or strictly
improved. -/
theorem DeletionStateSet.merge_spec (D : DeletionStateSet GraphCursor S)
    (Ss : List (State GraphCursor S)) (fee : S) (hD : wf D)
    (hS : (Ss.map State.cursor).Nodup) :
    wf (DeletionStateSet.merge D Ss fee).1 ∧
    (∀ c, c ∈ keys (DeletionStateSet.merge D Ss fee).1 ↔ c ∈ keys D ∨ c ∈ Ss.map State.cursor) ∧
    (∀ c, DeletionStateSet.score_at (DeletionStateSet.merge D Ss fee).1 c
        = min (DeletionStateSet.score_at D c) (states_score_at Ss c + fee)) ∧
    (DeletionStateSet.merge D Ss fee).2
      = Ss.countP (fun st => (find D st.cursor).isNone
          || decide (st.score + fee < DeletionStateSet.score_at D st.cursor)) := by
  obtain ⟨h1, h2, h3⟩ := merge_aux Ss fee D 0 hS
  refine ⟨h3 hD, ?_, ?_, ?_⟩
  · intro c
    rw [← find_isSome_iff, ← find_isSome_iff, mem_map_cursor_iff_find]
    unfold DeletionStateSet.merge
    rw [h1 c]
    cases Ss.find? (fun st => decide (st.cursor = c)) with
    | none => simp
    | some st => simp
  · intro c
    unfold DeletionStateSet.merge DeletionStateSet.score_at states_score_at
    rw [h1 c]
    cases hf : Ss.find? (fun st => decide (st.cursor = c)) with
    | none => simp
    | some st =>
      have hc : st.cursor = c := by simpa using List.find?_some hf
      simp only [merged_value, hc]
      cases hD : find D c with
      | none => simp
      | some prev =>
        simp only
        by_cases hs : st.score + fee < prev.score
        · simp [hs, min_eq_right (le_of_lt hs)]
        · simp [hs, min_eq_left (not_lt.mp hs)]
  · unfold DeletionStateSet.merge
    rw [h2]
    simp only [Nat.zero_add]
    rfl

end MergeFacts

end impl

namespace impl

set_option linter.unusedSectionVars false
set_option linter.unusedVariables false

section UpdateClaims

variable {GraphCursor S : Type} [DecidableEq GraphCursor] [LinearOrderedAddCommMonoidWithTop S]

/-- Claim C4, as amended.  `DeletionStateSet::update` returns true exactly when the entry
was newly created or its previous score was strictly improved.  `StateSet::update`
returns true exactly when the submitted score is strictly below the previous score of
the cursor, an absent entry counting as `+infinity`: creating an entry counts only when
the submitted score is below `+infinity`. -/
theorem update_returns (D : DeletionStateSet GraphCursor S) (M : StateSet GraphCursor S)
    (cursor src : GraphCursor) (score : S) (plink : PathLink GraphCursor S) :
    ((DeletionStateSet.update D cursor score plink).2 = true ↔
      (find D cursor = none ∨ ∃ prev, find D cursor = some prev ∧ score < prev.score)) ∧
    ((StateSet.update M cursor score src plink).2 = true ↔
      ((find M cursor = none ∧ score < ⊤) ∨
        ∃ node, find M cursor = some node ∧ score < node.score)) := by
  refine ⟨DeletionStateSet.del_update_flag D cursor score plink, ?_⟩
  rw [StateSet.st_update_eq]
  rcases Option.eq_none_or_eq_some (find M cursor) with h | ⟨node, h⟩
  · simp [h]
  · simp [h]

/-- Claim C4, counterexample.  `StateSet::update` with an infinite score on a cursor that
has no entry creates the entry and returns false. -/
theorem update_returns_counterexample :
    find ([] : StateSet Nat (WithTop Int)) 7 = none ∧
    (find (StateSet.update ([] : StateSet Nat (WithTop Int)) 7 ⊤ 3 PathLink.master_source).1 7).isSome
      = true ∧
    (StateSet.update ([] : StateSet Nat (WithTop Int)) 7 ⊤ 3 PathLink.master_source).2 = false := by
  decide

/-- Claim C5.  Applying the same `update(cursor, score, predecessor)` a second time returns
false and leaves the frontier as the first application left it, for both flavours of
frontier. -/
theorem update_idempotent (D : DeletionStateSet GraphCursor S) (M : StateSet GraphCursor S)
    (cursor src : GraphCursor) (score : S) (plink : PathLink GraphCursor S) :
    DeletionStateSet.update (DeletionStateSet.update D cursor score plink).1 cursor score plink
      = ((DeletionStateSet.update D cursor score plink).1, false) ∧
    StateSet.update (StateSet.update M cursor score src plink).1 cursor score src plink
      = ((StateSet.update M cursor score src plink).1, false) := by
  constructor
  · rw [DeletionStateSet.del_update_eq (DeletionStateSet.update D cursor score plink).1]
    rw [DeletionStateSet.del_find_update]
    simp only [if_true]
    rcases Option.eq_none_or_eq_some (find D cursor) with h | ⟨prev, h⟩
    · simp [h]
    · simp only [h]
      by_cases hs : score < prev.score
      · simp [hs]
      · simp [hs]
  · rw [StateSet.st_update_eq (StateSet.update M cursor score src plink).1]
    rw [StateSet.st_find_update]
    simp only [if_true]
    rcases Option.eq_none_or_eq_some (find M cursor) with h | ⟨node, h⟩
    · simp only [h]
      have hfind : find (StateSet.update M cursor score src plink).1 cursor
          = some (PathLink.link src score plink) := by
        rw [StateSet.st_find_update]; simp [h]
      have hupd : (PathLink.link src score plink).update src score plink
          = (PathLink.link src score plink, false) := by
        simp [PathLink.update]
      rw [hupd, assign_eq_self _ _ _ hfind]
      simp [PathLink.score]
    · simp only [h]
      have hfind : find (StateSet.update M cursor score src plink).1 cursor
          = some (node.update src score plink).1 := by
        rw [StateSet.st_find_update]; simp [h]
      have hle : ¬ score < (node.update src score plink).1.score := by
        rw [PathLink.score_update]
        simp
      have hupd := PathLink.pl_update_flag (node.update src score plink).1 src score plink hle
        (PathLink.update_ne_create node src score plink)
      rw [hupd, assign_eq_self _ _ _ hfind]
      simp [hle]

end UpdateClaims

/-! ## Sequences of updates on a `DeletionStateSet` -/

section UpdateSequences

variable {GraphCursor S : Type} [DecidableEq GraphCursor] [LinearOrderedAddCommMonoidWithTop S]

/-- Claim C6.  After any sequence of `update` calls on an initially empty
`DeletionStateSet`, no cursor has two entries; a cursor that no call named has no entry;
and any other cursor holds the least score submitted for it together with the
backpointer of the earliest call that submitted that score (every earlier call for the
cursor submitted a strictly larger score, every later one a score at least as large). -/
theorem update_sequence_min (us : List (GraphCursor × S × PathLink GraphCursor S)) :
    wf (us.foldl (fun D u => (DeletionStateSet.update D u.1 u.2.1 u.2.2).1)
        ([] : DeletionStateSet GraphCursor S)) ∧
    ∀ c,
      (find (us.foldl (fun D u => (DeletionStateSet.update D u.1 u.2.1 u.2.2).1)
          ([] : DeletionStateSet GraphCursor S)) c = none ∧ ∀ u ∈ us, u.1 ≠ c) ∨
      ∃ pre s p post, us = pre ++ (c, s, p) :: post ∧
        (∀ u ∈ pre, u.1 = c → s < u.2.1) ∧ (∀ u ∈ post, u.1 = c → s ≤ u.2.1) ∧
        find (us.foldl (fun D u => (DeletionStateSet.update D u.1 u.2.1 u.2.2).1)
          ([] : DeletionStateSet GraphCursor S)) c = some { plink := p, score := s } := by
  induction us using List.reverseRecOn with
  | nil =>
    refine ⟨by simp [wf, keys], fun c => Or.inl ⟨by simp [find], by simp⟩⟩
  | append_singleton us u ih =>
    obtain ⟨hwf, hall⟩ := ih
    simp only [List.foldl_append, List.foldl_cons, List.foldl_nil]
    refine ⟨DeletionStateSet.del_wf_update _ _ _ _ hwf, ?_⟩
    intro c
    rw [DeletionStateSet.del_find_update]
    by_cases hc : u.1 = c
    · simp only [hc, if_true]
      rcases hall c with ⟨hnone, hno⟩ | ⟨pre, s, p, post, hus, hpre, hpost, hfind⟩
      · right
        refine ⟨us, u.2.1, u.2.2, [], ?_, ?_, ?_, ?_⟩
        · rw [← hc]
        · intro x hx hxc; exact absurd hxc (hno x hx)
        · simp
        · rw [hnone]
      · right
        rw [hfind]
        by_cases hs : u.2.1 < s
        · refine ⟨us, u.2.1, u.2.2, [], ?_, ?_, ?_, ?_⟩
          · rw [← hc]
          · intro x hx hxc
            rw [hus] at hx
            simp only [List.mem_append, List.mem_cons] at hx
            rcases hx with hx | rfl | hx
            · exact lt_trans hs (hpre x hx hxc)
            · exact hs
            · exact lt_of_lt_of_le hs (hpost x hx hxc)
          · simp
          · simp [hs]
        · refine ⟨pre, s, p, post ++ [u], ?_, hpre, ?_, ?_⟩
          · rw [hus]; simp
          · intro x hx hxc
            simp only [List.mem_append, List.mem_singleton] at hx
            rcases hx with hx | rfl
            · exact hpost x hx hxc
            · exact not_lt.mp hs
          · simp [hs]
    · simp only [hc, if_false]
      rcases hall c with ⟨hnone, hno⟩ | ⟨pre, s, p, post, hus, hpre, hpost, hfind⟩
      · left
        refine ⟨hnone, ?_⟩
        intro x hx
        simp only [List.mem_append, List.mem_singleton] at hx
        rcases hx with hx | rfl
        · exact hno x hx
        · exact hc
      · right
        refine ⟨pre, s, p, post ++ [u], ?_, hpre, ?_, hfind⟩
        · rw [hus]; simp
        · intro x hx hxc
          simp only [List.mem_append, List.mem_singleton] at hx
          rcases hx with hx | rfl
          · exact hpost x hx hxc
          · exact absurd hxc hc

end UpdateSequences

end impl

namespace impl

set_option linter.unusedSectionVars false
set_option linter.unusedVariables false

/-! ## `increment`, state ranges -/

section IncrementFacts

variable {GraphCursor S : Type} [DecidableEq GraphCursor] [LinearOrderedAddCommMonoidWithTop S]

theorem DeletionStateSet.find_increment (D : DeletionStateSet GraphCursor S) (fee : S)
    (c : GraphCursor) :
    find (DeletionStateSet.increment D fee) c
      = (find D c).map (fun v => { v with score := v.score + fee }) := by
  induction D with
  | nil => rfl
  | cons kv rest ih =>
    simp only [DeletionStateSet.increment, List.map_cons, find] at ih ⊢
    by_cases h : kv.1 = c
    · simp [h]
    · simp only [h, if_false]; exact ih

theorem DeletionStateSet.keys_increment (D : DeletionStateSet GraphCursor S) (fee : S) :
    keys (DeletionStateSet.increment D fee) = keys D := by
  simp [DeletionStateSet.increment, keys, List.map_map, Function.comp_def]

theorem DeletionStateSet.score_at_increment (D : DeletionStateSet GraphCursor S) (fee : S)
    (c : GraphCursor) :
    DeletionStateSet.score_at (DeletionStateSet.increment D fee) c
      = DeletionStateSet.score_at D c + fee := by
  unfold DeletionStateSet.score_at
  rw [DeletionStateSet.find_increment]
  rcases Option.eq_none_or_eq_some (find D c) with h | ⟨v, h⟩
  · simp [h]
  · simp [h]

theorem find?_map_cursor {V : Type} (f : GraphCursor × V → State GraphCursor S)
    (hf : ∀ kv, (f kv).cursor = kv.1) (m : List (GraphCursor × V)) (c : GraphCursor) :
    (m.map f).find? (fun st => decide (st.cursor = c))
      = (m.find? (fun kv => decide (kv.1 = c))).map f := by
  induction m with
  | nil => rfl
  | cons kv rest ih =>
    simp only [List.map_cons, List.find?_cons, hf]
    by_cases h : kv.1 = c
    · simp [h]
    · simp [h, ih]

theorem find_eq_find? {V : Type} (m : List (GraphCursor × V)) (c : GraphCursor) :
    find m c = (m.find? (fun kv => decide (kv.1 = c))).map Prod.snd := by
  induction m with
  | nil => rfl
  | cons kv rest ih =>
    simp only [find, List.find?_cons]
    by_cases h : kv.1 = c
    · simp [h]
    · simp [h, ih]

theorem StateSet.st_states_score_at_eq (M : StateSet GraphCursor S) (c : GraphCursor) :
    states_score_at (StateSet.states M) c = StateSet.score_at M c := by
  unfold states_score_at StateSet.score_at StateSet.states
  rw [find?_map_cursor StateSet.kv2state (fun _ => rfl), find_eq_find?]
  cases (M.find? (fun kv => decide (kv.1 = c))) <;> rfl

theorem DeletionStateSet.del_states_score_at_eq (D : DeletionStateSet GraphCursor S) (c : GraphCursor) :
    states_score_at (DeletionStateSet.states D) c = DeletionStateSet.score_at D c := by
  unfold states_score_at DeletionStateSet.score_at DeletionStateSet.states
  rw [find?_map_cursor DeletionStateSet.kv2state (fun _ => rfl), find_eq_find?]
  cases (D.find? (fun kv => decide (kv.1 = c))) <;> rfl

theorem StateSet.st_states_cursors (M : StateSet GraphCursor S) :
    (StateSet.states M).map State.cursor = keys M := by
  simp [StateSet.states, keys, List.map_map, Function.comp_def, StateSet.kv2state]

theorem DeletionStateSet.del_states_cursors (D : DeletionStateSet GraphCursor S) :
    (DeletionStateSet.states D).map State.cursor = keys D := by
  simp [DeletionStateSet.states, keys, List.map_map, Function.comp_def,
    DeletionStateSet.kv2state]

end IncrementFacts

/-! ## `dm_new`: the Delete frontier -/

section DmNewDelete

variable {GraphCursor S : Type} [DecidableEq GraphCursor] [LinearOrderedAddCommMonoidWithTop S]

/-- Claim C7.  For a column `m ≥ 1`, after `dm_new(D, M, I, m)` the cursor set of the Delete
frontier is the union of the old cursor sets of `D` and `M`, and its score at every
cursor is the minimum of the old Delete score plus `t[m-1][DD]` and the old Match score
plus `t[m-1][MD]` (absent entries counting as `+infinity`): every contribution stays at
its own cursor. -/
theorem dm_new_delete (g : Cursor GraphCursor) (fees : Fees S) (initial : List GraphCursor)
    (D : DeletionStateSet GraphCursor S) (M I : StateSet GraphCursor S) (m : Nat)
    (hm : 1 ≤ m) (hD : wf D) (hM : wf M) :
    wf (dm_new g fees initial D M I m).1 ∧
    (∀ c, c ∈ keys (dm_new g fees initial D M I m).1 ↔ c ∈ keys D ∨ c ∈ keys M) ∧
    (∀ c, DeletionStateSet.score_at (dm_new g fees initial D M I m).1 c
        = min (DeletionStateSet.score_at D c + fees.t (m - 1) p7H_DD)
              (StateSet.score_at M c + fees.t (m - 1) p7H_MD)) := by
  have hD2 : wf (DeletionStateSet.increment D (fees.t (m - 1) p7H_DD)) := by
    unfold wf; rw [DeletionStateSet.keys_increment]; exact hD
  have hS : ((StateSet.states M).map State.cursor).Nodup := by
    rw [StateSet.st_states_cursors]; exact hM
  obtain ⟨h1, h2, h3⟩ := DeletionStateSet.merge_facts
    (DeletionStateSet.increment D (fees.t (m - 1) p7H_DD)) (StateSet.states M)
    (fees.t (m - 1) p7H_MD) hD2 hS
  refine ⟨h1, ?_, ?_⟩
  · intro c
    have := h2 c
    rw [DeletionStateSet.keys_increment, StateSet.st_states_cursors] at this
    exact this
  · intro c
    have := h3 c
    rw [DeletionStateSet.score_at_increment, StateSet.st_states_score_at_eq] at this
    exact this

end DmNewDelete

end impl

namespace impl

set_option linter.unusedSectionVars false
set_option linter.unusedVariables false

/-! ## Sequences of `StateSet::update`, `transfer` -/

section TransferFacts

variable {GraphCursor S : Type} [DecidableEq GraphCursor] [LinearOrder S] [Add S] [Zero S] [OrderTop S]

theorem PathLink.update_cases (node : PathLink GraphCursor S) (gp : GraphCursor) (s : S)
    (pl : PathLink GraphCursor S) :
    (node.update gp s pl).1 = node ∨ (node.update gp s pl).1 = PathLink.link gp s pl := by
  cases node with
  | create => right; rfl
  | master_source => simp only [PathLink.update]; split <;> simp
  | link g s0 p => simp only [PathLink.update]; split <;> simp

theorem StateSet.keys_update (M : StateSet GraphCursor S) (c : GraphCursor) (s : S)
    (src : GraphCursor) (p : PathLink GraphCursor S) (n : GraphCursor) :
    n ∈ keys (StateSet.update M c s src p).1 ↔ n ∈ keys M ∨ n = c := by
  rw [← find_isSome_iff, ← find_isSome_iff, StateSet.st_find_update]
  by_cases hc : c = n
  · simp [hc]
  · simp only [hc, if_false]
    constructor
    · intro h; exact Or.inl h
    · rintro (h | h)
      · exact h
      · exact absurd h.symm hc

theorem transfer_eq (g : Cursor GraphCursor) (code : Char → Nat) (initial : List GraphCursor)
    (dst : StateSet GraphCursor S) (src : List (State GraphCursor S)) (transfer_fee : S)
    (emission_fees : Nat → S) :
    transfer g code initial dst src transfer_fee emission_fees
      = apply_updates dst (transfer_updates g code initial transfer_fee emission_fees src) := by
  induction src generalizing dst with
  | nil => rfl
  | cons state rest ih =>
    unfold transfer at ih ⊢
    simp only [List.foldl_cons, transfer_updates, apply_updates, List.foldl_append] at ih ⊢
    rw [ih]
    congr 1
    simp only [successors, List.foldl_map]

theorem mem_transfer_updates (g : Cursor GraphCursor) (code : Char → Nat)
    (initial : List GraphCursor) (transfer_fee : S) (emission_fees : Nat → S)
    (src : List (State GraphCursor S)) (u : GraphCursor × S × GraphCursor × PathLink GraphCursor S) :
    u ∈ transfer_updates g code initial transfer_fee emission_fees src ↔
      ∃ state ∈ src, u.1 ∈ successors g initial state.cursor ∧
        u = (u.1, state.score + transfer_fee + emission_fees (code (g.letter u.1)),
              state.cursor, state.plink) := by
  induction src with
  | nil => simp [transfer_updates]
  | cons state rest ih =>
    simp only [transfer_updates, List.mem_append, List.mem_map, ih, List.mem_cons,
      exists_eq_or_imp]
    constructor
    · rintro (⟨n, hn, rfl⟩ | h)
      · exact Or.inl ⟨hn, rfl⟩
      · exact Or.inr h
    · rintro (⟨hn, he⟩ | h)
      · exact Or.inl ⟨u.1, hn, he.symm⟩
      · exact Or.inr h

/-- What a sequence of `StateSet::update` calls leaves at a cursor. -/
theorem apply_updates_spec (us : List (GraphCursor × S × GraphCursor × PathLink GraphCursor S)) :
    ∀ (M : StateSet GraphCursor S) (n : GraphCursor),
      (n ∈ keys (apply_updates M us) ↔ n ∈ keys M ∨ ∃ u ∈ us, u.1 = n) ∧
      StateSet.score_at (apply_updates M us) n ≤ StateSet.score_at M n ∧
      (∀ u ∈ us, u.1 = n → StateSet.score_at (apply_updates M us) n ≤ u.2.1) ∧
      (find (apply_updates M us) n = find M n ∨
        ∃ u ∈ us, u.1 = n ∧
          find (apply_updates M us) n = some (PathLink.link u.2.2.1 u.2.1 u.2.2.2)) ∧
      (wf M → wf (apply_updates M us)) := by
  induction us with
  | nil => intro M n; simp [apply_updates]
  | cons u rest ih =>
    intro M n
    have hstep : apply_updates M (u :: rest)
        = apply_updates (StateSet.update M u.1 u.2.1 u.2.2.1 u.2.2.2).1 rest := rfl
    rw [hstep]
    obtain ⟨h1, h2, h3, h4, h5⟩ := ih (StateSet.update M u.1 u.2.1 u.2.2.1 u.2.2.2).1 n
    have hsc := StateSet.score_at_update M u.1 u.2.1 u.2.2.1 u.2.2.2 n
    refine ⟨?_, ?_, ?_, ?_, ?_⟩
    · rw [h1, StateSet.keys_update]
      simp only [List.mem_cons, exists_eq_or_imp]
      constructor
      · rintro ((h | h) | h)
        · exact Or.inl h
        · exact Or.inr (Or.inl h.symm)
        · exact Or.inr (Or.inr h)
      · rintro (h | h | h)
        · exact Or.inl (Or.inl h)
        · exact Or.inl (Or.inr h.symm)
        · exact Or.inr h
    · refine le_trans h2 ?_
      rw [hsc]
      by_cases hc : u.1 = n
      · simp [hc]
      · simp [hc]
    · intro x hx hxn
      simp only [List.mem_cons] at hx
      rcases hx with rfl | hx
      · refine le_trans h2 ?_
        rw [hsc]
        simp [hxn]
      · exact h3 x hx hxn
    · rcases h4 with h4 | ⟨x, hx, hxn, hfx⟩
      · rw [h4, StateSet.st_find_update]
        by_cases hc : u.1 = n
        · subst hc
          simp only [if_true]
          rcases Option.eq_none_or_eq_some (find M u.1) with hf | ⟨node, hf⟩
          · right
            exact ⟨u, List.mem_cons_self _ _, rfl, by simp [hf]⟩
          · rcases PathLink.update_cases node u.2.2.1 u.2.1 u.2.2.2 with hu | hu
            · left
              simp only [hf, hu]
            · right
              refine ⟨u, List.mem_cons_self _ _, rfl, ?_⟩
              simp only [hf, hu]
        · left
          simp [hc]
      · right
        exact ⟨x, List.mem_cons_of_mem _ hx, hxn, hfx⟩
    · intro hM
      exact h5 (StateSet.st_wf_update M _ _ _ _ hM)

end TransferFacts

end impl

namespace impl

set_option linter.unusedSectionVars false
set_option linter.unusedVariables false

section FindMem

variable {K V : Type} [DecidableEq K]

theorem find_of_mem (m : List (K × V)) (hm : wf m) (kv : K × V) (h : kv ∈ m) :
    find m kv.1 = some kv.2 := by
  induction m with
  | nil => simp at h
  | cons x rest ih =>
    simp only [wf, keys, List.map_cons, List.nodup_cons] at hm
    simp only [List.mem_cons] at h
    simp only [find]
    rcases h with rfl | h
    · simp
    · have hne : ¬ x.1 = kv.1 := by
        intro e
        apply hm.1
        rw [e]
        exact List.mem_map_of_mem Prod.fst h
      simp only [hne, if_false]
      exact ih hm.2 h

theorem mem_of_find (m : List (K × V)) (k : K) (v : V) (h : find m k = some v) :
    (k, v) ∈ m := by
  induction m with
  | nil => simp [find] at h
  | cons x rest ih =>
    simp only [find] at h
    by_cases hk : x.1 = k
    · simp only [hk, if_true, Option.some.injEq] at h
      simp only [List.mem_cons]
      left
      rw [← hk, ← h]
    · simp only [hk, if_false] at h
      exact List.mem_cons_of_mem _ (ih h)

end FindMem

/-! ## `dm_new`: the Match frontier -/

section DmNewMatch

variable {GraphCursor S : Type} [DecidableEq GraphCursor] [LinearOrderedAddCommMonoidWithTop S]

/-- The pre-Match set that `dm_new` builds. -/
theorem preM_spec (fees : Fees S) (D : DeletionStateSet GraphCursor S)
    (M I : StateSet GraphCursor S) (m : Nat) (hD : wf D) (hM : wf M) (hI : wf I) :
    wf (DeletionStateSet.merge
        (DeletionStateSet.merge (DeletionStateSet.increment D (fees.t (m - 1) p7H_DM))
          (StateSet.states M) (fees.t (m - 1) p7H_MM)).1
        (StateSet.states I) (fees.t (m - 1) p7H_IM)).1 ∧
    (∀ c, c ∈ keys (DeletionStateSet.merge
        (DeletionStateSet.merge (DeletionStateSet.increment D (fees.t (m - 1) p7H_DM))
          (StateSet.states M) (fees.t (m - 1) p7H_MM)).1
        (StateSet.states I) (fees.t (m - 1) p7H_IM)).1 ↔
      (c ∈ keys D ∨ c ∈ keys M ∨ c ∈ keys I)) ∧
    (∀ c, DeletionStateSet.score_at (DeletionStateSet.merge
        (DeletionStateSet.merge (DeletionStateSet.increment D (fees.t (m - 1) p7H_DM))
          (StateSet.states M) (fees.t (m - 1) p7H_MM)).1
        (StateSet.states I) (fees.t (m - 1) p7H_IM)).1 c = preM_score fees D M I m c) := by
  have hD2 : wf (DeletionStateSet.increment D (fees.t (m - 1) p7H_DM)) := by
    unfold wf; rw [DeletionStateSet.keys_increment]; exact hD
  have hSM : ((StateSet.states M).map State.cursor).Nodup := by
    rw [StateSet.st_states_cursors]; exact hM
  have hSI : ((StateSet.states I).map State.cursor).Nodup := by
    rw [StateSet.st_states_cursors]; exact hI
  obtain ⟨a1, a2, a3⟩ := DeletionStateSet.merge_facts
    (DeletionStateSet.increment D (fees.t (m - 1) p7H_DM)) (StateSet.states M)
    (fees.t (m - 1) p7H_MM) hD2 hSM
  obtain ⟨b1, b2, b3⟩ := DeletionStateSet.merge_facts
    (DeletionStateSet.merge (DeletionStateSet.increment D (fees.t (m - 1) p7H_DM))
          (StateSet.states M) (fees.t (m - 1) p7H_MM)).1 (StateSet.states I)
    (fees.t (m - 1) p7H_IM) a1 hSI
  refine ⟨b1, ?_, ?_⟩
  · intro c
    rw [b2 c, a2 c, DeletionStateSet.keys_increment, StateSet.st_states_cursors,
      StateSet.st_states_cursors, or_assoc]
  · intro c
    rw [b3 c, a3 c, DeletionStateSet.score_at_increment, StateSet.st_states_score_at_eq,
      StateSet.st_states_score_at_eq]
    rfl

theorem StateSet.score_at_nil (n : GraphCursor) :
    StateSet.score_at ([] : StateSet GraphCursor S) n = ⊤ := rfl

/-- Claim C8.  For a column `m ≥ 1`, after `dm_new(D, M, I, m)` the Match frontier holds
exactly the cursors that are a successor of a pre-Match cursor (a cursor of the old `D`,
`M` or `I`; the successors of the empty cursor are the seed list, those of any other
cursor its `next()`).  Its score at such a cursor `n` is the least value of
`preM(c) + mat[m][code(letter(n))]` over the pre-Match cursors `c` that `n` succeeds,
where `preM(c) = min(D(c) + t[m-1][DM], M(c) + t[m-1][MM], I(c) + t[m-1][IM])`.  Every
entry is a node built by this call, whose predecessor is such a pre-Match cursor: no
entry of the old Match frontier survives. -/
theorem dm_new_match (g : Cursor GraphCursor) (fees : Fees S) (initial : List GraphCursor)
    (D : DeletionStateSet GraphCursor S) (M I : StateSet GraphCursor S) (m : Nat)
    (hm : 1 ≤ m) (hD : wf D) (hM : wf M) (hI : wf I) :
    wf (dm_new g fees initial D M I m).2 ∧
    (∀ n, n ∈ keys (dm_new g fees initial D M I m).2 ↔
      ∃ c, (c ∈ keys D ∨ c ∈ keys M ∨ c ∈ keys I) ∧ n ∈ successors g initial c) ∧
    (∀ n c, (c ∈ keys D ∨ c ∈ keys M ∨ c ∈ keys I) → n ∈ successors g initial c →
      StateSet.score_at (dm_new g fees initial D M I m).2 n
        ≤ preM_score fees D M I m c + fees.mat m (fees.code (g.letter n))) ∧
    (∀ n, n ∈ keys (dm_new g fees initial D M I m).2 →
      ∃ c, (c ∈ keys D ∨ c ∈ keys M ∨ c ∈ keys I) ∧ n ∈ successors g initial c ∧
        StateSet.score_at (dm_new g fees initial D M I m).2 n
          = preM_score fees D M I m c + fees.mat m (fees.code (g.letter n))) ∧
    (∀ n node, find (dm_new g fees initial D M I m).2 n = some node →
      ∃ c s p, node = PathLink.link c s p ∧ (c ∈ keys D ∨ c ∈ keys M ∨ c ∈ keys I) ∧
        n ∈ successors g initial c) := by
  obtain ⟨pwf, pkeys, pscore⟩ := preM_spec fees D M I m hD hM hI
  have hdef : (dm_new g fees initial D M I m).2
      = apply_updates ([] : StateSet GraphCursor S)
          (transfer_updates g fees.code initial 0 (fees.mat m)
            (DeletionStateSet.states (DeletionStateSet.merge
              (DeletionStateSet.merge (DeletionStateSet.increment D (fees.t (m - 1) p7H_DM))
                (StateSet.states M) (fees.t (m - 1) p7H_MM)).1
              (StateSet.states I) (fees.t (m - 1) p7H_IM)).1)) := by
    unfold dm_new
    simp only [transfer_eq]
  rw [hdef]
  -- the update calls are exactly the (pre-Match cursor, successor) pairs
  have hmem : ∀ u : GraphCursor × S × GraphCursor × PathLink GraphCursor S,
      u ∈ transfer_updates g fees.code initial 0 (fees.mat m)
            (DeletionStateSet.states (DeletionStateSet.merge
              (DeletionStateSet.merge (DeletionStateSet.increment D (fees.t (m - 1) p7H_DM))
                (StateSet.states M) (fees.t (m - 1) p7H_MM)).1
              (StateSet.states I) (fees.t (m - 1) p7H_IM)).1) →
      (u.2.2.1 ∈ keys D ∨ u.2.2.1 ∈ keys M ∨ u.2.2.1 ∈ keys I) ∧
      u.1 ∈ successors g initial u.2.2.1 ∧
      u.2.1 = preM_score fees D M I m u.2.2.1 + fees.mat m (fees.code (g.letter u.1)) := by
    intro u hu
    rw [mem_transfer_updates] at hu
    obtain ⟨state, hst, hsucc, hu⟩ := hu
    simp only [DeletionStateSet.states, List.mem_map] at hst
    obtain ⟨kv, hkv, rfl⟩ := hst
    have hfind := find_of_mem _ pwf kv hkv
    have hsc := pscore kv.1
    simp only [DeletionStateSet.score_at, hfind] at hsc
    have hk : kv.1 ∈ keys (DeletionStateSet.merge
              (DeletionStateSet.merge (DeletionStateSet.increment D (fees.t (m - 1) p7H_DM))
                (StateSet.states M) (fees.t (m - 1) p7H_MM)).1
              (StateSet.states I) (fees.t (m - 1) p7H_IM)).1 :=
      List.mem_map_of_mem Prod.fst hkv
    rw [pkeys] at hk
    rw [hu]
    simp only [DeletionStateSet.kv2state, add_zero] at hsucc ⊢
    exact ⟨hk, hsucc, by rw [hsc]⟩
  have hmem2 : ∀ n c, (c ∈ keys D ∨ c ∈ keys M ∨ c ∈ keys I) → n ∈ successors g initial c →
      ∃ u ∈ transfer_updates g fees.code initial 0 (fees.mat m)
            (DeletionStateSet.states (DeletionStateSet.merge
              (DeletionStateSet.merge (DeletionStateSet.increment D (fees.t (m - 1) p7H_DM))
                (StateSet.states M) (fees.t (m - 1) p7H_MM)).1
              (StateSet.states I) (fees.t (m - 1) p7H_IM)).1),
        u.1 = n ∧ u.2.1 = preM_score fees D M I m c + fees.mat m (fees.code (g.letter n)) := by
    intro n c hc hn
    rw [← pkeys] at hc
    obtain ⟨v, hv⟩ := Option.isSome_iff_exists.mp ((find_isSome_iff _ _).mpr hc)
    have hkv := mem_of_find _ _ _ hv
    have hsc := pscore c
    simp only [DeletionStateSet.score_at, hv] at hsc
    refine ⟨(n, v.score + 0 + fees.mat m (fees.code (g.letter n)), c, v.plink), ?_, rfl, ?_⟩
    · rw [mem_transfer_updates]
      exact ⟨DeletionStateSet.kv2state (c, v),
        List.mem_map_of_mem DeletionStateSet.kv2state hkv, hn, rfl⟩
    · simp only [add_zero, hsc]
  refine ⟨?_, ?_, ?_, ?_, ?_⟩
  · exact (apply_updates_spec _ ([] : StateSet GraphCursor S) g.empty).2.2.2.2 (by simp [wf, keys])
  · intro n
    rw [(apply_updates_spec _ ([] : StateSet GraphCursor S) n).1]
    simp only [keys, List.map_nil, List.not_mem_nil, false_or]
    constructor
    · rintro ⟨u, hu, rfl⟩
      obtain ⟨h1, h2, _⟩ := hmem u hu
      exact ⟨u.2.2.1, h1, h2⟩
    · rintro ⟨c, hc, hn⟩
      obtain ⟨u, hu, hun, _⟩ := hmem2 n c hc hn
      exact ⟨u, hu, hun⟩
  · intro n c hc hn
    obtain ⟨u, hu, hun, hus⟩ := hmem2 n c hc hn
    rw [← hus]
    exact (apply_updates_spec _ ([] : StateSet GraphCursor S) n).2.2.1 u hu hun
  · intro n hn
    rw [(apply_updates_spec _ ([] : StateSet GraphCursor S) n).1] at hn
    simp only [keys, List.map_nil, List.not_mem_nil, false_or] at hn
    obtain ⟨u0, hu0, hu0n⟩ := hn
    rcases (apply_updates_spec _ ([] : StateSet GraphCursor S) n).2.2.2.1 with h | ⟨u, hu, hun, hf⟩
    · -- the entry is absent: impossible, the cursor has an update
      have hk := (apply_updates_spec (transfer_updates g fees.code initial 0 (fees.mat m)
            (DeletionStateSet.states (DeletionStateSet.merge
              (DeletionStateSet.merge (DeletionStateSet.increment D (fees.t (m - 1) p7H_DM))
                (StateSet.states M) (fees.t (m - 1) p7H_MM)).1
              (StateSet.states I) (fees.t (m - 1) p7H_IM)).1)) [] n).1.mpr
              (Or.inr ⟨u0, hu0, hu0n⟩)
      rw [← find_isSome_iff, h] at hk
      simp [find] at hk
    · obtain ⟨h1, h2, h3⟩ := hmem u hu
      refine ⟨u.2.2.1, h1, hun ▸ h2, ?_⟩
      simp only [StateSet.score_at, hf, PathLink.score]
      rw [h3, hun]
  · intro n node hnode
    rcases (apply_updates_spec (transfer_updates g fees.code initial 0 (fees.mat m)
            (DeletionStateSet.states (DeletionStateSet.merge
              (DeletionStateSet.merge (DeletionStateSet.increment D (fees.t (m - 1) p7H_DM))
                (StateSet.states M) (fees.t (m - 1) p7H_MM)).1
              (StateSet.states I) (fees.t (m - 1) p7H_IM)).1)) [] n).2.2.2.1
      with h | ⟨u, hu, hun, hf⟩
    · rw [h] at hnode; simp [find] at hnode
    · rw [hf] at hnode
      obtain ⟨h1, h2, _⟩ := hmem u hu
      refine ⟨u.2.2.1, u.2.1, u.2.2.2, ?_, h1, hun ▸ h2⟩
      exact (Option.some.inj hnode).symm

end DmNewMatch

end impl

namespace impl

set_option linter.unusedSectionVars false
set_option linter.unusedVariables false

/-! ## The terminal merge -/

section TerminalUpdates

variable {GraphCursor S : Type} [DecidableEq GraphCursor] [LinearOrder S] [Add S] [Zero S]
  [OrderTop S]

theorem upd_terminal_score (Ss : List (State GraphCursor S)) (fee : S) :
    ∀ terminal : PathLink GraphCursor S,
      (upd_terminal terminal Ss fee).score ≤ terminal.score ∧
      (∀ st ∈ Ss, (upd_terminal terminal Ss fee).score ≤ st.score + fee) ∧
      ((upd_terminal terminal Ss fee).score = terminal.score ∨
        ∃ st ∈ Ss, (upd_terminal terminal Ss fee).score = st.score + fee) := by
  induction Ss with
  | nil => intro terminal; simp [upd_terminal]
  | cons st rest ih =>
    intro terminal
    have hstep : upd_terminal terminal (st :: rest) fee
        = upd_terminal (terminal.update st.cursor (st.score + fee) st.plink).1 rest fee := rfl
    rw [hstep]
    obtain ⟨h1, h2, h3⟩ := ih (terminal.update st.cursor (st.score + fee) st.plink).1
    rw [PathLink.score_update] at h1 h3
    refine ⟨le_trans h1 (min_le_left _ _), ?_, ?_⟩
    · intro x hx
      simp only [List.mem_cons] at hx
      rcases hx with rfl | hx
      · exact le_trans h1 (min_le_right _ _)
      · exact h2 x hx
    · rcases h3 with h3 | ⟨x, hx, hxs⟩
      · rcases min_choice terminal.score (st.score + fee) with hm | hm
        · left; rw [h3, hm]
        · right; exact ⟨st, List.mem_cons_self _ _, by rw [h3, hm]⟩
      · right; exact ⟨x, List.mem_cons_of_mem _ hx, hxs⟩

end TerminalUpdates

section TerminalMerge

variable {GraphCursor S : Type} [DecidableEq GraphCursor] [LinearOrderedAddCommMonoidWithTop S]

/-- Claim C10.  The best score of the terminal node built at the end of `find_best_path` is
the minimum of `+infinity`, the scores of the final Delete frontier plus `t[M][DM]`, the
scores of the final Insert frontier plus `t[M][DM]` (the Delete-to-Match fee), and the
scores of the final Match frontier plus `t[M][MM]`: it is below every one of them, and
it is either `+infinity` or one of them. -/
theorem terminal_merge_score (g : Cursor GraphCursor) (fees : Fees S)
    (base : PathLink GraphCursor S) (D : DeletionStateSet GraphCursor S)
    (I M : StateSet GraphCursor S) :
    (∀ st ∈ DeletionStateSet.states D,
      (terminal_merge g fees base D I M).score ≤ st.score + fees.t fees.M p7H_DM) ∧
    (∀ st ∈ StateSet.states I,
      (terminal_merge g fees base D I M).score ≤ st.score + fees.t fees.M p7H_DM) ∧
    (∀ st ∈ StateSet.states M,
      (terminal_merge g fees base D I M).score ≤ st.score + fees.t fees.M p7H_MM) ∧
    ((terminal_merge g fees base D I M).score = ⊤ ∨
      (terminal_merge g fees base D I M).score ∈ terminal_candidates fees D I M) := by
  unfold terminal_merge
  simp only []
  obtain ⟨a1, a2, a3⟩ := upd_terminal_score (DeletionStateSet.states D) (fees.t fees.M p7H_DM)
    ((PathLink.create : PathLink GraphCursor S).update g.empty ⊤ base).1
  obtain ⟨b1, b2, b3⟩ := upd_terminal_score (StateSet.states I) (fees.t fees.M p7H_DM)
    (upd_terminal ((PathLink.create : PathLink GraphCursor S).update g.empty ⊤ base).1
      (DeletionStateSet.states D) (fees.t fees.M p7H_DM))
  obtain ⟨c1, c2, c3⟩ := upd_terminal_score (StateSet.states M) (fees.t fees.M p7H_MM)
    (upd_terminal (upd_terminal ((PathLink.create : PathLink GraphCursor S).update g.empty ⊤ base).1
      (DeletionStateSet.states D) (fees.t fees.M p7H_DM)) (StateSet.states I)
      (fees.t fees.M p7H_DM))
  have h0 : ((PathLink.create : PathLink GraphCursor S).update g.empty ⊤ base).1.score = ⊤ := rfl
  refine ⟨?_, ?_, c2, ?_⟩
  · intro st hst
    exact le_trans c1 (le_trans b1 (a2 st hst))
  · intro st hst
    exact le_trans c1 (b2 st hst)
  · simp only [terminal_candidates, List.mem_append, List.mem_map]
    rcases c3 with c3 | ⟨st, hst, hs⟩
    · rcases b3 with b3 | ⟨st, hst, hs⟩
      · rcases a3 with a3 | ⟨st, hst, hs⟩
        · left; rw [c3, b3, a3, h0]
        · right; left; left; exact ⟨st, hst, by rw [c3, b3, hs]⟩
      · right; left; right; exact ⟨st, hst, by rw [c3, hs]⟩
    · right; right; exact ⟨st, hst, hs.symm⟩

end TerminalMerge

end impl

namespace impl

set_option linter.unusedSectionVars false
set_option linter.unusedVariables false

/-! ## The theorems at example inputs -/

theorem score_filter_spec_witness :
    (example_D ≠ [] ∧ 1 ≤ 1) ∧
    ∃ s_k, s_k ∈ scores DeletionStateSet.score_fnc example_D ∧
      example_D.countP (fun kv => decide (DeletionStateSet.score_fnc kv < s_k))
        < min 1 example_D.length ∧
      min 1 example_D.length
        ≤ example_D.countP (fun kv => decide (DeletionStateSet.score_fnc kv ≤ s_k)) ∧
      (score_filter DeletionStateSet.score_fnc 1 250 example_D).1
        = example_D.filter (fun kv => decide (DeletionStateSet.score_fnc kv ≤ min 250 s_k)) ∧
      (score_filter DeletionStateSet.score_fnc 1 250 example_D).2
        = example_D.countP (fun kv => decide (min 250 s_k < DeletionStateSet.score_fnc kv)) ∧
      (score_filter DeletionStateSet.score_fnc 1 250 example_D).2
        = example_D.length - (score_filter DeletionStateSet.score_fnc 1 250 example_D).1.length :=
  ⟨⟨by decide, by decide⟩,
    score_filter_spec DeletionStateSet.score_fnc 1 250 example_D (by decide) (by decide)⟩

/-- The example run of `score_filter`, evaluated: with `n = 1` only the entry of least
score stays. -/
theorem score_filter_example :
    score_filter DeletionStateSet.score_fnc 1 250 example_D
      = ([(2, { plink := PathLink.master_source, score := 1 })], 1) := by
  decide

theorem DeletionStateSet.merge_spec_witness :
    (wf example_D ∧ ((StateSet.states example_M).map State.cursor).Nodup) ∧
    (wf (DeletionStateSet.merge example_D (StateSet.states example_M) 3).1 ∧
    (∀ c, c ∈ keys (DeletionStateSet.merge example_D (StateSet.states example_M) 3).1 ↔
      c ∈ keys example_D ∨ c ∈ (StateSet.states example_M).map State.cursor) ∧
    (∀ c, DeletionStateSet.score_at
        (DeletionStateSet.merge example_D (StateSet.states example_M) 3).1 c
        = min (DeletionStateSet.score_at example_D c)
            (states_score_at (StateSet.states example_M) c + 3)) ∧
    (DeletionStateSet.merge example_D (StateSet.states example_M) 3).2
      = (StateSet.states example_M).countP (fun st => (find example_D st.cursor).isNone
          || decide (st.score + 3 < DeletionStateSet.score_at example_D st.cursor))) :=
  ⟨⟨by decide, by decide⟩,
    DeletionStateSet.merge_spec example_D (StateSet.states example_M) 3 (by decide) (by decide)⟩

theorem dm_new_delete_witness :
    (1 ≤ 1 ∧ wf example_D ∧ wf example_M) ∧
    (wf (dm_new example_graph example_fees [1] example_D example_M example_I 1).1 ∧
    (∀ c, c ∈ keys (dm_new example_graph example_fees [1] example_D example_M example_I 1).1 ↔
      c ∈ keys example_D ∨ c ∈ keys example_M) ∧
    (∀ c, DeletionStateSet.score_at
        (dm_new example_graph example_fees [1] example_D example_M example_I 1).1 c
        = min (DeletionStateSet.score_at example_D c + example_fees.t (1 - 1) p7H_DD)
              (StateSet.score_at example_M c + example_fees.t (1 - 1) p7H_MD))) :=
  ⟨⟨by decide, by decide, by decide⟩,
    dm_new_delete example_graph example_fees [1] example_D example_M example_I 1
      (by decide) (by decide) (by decide)⟩

theorem dm_new_match_witness :
    (1 ≤ 1 ∧ wf example_D ∧ wf example_M ∧ wf example_I) ∧
    (wf (dm_new example_graph example_fees [1] example_D example_M example_I 1).2 ∧
    (∀ n, n ∈ keys (dm_new example_graph example_fees [1] example_D example_M example_I 1).2 ↔
      ∃ c, (c ∈ keys example_D ∨ c ∈ keys example_M ∨ c ∈ keys example_I) ∧
        n ∈ successors example_graph [1] c) ∧
    (∀ n c, (c ∈ keys example_D ∨ c ∈ keys example_M ∨ c ∈ keys example_I) →
      n ∈ successors example_graph [1] c →
      StateSet.score_at (dm_new example_graph example_fees [1] example_D example_M example_I 1).2 n
        ≤ preM_score example_fees example_D example_M example_I 1 c
            + example_fees.mat 1 (example_fees.code (example_graph.letter n))) ∧
    (∀ n, n ∈ keys (dm_new example_graph example_fees [1] example_D example_M example_I 1).2 →
      ∃ c, (c ∈ keys example_D ∨ c ∈ keys example_M ∨ c ∈ keys example_I) ∧
        n ∈ successors example_graph [1] c ∧
        StateSet.score_at
            (dm_new example_graph example_fees [1] example_D example_M example_I 1).2 n
          = preM_score example_fees example_D example_M example_I 1 c
              + example_fees.mat 1 (example_fees.code (example_graph.letter n))) ∧
    (∀ n node,
      find (dm_new example_graph example_fees [1] example_D example_M example_I 1).2 n = some node →
      ∃ c s p, node = PathLink.link c s p ∧
        (c ∈ keys example_D ∨ c ∈ keys example_M ∨ c ∈ keys example_I) ∧
        n ∈ successors example_graph [1] c)) :=
  ⟨⟨by decide, by decide, by decide, by decide⟩,
    dm_new_match example_graph example_fees [1] example_D example_M example_I 1
      (by decide) (by decide) (by decide) (by decide)⟩

/-- The example run of `dm_new`, evaluated. -/
theorem dm_new_example :
    dm_new example_graph example_fees [1] example_D example_M example_I 1
      = ([(1, { plink := PathLink.master_source, score := 11 }),
          (2, { plink := PathLink.link 1 3 PathLink.master_source, score := 6 }),
          (0, { plink := PathLink.master_source, score := 3 })],
         [(2, PathLink.link 1 12 PathLink.master_source),
          (3, PathLink.link 2 6 (PathLink.link 1 3 PathLink.master_source)),
          (1, PathLink.link 0 3 PathLink.master_source),
          (4, PathLink.link 3 11 (PathLink.link 2 5 PathLink.master_source))]) := by
  decide

end impl

namespace impl

set_option linter.unusedSectionVars false
set_option linter.unusedVariables false

/-! ## Walks -/

section WalkFacts

variable {GraphCursor : Type} [DecidableEq GraphCursor]

theorem find_set {K V : Type} [DecidableEq K] (m : List (K × V)) (k : K) (v : V) (c : K) :
    find (set m k v) c = if k = c then some v else find m c := by
  unfold set count
  rcases Option.eq_none_or_eq_some (find m k) with h | ⟨x, h⟩
  · simp only [h, Option.isSome_none, Bool.false_eq_true, if_false, find_append, find]
    by_cases hc : k = c
    · subst hc; simp [h]
    · simp only [hc, if_false]
      cases find m c <;> rfl
  · simp only [h, Option.isSome_some, if_true, find_assign, Option.map_some']

theorem walk_zero (g : Cursor GraphCursor) (c : GraphCursor) : walk_at_least g 0 c = true := rfl

theorem walk_succ (g : Cursor GraphCursor) (d : Nat) (c : GraphCursor) :
    walk_at_least g (d + 1) c =
      (g.is_empty c ||
        (!is_stop g c && (decide (d = 0) || (g.next c).any (fun n => walk_at_least g d n)))) :=
  rfl

theorem walk_empty (g : Cursor GraphCursor) (d : Nat) (c : GraphCursor)
    (h : g.is_empty c = true) : walk_at_least g d c = true := by
  cases d with
  | zero => rfl
  | succ d => simp [walk_succ, h]

theorem walk_stop (g : Cursor GraphCursor) (d : Nat) (c : GraphCursor)
    (he : g.is_empty c = false) (hs : is_stop g c = true) :
    walk_at_least g (d + 1) c = false := by
  simp [walk_succ, he, hs]

theorem walk_one (g : Cursor GraphCursor) (c : GraphCursor) (h : live g c) :
    walk_at_least g 1 c = true := by
  simp [walk_succ, h.2]

theorem walk_step (g : Cursor GraphCursor) (d : Nat) (c n : GraphCursor) (h : live g c)
    (hn : n ∈ g.next c) (hw : walk_at_least g d n = true) :
    walk_at_least g (d + 1) c = true := by
  simp only [walk_succ, h.1, h.2, Bool.false_or, Bool.not_false, Bool.true_and,
    Bool.or_eq_true, decide_eq_true_eq, List.any_eq_true]
  right
  exact ⟨n, hn, hw⟩

theorem walk_antitone (g : Cursor GraphCursor) (d : Nat) :
    ∀ c, walk_at_least g (d + 1) c = true → walk_at_least g d c = true := by
  induction d with
  | zero => intro c _; rfl
  | succ d ih =>
    intro c h
    rw [walk_succ] at h ⊢
    simp only [Bool.or_eq_true, Bool.and_eq_true, Bool.not_eq_true', decide_eq_true_eq,
      List.any_eq_true] at h ⊢
    rcases h with h | ⟨hs, h⟩
    · exact Or.inl h
    · right
      refine ⟨hs, ?_⟩
      rcases h with h | ⟨n, hn, hw⟩
      · omega
      · by_cases hd : d = 0
        · exact Or.inl hd
        · exact Or.inr ⟨n, hn, ih n hw⟩

theorem walk_mono (g : Cursor GraphCursor) (c : GraphCursor) (d d' : Nat) (hle : d' ≤ d)
    (h : walk_at_least g d c = true) : walk_at_least g d' c = true := by
  induction d with
  | zero =>
    have : d' = 0 := by omega
    subst this; rfl
  | succ d ih =>
    by_cases hd : d' = d + 1
    · subst hd; exact h
    · exact ih (by omega) (walk_antitone g d c h)

/-- A long walk from a live cursor continues through one of its successors. -/
theorem walk_succ_inv (g : Cursor GraphCursor) (d : Nat) (c : GraphCursor)
    (he : g.is_empty c = false) (h : walk_at_least g (d + 2) c = true) :
    ∃ n ∈ g.next c, walk_at_least g (d + 1) n = true := by
  rw [walk_succ] at h
  simp only [he, Bool.false_or, Bool.and_eq_true, Bool.not_eq_true', Bool.or_eq_true,
    decide_eq_true_eq, List.any_eq_true] at h
  rcases h.2 with h | h
  · omega
  · exact h

theorem LivePath.snoc (g : Cursor GraphCursor) (a b c : GraphCursor) (h : LivePath g a b)
    (hb : live g b) (hc : c ∈ g.next b) : LivePath g a c := by
  induction h with
  | single a b ha hab => exact LivePath.cons a b c ha hab (LivePath.single b c hb hc)
  | cons a b x ha hab _ ih => exact LivePath.cons a b c ha hab (ih hb hc)

theorem LivePath.live_start (g : Cursor GraphCursor) (a b : GraphCursor)
    (h : LivePath g a b) : live g a := by
  cases h with
  | single _ _ ha _ => exact ha
  | cons _ _ _ ha _ _ => exact ha

/-- A walk from the end of a live path gives a longer walk from its start. -/
theorem LivePath.pump (g : Cursor GraphCursor) (a b : GraphCursor) (h : LivePath g a b)
    (d : Nat) (hw : walk_at_least g d b = true) : walk_at_least g (d + 1) a = true := by
  induction h with
  | single a b ha hab => exact walk_step g d a b ha hab hw
  | cons a b x ha hab _ ih =>
    exact walk_step g d a b ha hab (walk_antitone g d b (ih hw))

/-- A cursor on a live cycle has walks of every length. -/
theorem walk_of_cycle (g : Cursor GraphCursor) (c : GraphCursor) (h : LivePath g c c)
    (d : Nat) : walk_at_least g d c = true := by
  induction d with
  | zero => rfl
  | succ d ih => exact LivePath.pump g c c h d ih

end WalkFacts

end impl

namespace impl

set_option linter.unusedSectionVars false
set_option linter.unusedVariables false

/-! ## The bounded estimator -/

section BoundedFacts

variable {GraphCursor : Type} [DecidableEq GraphCursor]

theorem set_erase_set_insert (stack : List GraphCursor) (cursor : GraphCursor)
    (h : cursor ∉ stack) : set_erase (set_insert stack cursor) cursor = stack := by
  unfold set_insert set_erase
  rw [if_neg h]
  have hf : List.filter (fun x => decide (x ≠ cursor)) stack = stack := by
    rw [List.filter_eq_self]
    intro a ha
    simp only [ne_eq, decide_eq_true_eq]
    intro e
    exact h (e ▸ ha)
  simp only [List.filter_cons, ne_eq, not_true_eq_false, decide_False] at hf ⊢
  exact hf

theorem CacheInv.store (g : Cursor GraphCursor) (depth_ : List (GraphCursor × Estimation))
    (cursor : GraphCursor) (e : Estimation) (h : CacheInv g depth_) (he : Valid g cursor e) :
    CacheInv g (set depth_ cursor e) := by
  intro c x hx
  rw [find_set] at hx
  by_cases hc : cursor = c
  · simp only [hc, if_true, Option.some.injEq] at hx
    subst hx; subst hc; exact he
  · simp only [hc, if_false] at hx
    exact h c x hx

/-- What the loop over the successors establishes, given what the recursive call
does. -/
theorem DepthAtLeast.children_spec (g : Cursor GraphCursor) (L : Nat)
    (rec : GraphCursor → List GraphCursor → DepthAtLeast GraphCursor →
      Estimation × List GraphCursor × DepthAtLeast GraphCursor)
    (hrec : ∀ n stack self, CacheInv g self.depth_ → StackInv g stack n →
      (rec n stack self).2.1 = stack ∧ CacheInv g (rec n stack self).2.2.depth_ ∧
      Valid g n (rec n stack self).1 ∧
      ((rec n stack self).1.exact = false → L < (rec n stack self).1.value)) :
    ∀ (nexts : List GraphCursor) (acc : Nat × Bool × List GraphCursor × DepthAtLeast GraphCursor),
      CacheInv g acc.2.2.2.depth_ → (∀ n ∈ nexts, StackInv g acc.2.2.1 n) →
      (DepthAtLeast.children rec nexts acc).2.2.1 = acc.2.2.1 ∧
      CacheInv g (DepthAtLeast.children rec nexts acc).2.2.2.depth_ ∧
      acc.1 ≤ (DepthAtLeast.children rec nexts acc).1 ∧
      ((DepthAtLeast.children rec nexts acc).1 = acc.1 ∨
        ∃ n ∈ nexts, walk_at_least g (DepthAtLeast.children rec nexts acc).1 n = true) ∧
      ((DepthAtLeast.children rec nexts acc).2.1 = true →
        acc.2.1 = true ∧ ((DepthAtLeast.children rec nexts acc).1 < INF →
          ∀ n ∈ nexts, walk_at_least g ((DepthAtLeast.children rec nexts acc).1 + 1) n = false)) ∧
      ((DepthAtLeast.children rec nexts acc).2.1 = false →
        acc.2.1 = false ∨ L < (DepthAtLeast.children rec nexts acc).1) := by
  intro nexts
  induction nexts with
  | nil =>
    intro acc hinv _
    have hnil : DepthAtLeast.children rec [] acc = acc := rfl
    rw [hnil]
    exact ⟨rfl, hinv, le_refl _, Or.inl rfl, fun h => ⟨h, fun _ n hn => absurd hn (List.not_mem_nil n)⟩,
      fun h => Or.inl h⟩
  | cons n rest ih =>
    intro acc hinv hstack
    obtain ⟨r1, r2, r3, r4⟩ := hrec n acc.2.2.1 acc.2.2.2 hinv (hstack n (List.mem_cons_self _ _))
    have hstep : DepthAtLeast.children rec (n :: rest) acc
        = DepthAtLeast.children rec rest
            (max acc.1 (rec n acc.2.2.1 acc.2.2.2).1.value,
             acc.2.1 && (rec n acc.2.2.1 acc.2.2.2).1.exact,
             (rec n acc.2.2.1 acc.2.2.2).2.1, (rec n acc.2.2.1 acc.2.2.2).2.2) := rfl
    rw [hstep]
    obtain ⟨i1, i2, i3, i4, i5, i6⟩ := ih
      (max acc.1 (rec n acc.2.2.1 acc.2.2.2).1.value,
        acc.2.1 && (rec n acc.2.2.1 acc.2.2.2).1.exact,
        (rec n acc.2.2.1 acc.2.2.2).2.1, (rec n acc.2.2.1 acc.2.2.2).2.2) r2
      (by
        intro x hx
        simp only [r1]
        exact hstack x (List.mem_cons_of_mem _ hx))
    simp only at i1 i3 i4 i5 i6
    generalize DepthAtLeast.children rec rest
      (max acc.1 (rec n acc.2.2.1 acc.2.2.2).1.value,
        acc.2.1 && (rec n acc.2.2.1 acc.2.2.2).1.exact,
        (rec n acc.2.2.1 acc.2.2.2).2.1, (rec n acc.2.2.1 acc.2.2.2).2.2) = R at *
    refine ⟨i1.trans r1, i2, le_trans (le_max_left _ _) i3, ?_, ?_, ?_⟩
    · rcases i4 with i4 | ⟨x, hx, hw⟩
      · rcases le_total acc.1 (rec n acc.2.2.1 acc.2.2.2).1.value with hle | hle
        · rw [max_eq_right hle] at i4
          right
          exact ⟨n, List.mem_cons_self _ _, by rw [i4]; exact r3.1⟩
        · rw [max_eq_left hle] at i4
          exact Or.inl i4
      · right
        exact ⟨x, List.mem_cons_of_mem _ hx, hw⟩
    · intro he
      obtain ⟨j1, j2⟩ := i5 he
      simp only [Bool.and_eq_true] at j1
      refine ⟨j1.1, ?_⟩
      intro hlt x hx
      simp only [List.mem_cons] at hx
      rcases hx with rfl | hx
      · have hv : (rec x acc.2.2.1 acc.2.2.2).1.value ≤ R.1 :=
          le_trans (le_max_right _ _) i3
        have hfalse := r3.2 j1.2 (lt_of_le_of_lt hv hlt)
        by_contra hcon
        simp only [Bool.not_eq_false] at hcon
        have := walk_mono g x _ ((rec x acc.2.2.1 acc.2.2.2).1.value + 1) (by omega) hcon
        rw [hfalse] at this
        exact Bool.false_ne_true this
      · exact j2 hlt x hx
    · intro he
      rcases i6 he with j | j
      · simp only [Bool.and_eq_false_iff] at j
        rcases j with j | j
        · exact Or.inl j
        · right
          exact lt_of_lt_of_le (r4 j) (le_trans (le_max_right _ _) i3)
      · exact Or.inr j

end BoundedFacts

end impl

namespace impl

set_option linter.unusedSectionVars false
set_option linter.unusedVariables false

section BoundedSpec

variable {GraphCursor : Type} [DecidableEq GraphCursor]

theorem DepthAtLeast.store_spec (g : Cursor GraphCursor) (L : Nat)
    (self : DepthAtLeast GraphCursor) (cursor : GraphCursor) (e : Estimation)
    (stack : List GraphCursor) (hinv : CacheInv g self.depth_) (he : Valid g cursor e)
    (hL : e.exact = false → L < e.value) :
    (DepthAtLeast.store self cursor e stack).2.1 = stack ∧
    CacheInv g (DepthAtLeast.store self cursor e stack).2.2.depth_ ∧
    Valid g cursor (DepthAtLeast.store self cursor e stack).1 ∧
    find (DepthAtLeast.store self cursor e stack).2.2.depth_ cursor
      = some (DepthAtLeast.store self cursor e stack).1 ∧
    ((DepthAtLeast.store self cursor e stack).1.exact = false →
      L < (DepthAtLeast.store self cursor e stack).1.value) := by
  refine ⟨rfl, CacheInv.store g _ _ _ hinv he, he, ?_, hL⟩
  simp [DepthAtLeast.store, find_set]

theorem DepthAtLeast.cached_estimation_some (self : DepthAtLeast GraphCursor)
    (cursor : GraphCursor) (L : Nat) (cached : Estimation)
    (hce : DepthAtLeast.cached_estimation self cursor L = some cached) :
    find self.depth_ cursor = some cached ∧ (cached.exact = true ∨ L < cached.value) := by
  unfold DepthAtLeast.cached_estimation at hce
  rcases hf : find self.depth_ cursor with _ | x
  · simp [hf] at hce
  · simp only [hf] at hce
    by_cases hx : (x.exact || decide (x.value > L)) = true
    · simp only [hx, if_true, Option.some.injEq] at hce
      subst hce
      simp only [Bool.or_eq_true, decide_eq_true_eq] at hx
      exact ⟨rfl, hx⟩
    · simp [hx] at hce

/-- When no early return applies, the cursor is live and not in progress. -/
theorem DepthAtLeast.early_return_none (g : Cursor GraphCursor) (L : Nat)
    (cursor : GraphCursor) (stack : List GraphCursor) (self : DepthAtLeast GraphCursor)
    (h : DepthAtLeast.early_return g L cursor stack self = none) :
    live g cursor ∧ cursor ∉ stack := by
  unfold DepthAtLeast.early_return at h
  by_cases hempty : g.is_empty cursor = true
  · simp [hempty] at h
  · simp only [hempty, Bool.false_eq_true, if_false] at h
    rcases hce : DepthAtLeast.cached_estimation self cursor L with _ | cached
    · simp only [hce] at h
      by_cases hstop : is_stop g cursor = true
      · simp [hstop] at h
      · simp only [hstop, Bool.false_eq_true, if_false] at h
        by_cases hin : cursor ∈ stack
        · simp [hin] at h
        · exact ⟨⟨by simpa using hempty, by simpa using hstop⟩, hin⟩
    · simp [hce] at h

/-- What an early return establishes. -/
theorem DepthAtLeast.early_return_some (g : Cursor GraphCursor) (L : Nat)
    (cursor : GraphCursor) (stack : List GraphCursor) (self : DepthAtLeast GraphCursor)
    (r : Estimation × List GraphCursor × DepthAtLeast GraphCursor)
    (hinv : CacheInv g self.depth_) (hstack : StackInv g stack cursor)
    (h : DepthAtLeast.early_return g L cursor stack self = some r) :
    r.2.1 = stack ∧ CacheInv g r.2.2.depth_ ∧ Valid g cursor r.1 ∧
      find r.2.2.depth_ cursor = some r.1 ∧ (r.1.exact = false → L < r.1.value) := by
  unfold DepthAtLeast.early_return at h
  by_cases hempty : g.is_empty cursor = true
  · simp only [hempty, if_true, Option.some.injEq] at h
    subst h
    refine DepthAtLeast.store_spec g L self cursor _ stack hinv ?_ (by simp)
    exact ⟨walk_empty g _ cursor hempty, by simp⟩
  · simp only [hempty, Bool.false_eq_true, if_false] at h
    have hne : g.is_empty cursor = false := by simpa using hempty
    rcases hce : DepthAtLeast.cached_estimation self cursor L with _ | cached
    · simp only [hce] at h
      by_cases hstop : is_stop g cursor = true
      · simp only [hstop, if_true, Option.some.injEq] at h
        subst h
        refine DepthAtLeast.store_spec g L self cursor _ stack hinv ?_ (by simp)
        exact ⟨rfl, fun _ _ => walk_stop g 0 cursor hne hstop⟩
      · simp only [hstop, Bool.false_eq_true, if_false] at h
        by_cases hin : cursor ∈ stack
        · simp only [hin, if_true, Option.some.injEq] at h
          subst h
          refine DepthAtLeast.store_spec g L self cursor _ stack hinv ?_ (by simp)
          exact ⟨walk_of_cycle g cursor (hstack cursor hin) _, by simp⟩
        · simp [hin] at h
    · simp only [hce, Option.some.injEq] at h
      subst h
      obtain ⟨hfind, hor⟩ := DepthAtLeast.cached_estimation_some self cursor L cached hce
      refine ⟨rfl, hinv, hinv cursor cached hfind, hfind, ?_⟩
      intro hex
      rcases hor with h | h
      · rw [h] at hex; exact absurd hex (by simp)
      · exact h

/-- What `DepthAtLeast::get_depth_` establishes: the in-progress set is restored, the
cache stays right, the returned estimation is right for the cursor and is the cached
one, and an inexact estimation exceeds the stack limit. -/
theorem DepthAtLeast.get_depth_spec (g : Cursor GraphCursor) :
    ∀ (L : Nat) (cursor : GraphCursor) (stack : List GraphCursor)
      (self : DepthAtLeast GraphCursor),
      CacheInv g self.depth_ → StackInv g stack cursor →
      (DepthAtLeast.get_depth_ g L cursor stack self).2.1 = stack ∧
      CacheInv g (DepthAtLeast.get_depth_ g L cursor stack self).2.2.depth_ ∧
      Valid g cursor (DepthAtLeast.get_depth_ g L cursor stack self).1 ∧
      find (DepthAtLeast.get_depth_ g L cursor stack self).2.2.depth_ cursor
        = some (DepthAtLeast.get_depth_ g L cursor stack self).1 ∧
      ((DepthAtLeast.get_depth_ g L cursor stack self).1.exact = false →
        L < (DepthAtLeast.get_depth_ g L cursor stack self).1.value) := by
  intro L
  induction L with
  | zero =>
    intro cursor stack self hinv hstack
    have hdef : DepthAtLeast.get_depth_ g 0 cursor stack self =
        match DepthAtLeast.early_return g 0 cursor stack self with
        | some r => r
        | none => DepthAtLeast.store self cursor { value := 1, exact := false } stack := rfl
    rw [hdef]
    rcases her : DepthAtLeast.early_return g 0 cursor stack self with _ | r
    · simp only
      obtain ⟨hlive, _⟩ := DepthAtLeast.early_return_none g 0 cursor stack self her
      refine DepthAtLeast.store_spec g 0 self cursor _ stack hinv ?_ (by simp)
      exact ⟨walk_one g cursor hlive, by simp⟩
    · simp only
      exact DepthAtLeast.early_return_some g 0 cursor stack self r hinv hstack her
  | succ limit ih =>
    intro cursor stack self hinv hstack
    have hdef : DepthAtLeast.get_depth_ g (limit + 1) cursor stack self =
        match DepthAtLeast.early_return g (limit + 1) cursor stack self with
        | some r => r
        | none => DepthAtLeast.expand g (DepthAtLeast.get_depth_ g limit) cursor stack self := rfl
    rw [hdef]
    rcases her : DepthAtLeast.early_return g (limit + 1) cursor stack self with _ | r
    · simp only
      obtain ⟨hlive, hin⟩ := DepthAtLeast.early_return_none g (limit + 1) cursor stack self her
      have hne := hlive.1
      have hstack2 : ∀ n ∈ g.next cursor, StackInv g (set_insert stack cursor) n := by
        intro n hn s hs
        simp only [set_insert, hin, if_false, List.mem_cons] at hs
        rcases hs with rfl | hs
        · exact LivePath.single _ n hlive hn
        · exact LivePath.snoc g s cursor n (hstack s hs) hlive hn
      obtain ⟨c1, c2, c3, c4, c5, c6⟩ := DepthAtLeast.children_spec g limit
        (DepthAtLeast.get_depth_ g limit)
        (fun n st sf h1 h2 => by
          obtain ⟨a, b, c, _, e⟩ := ih n st sf h1 h2
          exact ⟨a, b, c, e⟩)
        (g.next cursor)
        (0, true, set_insert stack cursor,
          DepthAtLeast.mk self.depth_
            (max self.max_stack_size_ (set_insert stack cursor).length))
        hinv hstack2
      simp only at c1 c3 c4 c5 c6
      unfold DepthAtLeast.expand
      simp only
      generalize DepthAtLeast.children (DepthAtLeast.get_depth_ g limit) (g.next cursor)
        (0, true, set_insert stack cursor,
          DepthAtLeast.mk self.depth_
            (max self.max_stack_size_ (set_insert stack cursor).length)) = R at *
      have hst : set_erase R.2.2.1 cursor = stack := by
        rw [c1]; exact set_erase_set_insert stack cursor hin
      rw [hst]
      by_cases hinf : R.1 = INF
      · simp only [hinf, if_true]
        refine DepthAtLeast.store_spec g (limit + 1) R.2.2.2 cursor _ stack c2 ?_ (by simp)
        refine ⟨?_, by simp⟩
        rcases c4 with c4 | ⟨n, hn, hw⟩
        · rw [hinf] at c4
          simp [INF] at c4
        · rw [hinf] at hw
          exact walk_antitone g _ cursor (walk_step g _ cursor n hlive hn hw)
      · simp only [hinf, if_false]
        refine DepthAtLeast.store_spec g (limit + 1) R.2.2.2 cursor _ stack c2 ?_ ?_
        · refine ⟨?_, ?_⟩
          · simp only
            rcases c4 with c4 | ⟨n, hn, hw⟩
            · rw [c4]
              exact walk_one g cursor hlive
            · rw [Nat.add_comm]
              exact walk_step g _ cursor n hlive hn hw
          · simp only
            intro hex hlt
            obtain ⟨_, hall⟩ := c5 hex
            by_contra hcon
            simp only [Bool.not_eq_false] at hcon
            have h2 : walk_at_least g (R.1 + 2) cursor = true := by
              have : 1 + R.1 + 1 = R.1 + 2 := by omega
              rw [← this]; exact hcon
            obtain ⟨n, hn, hw⟩ := walk_succ_inv g R.1 cursor hne h2
            have hRlt : R.1 < INF := by omega
            rw [hall hRlt n hn] at hw
            exact Bool.false_ne_true hw
        · simp only
          intro hex
          rcases c6 hex with h | h
          · exact absurd h (by simp)
          · omega
    · simp only
      exact DepthAtLeast.early_return_some g (limit + 1) cursor stack self r hinv hstack her

end BoundedSpec

end impl

namespace impl

set_option linter.unusedSectionVars false
set_option linter.unusedVariables false

section BoundedTop

variable {GraphCursor : Type} [DecidableEq GraphCursor]

theorem DepthAtLeast.cached_answer_sound (g : Cursor GraphCursor)
    (self : DepthAtLeast GraphCursor) (cursor : GraphCursor) (depth : Nat) (answer : Bool)
    (hinv : CacheInv g self.depth_) (hd : depth ≤ INF)
    (h : DepthAtLeast.cached_answer self cursor depth = some answer) :
    answer = walk_at_least g depth cursor := by
  unfold DepthAtLeast.cached_answer at h
  rcases hf : find self.depth_ cursor with _ | cached
  · simp [hf] at h
  · simp only [hf] at h
    obtain ⟨hv1, hv2⟩ := hinv cursor cached hf
    by_cases hge : cached.value ≥ depth
    · simp only [hge, if_true, Option.some.injEq] at h
      rw [← h, walk_mono g cursor cached.value depth hge hv1]
    · simp only [hge, if_false] at h
      by_cases hex : cached.exact = true
      · simp only [hex, if_true, Option.some.injEq] at h
        have hlt : cached.value < INF := by omega
        have hfalse := hv2 hex hlt
        rw [← h]
        by_contra hcon
        have hw : walk_at_least g depth cursor = true := by
          cases hwd : walk_at_least g depth cursor with
          | true => rfl
          | false => rw [hwd] at hcon; exact absurd rfl hcon
        have := walk_mono g cursor depth (cached.value + 1) (by omega) hw
        rw [hfalse] at this
        exact Bool.false_ne_true this
      · simp [hex] at h

theorem StackInv.nil (g : Cursor GraphCursor) (cursor : GraphCursor) :
    StackInv g [] cursor := by
  intro s hs; simp at hs

/-- After `get_depth_` with a stack limit that is at least `depth`, the cache decides
the query. -/
theorem DepthAtLeast.cached_answer_after (g : Cursor GraphCursor)
    (self : DepthAtLeast GraphCursor) (cursor : GraphCursor) (depth L : Nat)
    (hinv : CacheInv g self.depth_) (hL : depth ≤ L) :
    ∃ answer, DepthAtLeast.cached_answer (DepthAtLeast.get_depth_ g L cursor [] self).2.2
      cursor depth = some answer := by
  obtain ⟨_, _, _, hfind, hex⟩ := DepthAtLeast.get_depth_spec g L cursor [] self hinv
    (StackInv.nil g cursor)
  unfold DepthAtLeast.cached_answer
  rw [hfind]
  simp only
  by_cases hge : (DepthAtLeast.get_depth_ g L cursor [] self).1.value ≥ depth
  · exact ⟨true, by simp [hge]⟩
  · simp only [hge, if_false]
    by_cases hx : (DepthAtLeast.get_depth_ g L cursor [] self).1.exact = true
    · exact ⟨false, by simp [hx]⟩
    · have := hex (by simpa using hx)
      omega

theorem stack_limit_bounds (depth : Nat) (h1 : 1 ≤ depth) (h2 : depth ≤ 25000) :
    max ((2 * depth) % 2 ^ 64) 10 ≥ depth ∧ max ((2 * depth) % 2 ^ 64) 10 ≤ STACK_LIMIT := by
  have : (2 * depth) % 2 ^ 64 = 2 * depth := Nat.mod_eq_of_lt (by omega)
  rw [this]
  unfold STACK_LIMIT
  omega

/-- The body of `depth_at_least` keeps the cache right whenever it returns, whatever the
call of itself does, as long as that call keeps it right. -/
theorem DepthAtLeast.body_preserves (g : Cursor GraphCursor)
    (again : DepthAtLeast GraphCursor → Except Abort (Bool × DepthAtLeast GraphCursor))
    (hagain : ∀ s answer s', CacheInv g s.depth_ → again s = Except.ok (answer, s') →
      CacheInv g s'.depth_)
    (self : DepthAtLeast GraphCursor) (cursor : GraphCursor) (depth : Nat) (answer : Bool)
    (self' : DepthAtLeast GraphCursor) (hinv : CacheInv g self.depth_)
    (h : DepthAtLeast.depth_at_least_body g again self cursor depth = Except.ok (answer, self')) :
    CacheInv g self'.depth_ := by
  unfold DepthAtLeast.depth_at_least_body at h
  by_cases hd : depth = 0
  · simp only [hd, if_true, Except.ok.injEq, Prod.mk.injEq] at h
    rw [← h.2]; exact hinv
  · simp only [hd, if_false] at h
    rcases hca : DepthAtLeast.cached_answer self cursor depth with _ | a
    · simp only [hca] at h
      split at h
      · simp at h
      · split at h
        · simp at h
        · split at h
          · simp at h
          · split at h
            · simp at h
            · exact hagain _ answer self'
                (DepthAtLeast.get_depth_spec g _ cursor [] self hinv (StackInv.nil g cursor)).2.1 h
    · simp only [hca, Except.ok.injEq, Prod.mk.injEq] at h
      rw [← h.2]; exact hinv

theorem DepthAtLeast.preserves (g : Cursor GraphCursor) :
    ∀ (fuel : Nat) (self : DepthAtLeast GraphCursor) (cursor : GraphCursor) (depth : Nat)
      (answer : Bool) (self' : DepthAtLeast GraphCursor), CacheInv g self.depth_ →
      DepthAtLeast.depth_at_least g fuel self cursor depth = Except.ok (answer, self') →
      CacheInv g self'.depth_ := by
  intro fuel
  induction fuel with
  | zero =>
    intro self cursor depth answer self' hinv h
    exact DepthAtLeast.body_preserves g _ (fun s a s' _ hs => by simp at hs) self cursor depth
      answer self' hinv h
  | succ fuel ih =>
    intro self cursor depth answer self' hinv h
    exact DepthAtLeast.body_preserves g _
      (fun s a s' hs hq => ih s cursor depth a s' hs hq) self cursor depth answer self' hinv h

theorem DepthAtLeast.Reachable.cacheInv (g : Cursor GraphCursor)
    (self : DepthAtLeast GraphCursor) (h : DepthAtLeast.Reachable g self) :
    CacheInv g self.depth_ := by
  induction h with
  | fresh => intro c e hf; simp [find] at hf
  | query self fuel cursor depth answer self' _ hq ih =>
    exact DepthAtLeast.preserves g fuel self cursor depth answer self' ih hq

/-- The bounded estimator answers a query `1 ≤ depth ≤ 25000` with at most one call of
itself, and its answer says whether a walk of length `depth` starts at the cursor. -/
theorem DepthAtLeast.depth_at_least_correct (g : Cursor GraphCursor)
    (self : DepthAtLeast GraphCursor) (hinv : CacheInv g self.depth_) (cursor : GraphCursor)
    (depth : Nat) (h1 : 1 ≤ depth) (h2 : depth ≤ 25000) (fuel : Nat) (hfuel : 1 ≤ fuel) :
    ∃ self', DepthAtLeast.depth_at_least g fuel self cursor depth
      = Except.ok (walk_at_least g depth cursor, self') := by
  have hINF : depth ≤ INF := by unfold INF; omega
  obtain ⟨f, rfl⟩ : ∃ f, fuel = f + 1 := ⟨fuel - 1, by omega⟩
  have hdef : DepthAtLeast.depth_at_least g (f + 1) self cursor depth
      = DepthAtLeast.depth_at_least_body g
          (fun self' => DepthAtLeast.depth_at_least g f self' cursor depth) self cursor depth := rfl
  rw [hdef]
  unfold DepthAtLeast.depth_at_least_body
  have hd : ¬ depth = 0 := by omega
  simp only [hd, if_false]
  rcases hca : DepthAtLeast.cached_answer self cursor depth with _ | a
  · simp only
    obtain ⟨b1, b2⟩ := stack_limit_bounds depth h1 h2
    obtain ⟨s1, s2, s3, s4, s5⟩ := DepthAtLeast.get_depth_spec g
      (max ((2 * depth) % 2 ^ 64) 10) cursor [] self hinv (StackInv.nil g cursor)
    have hcount : count (DepthAtLeast.get_depth_ g (max ((2 * depth) % 2 ^ 64) 10) cursor []
        self).2.2.depth_ cursor = true := by
      unfold count; rw [s4]; rfl
    simp only [b1, b2, s1, hcount, not_true_eq_false, if_false]
    obtain ⟨answer, hans⟩ := DepthAtLeast.cached_answer_after g self cursor depth
      (max ((2 * depth) % 2 ^ 64) 10) hinv b1
    have hsound := DepthAtLeast.cached_answer_sound g _ cursor depth answer s2 hINF hans
    refine ⟨(DepthAtLeast.get_depth_ g (max ((2 * depth) % 2 ^ 64) 10) cursor [] self).2.2, ?_⟩
    cases f with
    | zero =>
      have hdef0 : DepthAtLeast.depth_at_least g 0
          (DepthAtLeast.get_depth_ g (max ((2 * depth) % 2 ^ 64) 10) cursor [] self).2.2
          cursor depth
          = DepthAtLeast.depth_at_least_body g (fun _ => Except.error Abort.fuel)
              (DepthAtLeast.get_depth_ g (max ((2 * depth) % 2 ^ 64) 10) cursor [] self).2.2
              cursor depth := rfl
      rw [hdef0]
      unfold DepthAtLeast.depth_at_least_body
      simp only [hd, if_false, hans, hsound]
    | succ f2 =>
      have hdef1 : DepthAtLeast.depth_at_least g (f2 + 1)
          (DepthAtLeast.get_depth_ g (max ((2 * depth) % 2 ^ 64) 10) cursor [] self).2.2
          cursor depth
          = DepthAtLeast.depth_at_least_body g
              (fun self' => DepthAtLeast.depth_at_least g f2 self' cursor depth)
              (DepthAtLeast.get_depth_ g (max ((2 * depth) % 2 ^ 64) 10) cursor [] self).2.2
              cursor depth := rfl
      rw [hdef1]
      unfold DepthAtLeast.depth_at_least_body
      simp only [hd, if_false, hans, hsound]
  · simp only
    exact ⟨self, by rw [DepthAtLeast.cached_answer_sound g self cursor depth a hinv hINF hca]⟩

end BoundedTop

end impl

namespace impl

set_option linter.unusedSectionVars false
set_option linter.unusedVariables false

/-! ## The exact estimator -/

section ExactFacts

variable {GraphCursor : Type} [DecidableEq GraphCursor]

theorem CacheInvI.di_store (g : Cursor GraphCursor) (depth_ : List (GraphCursor × Nat))
    (cursor : GraphCursor) (v : Nat) (h : CacheInvI g depth_) (hv : ValidI g cursor v) :
    CacheInvI g (set depth_ cursor v) := by
  intro c x hx
  rw [find_set] at hx
  by_cases hc : cursor = c
  · simp only [hc, if_true, Option.some.injEq] at hx
    subst hx; subst hc; exact hv
  · simp only [hc, if_false] at hx
    exact h c x hx

theorem DepthInt.di_store_spec (g : Cursor GraphCursor) (self : DepthInt GraphCursor)
    (cursor : GraphCursor) (v : Nat) (stack : List GraphCursor)
    (r : Nat × List GraphCursor × DepthInt GraphCursor)
    (hinv : CacheInvI g self.depth_) (hv : ValidI g cursor v)
    (h : DepthInt.store self cursor v stack = some r) :
    r.2.1 = stack ∧ CacheInvI g r.2.2.depth_ ∧ ValidI g cursor r.1 := by
  simp only [DepthInt.store, Option.some.injEq] at h
  subst h
  exact ⟨rfl, CacheInvI.di_store g _ _ _ hinv hv, hv⟩

theorem DepthInt.di_early_return_none (g : Cursor GraphCursor) (cursor : GraphCursor)
    (stack : List GraphCursor) (self : DepthInt GraphCursor)
    (h : DepthInt.early_return g cursor stack self = none) :
    live g cursor ∧ cursor ∉ stack := by
  unfold DepthInt.early_return at h
  rcases hf : find self.depth_ cursor with _ | cached
  · simp only [hf] at h
    by_cases hempty : g.is_empty cursor = true
    · simp [hempty, DepthInt.store] at h
    · simp only [hempty, Bool.false_eq_true, if_false] at h
      by_cases hstop : is_stop g cursor = true
      · simp [hstop, DepthInt.store] at h
      · simp only [hstop, Bool.false_eq_true, if_false] at h
        by_cases hin : cursor ∈ stack
        · simp [hin, DepthInt.store] at h
        · exact ⟨⟨by simpa using hempty, by simpa using hstop⟩, hin⟩
  · simp [hf] at h

theorem DepthInt.early_return_stack (g : Cursor GraphCursor) (cursor : GraphCursor)
    (stack : List GraphCursor) (self : DepthInt GraphCursor)
    (r : Nat × List GraphCursor × DepthInt GraphCursor)
    (h : DepthInt.early_return g cursor stack self = some r) : r.2.1 = stack := by
  unfold DepthInt.early_return at h
  rcases hf : find self.depth_ cursor with _ | cached
  · simp only [hf] at h
    by_cases hempty : g.is_empty cursor = true
    · simp only [hempty, if_true, DepthInt.store, Option.some.injEq] at h
      rw [← h]
    · simp only [hempty, Bool.false_eq_true, if_false] at h
      by_cases hstop : is_stop g cursor = true
      · simp only [hstop, if_true, DepthInt.store, Option.some.injEq] at h
        rw [← h]
      · simp only [hstop, Bool.false_eq_true, if_false] at h
        by_cases hin : cursor ∈ stack
        · simp only [hin, if_true, DepthInt.store, Option.some.injEq] at h
          rw [← h]
        · simp [hin] at h
  · simp only [hf, Option.some.injEq] at h
    rw [← h]

theorem DepthInt.di_early_return_some (g : Cursor GraphCursor) (cursor : GraphCursor)
    (stack : List GraphCursor) (self : DepthInt GraphCursor)
    (r : Nat × List GraphCursor × DepthInt GraphCursor)
    (hinv : CacheInvI g self.depth_) (hstack : StackInv g stack cursor)
    (h : DepthInt.early_return g cursor stack self = some r) :
    r.2.1 = stack ∧ CacheInvI g r.2.2.depth_ ∧ ValidI g cursor r.1 := by
  unfold DepthInt.early_return at h
  rcases hf : find self.depth_ cursor with _ | cached
  · simp only [hf] at h
    by_cases hempty : g.is_empty cursor = true
    · simp only [hempty, if_true] at h
      exact DepthInt.di_store_spec g self cursor _ stack r hinv
        ⟨walk_empty g _ cursor hempty, by simp⟩ h
    · simp only [hempty, Bool.false_eq_true, if_false] at h
      have hne : g.is_empty cursor = false := by simpa using hempty
      by_cases hstop : is_stop g cursor = true
      · simp only [hstop, if_true] at h
        exact DepthInt.di_store_spec g self cursor _ stack r hinv
          ⟨walk_zero g cursor, fun _ => walk_stop g 0 cursor hne hstop⟩ h
      · simp only [hstop, Bool.false_eq_true, if_false] at h
        by_cases hin : cursor ∈ stack
        · simp only [hin, if_true] at h
          exact DepthInt.di_store_spec g self cursor _ stack r hinv
            ⟨walk_of_cycle g cursor (hstack cursor hin) _, by simp⟩ h
        · simp [hin] at h
  · simp only [hf, Option.some.injEq] at h
    subst h
    exact ⟨rfl, hinv, hinv cursor cached hf⟩

/-- What the loop over the successors of the exact estimator establishes when it
returns. -/
theorem DepthInt.di_children_spec (g : Cursor GraphCursor)
    (rec : GraphCursor → List GraphCursor → DepthInt GraphCursor →
      Option (Nat × List GraphCursor × DepthInt GraphCursor))
    (hrec : ∀ n stack self r, CacheInvI g self.depth_ → StackInv g stack n →
      rec n stack self = some r →
      r.2.1 = stack ∧ CacheInvI g r.2.2.depth_ ∧ ValidI g n r.1) :
    ∀ (nexts : List GraphCursor) (acc R : Nat × List GraphCursor × DepthInt GraphCursor),
      DepthInt.children rec nexts acc = some R →
      CacheInvI g acc.2.2.depth_ → (∀ n ∈ nexts, StackInv g acc.2.1 n) →
      R.2.1 = acc.2.1 ∧ CacheInvI g R.2.2.depth_ ∧ acc.1 ≤ R.1 ∧
      (R.1 = acc.1 ∨ ∃ n ∈ nexts, walk_at_least g R.1 n = true) ∧
      (R.1 < INF → ∀ n ∈ nexts, walk_at_least g (R.1 + 1) n = false) := by
  intro nexts
  induction nexts with
  | nil =>
    intro acc R h hinv _
    simp only [DepthInt.children, Option.some.injEq] at h
    subst h
    exact ⟨rfl, hinv, le_refl _, Or.inl rfl, fun _ n hn => absurd hn (List.not_mem_nil n)⟩
  | cons n rest ih =>
    intro acc R h hinv hstack
    simp only [DepthInt.children] at h
    rcases hr : rec n acc.2.1 acc.2.2 with _ | result
    · simp [hr] at h
    · simp only [hr] at h
      obtain ⟨r1, r2, r3⟩ := hrec n acc.2.1 acc.2.2 result hinv
        (hstack n (List.mem_cons_self _ _)) hr
      obtain ⟨i1, i2, i3, i4, i5⟩ := ih (max acc.1 result.1, result.2.1, result.2.2) R h r2
        (by
          intro x hx
          simp only [r1]
          exact hstack x (List.mem_cons_of_mem _ hx))
      simp only at i1 i3 i4 i5
      refine ⟨i1.trans r1, i2, le_trans (le_max_left _ _) i3, ?_, ?_⟩
      · rcases i4 with i4 | ⟨x, hx, hw⟩
        · rcases le_total acc.1 result.1 with hle | hle
          · rw [max_eq_right hle] at i4
            right
            exact ⟨n, List.mem_cons_self _ _, by rw [i4]; exact r3.1⟩
          · rw [max_eq_left hle] at i4
            exact Or.inl i4
        · right
          exact ⟨x, List.mem_cons_of_mem _ hx, hw⟩
      · intro hlt x hx
        simp only [List.mem_cons] at hx
        rcases hx with rfl | hx
        · have hv : result.1 ≤ R.1 := le_trans (le_max_right _ _) i3
          have hfalse := r3.2 (lt_of_le_of_lt hv hlt)
          by_contra hcon
          simp only [Bool.not_eq_false] at hcon
          have := walk_mono g x _ (result.1 + 1) (by omega) hcon
          rw [hfalse] at this
          exact Bool.false_ne_true this
        · exact i5 hlt x hx

/-- Whenever `DepthInt::get_depth_` returns, the in-progress set is restored, the cache
stays right and the returned depth is right for the cursor. -/
theorem DepthInt.di_get_depth_spec (g : Cursor GraphCursor) :
    ∀ (fuel : Nat) (cursor : GraphCursor) (stack : List GraphCursor)
      (self : DepthInt GraphCursor) (r : Nat × List GraphCursor × DepthInt GraphCursor),
      DepthInt.get_depth_ g fuel cursor stack self = some r →
      CacheInvI g self.depth_ → StackInv g stack cursor →
      r.2.1 = stack ∧ CacheInvI g r.2.2.depth_ ∧ ValidI g cursor r.1 := by
  intro fuel
  induction fuel with
  | zero =>
    intro cursor stack self r h hinv hstack
    exact DepthInt.di_early_return_some g cursor stack self r hinv hstack h
  | succ fuel ih =>
    intro cursor stack self r h hinv hstack
    have hdef : DepthInt.get_depth_ g (fuel + 1) cursor stack self =
        match DepthInt.early_return g cursor stack self with
        | some r => some r
        | none => DepthInt.expand g (DepthInt.get_depth_ g fuel) cursor stack self := rfl
    rw [hdef] at h
    rcases her : DepthInt.early_return g cursor stack self with _ | r0
    · simp only [her] at h
      obtain ⟨hlive, hin⟩ := DepthInt.di_early_return_none g cursor stack self her
      have hne := hlive.1
      have hstack2 : ∀ n ∈ g.next cursor, StackInv g (set_insert stack cursor) n := by
        intro n hn s hs
        simp only [set_insert, hin, if_false, List.mem_cons] at hs
        rcases hs with rfl | hs
        · exact LivePath.single _ n hlive hn
        · exact LivePath.snoc g s cursor n (hstack s hs) hlive hn
      unfold DepthInt.expand at h
      simp only at h
      rcases hch : DepthInt.children (DepthInt.get_depth_ g fuel) (g.next cursor)
          (0, set_insert stack cursor,
            DepthInt.mk self.depth_
              (max self.max_stack_size_ (set_insert stack cursor).length)) with _ | R
      · simp [hch] at h
      · simp only [hch] at h
        obtain ⟨c1, c2, c3, c4, c5⟩ := DepthInt.di_children_spec g (DepthInt.get_depth_ g fuel)
          (fun n st sf r0 h1 h2 h3 => ih n st sf r0 h3 h1 h2) (g.next cursor) _ R hch hinv hstack2
        simp only at c1 c3 c4 c5
        have hst : set_erase R.2.1 cursor = stack := by
          rw [c1]; exact set_erase_set_insert stack cursor hin
        rw [hst] at h
        refine DepthInt.di_store_spec g R.2.2 cursor _ stack r c2 ?_ h
        by_cases hinf : R.1 = INF
        · simp only [hinf, if_true]
          refine ⟨?_, by simp⟩
          rcases c4 with c4 | ⟨n, hn, hw⟩
          · rw [hinf] at c4
            simp [INF] at c4
          · rw [hinf] at hw
            exact walk_antitone g _ cursor (walk_step g _ cursor n hlive hn hw)
        · simp only [hinf, if_false]
          refine ⟨?_, ?_⟩
          · rcases c4 with c4 | ⟨n, hn, hw⟩
            · rw [c4]
              exact walk_one g cursor hlive
            · rw [Nat.add_comm]
              exact walk_step g _ cursor n hlive hn hw
          · intro hlt
            by_contra hcon
            simp only [Bool.not_eq_false] at hcon
            have h2 : walk_at_least g (R.1 + 2) cursor = true := by
              have : 1 + R.1 + 1 = R.1 + 2 := by omega
              rw [← this]; exact hcon
            obtain ⟨n, hn, hw⟩ := walk_succ_inv g R.1 cursor hne h2
            have hRlt : R.1 < INF := by omega
            rw [c5 hRlt n hn] at hw
            exact Bool.false_ne_true hw
    · simp only [her, Option.some.injEq] at h
      subst h
      exact DepthInt.di_early_return_some g cursor stack self r0 hinv hstack her

end ExactFacts

end impl

namespace impl

set_option linter.unusedSectionVars false
set_option linter.unusedVariables false

section ExactTermination

variable {GraphCursor : Type} [DecidableEq GraphCursor]

theorem DepthInt.children_terminates
    (nodes : List GraphCursor) (stack' : List GraphCursor)
    (rec : GraphCursor → List GraphCursor → DepthInt GraphCursor →
      Option (Nat × List GraphCursor × DepthInt GraphCursor))
    (hrec : ∀ n self, n ∈ nodes → ∃ r, rec n stack' self = some r ∧ r.2.1 = stack') :
    ∀ (nexts : List GraphCursor) (acc : Nat × List GraphCursor × DepthInt GraphCursor),
      (∀ n ∈ nexts, n ∈ nodes) → acc.2.1 = stack' →
      ∃ R, DepthInt.children rec nexts acc = some R ∧ R.2.1 = stack' := by
  intro nexts
  induction nexts with
  | nil =>
    intro acc _ hacc
    exact ⟨acc, rfl, hacc⟩
  | cons n rest ih =>
    intro acc hn hacc
    obtain ⟨r, hr, hrs⟩ := hrec n acc.2.2 (hn n (List.mem_cons_self _ _))
    simp only [DepthInt.children, hacc, hr]
    exact ih (max acc.1 r.1, r.2.1, r.2.2) (fun x hx => hn x (List.mem_cons_of_mem _ hx)) hrs

/-- On a finite graph `DepthInt::get_depth_` returns, once the fuel exceeds the number of
cursors that are not in progress. -/
theorem DepthInt.get_depth_terminates (g : Cursor GraphCursor) (nodes : List GraphCursor)
    (hclosed : closed_under_next g nodes) :
    ∀ (fuel : Nat) (cursor : GraphCursor) (stack : List GraphCursor)
      (self : DepthInt GraphCursor),
      cursor ∈ nodes → (∀ s ∈ stack, s ∈ nodes) → stack.Nodup →
      nodes.length < fuel + stack.length →
      ∃ r, DepthInt.get_depth_ g fuel cursor stack self = some r ∧ r.2.1 = stack := by
  intro fuel
  induction fuel with
  | zero =>
    intro cursor stack self hc hsub hnd hlen
    have hle : stack.length ≤ nodes.length := (hnd.subperm hsub).length_le
    omega
  | succ fuel ih =>
    intro cursor stack self hc hsub hnd hlen
    have hdef : DepthInt.get_depth_ g (fuel + 1) cursor stack self =
        match DepthInt.early_return g cursor stack self with
        | some r => some r
        | none => DepthInt.expand g (DepthInt.get_depth_ g fuel) cursor stack self := rfl
    rw [hdef]
    rcases her : DepthInt.early_return g cursor stack self with _ | r0
    · simp only
      obtain ⟨hlive, hin⟩ := DepthInt.di_early_return_none g cursor stack self her
      have hins : set_insert stack cursor = cursor :: stack := by simp [set_insert, hin]
      obtain ⟨R, hR, hRs⟩ := DepthInt.children_terminates nodes (set_insert stack cursor)
        (DepthInt.get_depth_ g fuel)
        (fun n sf hn => ih n (set_insert stack cursor) sf hn
          (by
            intro s hs
            rw [hins, List.mem_cons] at hs
            rcases hs with rfl | hs
            · exact hc
            · exact hsub s hs)
          (by rw [hins]; exact List.nodup_cons.mpr ⟨hin, hnd⟩)
          (by rw [hins, List.length_cons]; omega))
        (g.next cursor)
        (0, set_insert stack cursor,
          DepthInt.mk self.depth_ (max self.max_stack_size_ (set_insert stack cursor).length))
        (fun n hn => hclosed cursor hc n hn) rfl
      unfold DepthInt.expand
      simp only [hR]
      refine ⟨_, rfl, ?_⟩
      simp only [hRs]
      exact set_erase_set_insert stack cursor hin
    · exact ⟨r0, rfl, DepthInt.early_return_stack g cursor stack self r0 her⟩

/-- On a finite graph `DepthInt::depth` returns a depth that is right for the cursor. -/
theorem DepthInt.depth_correct (g : Cursor GraphCursor) (nodes : List GraphCursor)
    (hclosed : closed_under_next g nodes) (self : DepthInt GraphCursor)
    (hinv : CacheInvI g self.depth_) (cursor : GraphCursor) (hc : cursor ∈ nodes)
    (fuel : Nat) (hfuel : nodes.length < fuel) :
    ∃ v self', DepthInt.depth g fuel self cursor = some (v, self') ∧ ValidI g cursor v ∧
      CacheInvI g self'.depth_ := by
  obtain ⟨r, hr, hrs⟩ := DepthInt.get_depth_terminates g nodes hclosed fuel cursor [] self hc
    (by simp) List.nodup_nil (by simpa using hfuel)
  obtain ⟨_, h2, h3⟩ := DepthInt.di_get_depth_spec g fuel cursor [] self r hr hinv
    (StackInv.nil g cursor)
  refine ⟨r.1, r.2.2, ?_, h3, h2⟩
  simp [DepthInt.depth, hr, hrs]

theorem DepthInt.Reachable.di_cacheInv (g : Cursor GraphCursor) (self : DepthInt GraphCursor)
    (h : DepthInt.Reachable g self) : CacheInvI g self.depth_ := by
  induction h with
  | fresh => intro c e hf; simp [find] at hf
  | query self fuel cursor value self' _ hq ih =>
    unfold DepthInt.depth at hq
    rcases hr : DepthInt.get_depth_ g fuel cursor [] self with _ | r
    · simp [hr] at hq
    · simp only [hr] at hq
      by_cases hs : r.2.1 = []
      · simp only [hs, if_true, Option.some.injEq, Prod.mk.injEq] at hq
        rw [← hq.2]
        exact (DepthInt.di_get_depth_spec g fuel cursor [] self r hr ih (StackInv.nil g cursor)).2.1
      · simp [hs] at hq

theorem ValidI.ge_iff (g : Cursor GraphCursor) (c : GraphCursor) (v d : Nat)
    (h : ValidI g c v) (hd : d ≤ INF) : d ≤ v ↔ walk_at_least g d c = true := by
  constructor
  · intro hle
    exact walk_mono g c v d hle h.1
  · intro hw
    by_contra hcon
    have hlt : v < INF := by omega
    have := walk_mono g c d (v + 1) (by omega) hw
    rw [h.2 hlt] at this
    exact Bool.false_ne_true this

end ExactTermination

/-! ## The bounded estimator against the exact one -/

section Refinement

variable {GraphCursor : Type} [DecidableEq GraphCursor]

/-- Claim C1.  On a finite graph, for every estimator state that earlier queries can reach
and every `1 ≤ d ≤ 25000`, the bounded query `DepthAtLeast::depth_at_least(c, d)` returns
(with at most one call of itself), and it returns true exactly when a walk of length at
least `d` starts at `c`, which is exactly when the exact estimator `DepthInt::depth(c)`,
run from any state its own queries can reach, returns a depth of at least `d`. -/
theorem depth_at_least_iff_exact (g : Cursor GraphCursor) (nodes : List GraphCursor)
    (hclosed : closed_under_next g nodes) (c : GraphCursor) (hc : c ∈ nodes)
    (d : Nat) (hd1 : 1 ≤ d) (hd2 : d ≤ 25000)
    (self : DepthAtLeast GraphCursor) (hself : DepthAtLeast.Reachable g self)
    (fuel : Nat) (hfuel : 1 ≤ fuel)
    (exact : DepthInt GraphCursor) (hexact : DepthInt.Reachable g exact)
    (fuelI : Nat) (hfuelI : nodes.length < fuelI) :
    ∃ answer self' v exact',
      DepthAtLeast.depth_at_least g fuel self c d = Except.ok (answer, self') ∧
      DepthInt.depth g fuelI exact c = some (v, exact') ∧
      (answer = true ↔ walk_at_least g d c = true) ∧
      (answer = true ↔ v ≥ d) := by
  obtain ⟨self', hq⟩ := DepthAtLeast.depth_at_least_correct g self
    (DepthAtLeast.Reachable.cacheInv g self hself) c d hd1 hd2 fuel hfuel
  obtain ⟨v, exact', hv, hvalid, _⟩ := DepthInt.depth_correct g nodes hclosed exact
    (DepthInt.Reachable.di_cacheInv g exact hexact) c hc fuelI hfuelI
  have hINF : d ≤ INF := by unfold INF; omega
  refine ⟨walk_at_least g d c, self', v, exact', hq, hv, Iff.rfl, ?_⟩
  exact (ValidI.ge_iff g c v d hvalid hINF).symm

theorem depth_at_least_iff_exact_witness :
    (closed_under_next example_graph [0, 1, 2, 3, 4] ∧ 3 ∈ [0, 1, 2, 3, 4] ∧ 1 ≤ 2 ∧ 2 ≤ 25000 ∧
      DepthAtLeast.Reachable example_graph { depth_ := [], max_stack_size_ := 0 } ∧ 1 ≤ 1 ∧
      DepthInt.Reachable example_graph { depth_ := [], max_stack_size_ := 0 } ∧
      [0, 1, 2, 3, 4].length < 6) ∧
    ∃ answer self' v exact',
      DepthAtLeast.depth_at_least example_graph 1 { depth_ := [], max_stack_size_ := 0 } 3 2
        = Except.ok (answer, self') ∧
      DepthInt.depth example_graph 6 { depth_ := [], max_stack_size_ := 0 } 3
        = some (v, exact') ∧
      (answer = true ↔ walk_at_least example_graph 2 3 = true) ∧
      (answer = true ↔ v ≥ 2) :=
  ⟨⟨by decide, by decide, by decide, by decide, DepthAtLeast.Reachable.fresh, by decide,
      DepthInt.Reachable.fresh, by decide⟩,
    depth_at_least_iff_exact example_graph [0, 1, 2, 3, 4] (by decide) 3 (by decide) 2
      (by decide) (by decide) { depth_ := [], max_stack_size_ := 0 }
      DepthAtLeast.Reachable.fresh 1 (by decide)
      { depth_ := [], max_stack_size_ := 0 } DepthInt.Reachable.fresh 6 (by decide)⟩

end Refinement

end impl

namespace impl

set_option linter.unusedSectionVars false
set_option linter.unusedVariables false

/-! ## The insertion loop: queue operations -/

section QueueFacts

variable {GraphCursor S : Type} [DecidableEq GraphCursor] [LinearOrder S] [Add S] [Zero S] [OrderTop S]

theorem pop_min_none (q : List (QueueElement GraphCursor S)) (h : pop_min q = none) :
    q = [] := by
  cases q with
  | nil => rfl
  | cons e rest =>
    simp only [pop_min] at h
    rcases hr : pop_min rest with _ | ⟨b, rest'⟩
    · simp [hr] at h
    · simp only [hr] at h
      split at h <;> simp at h

/-- The popped element has least score, and the queue is it and the rest. -/
theorem pop_min_some (q : List (QueueElement GraphCursor S)) :
    ∀ (e : QueueElement GraphCursor S) (q' : List (QueueElement GraphCursor S)),
      pop_min q = some (e, q') → q.Perm (e :: q') ∧ ∀ x ∈ q, e.score ≤ x.score := by
  induction q with
  | nil => intro e q' h; simp [pop_min] at h
  | cons a rest ih =>
    intro e q' h
    simp only [pop_min] at h
    rcases hr : pop_min rest with _ | ⟨b, rest'⟩
    · simp only [hr, Option.some.injEq, Prod.mk.injEq] at h
      obtain ⟨rfl, rfl⟩ := h
      have := pop_min_none rest hr
      subst this
      exact ⟨List.Perm.refl _, by simp⟩
    · simp only [hr] at h
      obtain ⟨hperm, hmin⟩ := ih b rest' hr
      by_cases hlt : b.score < a.score
      · simp only [hlt, if_true, Option.some.injEq, Prod.mk.injEq] at h
        obtain ⟨rfl, rfl⟩ := h
        refine ⟨?_, ?_⟩
        · exact (List.Perm.cons a hperm).trans (List.Perm.swap b a rest')
        · intro x hx
          simp only [List.mem_cons] at hx
          rcases hx with rfl | hx
          · exact le_of_lt hlt
          · exact hmin x hx
      · simp only [hlt, if_false, Option.some.injEq, Prod.mk.injEq] at h
        obtain ⟨rfl, rfl⟩ := h
        refine ⟨List.Perm.refl _, ?_⟩
        intro x hx
        simp only [List.mem_cons] at hx
        rcases hx with rfl | hx
        · exact le_refl _
        · exact le_trans (not_lt.mp hlt) (hmin x hx)

/-- The pushes of the inner loop: one element for each successor that is neither
processed nor filtered. -/
theorem i_loop_push_eq (g : Cursor GraphCursor) (code : Char → Nat) (transfer_fee : S)
    (emission_fees : Nat → S) (filter : GraphCursor → Bool) (processed : List GraphCursor)
    (elt : QueueElement GraphCursor S) (id : PathLink GraphCursor S) :
    ∀ (nexts : List GraphCursor) (q : List (QueueElement GraphCursor S)),
      i_loop_push g code transfer_fee emission_fees filter processed elt id nexts q
        = q ++ (nexts.filter (fun n => !processed.contains n && !filter n)).map
            (fun n => { current_cursor := n,
                        score := elt.score + transfer_fee + emission_fees (code (g.letter n)),
                        source_cursor := elt.current_cursor, source_state := id }) := by
  intro nexts
  induction nexts with
  | nil => intro q; simp [i_loop_push]
  | cons n rest ih =>
    intro q
    simp only [i_loop_push]
    cases hp : processed.contains n with
    | true =>
      simp only [if_true, ih, List.filter_cons, hp, Bool.not_true, Bool.false_and,
        Bool.false_eq_true, if_false]
    | false =>
      simp only [Bool.false_eq_true, if_false]
      cases hf : filter n with
      | true =>
        simp only [Bool.not_true, Bool.false_eq_true, if_false, ih, List.filter_cons, hp, hf,
          Bool.and_false]
      | false =>
        simp only [Bool.not_false, if_true, ih, List.filter_cons, hp, hf, Bool.and_self,
          List.map_cons, List.append_assoc, List.singleton_append]

/-- The seeding loop returns when every entry has a best ancestor, and pushes one
element for each entry that is within the threshold and not filtered. -/
theorem i_loop_seed_eq (absolute_threshold : S) (filter : GraphCursor → Bool) :
    ∀ (I : List (GraphCursor × PathLink GraphCursor S)) (q : List (QueueElement GraphCursor S)),
      (∀ kv ∈ I, kv.2.best_ancestor ≠ none) →
      ∃ pushed, i_loop_seed absolute_threshold filter I q = some (q ++ pushed) ∧
        pushed.length ≤ I.length ∧
        (∀ e ∈ pushed, ∃ kv ∈ I, e.current_cursor = kv.1 ∧ e.score = kv.2.score ∧
          filter kv.1 = false ∧ kv.2.score ≤ absolute_threshold) ∧
        (∀ kv ∈ I, filter kv.1 = false → kv.2.score ≤ absolute_threshold →
          ∃ e ∈ pushed, e.current_cursor = kv.1 ∧ e.score = kv.2.score) := by
  intro I
  induction I with
  | nil =>
    intro q _
    exact ⟨[], by simp [i_loop_seed], by simp, by simp, by simp⟩
  | cons kv rest ih =>
    intro q hall
    have hrest : ∀ kv ∈ rest, kv.2.best_ancestor ≠ none :=
      fun x hx => hall x (List.mem_cons_of_mem _ hx)
    have hkv := hall kv (List.mem_cons_self _ _)
    obtain ⟨c, node⟩ := kv
    cases node with
    | create => simp [PathLink.best_ancestor] at hkv
    | master_source => simp [PathLink.best_ancestor] at hkv
    | link gp s pl =>
      simp only [i_loop_seed, PathLink.best_ancestor]
      by_cases hthr : s > absolute_threshold
      · simp only [hthr, if_true]
        obtain ⟨pushed, h1, h2, h3, h4⟩ := ih q hrest
        refine ⟨pushed, h1, by simp; omega, ?_, ?_⟩
        · intro e he
          obtain ⟨kv, hkv, h⟩ := h3 e he
          exact ⟨kv, List.mem_cons_of_mem _ hkv, h⟩
        · intro kv hkv hf hs
          simp only [List.mem_cons] at hkv
          rcases hkv with rfl | hkv
          · simp only [PathLink.score] at hs
            exact absurd hthr (not_lt.mpr hs)
          · exact h4 kv hkv hf hs
      · simp only [hthr, if_false]
        by_cases hf : filter c = true
        · simp only [hf, Bool.not_true, Bool.false_eq_true, if_false]
          obtain ⟨pushed, h1, h2, h3, h4⟩ := ih q hrest
          refine ⟨pushed, h1, by simp; omega, ?_, ?_⟩
          · intro e he
            obtain ⟨kv, hkv, h⟩ := h3 e he
            exact ⟨kv, List.mem_cons_of_mem _ hkv, h⟩
          · intro kv hkv hf2 hs
            simp only [List.mem_cons] at hkv
            rcases hkv with rfl | hkv
            · simp only at hf2
              rw [hf] at hf2
              exact absurd hf2 (by simp)
            · exact h4 kv hkv hf2 hs
        · simp only [hf, Bool.not_false, if_true]
          have hff : filter c = false := by simpa using hf
          obtain ⟨pushed, h1, h2, h3, h4⟩ := ih
            (q ++ [{ current_cursor := c, score := s, source_cursor := gp,
                     source_state := pl }]) hrest
          refine ⟨{ current_cursor := c, score := s, source_cursor := gp,
                    source_state := pl } :: pushed, ?_, by simp; omega, ?_, ?_⟩
          · rw [h1]; simp
          · intro e he
            simp only [List.mem_cons] at he
            rcases he with rfl | he
            · exact ⟨(c, PathLink.link gp s pl), List.mem_cons_self _ _, rfl, rfl, hff,
                not_lt.mp hthr⟩
            · obtain ⟨kv, hkv, h⟩ := h3 e he
              exact ⟨kv, List.mem_cons_of_mem _ hkv, h⟩
          · intro kv hkv hf2 hs
            simp only [List.mem_cons] at hkv
            rcases hkv with rfl | hkv
            · exact ⟨_, List.mem_cons_self _ _, rfl, rfl⟩
            · obtain ⟨e, he, h⟩ := h4 kv hkv hf2 hs
              exact ⟨e, List.mem_cons_of_mem _ he, h⟩

end QueueFacts

end impl

namespace impl

set_option linter.unusedSectionVars false
set_option linter.unusedVariables false

/-! ## The insertion loop: the invariant -/

section LoopInvariant

variable {GraphCursor S : Type} [DecidableEq GraphCursor] [LinearOrder S] [Add S] [Zero S] [OrderTop S]
variable (g : Cursor GraphCursor) (fees : Fees S) (m : Nat) (thr : S)
  (filter : GraphCursor → Bool) (I0 : StateSet GraphCursor S)

/-- A step of the insertion loop does not lower a score when neither `t[m][II]` nor an
insert emission of the column is negative. -/
theorem step_score_le_of_nonneg (hS : RoundedAdd S) (ht : 0 ≤ fees.t m p7H_II)
    (hins : ∀ k, 0 ≤ fees.ins m k) (x : S) (n : GraphCursor) :
    x ≤ step_score g fees m x n := by
  unfold step_score
  have h1 : x ≤ x + fees.t m p7H_II := by
    have := hS.add_le_add_left x 0 (fees.t m p7H_II) ht
    rw [hS.add_zero] at this
    exact this
  have h2 : x + fees.t m p7H_II ≤ x + fees.t m p7H_II + fees.ins m (fees.code (g.letter n)) := by
    have := hS.add_le_add_left (x + fees.t m p7H_II) 0 (fees.ins m (fees.code (g.letter n)))
      (hins _)
    rw [hS.add_zero] at this
    exact this
  exact le_trans h1 h2

/-- A step of the insertion loop keeps the order of the scores. -/
theorem step_score_mono (hS : RoundedAdd S) (x y : S) (n : GraphCursor) (h : x ≤ y) :
    step_score g fees m x n ≤ step_score g fees m y n := by
  unfold step_score
  exact hS.add_le_add_right _ _ _ (hS.add_le_add_right _ _ _ h)

theorem SeedWalk.unfiltered (c : GraphCursor) (x : S)
    (h : SeedWalk g fees m thr filter I0 c x) : filter c = false := by
  cases h with
  | seed _ _ _ hfilter _ => exact hfilter
  | step _ _ _ _ _ hfilter => exact hfilter

/-- Every walk to a cursor that is not processed yet is witnessed in the queue: some
element of an unprocessed cursor scores at most the cost of the walk. -/
theorem ILoopInv.frontier (hS : RoundedAdd S) (hstep : ∀ x n, x ≤ step_score g fees m x n)
    (st : ILoopState GraphCursor S) (hinv : ILoopInv g fees m thr filter I0 st) :
    ∀ c x, SeedWalk g fees m thr filter I0 c x → c ∉ st.processed →
      ∃ e ∈ st.q, e.current_cursor ∉ st.processed ∧ e.score ≤ x := by
  intro c x h
  induction h with
  | seed c node hfind hfilter hscore =>
    intro hc
    rcases hinv.seeds_pending c node hfind hfilter hscore with h | ⟨e, he, hec, hes⟩
    · exact absurd h hc
    · exact ⟨e, he, hec ▸ hc, hes⟩
  | step u v x h hv hfilter ih =>
    intro hc
    by_cases hu : u ∈ st.processed
    · rcases hinv.edges_pending u hu v hv hfilter with h1 | ⟨e, he, hec, hes⟩
      · exact absurd h1 hc
      · exact ⟨e, he, hec ▸ hc,
          le_trans hes (step_score_mono g fees m hS _ _ v ((hinv.processed_exact u hu).2 x h))⟩
    · obtain ⟨e, he, hep, hes⟩ := ih hu
      exact ⟨e, he, hep, le_trans hes (hstep x v)⟩

/-- The invariant survives the pop of an element whose cursor is processed already. -/
theorem ILoopInv.skip (st : ILoopState GraphCursor S)
    (hinv : ILoopInv g fees m thr filter I0 st)
    (e : QueueElement GraphCursor S) (q' : List (QueueElement GraphCursor S))
    (hpop : pop_min st.q = some (e, q')) (hproc : e.current_cursor ∈ st.processed) (k : Nat) :
    ILoopInv g fees m thr filter I0 { st with q := q', taken_values := k } := by
  obtain ⟨hperm, _⟩ := pop_min_some st.q e q' hpop
  have hmem : ∀ x, x ∈ st.q ↔ x = e ∨ x ∈ q' := by
    intro x; rw [hperm.mem_iff]; simp
  refine ⟨?_, hinv.processed_exact, hinv.unprocessed_same, ?_, ?_⟩
  · intro x hx
    exact hinv.queue_sound x ((hmem x).mpr (Or.inr hx))
  · intro c node hfind hfilter hscore
    rcases hinv.seeds_pending c node hfind hfilter hscore with h | ⟨x, hx, hxc, hxs⟩
    · exact Or.inl h
    · rcases (hmem x).mp hx with rfl | hx'
      · exact Or.inl (hxc ▸ hproc)
      · exact Or.inr ⟨x, hx', hxc, hxs⟩
  · intro p hp v hv hfilter
    rcases hinv.edges_pending p hp v hv hfilter with h | ⟨x, hx, hxc, hxs⟩
    · exact Or.inl h
    · rcases (hmem x).mp hx with rfl | hx'
      · exact Or.inl (hxc ▸ hproc)
      · exact Or.inr ⟨x, hx', hxc, hxs⟩

/-- The popped element of an unprocessed cursor carries the least cost of a walk to
it. -/
theorem ILoopInv.popped_least (hS : RoundedAdd S) (hstep : ∀ x n, x ≤ step_score g fees m x n)
    (st : ILoopState GraphCursor S) (hinv : ILoopInv g fees m thr filter I0 st)
    (e : QueueElement GraphCursor S) (q' : List (QueueElement GraphCursor S))
    (hpop : pop_min st.q = some (e, q')) (hproc : e.current_cursor ∉ st.processed) :
    ∀ x, SeedWalk g fees m thr filter I0 e.current_cursor x → e.score ≤ x := by
  intro x hx
  obtain ⟨_, hmin⟩ := pop_min_some st.q e q' hpop
  obtain ⟨e', he', _, hes⟩ := ILoopInv.frontier g fees m thr filter I0 hS hstep st hinv
    e.current_cursor x hx hproc
  exact le_trans (hmin e' he') hes

/-- The score that the frontier holds for the popped cursor after its update. -/
theorem ILoopInv.popped_score (hS : RoundedAdd S) (hstep : ∀ x n, x ≤ step_score g fees m x n)
    (st : ILoopState GraphCursor S) (hinv : ILoopInv g fees m thr filter I0 st)
    (e : QueueElement GraphCursor S) (q' : List (QueueElement GraphCursor S))
    (hpop : pop_min st.q = some (e, q')) (hthr : ¬ e.score > thr)
    (hproc : e.current_cursor ∉ st.processed) :
    StateSet.score_at
      (StateSet.update st.I e.current_cursor e.score e.source_cursor e.source_state).1
      e.current_cursor = e.score := by
  rw [StateSet.score_at_update]
  simp only [if_true]
  rw [hinv.unprocessed_same e.current_cursor hproc]
  apply min_eq_right
  obtain ⟨hperm, _⟩ := pop_min_some st.q e q' hpop
  have he : e ∈ st.q := hperm.mem_iff.mpr (List.mem_cons_self _ _)
  have hwalk := hinv.queue_sound e he
  rcases hf : find I0 e.current_cursor with _ | node
  · simp [StateSet.score_at, hf]
  · simp only [StateSet.score_at, hf]
    by_cases hs : node.score ≤ thr
    · exact ILoopInv.popped_least g fees m thr filter I0 hS hstep st hinv e q' hpop hproc _
        (SeedWalk.seed e.current_cursor node hf
          (SeedWalk.unfiltered g fees m thr filter I0 _ _ hwalk) hs)
    · exact le_trans (not_lt.mp hthr) (le_of_lt (not_le.mp hs))

/-- The invariant survives the processing of a popped element. -/
theorem ILoopInv.process (hS : RoundedAdd S) (hstep : ∀ x n, x ≤ step_score g fees m x n)
    (st : ILoopState GraphCursor S) (hinv : ILoopInv g fees m thr filter I0 st)
    (e : QueueElement GraphCursor S) (q' : List (QueueElement GraphCursor S))
    (hpop : pop_min st.q = some (e, q')) (hthr : ¬ e.score > thr)
    (hproc : e.current_cursor ∉ st.processed) (id : PathLink GraphCursor S) (k : Nat) :
    ILoopInv g fees m thr filter I0
      { I := (StateSet.update st.I e.current_cursor e.score e.source_cursor e.source_state).1,
        q := i_loop_push g fees.code (fees.t m p7H_II) (fees.ins m) filter
               (e.current_cursor :: st.processed) e id (g.next e.current_cursor) q',
        processed := e.current_cursor :: st.processed,
        taken_values := k } := by
  obtain ⟨hperm, _⟩ := pop_min_some st.q e q' hpop
  have hmem : ∀ x, x ∈ st.q ↔ x = e ∨ x ∈ q' := by
    intro x; rw [hperm.mem_iff]; simp
  have he : e ∈ st.q := (hmem e).mpr (Or.inl rfl)
  have hwalk := hinv.queue_sound e he
  have hscore := ILoopInv.popped_score g fees m thr filter I0 hS hstep st hinv e q' hpop hthr hproc
  have hleast := ILoopInv.popped_least g fees m thr filter I0 hS hstep st hinv e q' hpop hproc
  have hother : ∀ c, c ≠ e.current_cursor →
      StateSet.score_at
        (StateSet.update st.I e.current_cursor e.score e.source_cursor e.source_state).1 c
        = StateSet.score_at st.I c := by
    intro c hc
    rw [StateSet.score_at_update]
    simp [Ne.symm hc]
  rw [i_loop_push_eq]
  refine ⟨?_, ?_, ?_, ?_, ?_⟩
  · intro x hx
    simp only [List.mem_append, List.mem_map, List.mem_filter] at hx
    rcases hx with hx | ⟨n, ⟨hn, hcond⟩, rfl⟩
    · exact hinv.queue_sound x ((hmem x).mpr (Or.inr hx))
    · simp only [Bool.and_eq_true, Bool.not_eq_true'] at hcond
      have := SeedWalk.step e.current_cursor n e.score hwalk hn hcond.2
      exact this
  · intro p hp
    simp only [List.mem_cons] at hp
    rcases hp with rfl | hp
    · simp only [hscore]
      exact ⟨hwalk, hleast⟩
    · have hne : p ≠ e.current_cursor := fun h => hproc (h ▸ hp)
      simp only [hother p hne]
      exact hinv.processed_exact p hp
  · intro c hc
    simp only [List.mem_cons, not_or] at hc
    simp only [hother c hc.1]
    exact hinv.unprocessed_same c hc.2
  · intro c node hfind hfilter hs
    rcases hinv.seeds_pending c node hfind hfilter hs with h | ⟨x, hx, hxc, hxs⟩
    · exact Or.inl (List.mem_cons_of_mem _ h)
    · rcases (hmem x).mp hx with rfl | hx'
      · left; simp only [List.mem_cons]; exact Or.inl hxc.symm
      · right
        exact ⟨x, List.mem_append_left _ hx', hxc, hxs⟩
  · intro p hp v hv hfilter
    by_cases hvp : v ∈ e.current_cursor :: st.processed
    · exact Or.inl hvp
    · right
      simp only [List.mem_cons] at hp
      rcases hp with rfl | hp
      · refine ⟨{ current_cursor := v,
                  score := e.score + fees.t m p7H_II + fees.ins m (fees.code (g.letter v)),
                  source_cursor := e.current_cursor, source_state := id }, ?_, rfl, ?_⟩
        · apply List.mem_append_right
          simp only [List.mem_map, List.mem_filter]
          refine ⟨v, ⟨hv, ?_⟩, rfl⟩
          simp only [Bool.and_eq_true, Bool.not_eq_true', hfilter, and_true]
          simpa using hvp
        · rw [hscore]
          exact le_refl _
      · have hne : p ≠ e.current_cursor := fun h => hproc (h ▸ hp)
        simp only [hother p hne]
        rcases hinv.edges_pending p hp v hv hfilter with h | ⟨x, hx, hxc, hxs⟩
        · exact absurd (List.mem_cons_of_mem _ h) hvp
        · rcases (hmem x).mp hx with rfl | hx'
          · exfalso; apply hvp; simp only [List.mem_cons]; exact Or.inl hxc.symm
          · exact ⟨x, List.mem_append_left _ hx', hxc, hxs⟩

end LoopInvariant

end impl

namespace impl

set_option linter.unusedSectionVars false
set_option linter.unusedVariables false

/-! ## The insertion loop: shortest paths -/

section LoopCorrect

variable {GraphCursor S : Type} [DecidableEq GraphCursor] [LinearOrder S] [Add S] [Zero S] [OrderTop S]
variable (g : Cursor GraphCursor) (fees : Fees S) (m : Nat) (thr : S)
  (filter : GraphCursor → Bool) (I0 : StateSet GraphCursor S)

theorem ILoopInv.final_of_processed (st : ILoopState GraphCursor S)
    (hinv : ILoopInv g fees m thr filter I0 st) (c : GraphCursor) (d : S)
    (hc : c ∈ st.processed) (hw : SeedWalk g fees m thr filter I0 c d)
    (hmin : ∀ x, SeedWalk g fees m thr filter I0 c x → d ≤ x) :
    StateSet.score_at st.I c = d := by
  obtain ⟨h1, h2⟩ := hinv.processed_exact c hc
  exact le_antisymm (h2 d hw) (hmin _ h1)

/-- When the loop exits, every cursor whose least walk cost is within the threshold
holds that cost. -/
theorem i_loop_while_correct (hS : RoundedAdd S) (hstep : ∀ x n, x ≤ step_score g fees m x n) :
    ∀ (fuel : Nat) (st st' : ILoopState GraphCursor S),
      ILoopInv g fees m thr filter I0 st →
      i_loop_while g fees.code (fees.t m p7H_II) (fees.ins m) thr filter fuel st = some st' →
      ∀ c d, SeedWalk g fees m thr filter I0 c d →
        (∀ x, SeedWalk g fees m thr filter I0 c x → d ≤ x) → d ≤ thr →
        StateSet.score_at st'.I c = d := by
  intro fuel
  induction fuel with
  | zero => intro st st' _ h; simp [i_loop_while] at h
  | succ fuel ih =>
    intro st st' hinv h c d hw hmin hd
    simp only [i_loop_while] at h
    rcases hpop : pop_min st.q with _ | ⟨e, q'⟩
    · simp only [hpop, Option.some.injEq] at h
      subst h
      have hq := pop_min_none st.q hpop
      by_cases hc : c ∈ st.processed
      · exact ILoopInv.final_of_processed g fees m thr filter I0 st hinv c d hc hw hmin
      · obtain ⟨e, he, _⟩ := ILoopInv.frontier g fees m thr filter I0 hS hstep st hinv c d hw hc
        rw [hq] at he
        simp at he
    · simp only [hpop] at h
      obtain ⟨_, hleast⟩ := pop_min_some st.q e q' hpop
      by_cases hthr : e.score > thr
      · simp only [hthr, if_true, Option.some.injEq] at h
        subst h
        simp only
        by_cases hc : c ∈ st.processed
        · exact ILoopInv.final_of_processed g fees m thr filter I0 st hinv c d hc hw hmin
        · obtain ⟨e', he', _, hes⟩ := ILoopInv.frontier g fees m thr filter I0 hS hstep st hinv
            c d hw hc
          exact absurd (lt_of_lt_of_le hthr (hleast e' he')) (not_lt.mpr (le_trans hes hd))
      · simp only [hthr, if_false] at h
        by_cases hproc : e.current_cursor ∈ st.processed
        · have hcont : st.processed.contains e.current_cursor = true := by simpa using hproc
          simp only [hcont, if_true] at h
          exact ih _ st' (ILoopInv.skip g fees m thr filter I0 st hinv e q' hpop hproc _) h
            c d hw hmin hd
        · have hcont : st.processed.contains e.current_cursor = false := by simpa using hproc
          simp only [hcont, Bool.false_eq_true, if_false] at h
          rcases hf : find (StateSet.update st.I e.current_cursor e.score e.source_cursor
              e.source_state).1 e.current_cursor with _ | id
          · simp [hf] at h
          · simp only [hf] at h
            exact ih _ st'
              (ILoopInv.process g fees m thr filter I0 hS hstep st hinv e q' hpop hthr hproc id _)
              h c d hw hmin hd

theorem sum_filter_le (f : GraphCursor → Nat) (p q : GraphCursor → Bool)
    (hpq : ∀ v, p v = true → q v = true) (L : List GraphCursor) :
    ((L.filter p).map f).sum ≤ ((L.filter q).map f).sum := by
  induction L with
  | nil => simp
  | cons a rest ih =>
    simp only [List.filter_cons]
    cases hp : p a with
    | true =>
      simp only [hpq a hp, if_true, List.map_cons, List.sum_cons]
      omega
    | false =>
      simp only [Bool.false_eq_true, if_false]
      cases hq : q a with
      | true => simp only [if_true, List.map_cons, List.sum_cons]; omega
      | false => simp only [Bool.false_eq_true, if_false]; exact ih

theorem sum_filter_processed (f : GraphCursor → Nat) (processed : List GraphCursor)
    (u : GraphCursor) (hu : u ∉ processed) (L : List GraphCursor) (hL : u ∈ L) :
    ((L.filter (fun v => !(u :: processed).contains v)).map f).sum + f u
      ≤ ((L.filter (fun v => !processed.contains v)).map f).sum := by
  induction L with
  | nil => simp at hL
  | cons a rest ih =>
    simp only [List.filter_cons]
    by_cases hau : a = u
    · subst hau
      have h1 : (!(a :: processed).contains a) = false := by simp
      have h2 : (!processed.contains a) = true := by simpa using hu
      simp only [h1, h2, Bool.false_eq_true, if_false, if_true, List.map_cons, List.sum_cons]
      have := sum_filter_le f (fun v => !(a :: processed).contains v)
        (fun v => !processed.contains v)
        (by
          intro v hv
          simp only [Bool.not_eq_true', List.contains_eq_any_beq, List.any_eq_false, beq_iff_eq,
            List.mem_cons, forall_eq_or_imp] at hv ⊢
          exact hv.2) rest
      omega
    · have hmem : u ∈ rest := by
        simp only [List.mem_cons] at hL
        rcases hL with h | h
        · exact absurd h.symm hau
        · exact h
      have ih2 := ih hmem
      have hsame : (!(u :: processed).contains a) = (!processed.contains a) := by
        have : (u :: processed).contains a = processed.contains a := by
          simp only [List.contains_cons]
          have : (a == u) = false := by simpa using hau
          simp [this]
        rw [this]
      rw [hsame]
      cases hp : (!processed.contains a) with
      | true => simp only [if_true, List.map_cons, List.sum_cons]; omega
      | false => simp only [Bool.false_eq_true, if_false]; exact ih2

/-- On a finite graph the loop exits within `i_loop_measure` iterations. -/
theorem i_loop_while_terminates (nodes : List GraphCursor)
    (hclosed : closed_under_next g nodes) :
    ∀ (fuel : Nat) (st : ILoopState GraphCursor S),
      (∀ e ∈ st.q, e.current_cursor ∈ nodes) → i_loop_measure g nodes st < fuel →
      ∃ st', i_loop_while g fees.code (fees.t m p7H_II) (fees.ins m) thr filter fuel st
        = some st' := by
  intro fuel
  induction fuel with
  | zero => intro st _ h; omega
  | succ fuel ih =>
    intro st hq hlt
    simp only [i_loop_while]
    rcases hpop : pop_min st.q with _ | ⟨e, q'⟩
    · exact ⟨st, rfl⟩
    · simp only
      obtain ⟨hperm, _⟩ := pop_min_some st.q e q' hpop
      have hmem : ∀ x, x ∈ st.q ↔ x = e ∨ x ∈ q' := by
        intro x; rw [hperm.mem_iff]; simp
      have hlen : st.q.length = q'.length + 1 := by
        rw [hperm.length_eq]; simp
      by_cases hthr : e.score > thr
      · simp only [hthr, if_true]
        exact ⟨_, rfl⟩
      · simp only [hthr, if_false]
        by_cases hproc : e.current_cursor ∈ st.processed
        · have hcont : st.processed.contains e.current_cursor = true := by simpa using hproc
          simp only [hcont, if_true]
          apply ih
          · intro x hx
            exact hq x ((hmem x).mpr (Or.inr hx))
          · simp only [i_loop_measure] at hlt ⊢
            omega
        · have hcont : st.processed.contains e.current_cursor = false := by simpa using hproc
          simp only [hcont, Bool.false_eq_true, if_false]
          have hfind := StateSet.st_find_update st.I e.current_cursor e.score e.source_cursor
            e.source_state e.current_cursor
          simp only [if_true] at hfind
          rw [hfind]
          simp only
          have hu : e.current_cursor ∈ nodes := hq e ((hmem e).mpr (Or.inl rfl))
          apply ih
          · intro x hx
            simp only [i_loop_push_eq, List.mem_append, List.mem_map, List.mem_filter] at hx
            rcases hx with hx | ⟨n, ⟨hn, _⟩, rfl⟩
            · exact hq x ((hmem x).mpr (Or.inr hx))
            · exact hclosed _ hu n hn
          · simp only [i_loop_measure, i_loop_push_eq, List.length_append, List.length_map]
              at hlt ⊢
            have h1 := List.length_filter_le
              (fun n => !(e.current_cursor :: st.processed).contains n && !filter n)
              (g.next e.current_cursor)
            have h2 := sum_filter_processed (fun v => (g.next v).length + 1) st.processed
              e.current_cursor hproc nodes hu
            beta_reduce at h2
            omega

/-- Claim C9 (amended).  Let the scores have the laws of `RoundedAdd`, which hold for
`double`, and let no insertion step of column `m` lower a score: `x ≤ x + t[m][II] +
ins[m][code(letter(n))]` for every score `x` and cursor `n`, the sum being formed from
left to right as the code forms it (so it is when neither `t[m][II]` nor an insert
emission is negative, and in exact arithmetic when every step cost is non-negative).
Then on a finite graph `i_loop_processing_non_negative` returns, and afterwards the
Insert frontier holds, at every cursor that passes the depth filter and whose shortest
distance is at most the absolute threshold, that shortest distance: the least cost of a
walk from a seed (an entry of the incoming frontier that passes the filter, with a
score within the threshold) through unfiltered cursors, the cost of a walk being the
seed score to which every step adds `t[m][II]` and then the emission cost of the
cursor stepped onto, in this order. -/
theorem i_loop_shortest_path (nodes : List GraphCursor) (hclosed : closed_under_next g nodes)
    (hkeys : ∀ c ∈ keys I0, c ∈ nodes) (hwf : wf I0)
    (hlinks : ∀ kv ∈ I0, kv.2.best_ancestor ≠ none)
    (hS : RoundedAdd S) (hstep : ∀ x n, x ≤ step_score g fees m x n)
    (fuel : Nat) (hfuel : i_loop_fuel g nodes I0 ≤ fuel) :
    ∃ st, i_loop_processing_non_negative g fees thr fuel I0 m filter = some st ∧
      ∀ c d, filter c = false → SeedWalk g fees m thr filter I0 c d →
        (∀ x, SeedWalk g fees m thr filter I0 c x → d ≤ x) → d ≤ thr →
        StateSet.score_at st.I c = d := by
  obtain ⟨pushed, hseed, hlen, hsound, hcomplete⟩ := i_loop_seed_eq thr filter I0 [] hlinks
  simp only [List.nil_append] at hseed
  have hinv : ILoopInv g fees m thr filter I0
      { I := I0, q := pushed, processed := [], taken_values := 0 } := by
    refine ⟨?_, ?_, ?_, ?_, ?_⟩
    · intro e he
      obtain ⟨kv, hkv, hc, hs, hf, ht⟩ := hsound e he
      have : SeedWalk g fees m thr filter I0 kv.1 kv.2.score :=
        SeedWalk.seed kv.1 kv.2 (find_of_mem I0 hwf kv hkv) hf ht
      rw [hc, hs]
      exact this
    · intro p hp; simp at hp
    · intro c _; rfl
    · intro c node hfind hfilter hscore
      right
      obtain ⟨e, he, hc, hs⟩ := hcomplete (c, node) (mem_of_find I0 c node hfind) hfilter hscore
      exact ⟨e, he, hc, le_of_eq hs⟩
    · intro p hp; simp at hp
  have hmeasure : i_loop_measure g nodes
      ({ I := I0, q := pushed, processed := [], taken_values := 0 } : ILoopState GraphCursor S)
      < fuel := by
    simp only [i_loop_measure, i_loop_fuel] at hfuel ⊢
    have : (nodes.filter (fun v => !([] : List GraphCursor).contains v)) = nodes := by
      rw [List.filter_eq_self]; intro a _; simp
    rw [this]
    omega
  obtain ⟨st, hst⟩ := i_loop_while_terminates g fees m thr filter nodes hclosed fuel
    { I := I0, q := pushed, processed := [], taken_values := 0 }
    (by
      intro e he
      obtain ⟨kv, hkv, hc, _⟩ := hsound e he
      rw [hc]
      exact hkeys kv.1 (List.mem_map_of_mem Prod.fst hkv))
    hmeasure
  refine ⟨st, ?_, ?_⟩
  · simp only [i_loop_processing_non_negative, hseed, hst]
  · intro c d _ hw hmin hd
    exact i_loop_while_correct g fees m thr filter I0 hS hstep fuel _ st hinv hst c d hw hmin hd

end LoopCorrect

end impl

namespace impl

set_option linter.unusedSectionVars false
set_option linter.unusedVariables false

/-- Witness for claim C9: the insertion loop of column 0 of the fee table `double_fees`
(transitions 1, insert emissions 0.5) on the example graph, from the frontier
`double_I`, in the model of `double`. -/
theorem i_loop_shortest_path_witness :
    (closed_under_next example_graph [0, 1, 2, 3, 4] ∧
      (∀ c ∈ keys double_I, c ∈ [0, 1, 2, 3, 4]) ∧ wf double_I ∧
      (∀ kv ∈ double_I, kv.2.best_ancestor ≠ none) ∧
      RoundedAdd Double ∧
      (∀ x n, x ≤ step_score example_graph double_fees 0 x n) ∧
      i_loop_fuel example_graph [0, 1, 2, 3, 4] double_I ≤ 20) ∧
    ∃ st, i_loop_processing_non_negative example_graph double_fees (Double.of_int 250) 20
        double_I 0 (fun _ => false) = some st ∧
      ∀ c d, (fun _ => false) c = false →
        SeedWalk example_graph double_fees 0 (Double.of_int 250) (fun _ => false) double_I c d →
        (∀ x, SeedWalk example_graph double_fees 0 (Double.of_int 250) (fun _ => false)
          double_I c x → d ≤ x) →
        d ≤ Double.of_int 250 → StateSet.score_at st.I c = d :=
  ⟨⟨by decide, by decide, by decide, by decide, Double.rounded_add,
      step_score_le_of_nonneg example_graph double_fees 0 Double.rounded_add
        (by decide! : (0 : Double) ≤ Double.of_int 1)
        (fun _ => (by decide! : (0 : Double) ≤ Double.half)),
      by decide⟩,
    i_loop_shortest_path example_graph double_fees 0 (Double.of_int 250) (fun _ => false)
      double_I [0, 1, 2, 3, 4] (by decide) (by decide) (by decide) (by decide)
      Double.rounded_add
      (step_score_le_of_nonneg example_graph double_fees 0 Double.rounded_add
        (by decide! : (0 : Double) ≤ Double.of_int 1)
        (fun _ => (by decide! : (0 : Double) ≤ Double.half)))
      20 (by decide)⟩

/-- Counterexample to claim C9 as stated, in the model of `double`: with the fee table
`cancelling_fees` every insertion step cost `t[0][II] + ins[0][code(letter)]` is
`2^53 + (-2^53) = 0`, which is not negative, so the shortest distance of the claim to
cursor 2 from the only seed (cursor 1, score 0.5) is `0.5 + 0 = 0.5`; the loop computes
`(0.5 + 2^53) + (-2^53)`, where `0.5 + 2^53` is rounded to `2^53`, and leaves the score 0
at cursor 2. -/
theorem i_loop_shortest_path_counterexample :
    (∀ n, step_cost example_graph cancelling_fees 0 n = 0) ∧
    (∀ n, 0 ≤ step_cost example_graph cancelling_fees 0 n) ∧
    Double.half + step_cost example_graph cancelling_fees 0 2 = Double.half ∧
    (i_loop_processing_non_negative example_graph cancelling_fees (Double.of_int 250) 20
        half_I 0 (fun _ => false)).map
      (fun st => (StateSet.score_at st.I 1, StateSet.score_at st.I 2))
      = some (Double.half, 0) ∧
    (0 : Double) ≠ Double.half :=
  ⟨fun _ => (by decide! : Double.two53 + Double.neg_two53 = 0),
    fun _ => (by decide! : (0 : Double) ≤ Double.two53 + Double.neg_two53),
    by decide!, by decide!, by decide!⟩

/-- The example run of the insertion loop, evaluated in exact arithmetic: the seed at cursor 3 (score 30) is
improved to 19 by the walk 1, 2, 3 from the seed at cursor 1 (score 7). -/
theorem i_loop_example :
    (i_loop_processing_non_negative example_graph example_fees 250 20 example_I2 0
        (fun _ => false)).map (fun st => (st.I, st.processed, st.taken_values))
      = some ([(1, PathLink.link 0 7 PathLink.master_source),
          (3, PathLink.link 2 19 (PathLink.link 1 13 (PathLink.link 0 7 PathLink.master_source))),
          (2, PathLink.link 1 13 (PathLink.link 0 7 PathLink.master_source)),
          (4, PathLink.link 3 25 (PathLink.link 2 19
                (PathLink.link 1 13 (PathLink.link 0 7 PathLink.master_source))))],
        [4, 3, 2, 1], 5) := by
  decide

/-- The example query of the bounded estimator, evaluated: cursor 3 has depth 1, so the
query for depth 2 is answered false, and cursor 1 lies on a cycle. -/
theorem depth_at_least_example :
    (match DepthAtLeast.depth_at_least example_graph 1 { depth_ := [], max_stack_size_ := 0 } 3 2 with
      | Except.ok r => some (r.1, r.2.depth_)
      | Except.error _ => none)
      = some (false, [(4, { value := 0, exact := true }), (3, { value := 1, exact := true })]) ∧
    (match DepthAtLeast.depth_at_least example_graph 1 { depth_ := [], max_stack_size_ := 0 } 1 9 with
      | Except.ok r => some r.1
      | Except.error _ => none) = some true ∧
    (DepthInt.depth example_graph 6 { depth_ := [], max_stack_size_ := 0 } 3).map (fun r => r.1)
      = some 1 ∧
    (DepthInt.depth example_graph 6 { depth_ := [], max_stack_size_ := 0 } 1).map (fun r => r.1)
      = some INF := by
  decide

end impl

namespace impl

set_option linter.unusedSectionVars false
set_option linter.unusedVariables false

/-! ## The bounded estimator on an arbitrary cache -/

section FrameFacts

variable {GraphCursor : Type} [DecidableEq GraphCursor]

theorem CacheWrites.writes_trivial (g : Cursor GraphCursor) : CacheWrites g (fun _ => True) :=
  fun _ _ _ _ _ => True.intro

theorem CacheWrites.writes_emptyInv (g : Cursor GraphCursor) : CacheWrites g (EmptyInv g) := by
  intro depth_ cursor e h he c x hc hx
  rw [find_set] at hx
  by_cases hcc : cursor = c
  · simp only [hcc, if_true, Option.some.injEq] at hx
    subst hx
    exact he (hcc ▸ hc)
  · simp only [hcc, if_false] at hx
    exact h c x hc hx

theorem DepthAtLeast.store_frame (g : Cursor GraphCursor)
    (P : List (GraphCursor × Estimation) → Prop) (hP : CacheWrites g P) (L : Nat)
    (self : DepthAtLeast GraphCursor) (cursor : GraphCursor) (e : Estimation)
    (stack : List GraphCursor) (hinv : P self.depth_)
    (he : g.is_empty cursor = true → e = { value := INF, exact := true })
    (hL : e.exact = false → L < e.value) :
    P (DepthAtLeast.store self cursor e stack).2.2.depth_ ∧
    (DepthAtLeast.store self cursor e stack).2.1 = stack ∧
    find (DepthAtLeast.store self cursor e stack).2.2.depth_ cursor
      = some (DepthAtLeast.store self cursor e stack).1 ∧
    ((DepthAtLeast.store self cursor e stack).1.exact = false →
      L < (DepthAtLeast.store self cursor e stack).1.value) := by
  refine ⟨hP _ _ _ hinv he, rfl, ?_, hL⟩
  simp [DepthAtLeast.store, find_set]

theorem DepthAtLeast.early_return_frame (g : Cursor GraphCursor)
    (P : List (GraphCursor × Estimation) → Prop) (hP : CacheWrites g P) (L : Nat)
    (cursor : GraphCursor) (stack : List GraphCursor) (self : DepthAtLeast GraphCursor)
    (r : Estimation × List GraphCursor × DepthAtLeast GraphCursor)
    (hinv : P self.depth_)
    (h : DepthAtLeast.early_return g L cursor stack self = some r) :
    P r.2.2.depth_ ∧ r.2.1 = stack ∧ find r.2.2.depth_ cursor = some r.1 ∧
      (r.1.exact = false → L < r.1.value) := by
  unfold DepthAtLeast.early_return at h
  by_cases hempty : g.is_empty cursor = true
  · simp only [hempty, if_true, Option.some.injEq] at h
    subst h
    exact DepthAtLeast.store_frame g P hP L self cursor _ stack hinv (fun _ => rfl) (by simp)
  · simp only [hempty, Bool.false_eq_true, if_false] at h
    rcases hce : DepthAtLeast.cached_estimation self cursor L with _ | cached
    · simp only [hce] at h
      by_cases hstop : is_stop g cursor = true
      · simp only [hstop, if_true, Option.some.injEq] at h
        subst h
        exact DepthAtLeast.store_frame g P hP L self cursor _ stack hinv
          (fun he => absurd he hempty) (by simp)
      · simp only [hstop, Bool.false_eq_true, if_false] at h
        by_cases hin : cursor ∈ stack
        · simp only [hin, if_true, Option.some.injEq] at h
          subst h
          exact DepthAtLeast.store_frame g P hP L self cursor _ stack hinv (fun _ => rfl)
            (by simp)
        · simp [hin] at h
    · simp only [hce, Option.some.injEq] at h
      subst h
      obtain ⟨hfind, hor⟩ := DepthAtLeast.cached_estimation_some self cursor L cached hce
      refine ⟨hinv, rfl, hfind, ?_⟩
      intro hex
      rcases hor with h | h
      · rw [h] at hex; exact absurd hex (by simp)
      · exact h

theorem DepthAtLeast.children_frame (P : List (GraphCursor × Estimation) → Prop) (L : Nat)
    (rec : GraphCursor → List GraphCursor → DepthAtLeast GraphCursor →
      Estimation × List GraphCursor × DepthAtLeast GraphCursor)
    (hrec : ∀ n stack self, P self.depth_ →
      P (rec n stack self).2.2.depth_ ∧ (rec n stack self).2.1 = stack ∧
      ((rec n stack self).1.exact = false → L < (rec n stack self).1.value)) :
    ∀ (nexts : List GraphCursor) (acc : Nat × Bool × List GraphCursor × DepthAtLeast GraphCursor),
      P acc.2.2.2.depth_ →
      P (DepthAtLeast.children rec nexts acc).2.2.2.depth_ ∧
      (DepthAtLeast.children rec nexts acc).2.2.1 = acc.2.2.1 ∧
      acc.1 ≤ (DepthAtLeast.children rec nexts acc).1 ∧
      ((DepthAtLeast.children rec nexts acc).2.1 = false →
        acc.2.1 = false ∨ L < (DepthAtLeast.children rec nexts acc).1) := by
  intro nexts
  induction nexts with
  | nil =>
    intro acc h
    exact ⟨h, rfl, le_refl _, fun hx => Or.inl hx⟩
  | cons n rest ih =>
    intro acc h
    obtain ⟨r1, r2, r3⟩ := hrec n acc.2.2.1 acc.2.2.2 h
    have hdef : DepthAtLeast.children rec (n :: rest) acc
        = DepthAtLeast.children rec rest
            (max acc.1 (rec n acc.2.2.1 acc.2.2.2).1.value,
              acc.2.1 && (rec n acc.2.2.1 acc.2.2.2).1.exact,
              (rec n acc.2.2.1 acc.2.2.2).2.1, (rec n acc.2.2.1 acc.2.2.2).2.2) := rfl
    rw [hdef]
    obtain ⟨i1, i2, i3, i4⟩ := ih
      (max acc.1 (rec n acc.2.2.1 acc.2.2.2).1.value,
        acc.2.1 && (rec n acc.2.2.1 acc.2.2.2).1.exact,
        (rec n acc.2.2.1 acc.2.2.2).2.1, (rec n acc.2.2.1 acc.2.2.2).2.2) r1
    simp only at i2 i3 i4
    refine ⟨i1, i2.trans r2, le_trans (le_max_left _ _) i3, ?_⟩
    intro hx
    rcases i4 hx with h4 | h4
    · simp only [Bool.and_eq_false_imp] at h4
      by_cases ha : acc.2.1 = true
      · right
        have := r3 (h4 ha)
        have h5 := le_max_right acc.1 (rec n acc.2.2.1 acc.2.2.2).1.value
        omega
      · left; simpa using ha
    · exact Or.inr h4

/-- What `DepthAtLeast::get_depth_` establishes on an arbitrary cache: it keeps every
property of the cache that its writes keep, it restores the in-progress set, the
returned estimation is the cached one, and an inexact estimation exceeds the stack
limit. -/
theorem DepthAtLeast.get_depth_frame (g : Cursor GraphCursor)
    (P : List (GraphCursor × Estimation) → Prop) (hP : CacheWrites g P) :
    ∀ (L : Nat) (cursor : GraphCursor) (stack : List GraphCursor)
      (self : DepthAtLeast GraphCursor), P self.depth_ →
      P (DepthAtLeast.get_depth_ g L cursor stack self).2.2.depth_ ∧
      (DepthAtLeast.get_depth_ g L cursor stack self).2.1 = stack ∧
      find (DepthAtLeast.get_depth_ g L cursor stack self).2.2.depth_ cursor
        = some (DepthAtLeast.get_depth_ g L cursor stack self).1 ∧
      ((DepthAtLeast.get_depth_ g L cursor stack self).1.exact = false →
        L < (DepthAtLeast.get_depth_ g L cursor stack self).1.value) := by
  intro L
  induction L with
  | zero =>
    intro cursor stack self hinv
    have hdef : DepthAtLeast.get_depth_ g 0 cursor stack self =
        match DepthAtLeast.early_return g 0 cursor stack self with
        | some r => r
        | none => DepthAtLeast.store self cursor { value := 1, exact := false } stack := rfl
    rw [hdef]
    rcases her : DepthAtLeast.early_return g 0 cursor stack self with _ | r
    · simp only
      obtain ⟨hlive, _⟩ := DepthAtLeast.early_return_none g 0 cursor stack self her
      exact DepthAtLeast.store_frame g P hP 0 self cursor _ stack hinv
        (fun he => by rw [hlive.1] at he; exact absurd he (by simp)) (by simp)
    · simp only
      exact DepthAtLeast.early_return_frame g P hP 0 cursor stack self r hinv her
  | succ limit ih =>
    intro cursor stack self hinv
    have hdef : DepthAtLeast.get_depth_ g (limit + 1) cursor stack self =
        match DepthAtLeast.early_return g (limit + 1) cursor stack self with
        | some r => r
        | none => DepthAtLeast.expand g (DepthAtLeast.get_depth_ g limit) cursor stack self := rfl
    rw [hdef]
    rcases her : DepthAtLeast.early_return g (limit + 1) cursor stack self with _ | r
    · simp only
      obtain ⟨hlive, hin⟩ := DepthAtLeast.early_return_none g (limit + 1) cursor stack self her
      have hne : g.is_empty cursor = true → ∀ e : Estimation, e = { value := INF, exact := true } :=
        fun he => by rw [hlive.1] at he; exact absurd he (by simp)
      obtain ⟨c1, c2, c3, c4⟩ := DepthAtLeast.children_frame P limit
        (DepthAtLeast.get_depth_ g limit)
        (fun n st sf h1 => by
          obtain ⟨a, b, _, d⟩ := ih n st sf h1
          exact ⟨a, b, d⟩)
        (g.next cursor)
        (0, true, set_insert stack cursor,
          DepthAtLeast.mk self.depth_
            (max self.max_stack_size_ (set_insert stack cursor).length))
        hinv
      simp only at c1 c2 c3 c4
      unfold DepthAtLeast.expand
      simp only
      generalize DepthAtLeast.children (DepthAtLeast.get_depth_ g limit) (g.next cursor)
        (0, true, set_insert stack cursor,
          DepthAtLeast.mk self.depth_
            (max self.max_stack_size_ (set_insert stack cursor).length)) = R at *
      have hst : set_erase R.2.2.1 cursor = stack := by
        rw [c2]; exact set_erase_set_insert stack cursor hin
      rw [hst]
      by_cases hinf : R.1 = INF
      · simp only [hinf, if_true]
        exact DepthAtLeast.store_frame g P hP (limit + 1) R.2.2.2 cursor _ stack c1
          (fun _ => rfl) (by simp)
      · simp only [hinf, if_false]
        refine DepthAtLeast.store_frame g P hP (limit + 1) R.2.2.2 cursor _ stack c1
          (fun he => hne he _) ?_
        simp only
        intro hex
        rcases c4 hex with h | h
        · exact absurd h (by simp)
        · omega
    · simp only
      exact DepthAtLeast.early_return_frame g P hP (limit + 1) cursor stack self r hinv her

/-- After `get_depth_` with a stack limit that is at least `depth`, the cache decides
the query, whatever the cache was before. -/
theorem DepthAtLeast.cached_answer_frame (g : Cursor GraphCursor)
    (self : DepthAtLeast GraphCursor) (cursor : GraphCursor) (depth L : Nat) (hL : depth ≤ L) :
    ∃ answer, DepthAtLeast.cached_answer (DepthAtLeast.get_depth_ g L cursor [] self).2.2
      cursor depth = some answer := by
  obtain ⟨_, _, hfind, hex⟩ := DepthAtLeast.get_depth_frame g (fun _ => True)
    (CacheWrites.writes_trivial g) L cursor [] self True.intro
  unfold DepthAtLeast.cached_answer
  rw [hfind]
  simp only
  by_cases hge : (DepthAtLeast.get_depth_ g L cursor [] self).1.value ≥ depth
  · exact ⟨true, by simp [hge]⟩
  · simp only [hge, if_false]
    by_cases hx : (DepthAtLeast.get_depth_ g L cursor [] self).1.exact = true
    · exact ⟨false, by simp [hx]⟩
    · have := hex (by simpa using hx)
      omega

/-- A query that the cache decides returns at once. -/
theorem DepthAtLeast.depth_at_least_cached (g : Cursor GraphCursor) (fuel : Nat)
    (self : DepthAtLeast GraphCursor) (cursor : GraphCursor) (depth : Nat) (answer : Bool)
    (hd : depth ≠ 0) (h : DepthAtLeast.cached_answer self cursor depth = some answer) :
    DepthAtLeast.depth_at_least g fuel self cursor depth = Except.ok (answer, self) := by
  cases fuel with
  | zero =>
    have hdef : DepthAtLeast.depth_at_least g 0 self cursor depth
        = DepthAtLeast.depth_at_least_body g (fun _ => Except.error Abort.fuel)
            self cursor depth := rfl
    rw [hdef]
    unfold DepthAtLeast.depth_at_least_body
    simp only [hd, if_false, h]
  | succ f =>
    have hdef : DepthAtLeast.depth_at_least g (f + 1) self cursor depth
        = DepthAtLeast.depth_at_least_body g
            (fun self' => DepthAtLeast.depth_at_least g f self' cursor depth)
            self cursor depth := rfl
    rw [hdef]
    unfold DepthAtLeast.depth_at_least_body
    simp only [hd, if_false, h]

/-- A query with `1 ≤ depth ≤ 25000` that the cache does not decide runs `get_depth_`
once and is then answered from the cache. -/
theorem DepthAtLeast.depth_at_least_miss (g : Cursor GraphCursor) (fuel : Nat)
    (self : DepthAtLeast GraphCursor) (cursor : GraphCursor) (depth : Nat)
    (h1 : 1 ≤ depth) (h2 : depth ≤ 25000)
    (h : DepthAtLeast.cached_answer self cursor depth = none) :
    ∃ answer,
      DepthAtLeast.cached_answer
        (DepthAtLeast.get_depth_ g (max ((2 * depth) % 2 ^ 64) 10) cursor [] self).2.2
        cursor depth = some answer ∧
      DepthAtLeast.depth_at_least g (fuel + 1) self cursor depth
        = Except.ok (answer,
            (DepthAtLeast.get_depth_ g (max ((2 * depth) % 2 ^ 64) 10) cursor [] self).2.2) := by
  have hd : ¬ depth = 0 := by omega
  obtain ⟨b1, b2⟩ := stack_limit_bounds depth h1 h2
  obtain ⟨_, s1, s4, _⟩ := DepthAtLeast.get_depth_frame g (fun _ => True)
    (CacheWrites.writes_trivial g) (max ((2 * depth) % 2 ^ 64) 10) cursor [] self True.intro
  obtain ⟨answer, hans⟩ := DepthAtLeast.cached_answer_frame g self cursor depth
    (max ((2 * depth) % 2 ^ 64) 10) b1
  refine ⟨answer, hans, ?_⟩
  have hdef : DepthAtLeast.depth_at_least g (fuel + 1) self cursor depth
      = DepthAtLeast.depth_at_least_body g
          (fun self' => DepthAtLeast.depth_at_least g fuel self' cursor depth)
          self cursor depth := rfl
  rw [hdef]
  unfold DepthAtLeast.depth_at_least_body
  have hcount : count (DepthAtLeast.get_depth_ g (max ((2 * depth) % 2 ^ 64) 10) cursor []
      self).2.2.depth_ cursor = true := by
    unfold count; rw [s4]; rfl
  simp only [hd, if_false, h, b1, b2, s1, hcount, not_true_eq_false]
  exact DepthAtLeast.depth_at_least_cached g fuel _ cursor depth answer hd hans

end FrameFacts

end impl

namespace impl

set_option linter.unusedSectionVars false
set_option linter.unusedVariables false

/-! ## Queries of the bounded estimator -/

section BoundedQueries

variable {GraphCursor : Type} [DecidableEq GraphCursor]

theorem DepthAtLeast.depth_zero_eq (g : Cursor GraphCursor) (fuel : Nat)
    (self : DepthAtLeast GraphCursor) (cursor : GraphCursor) :
    DepthAtLeast.depth_at_least g fuel self cursor 0 = Except.ok (true, self) := by
  cases fuel <;> rfl

/-- The body of `depth_at_least` keeps every property of the cache that the writes of
`get_depth_` keep. -/
theorem DepthAtLeast.body_frame (g : Cursor GraphCursor)
    (P : List (GraphCursor × Estimation) → Prop) (hP : CacheWrites g P)
    (again : DepthAtLeast GraphCursor → Except Abort (Bool × DepthAtLeast GraphCursor))
    (hagain : ∀ s answer s', P s.depth_ → again s = Except.ok (answer, s') → P s'.depth_)
    (self : DepthAtLeast GraphCursor) (cursor : GraphCursor) (depth : Nat) (answer : Bool)
    (self' : DepthAtLeast GraphCursor) (hinv : P self.depth_)
    (h : DepthAtLeast.depth_at_least_body g again self cursor depth = Except.ok (answer, self')) :
    P self'.depth_ := by
  unfold DepthAtLeast.depth_at_least_body at h
  by_cases hd : depth = 0
  · simp only [hd, if_true, Except.ok.injEq, Prod.mk.injEq] at h
    rw [← h.2]; exact hinv
  · simp only [hd, if_false] at h
    rcases hca : DepthAtLeast.cached_answer self cursor depth with _ | a
    · simp only [hca] at h
      split at h
      · simp at h
      · split at h
        · simp at h
        · split at h
          · simp at h
          · split at h
            · simp at h
            · exact hagain _ answer self'
                (DepthAtLeast.get_depth_frame g P hP _ cursor [] self hinv).1 h
    · simp only [hca, Except.ok.injEq, Prod.mk.injEq] at h
      rw [← h.2]; exact hinv

theorem DepthAtLeast.query_frame (g : Cursor GraphCursor)
    (P : List (GraphCursor × Estimation) → Prop) (hP : CacheWrites g P) :
    ∀ (fuel : Nat) (self : DepthAtLeast GraphCursor) (cursor : GraphCursor) (depth : Nat)
      (answer : Bool) (self' : DepthAtLeast GraphCursor), P self.depth_ →
      DepthAtLeast.depth_at_least g fuel self cursor depth = Except.ok (answer, self') →
      P self'.depth_ := by
  intro fuel
  induction fuel with
  | zero =>
    intro self cursor depth answer self' hinv h
    exact DepthAtLeast.body_frame g P hP _ (fun s a s' _ hs => by simp at hs) self cursor depth
      answer self' hinv h
  | succ fuel ih =>
    intro self cursor depth answer self' hinv h
    exact DepthAtLeast.body_frame g P hP _
      (fun s a s' hs hq => ih s cursor depth a s' hs hq) self cursor depth answer self' hinv h

theorem DepthAtLeast.Reachable.emptyInv (g : Cursor GraphCursor)
    (self : DepthAtLeast GraphCursor) (h : DepthAtLeast.Reachable g self) :
    EmptyInv g self.depth_ := by
  induction h with
  | fresh => intro c e _ hf; simp [find] at hf
  | query self fuel cursor depth answer self' _ hq ih =>
    exact DepthAtLeast.query_frame g (EmptyInv g) (CacheWrites.writes_emptyInv g) fuel self cursor
      depth answer self' ih hq

/-- A query above 25000 that the cache does not decide fails an assertion on the stack
limit (lines 159-160). -/
theorem DepthAtLeast.depth_at_least_large (g : Cursor GraphCursor) (fuel : Nat)
    (self : DepthAtLeast GraphCursor) (cursor : GraphCursor) (depth : Nat)
    (h1 : 25000 < depth) (h : DepthAtLeast.cached_answer self cursor depth = none) :
    DepthAtLeast.depth_at_least g fuel self cursor depth = Except.error Abort.assertion := by
  have hd : ¬ depth = 0 := by omega
  have hbad : ¬ (max ((2 * depth) % 2 ^ 64) 10 ≥ depth) ∨
      ¬ (max ((2 * depth) % 2 ^ 64) 10 ≤ STACK_LIMIT) := by
    unfold STACK_LIMIT
    by_cases hlt : 2 * depth < 2 ^ 64
    · right
      rw [Nat.mod_eq_of_lt hlt]
      omega
    · by_cases hle : max ((2 * depth) % 2 ^ 64) 10 ≤ 50000
      · left; omega
      · right; exact hle
  cases fuel with
  | zero =>
    have hdef : DepthAtLeast.depth_at_least g 0 self cursor depth
        = DepthAtLeast.depth_at_least_body g (fun _ => Except.error Abort.fuel)
            self cursor depth := rfl
    rw [hdef]
    unfold DepthAtLeast.depth_at_least_body
    simp only [hd, if_false, h]
    rcases hbad with hb | hb
    · simp only [hb, not_false_eq_true, if_true]
    · by_cases hb1 : max ((2 * depth) % 2 ^ 64) 10 ≥ depth
      · simp only [hb1, hb, not_true_eq_false, not_false_eq_true, if_true, if_false]
      · simp only [hb1, not_false_eq_true, if_true]
  | succ f =>
    have hdef : DepthAtLeast.depth_at_least g (f + 1) self cursor depth
        = DepthAtLeast.depth_at_least_body g
            (fun self' => DepthAtLeast.depth_at_least g f self' cursor depth)
            self cursor depth := rfl
    rw [hdef]
    unfold DepthAtLeast.depth_at_least_body
    simp only [hd, if_false, h]
    rcases hbad with hb | hb
    · simp only [hb, not_false_eq_true, if_true]
    · by_cases hb1 : max ((2 * depth) % 2 ^ 64) 10 ≥ depth
      · simp only [hb1, hb, not_true_eq_false, not_false_eq_true, if_true, if_false]
      · simp only [hb1, not_false_eq_true, if_true]

/-- Claim C12.  For every graph, cursor and estimator state, `depth_at_least(c, 0)`
returns true and leaves the estimator as it was (the cache and `max_stack_size_` are
unchanged, so `get_depth_` has expanded nothing), with any amount of fuel; the `double`
overload does the same for every `d ≤ 0`. -/
theorem depth_at_least_zero (g : Cursor GraphCursor) (fuel : Nat)
    (self : DepthAtLeast GraphCursor) (cursor : GraphCursor) :
    DepthAtLeast.depth_at_least g fuel self cursor 0 = Except.ok (true, self) ∧
    ∀ d : Rat, d ≤ 0 →
      DepthAtLeast.depth_at_least_double g fuel self cursor d = Except.ok (true, self) := by
  refine ⟨DepthAtLeast.depth_zero_eq g fuel self cursor, ?_⟩
  intro d hd
  unfold DepthAtLeast.depth_at_least_double
  simp only [hd, if_true]

/-- Claim C16.  For every graph, cursor, cache state and `d ≤ 25000`, one unit of fuel
is enough for `depth_at_least` to return: either the depth is 0 or the cache decides the
query and the estimator is left alone, or `get_depth_` runs once with the stack limit
`max(2 d, 10)` and the call of itself in the last line is answered by the cache that
`get_depth_` left behind, which is the estimator state that is returned. -/
theorem depth_at_least_terminates (g : Cursor GraphCursor) (self : DepthAtLeast GraphCursor)
    (cursor : GraphCursor) (d : Nat) (hd : d ≤ 25000) (fuel : Nat) (hfuel : 1 ≤ fuel) :
    (∃ answer, DepthAtLeast.depth_at_least g fuel self cursor d = Except.ok (answer, self)) ∨
    (d ≠ 0 ∧ DepthAtLeast.cached_answer self cursor d = none ∧
      ∃ answer,
        DepthAtLeast.cached_answer
          (DepthAtLeast.get_depth_ g (max ((2 * d) % 2 ^ 64) 10) cursor [] self).2.2
          cursor d = some answer ∧
        DepthAtLeast.depth_at_least g fuel self cursor d
          = Except.ok (answer,
              (DepthAtLeast.get_depth_ g (max ((2 * d) % 2 ^ 64) 10) cursor [] self).2.2)) := by
  obtain ⟨f, rfl⟩ : ∃ f, fuel = f + 1 := ⟨fuel - 1, by omega⟩
  by_cases h0 : d = 0
  · left
    subst h0
    exact ⟨true, DepthAtLeast.depth_zero_eq g (f + 1) self cursor⟩
  · rcases hca : DepthAtLeast.cached_answer self cursor d with _ | a
    · right
      exact ⟨h0, rfl, DepthAtLeast.depth_at_least_miss g f self cursor d (by omega) hd hca⟩
    · left
      exact ⟨a, DepthAtLeast.depth_at_least_cached g (f + 1) self cursor d a h0 hca⟩

theorem depth_at_least_terminates_witness :
    (25000 ≤ 25000 ∧ 1 ≤ 1) ∧
    ((∃ answer, DepthAtLeast.depth_at_least example_graph 1
        example_cache 1 25000
          = Except.ok (answer, example_cache)) ∨
    ((25000 : Nat) ≠ 0 ∧
      DepthAtLeast.cached_answer
        example_cache 1 25000 = none ∧
      ∃ answer,
        DepthAtLeast.cached_answer
          (DepthAtLeast.get_depth_ example_graph (max ((2 * 25000) % 2 ^ 64) 10) 1 []
            example_cache).2.2
          1 25000 = some answer ∧
        DepthAtLeast.depth_at_least example_graph 1
          example_cache 1 25000
          = Except.ok (answer,
              (DepthAtLeast.get_depth_ example_graph (max ((2 * 25000) % 2 ^ 64) 10) 1 []
                example_cache).2.2))) :=
  ⟨⟨by decide, by decide⟩,
    depth_at_least_terminates example_graph
      example_cache 1 25000
      (by decide) 1 (by decide)⟩

/-- Claim C13 (amended).  In every estimator state that queries can reach, a query at
the empty cursor with `d ≤ 25000`, or with any `d` of the range of `size_t` once the
empty cursor has a cache entry, returns true; a query with `d > 25000` at an empty
cursor that has no cache entry fails the assertion `stack_limit <= STACK_LIMIT` (or
`stack_limit >= depth` when `2 * d` wraps) and returns nothing.  The assertion is all
that stands in the way: with any stack limit, `get_depth_` leaves a cache that answers
the query with true. -/
theorem depth_at_least_empty_cursor (g : Cursor GraphCursor)
    (self : DepthAtLeast GraphCursor) (hreach : DepthAtLeast.Reachable g self)
    (cursor : GraphCursor) (hempty : g.is_empty cursor = true) (fuel : Nat) (hfuel : 1 ≤ fuel)
    (d : Nat) (hd : d ≤ INF) :
    (d ≤ 25000 ∨ count self.depth_ cursor = true →
      ∃ self', DepthAtLeast.depth_at_least g fuel self cursor d = Except.ok (true, self')) ∧
    (25000 < d → count self.depth_ cursor = false →
      DepthAtLeast.depth_at_least g fuel self cursor d = Except.error Abort.assertion) ∧
    (∀ L, DepthAtLeast.cached_answer (DepthAtLeast.get_depth_ g L cursor [] self).2.2 cursor d
      = some true) := by
  refine ⟨?_, ?_, ?_⟩
  · intro h
    by_cases h0 : d = 0
    · subst h0
      exact ⟨self, DepthAtLeast.depth_zero_eq g fuel self cursor⟩
    · by_cases hc : count self.depth_ cursor = true
      · unfold count at hc
        obtain ⟨e, he⟩ := Option.isSome_iff_exists.mp hc
        have hee := DepthAtLeast.Reachable.emptyInv g self hreach cursor e hempty he
        refine ⟨self, DepthAtLeast.depth_at_least_cached g fuel self cursor d true h0 ?_⟩
        unfold DepthAtLeast.cached_answer
        rw [he, hee]
        simp only [ge_iff_le, hd, if_true]
      · have hle : d ≤ 25000 := by
          rcases h with h | h
          · exact h
          · exact absurd h hc
        obtain ⟨self', hs⟩ := DepthAtLeast.depth_at_least_correct g self
          (DepthAtLeast.Reachable.cacheInv g self hreach) cursor d (by omega) hle fuel hfuel
        rw [walk_empty g d cursor hempty] at hs
        exact ⟨self', hs⟩
  · intro h hc
    refine DepthAtLeast.depth_at_least_large g fuel self cursor d h ?_
    unfold count at hc
    unfold DepthAtLeast.cached_answer
    rcases hf : find self.depth_ cursor with _ | e
    · rfl
    · rw [hf] at hc; simp at hc
  · intro L
    obtain ⟨f1, _, f3, _⟩ := DepthAtLeast.get_depth_frame g (EmptyInv g)
      (CacheWrites.writes_emptyInv g) L cursor [] self
      (DepthAtLeast.Reachable.emptyInv g self hreach)
    have hee := f1 cursor _ hempty f3
    unfold DepthAtLeast.cached_answer
    rw [f3, hee]
    simp only [ge_iff_le, hd, if_true]

theorem depth_at_least_empty_cursor_witness :
    (DepthAtLeast.Reachable example_graph { depth_ := [], max_stack_size_ := 0 } ∧
      example_graph.is_empty 0 = true ∧ 1 ≤ 1 ∧ 25000 ≤ INF) ∧
    ((25000 ≤ 25000 ∨ count ({ depth_ := [], max_stack_size_ := 0 } :
          DepthAtLeast Nat).depth_ 0 = true →
      ∃ self', DepthAtLeast.depth_at_least example_graph 1
        { depth_ := [], max_stack_size_ := 0 } 0 25000 = Except.ok (true, self')) ∧
    (25000 < 25000 → count ({ depth_ := [], max_stack_size_ := 0 } :
          DepthAtLeast Nat).depth_ 0 = false →
      DepthAtLeast.depth_at_least example_graph 1
        { depth_ := [], max_stack_size_ := 0 } 0 25000 = Except.error Abort.assertion) ∧
    (∀ L, DepthAtLeast.cached_answer
        (DepthAtLeast.get_depth_ example_graph L 0 []
          { depth_ := [], max_stack_size_ := 0 }).2.2 0 25000
      = some true)) :=
  ⟨⟨DepthAtLeast.Reachable.fresh, by decide, by decide, by decide⟩,
    depth_at_least_empty_cursor example_graph { depth_ := [], max_stack_size_ := 0 }
      DepthAtLeast.Reachable.fresh 0 (by decide) 1 (by decide) 25000 (by decide)⟩

/-- Counterexample to claim C13 as stated: on the fresh estimator the query at the empty
cursor for `d = 25001` computes the stack limit 50002, fails the assertion
`stack_limit <= STACK_LIMIT` and returns nothing. -/
theorem depth_at_least_empty_cursor_counterexample :
    example_graph.is_empty 0 = true ∧
    DepthAtLeast.depth_at_least example_graph 1 { depth_ := [], max_stack_size_ := 0 } 0 25001
      = Except.error Abort.assertion := by
  constructor
  · decide
  · rfl

/-- Claim C14 (amended).  In every estimator state that queries can reach, a query at a
cursor that lies on a cycle of cursors that are neither empty nor stop markers returns
true when `d ≤ 25000`, and for any `d` of the range of `size_t` when the cache decides
the query.  A query with `d > 25000` that the cache does not decide fails the assertion
`stack_limit <= STACK_LIMIT` (or `stack_limit >= depth` when `2 * d` wraps) and returns
nothing.  The assertions are all that stands in the way: with any stack limit `L ≥ d`,
`get_depth_` leaves a cache that answers the query with true. -/
theorem depth_at_least_on_cycle (g : Cursor GraphCursor)
    (self : DepthAtLeast GraphCursor) (hreach : DepthAtLeast.Reachable g self)
    (cursor : GraphCursor) (hcycle : LivePath g cursor cursor) (d : Nat) (hd : d ≤ INF)
    (fuel : Nat) (hfuel : 1 ≤ fuel) :
    (d ≤ 25000 ∨ (DepthAtLeast.cached_answer self cursor d).isSome = true →
      ∃ self', DepthAtLeast.depth_at_least g fuel self cursor d = Except.ok (true, self')) ∧
    (25000 < d → DepthAtLeast.cached_answer self cursor d = none →
      DepthAtLeast.depth_at_least g fuel self cursor d = Except.error Abort.assertion) ∧
    (∀ d' L, d' ≤ INF → d' ≤ L →
      DepthAtLeast.cached_answer (DepthAtLeast.get_depth_ g L cursor [] self).2.2 cursor d'
        = some true) := by
  have hinv := DepthAtLeast.Reachable.cacheInv g self hreach
  refine ⟨?_, ?_, ?_⟩
  · intro h
    by_cases h0 : d = 0
    · subst h0
      exact ⟨self, DepthAtLeast.depth_zero_eq g fuel self cursor⟩
    · rcases hc : DepthAtLeast.cached_answer self cursor d with _ | answer
      · have hle : d ≤ 25000 := by
          rcases h with h | h
          · exact h
          · rw [hc] at h; simp at h
        obtain ⟨self', hs⟩ := DepthAtLeast.depth_at_least_correct g self hinv cursor d
          (by omega) hle fuel hfuel
        rw [walk_of_cycle g cursor hcycle d] at hs
        exact ⟨self', hs⟩
      · have hsound := DepthAtLeast.cached_answer_sound g self cursor d answer hinv hd hc
        rw [walk_of_cycle g cursor hcycle d] at hsound
        subst hsound
        exact ⟨self, DepthAtLeast.depth_at_least_cached g fuel self cursor d true h0 hc⟩
  · intro h hc
    exact DepthAtLeast.depth_at_least_large g fuel self cursor d h hc
  · intro d' L hd' hL
    obtain ⟨answer, hans⟩ := DepthAtLeast.cached_answer_after g self cursor d' L hinv hL
    have hinv2 := (DepthAtLeast.get_depth_spec g L cursor [] self hinv
      (StackInv.nil g cursor)).2.1
    have hsound := DepthAtLeast.cached_answer_sound g _ cursor d' answer hinv2 hd' hans
    rw [walk_of_cycle g cursor hcycle d'] at hsound
    rw [hans, hsound]

/-- Witness for claim C14: the query for `d = 25000` at cursor 1 of the graph
`cycle_graph`, which has no dead end, on the fresh estimator. -/
theorem depth_at_least_on_cycle_witness :
    (DepthAtLeast.Reachable cycle_graph { depth_ := [], max_stack_size_ := 0 } ∧
      LivePath cycle_graph 1 1 ∧ 25000 ≤ INF ∧ 1 ≤ 1) ∧
    ((25000 ≤ 25000 ∨ (DepthAtLeast.cached_answer
          ({ depth_ := [], max_stack_size_ := 0 } : DepthAtLeast Nat) 1 25000).isSome = true →
      ∃ self', DepthAtLeast.depth_at_least cycle_graph 1
        { depth_ := [], max_stack_size_ := 0 } 1 25000 = Except.ok (true, self')) ∧
      (25000 < 25000 → DepthAtLeast.cached_answer
          ({ depth_ := [], max_stack_size_ := 0 } : DepthAtLeast Nat) 1 25000 = none →
        DepthAtLeast.depth_at_least cycle_graph 1
          { depth_ := [], max_stack_size_ := 0 } 1 25000 = Except.error Abort.assertion) ∧
      (∀ d' L, d' ≤ INF → d' ≤ L →
        DepthAtLeast.cached_answer
          (DepthAtLeast.get_depth_ cycle_graph L 1 []
            { depth_ := [], max_stack_size_ := 0 }).2.2 1 d'
          = some true)) :=
  ⟨⟨DepthAtLeast.Reachable.fresh,
      LivePath.cons 1 2 1 ⟨by decide, by decide⟩ (by decide)
        (LivePath.single 2 1 ⟨by decide, by decide⟩ (by decide)),
      by decide, by decide⟩,
    depth_at_least_on_cycle cycle_graph { depth_ := [], max_stack_size_ := 0 }
      DepthAtLeast.Reachable.fresh 1
      (LivePath.cons 1 2 1 ⟨by decide, by decide⟩ (by decide)
        (LivePath.single 2 1 ⟨by decide, by decide⟩ (by decide)))
      25000 (by decide) 1 (by decide)⟩

/-- Counterexample to claim C14 as stated: in the graph `cycle_graph` every cursor has a
successor and no cursor is a stop marker, and cursor 1 lies on the cycle 1, 2, 1; on
the fresh estimator the query for `d = 25001` at cursor 1 computes the stack limit
50002, fails the assertion `stack_limit <= STACK_LIMIT` and returns nothing. -/
theorem depth_at_least_on_cycle_counterexample :
    (∀ c, cycle_graph.next c ≠ []) ∧ (∀ c, is_stop cycle_graph c = false) ∧
    LivePath cycle_graph 1 1 ∧
    DepthAtLeast.depth_at_least cycle_graph 1 { depth_ := [], max_stack_size_ := 0 } 1 25001
      = Except.error Abort.assertion := by
  refine ⟨?_, ?_, ?_, ?_⟩
  · intro c
    unfold cycle_graph
    by_cases hc : c = 1
    · simp [hc]
    · simp [hc]
  · intro c
    rfl
  · exact LivePath.cons 1 2 1 ⟨by decide, by decide⟩ (by decide)
      (LivePath.single 2 1 ⟨by decide, by decide⟩ (by decide))
  · rfl

end BoundedQueries

end impl

namespace impl

set_option linter.unusedSectionVars false
set_option linter.unusedVariables false

/-! ## Eviction from a frontier -/

section Eviction

variable {K V S : Type} [LinearOrder S]

/-- On a non-empty frontier and for `n ≥ 1`, `score_filter` keeps the entries whose
score is at most `min threshold s`, for a score `s` of the frontier that at least
`min n size` entries do not exceed. -/
theorem score_filter_cut (score_fnc : K × V → S) (n : Nat) (threshold : S)
    (m : List (K × V)) (hm : m ≠ []) (hn : 1 ≤ n) :
    ∃ s, min n m.length ≤ m.countP (fun kv => decide (score_fnc kv ≤ s)) ∧
      (score_filter score_fnc n threshold m).1
        = m.filter (fun kv => decide (score_fnc kv ≤ min threshold s)) := by
  have hlen : 0 < m.length := List.length_pos.mpr hm
  have hk : min n m.length ≠ 0 := by omega
  have hperm : ((scores score_fnc m).insertionSort (· ≤ ·)).Perm (scores score_fnc m) :=
    List.perm_insertionSort _ _
  have hsorted : ((scores score_fnc m).insertionSort (· ≤ ·)).Sorted (· ≤ ·) :=
    List.sorted_insertionSort _ _
  have hlt : min n m.length - 1 < ((scores score_fnc m).insertionSort (· ≤ ·)).length := by
    rw [hperm.length_eq]; simp [scores]; omega
  obtain ⟨s, hs⟩ : ∃ s, ((scores score_fnc m).insertionSort (· ≤ ·)).get? (min n m.length - 1)
      = some s := ⟨_, List.get?_eq_get hlt⟩
  refine ⟨s, ?_, ?_⟩
  · have h1 := countP_le_sorted _ hsorted _ _ hs
    rw [hperm.countP_eq] at h1
    simp only [scores, List.countP_map] at h1
    have : m.countP (fun kv => decide (score_fnc kv ≤ s))
        = m.countP ((fun y => decide (y ≤ s)) ∘ score_fnc) := rfl
    omega
  · simp only [score_filter, nth_element, hk, if_false, hs, filter_key_value_eq]
    congr 1
    funext kv
    by_cases h : score_fnc kv ≤ min threshold s
    · simp [h, not_lt.mpr h]
    · simp [h, not_le.mp h]

/-- Claim C18 (amended).  The number of entries that survive `score_filter(n,
threshold)` is at least `min(n, size before the call)` exactly when at least that many
entries of the frontier score no more than the threshold, with or without ties at the
cutoff. -/
theorem score_filter_survivors (score_fnc : K × V → S) (n : Nat) (threshold : S)
    (m : List (K × V)) :
    min n m.length ≤ (score_filter score_fnc n threshold m).1.length ↔
      min n m.length ≤ m.countP (fun kv => decide (score_fnc kv ≤ threshold)) := by
  by_cases hz : min n m.length = 0
  · rw [hz]; simp
  · have hm : m ≠ [] := by
      intro h; subst h; simp at hz
    have hn : 1 ≤ n := by
      rcases Nat.eq_zero_or_pos n with h | h
      · subst h; simp at hz
      · exact h
    obtain ⟨s, hs1, hs2⟩ := score_filter_cut score_fnc n threshold m hm hn
    rw [hs2, ← List.countP_eq_length_filter]
    rcases le_total threshold s with hle | hle
    · rw [min_eq_left hle]
    · rw [min_eq_right hle]
      constructor
      · intro _
        refine le_trans hs1 ?_
        apply List.countP_mono_left
        intro kv _ hkv
        simp only [decide_eq_true_eq] at hkv ⊢
        exact le_trans hkv hle
      · intro _; exact hs1

/-- Counterexample to claim C18 as stated: the frontier has the scores 1 and 5, which do
not tie, and `score_filter(2, 3)` leaves one entry where `min(2, 2) = 2`. -/
theorem score_filter_survivors_counterexample :
    (scores (fun kv : Nat × Int => kv.2) [(1, 1), (2, 5)]).Nodup ∧
    min 2 ([(1, 1), (2, 5)] : List (Nat × Int)).length = 2 ∧
    (score_filter (fun kv : Nat × Int => kv.2) 2 3 [(1, 1), (2, 5)]).1 = [(1, 1)] ∧
    ¬ (min 2 ([(1, 1), (2, 5)] : List (Nat × Int)).length
        ≤ (score_filter (fun kv : Nat × Int => kv.2) 2 3 [(1, 1), (2, 5)]).1.length) := by
  decide

/-- Claim C20.  After `filter_key(p)` the frontier holds exactly the old entries whose
cursor does not satisfy `p`, in their old order and with their old values, and the
returned number is the number of old entries whose cursor satisfies `p`, which is the
number of entries removed; the same holds for `filter_key_value` with a predicate on
the entries. -/
theorem filter_key_exact (p : K → Bool) (q : K × V → Bool) (m : List (K × V)) :
    (filter_key p m).1 = m.filter (fun kv => !p kv.1) ∧
    (filter_key p m).2 = m.countP (fun kv => p kv.1) ∧
    (filter_key p m).2 + (filter_key p m).1.length = m.length ∧
    (filter_key_value q m).1 = m.filter (fun kv => !q kv) ∧
    (filter_key_value q m).2 = m.countP q ∧
    (filter_key_value q m).2 + (filter_key_value q m).1.length = m.length := by
  have key : ∀ r : K × V → Bool,
      m.countP r + (m.filter (fun kv => !r kv)).length = m.length := by
    intro r
    have h := List.length_eq_countP_add_countP r m
    rw [List.countP_eq_length_filter (fun a => decide ¬ _)] at h
    have h2 : List.filter (fun kv => !r kv) m
        = List.filter (fun a => decide ¬(r a = true)) m := by
      congr 1; funext kv
      cases r kv <;> simp
    rw [h2]
    omega
  rw [filter_key_eq, filter_key_value_eq]
  exact ⟨rfl, rfl, key (fun kv => p kv.1), rfl, rfl, key q⟩

end Eviction

end impl

namespace impl

set_option linter.unusedSectionVars false
set_option linter.unusedVariables false

/-! ## The value of the exact estimator -/

section ExactValue

variable {GraphCursor : Type} [DecidableEq GraphCursor]

/-- A right depth is determined by the cursor. -/
theorem ValidI.unique (g : Cursor GraphCursor) (c : GraphCursor) (v w : Nat)
    (hv : ValidI g c v) (hw : ValidI g c w) (hvI : v ≤ INF) (hwI : w ≤ INF) : v = w := by
  have h1 : v ≤ w := (ValidI.ge_iff g c w v hw hvI).mpr hv.1
  have h2 : w ≤ v := (ValidI.ge_iff g c v w hv hwI).mpr hw.1
  omega

theorem Unbounded.walk (g : Cursor GraphCursor) (c : GraphCursor) (h : Unbounded g c)
    (d : Nat) : walk_at_least g d c = true := by
  obtain ⟨x, hp, hx⟩ := h
  have hxw : ∀ d, walk_at_least g d x = true := by
    intro d
    rcases hx with hx | hx
    · exact walk_empty g d x hx
    · exact walk_of_cycle g x hx d
  cases d with
  | zero => rfl
  | succ d => exact LivePath.pump g c x hp d (hxw d)

/-- Pigeonhole: a walk that is longer than the graph has cursors left to visit ends in
the empty cursor or runs into a cycle. -/
theorem walk_long (g : Cursor GraphCursor) (nodes : List GraphCursor)
    (hclosed : closed_under_next g nodes) :
    ∀ (d : Nat) (c : GraphCursor) (visited : List GraphCursor),
      visited.Nodup → (∀ s ∈ visited, s ∈ nodes) → (∀ s ∈ visited, LivePath g s c) →
      c ∈ nodes → walk_at_least g d c = true → nodes.length < d + visited.length →
      g.is_empty c = true ∨ Unbounded g c := by
  intro d
  induction d with
  | zero =>
    intro c visited hnd hsub _ _ _ hlen
    have hle : visited.length ≤ nodes.length := (hnd.subperm hsub).length_le
    omega
  | succ d ih =>
    intro c visited hnd hsub hpath hc hw hlen
    by_cases hempty : g.is_empty c = true
    · exact Or.inl hempty
    · right
      have hne : g.is_empty c = false := by simpa using hempty
      rw [walk_succ] at hw
      simp only [hne, Bool.false_or, Bool.and_eq_true, Bool.not_eq_true', Bool.or_eq_true,
        decide_eq_true_eq, List.any_eq_true] at hw
      have hlive : live g c := ⟨hne, hw.1⟩
      by_cases hin : c ∈ visited
      · exact ⟨c, hpath c hin, Or.inr (hpath c hin)⟩
      · have hnd2 : (c :: visited).Nodup := List.nodup_cons.mpr ⟨hin, hnd⟩
        have hsub2 : ∀ s ∈ c :: visited, s ∈ nodes := by
          intro s hs
          rcases List.mem_cons.mp hs with rfl | hs
          · exact hc
          · exact hsub s hs
        rcases hw.2 with h0 | ⟨n, hn, hwn⟩
        · have hle : (c :: visited).length ≤ nodes.length := (hnd2.subperm hsub2).length_le
          simp only [List.length_cons] at hle
          omega
        · have hpath2 : ∀ s ∈ c :: visited, LivePath g s n := by
            intro s hs
            rcases List.mem_cons.mp hs with rfl | hs
            · exact LivePath.single _ n hlive hn
            · exact LivePath.snoc g s c n (hpath s hs) hlive hn
          have hlen2 : nodes.length < d + (c :: visited).length := by
            simp only [List.length_cons]; omega
          rcases ih n (c :: visited) hnd2 hsub2 hpath2 (hclosed c hc n hn) hwn hlen2 with h | h
          · exact ⟨n, LivePath.single c n hlive hn, Or.inl h⟩
          · obtain ⟨x, hx1, hx2⟩ := h
            exact ⟨x, LivePath.cons c n x hlive hn hx1, hx2⟩

theorem foldr_max_eq (l : List GraphCursor) (f : GraphCursor → Nat) (m : Nat)
    (hle : ∀ n ∈ l, f n ≤ m) (hex : m = 0 ∨ ∃ n ∈ l, f n = m) :
    (l.map f).foldr max 0 = m := by
  have h1 : ∀ l : List GraphCursor, (∀ n ∈ l, f n ≤ m) → (l.map f).foldr max 0 ≤ m := by
    intro l
    induction l with
    | nil => intro _; simp
    | cons a t ih =>
      intro h
      simp only [List.map_cons, List.foldr_cons]
      exact max_le (h a (List.mem_cons_self _ _))
        (ih (fun n hn => h n (List.mem_cons_of_mem _ hn)))
  have h2 : ∀ l : List GraphCursor, ∀ n ∈ l, f n ≤ (l.map f).foldr max 0 := by
    intro l
    induction l with
    | nil => intro n hn; simp at hn
    | cons a t ih =>
      intro n hn
      simp only [List.map_cons, List.foldr_cons]
      rcases List.mem_cons.mp hn with rfl | hn
      · exact le_max_left _ _
      · exact le_trans (ih n hn) (le_max_right _ _)
  apply le_antisymm (h1 l hle)
  rcases hex with h | ⟨n, hn, h⟩
  · omega
  · rw [← h]; exact h2 l n hn

/-- The recurrence that the right depths satisfy at a live cursor of bounded depth. -/
theorem ValidI.recurrence (g : Cursor GraphCursor) (c : GraphCursor) (v : Nat)
    (D : GraphCursor → Nat) (hv : ValidI g c v) (hlt : v < INF) (hlive : live g c)
    (hD : ∀ n ∈ g.next c, ValidI g n (D n)) :
    v = 1 + ((g.next c).map D).foldr max 0 := by
  have hv1 : 1 ≤ v :=
    (ValidI.ge_iff g c v 1 hv (by unfold INF; omega)).mpr (walk_one g c hlive)
  have hle : ∀ n ∈ g.next c, D n ≤ v - 1 := by
    intro n hn
    by_contra hcon
    have hge : v ≤ D n := by omega
    have hwn : walk_at_least g v n = true :=
      (ValidI.ge_iff g n (D n) v (hD n hn) (by omega)).mp hge
    have := walk_step g v c n hlive hn hwn
    rw [hv.2 hlt] at this
    exact Bool.false_ne_true this
  have hex : v - 1 = 0 ∨ ∃ n ∈ g.next c, D n = v - 1 := by
    by_cases h2 : v - 1 = 0
    · exact Or.inl h2
    · right
      have hw : walk_at_least g ((v - 2) + 2) c = true := by
        have : v - 2 + 2 = v := by omega
        rw [this]; exact hv.1
      obtain ⟨n, hn, hwn⟩ := walk_succ_inv g (v - 2) c hlive.1 hw
      have hge : v - 2 + 1 ≤ D n :=
        (ValidI.ge_iff g n (D n) (v - 2 + 1) (hD n hn) (by omega)).mpr hwn
      have := hle n hn
      exact ⟨n, hn, by omega⟩
  rw [foldr_max_eq (g.next c) D (v - 1) hle hex]
  omega

end ExactValue

end impl

namespace impl

set_option linter.unusedSectionVars false
set_option linter.unusedVariables false

section ExactBound

variable {GraphCursor : Type} [DecidableEq GraphCursor]

theorem BoundI.di_store_bound (self : DepthInt GraphCursor)
    (cursor : GraphCursor) (v : Nat) (stack : List GraphCursor)
    (r : Nat × List GraphCursor × DepthInt GraphCursor)
    (hinv : BoundI self.depth_) (hv : v ≤ INF)
    (h : DepthInt.store self cursor v stack = some r) :
    BoundI r.2.2.depth_ ∧ r.1 ≤ INF := by
  simp only [DepthInt.store, Option.some.injEq] at h
  subst h
  refine ⟨?_, hv⟩
  intro c x hx
  simp only at hx
  rw [find_set] at hx
  by_cases hc : cursor = c
  · simp only [hc, if_true, Option.some.injEq] at hx
    omega
  · simp only [hc, if_false] at hx
    exact hinv c x hx

theorem DepthInt.di_early_return_bound (g : Cursor GraphCursor) (cursor : GraphCursor)
    (stack : List GraphCursor) (self : DepthInt GraphCursor)
    (r : Nat × List GraphCursor × DepthInt GraphCursor)
    (hinv : BoundI self.depth_)
    (h : DepthInt.early_return g cursor stack self = some r) :
    BoundI r.2.2.depth_ ∧ r.1 ≤ INF := by
  unfold DepthInt.early_return at h
  rcases hf : find self.depth_ cursor with _ | cached
  · simp only [hf] at h
    by_cases hempty : g.is_empty cursor = true
    · simp only [hempty, if_true] at h
      exact BoundI.di_store_bound self cursor _ stack r hinv (le_refl _) h
    · simp only [hempty, Bool.false_eq_true, if_false] at h
      by_cases hstop : is_stop g cursor = true
      · simp only [hstop, if_true] at h
        exact BoundI.di_store_bound self cursor _ stack r hinv (Nat.zero_le _) h
      · simp only [hstop, Bool.false_eq_true, if_false] at h
        by_cases hin : cursor ∈ stack
        · simp only [hin, if_true] at h
          exact BoundI.di_store_bound self cursor _ stack r hinv (le_refl _) h
        · simp [hin] at h
  · simp only [hf, Option.some.injEq] at h
    subst h
    exact ⟨hinv, hinv cursor cached hf⟩

theorem DepthInt.di_children_bound
    (rec : GraphCursor → List GraphCursor → DepthInt GraphCursor →
      Option (Nat × List GraphCursor × DepthInt GraphCursor))
    (hrec : ∀ n stack self r, BoundI self.depth_ → rec n stack self = some r →
      BoundI r.2.2.depth_ ∧ r.1 ≤ INF) :
    ∀ (nexts : List GraphCursor) (acc R : Nat × List GraphCursor × DepthInt GraphCursor),
      DepthInt.children rec nexts acc = some R →
      BoundI acc.2.2.depth_ → acc.1 ≤ INF → BoundI R.2.2.depth_ ∧ R.1 ≤ INF := by
  intro nexts
  induction nexts with
  | nil =>
    intro acc R h hinv hacc
    simp only [DepthInt.children, Option.some.injEq] at h
    subst h
    exact ⟨hinv, hacc⟩
  | cons n rest ih =>
    intro acc R h hinv hacc
    simp only [DepthInt.children] at h
    rcases hr : rec n acc.2.1 acc.2.2 with _ | result
    · simp [hr] at h
    · simp only [hr] at h
      obtain ⟨r1, r2⟩ := hrec n acc.2.1 acc.2.2 result hinv hr
      exact ih (max acc.1 result.1, result.2.1, result.2.2) R h r1 (max_le hacc r2)

/-- Every depth that `DepthInt::get_depth_` returns or caches is in the range of
`size_t`: the sum `1 + max_child` is formed only when `max_child` is below `INF`. -/
theorem DepthInt.di_get_depth_bound (g : Cursor GraphCursor) :
    ∀ (fuel : Nat) (cursor : GraphCursor) (stack : List GraphCursor)
      (self : DepthInt GraphCursor) (r : Nat × List GraphCursor × DepthInt GraphCursor),
      DepthInt.get_depth_ g fuel cursor stack self = some r →
      BoundI self.depth_ → BoundI r.2.2.depth_ ∧ r.1 ≤ INF := by
  intro fuel
  induction fuel with
  | zero =>
    intro cursor stack self r h hinv
    exact DepthInt.di_early_return_bound g cursor stack self r hinv h
  | succ fuel ih =>
    intro cursor stack self r h hinv
    have hdef : DepthInt.get_depth_ g (fuel + 1) cursor stack self =
        match DepthInt.early_return g cursor stack self with
        | some r => some r
        | none => DepthInt.expand g (DepthInt.get_depth_ g fuel) cursor stack self := rfl
    rw [hdef] at h
    rcases her : DepthInt.early_return g cursor stack self with _ | r0
    · simp only [her] at h
      unfold DepthInt.expand at h
      simp only at h
      rcases hch : DepthInt.children (DepthInt.get_depth_ g fuel) (g.next cursor)
          (0, set_insert stack cursor,
            DepthInt.mk self.depth_
              (max self.max_stack_size_ (set_insert stack cursor).length)) with _ | R
      · simp [hch] at h
      · simp only [hch] at h
        obtain ⟨c1, c2⟩ := DepthInt.di_children_bound (DepthInt.get_depth_ g fuel)
          (fun n st sf r0 h1 h2 => ih n st sf r0 h2 h1) (g.next cursor) _ R hch hinv
          (Nat.zero_le _)
        refine BoundI.di_store_bound R.2.2 cursor _ _ r c1 ?_ h
        by_cases hinf : R.1 = INF
        · simp only [hinf, if_true, le_refl]
        · simp only [hinf, if_false]
          omega
    · simp only [her, Option.some.injEq] at h
      subst h
      exact DepthInt.di_early_return_bound g cursor stack self r0 hinv her

theorem DepthInt.Reachable.di_boundI (g : Cursor GraphCursor) (self : DepthInt GraphCursor)
    (h : DepthInt.Reachable g self) : BoundI self.depth_ := by
  induction h with
  | fresh => intro c e hf; simp [find] at hf
  | query self fuel cursor value self' _ hq ih =>
    unfold DepthInt.depth at hq
    rcases hr : DepthInt.get_depth_ g fuel cursor [] self with _ | r
    · simp [hr] at hq
    · simp only [hr] at hq
      by_cases hs : r.2.1 = []
      · simp only [hs, if_true, Option.some.injEq, Prod.mk.injEq] at hq
        rw [← hq.2]
        exact (DepthInt.di_get_depth_bound g fuel cursor [] self r hr ih).1
      · simp [hs] at hq

/-- A query of the exact estimator on a finite graph, from a state that queries can
reach and with more fuel than the graph has cursors, returns the right depth, which is
in the range of `size_t`, and leaves a state that queries can reach. -/
theorem DepthInt.depth_value (g : Cursor GraphCursor) (nodes : List GraphCursor)
    (hclosed : closed_under_next g nodes) (self : DepthInt GraphCursor)
    (hreach : DepthInt.Reachable g self) (cursor : GraphCursor) (hc : cursor ∈ nodes)
    (fuel : Nat) (hfuel : nodes.length < fuel) :
    ∃ v self', DepthInt.depth g fuel self cursor = some (v, self') ∧ ValidI g cursor v ∧
      v ≤ INF ∧ DepthInt.Reachable g self' := by
  obtain ⟨v, self', hq, hv, _⟩ := DepthInt.depth_correct g nodes hclosed self
    (DepthInt.Reachable.di_cacheInv g self hreach) cursor hc fuel hfuel
  refine ⟨v, self', hq, hv, ?_, DepthInt.Reachable.query self fuel cursor v self' hreach hq⟩
  have hq2 := hq
  unfold DepthInt.depth at hq2
  rcases hr : DepthInt.get_depth_ g fuel cursor [] self with _ | r
  · simp [hr] at hq2
  · simp only [hr] at hq2
    by_cases hs : r.2.1 = []
    · simp only [hs, if_true, Option.some.injEq, Prod.mk.injEq] at hq2
      rw [← hq2.1]
      exact (DepthInt.di_get_depth_bound g fuel cursor [] self r hr
        (DepthInt.Reachable.di_boundI g self hreach)).2
    · simp [hs] at hq2

end ExactBound

end impl

namespace impl

set_option linter.unusedSectionVars false
set_option linter.unusedVariables false

section ExactClaim

variable {GraphCursor : Type} [DecidableEq GraphCursor]

/-- Claim C15.  On a finite graph (a list of fewer than `INF` cursors that holds the
successors of its members) there is one depth `D c` for every cursor such that every
query `DepthInt::depth(c)`, from every estimator state that earlier queries can have
left and with more fuel than the graph has cursors, returns `D c`; `D` is `INF` at an
empty cursor, 0 at a non-empty cursor with the letter `*` or `X`, `INF` at a cursor from
which a cycle or the empty cursor is reachable through live cursors, and at every other
cursor 1 plus the greatest depth of its successors (1 when it has none). -/
theorem depth_exact_value (g : Cursor GraphCursor) (nodes : List GraphCursor)
    (hclosed : closed_under_next g nodes) (hsize : nodes.length < INF) :
    ∃ D : GraphCursor → Nat,
      (∀ self, DepthInt.Reachable g self → ∀ c ∈ nodes, ∀ fuel, nodes.length < fuel →
        ∃ self', DepthInt.depth g fuel self c = some (D c, self')) ∧
      (∀ c ∈ nodes, g.is_empty c = true → D c = INF) ∧
      (∀ c ∈ nodes, g.is_empty c = false → is_stop g c = true → D c = 0) ∧
      (∀ c ∈ nodes, Unbounded g c → D c = INF) ∧
      (∀ c ∈ nodes, live g c → ¬ Unbounded g c →
        D c = 1 + ((g.next c).map D).foldr max 0) := by
  have hD : ∀ c ∈ nodes, ValidI g c
        (match DepthInt.depth g (nodes.length + 1) { depth_ := [], max_stack_size_ := 0 } c with
          | some r => r.1
          | none => 0) ∧
      (match DepthInt.depth g (nodes.length + 1) { depth_ := [], max_stack_size_ := 0 } c with
          | some r => r.1
          | none => 0) ≤ INF := by
    intro c hc
    obtain ⟨v, self', hq, hv, hb, _⟩ := DepthInt.depth_value g nodes hclosed
      { depth_ := [], max_stack_size_ := 0 } DepthInt.Reachable.fresh c hc (nodes.length + 1)
      (Nat.lt_succ_self _)
    rw [hq]
    exact ⟨hv, hb⟩
  refine ⟨fun c =>
    match DepthInt.depth g (nodes.length + 1) { depth_ := [], max_stack_size_ := 0 } c with
    | some r => r.1
    | none => 0, ?_, ?_, ?_, ?_, ?_⟩
  · intro self hreach c hc fuel hfuel
    obtain ⟨v, self', hq, hv, hb, _⟩ := DepthInt.depth_value g nodes hclosed self hreach c hc
      fuel hfuel
    refine ⟨self', ?_⟩
    rw [hq, ValidI.unique g c v _ hv (hD c hc).1 hb (hD c hc).2]
  · intro c hc hempty
    obtain ⟨h1, h2⟩ := hD c hc
    simp only
    by_contra hne
    have hw := h1.2 (by omega)
    rw [walk_empty g _ c hempty] at hw
    exact Bool.false_ne_true hw.symm
  · intro c hc hne hstop
    obtain ⟨h1, h2⟩ := hD c hc
    simp only
    by_contra hcon
    have hw := walk_mono g c _ 1 (by omega) h1.1
    rw [walk_stop g 0 c hne hstop] at hw
    exact Bool.false_ne_true hw
  · intro c hc hunb
    obtain ⟨h1, h2⟩ := hD c hc
    simp only
    by_contra hne
    have hw := h1.2 (by omega)
    rw [Unbounded.walk g c hunb] at hw
    exact Bool.false_ne_true hw.symm
  · intro c hc hlive hunb
    obtain ⟨h1, h2⟩ := hD c hc
    simp only
    refine ValidI.recurrence g c _ _ h1 ?_ hlive
      (fun n hn => (hD n (hclosed c hc n hn)).1)
    by_contra hcon
    have hINF : (match DepthInt.depth g (nodes.length + 1)
        { depth_ := [], max_stack_size_ := 0 } c with
      | some r => r.1
      | none => 0) = INF := by omega
    have hw := h1.1
    rw [hINF] at hw
    rcases walk_long g nodes hclosed INF c [] List.nodup_nil (by simp) (by simp) hc hw
      (by simpa using hsize) with h | h
    · rw [hlive.1] at h
      exact Bool.false_ne_true h
    · exact hunb h

theorem depth_exact_value_witness :
    (closed_under_next example_graph [0, 1, 2, 3, 4] ∧ [0, 1, 2, 3, 4].length < INF) ∧
    ∃ D : Nat → Nat,
      (∀ self, DepthInt.Reachable example_graph self → ∀ c ∈ [0, 1, 2, 3, 4], ∀ fuel,
        [0, 1, 2, 3, 4].length < fuel →
        ∃ self', DepthInt.depth example_graph fuel self c = some (D c, self')) ∧
      (∀ c ∈ [0, 1, 2, 3, 4], example_graph.is_empty c = true → D c = INF) ∧
      (∀ c ∈ [0, 1, 2, 3, 4], example_graph.is_empty c = false →
        is_stop example_graph c = true → D c = 0) ∧
      (∀ c ∈ [0, 1, 2, 3, 4], Unbounded example_graph c → D c = INF) ∧
      (∀ c ∈ [0, 1, 2, 3, 4], live example_graph c → ¬ Unbounded example_graph c →
        D c = 1 + ((example_graph.next c).map D).foldr max 0) :=
  ⟨⟨by decide, by decide⟩,
    depth_exact_value example_graph [0, 1, 2, 3, 4] (by decide) (by decide)⟩

end ExactClaim

end impl

namespace impl

set_option linter.unusedSectionVars false
set_option linter.unusedVariables false

/-! ## Expansions of the exact estimator -/

section ExactExpansions

variable {GraphCursor : Type} [DecidableEq GraphCursor]

theorem count_set {V : Type} (m : List (GraphCursor × V)) (k : GraphCursor) (v : V)
    (c : GraphCursor) : count (set m k v) c = true ↔ (k = c ∨ count m c = true) := by
  unfold count
  rw [find_set]
  by_cases h : k = c
  · simp [h]
  · simp [h]

theorem DepthInt.early_return_keeps (g : Cursor GraphCursor) (cursor : GraphCursor)
    (stack : List GraphCursor) (self : DepthInt GraphCursor)
    (r : Nat × List GraphCursor × DepthInt GraphCursor)
    (h : DepthInt.early_return g cursor stack self = some r) :
    ∀ x, count self.depth_ x = true → count r.2.2.depth_ x = true := by
  intro x hx
  unfold DepthInt.early_return at h
  rcases hf : find self.depth_ cursor with _ | cached
  · simp only [hf] at h
    have key : ∀ v, DepthInt.store self cursor v stack = some r →
        count r.2.2.depth_ x = true := by
      intro v hv
      simp only [DepthInt.store, Option.some.injEq] at hv
      subst hv
      exact (count_set _ _ _ _).mpr (Or.inr hx)
    by_cases hempty : g.is_empty cursor = true
    · simp only [hempty, if_true] at h
      exact key _ h
    · simp only [hempty, Bool.false_eq_true, if_false] at h
      by_cases hstop : is_stop g cursor = true
      · simp only [hstop, if_true] at h
        exact key _ h
      · simp only [hstop, Bool.false_eq_true, if_false] at h
        by_cases hin : cursor ∈ stack
        · simp only [hin, if_true] at h
          exact key _ h
        · simp [hin] at h
  · simp only [hf, Option.some.injEq] at h
    subst h
    exact hx

theorem DepthInt.early_return_uncached (g : Cursor GraphCursor) (cursor : GraphCursor)
    (stack : List GraphCursor) (self : DepthInt GraphCursor)
    (h : DepthInt.early_return g cursor stack self = none) :
    count self.depth_ cursor = false := by
  unfold DepthInt.early_return at h
  unfold count
  rcases hf : find self.depth_ cursor with _ | cached
  · rfl
  · simp [hf] at h

/-- What the loop over the successors of the exact estimator expands: cursors that had
no cache entry and were not in progress, each once, and each has a cache entry
afterwards. -/
theorem DepthInt.children_log_spec
    (rec : GraphCursor → List GraphCursor → DepthInt GraphCursor →
      Option (Nat × List GraphCursor × DepthInt GraphCursor))
    (log : GraphCursor → List GraphCursor → DepthInt GraphCursor → List GraphCursor)
    (hrec : ∀ n stack self r, rec n stack self = some r →
      r.2.1 = stack ∧
      (∀ x, count self.depth_ x = true → count r.2.2.depth_ x = true) ∧
      (∀ x ∈ log n stack self,
        count self.depth_ x = false ∧ x ∉ stack ∧ count r.2.2.depth_ x = true) ∧
      (log n stack self).Nodup) :
    ∀ (nexts : List GraphCursor) (acc R : Nat × List GraphCursor × DepthInt GraphCursor),
      DepthInt.children rec nexts acc = some R →
      R.2.1 = acc.2.1 ∧
      (∀ x, count acc.2.2.depth_ x = true → count R.2.2.depth_ x = true) ∧
      (∀ x ∈ DepthInt.children_log rec log nexts acc,
        count acc.2.2.depth_ x = false ∧ x ∉ acc.2.1 ∧ count R.2.2.depth_ x = true) ∧
      (DepthInt.children_log rec log nexts acc).Nodup := by
  intro nexts
  induction nexts with
  | nil =>
    intro acc R h
    simp only [DepthInt.children, Option.some.injEq] at h
    subst h
    refine ⟨rfl, fun _ hx => hx, ?_, ?_⟩
    · intro x hx
      simp [DepthInt.children_log] at hx
    · simp [DepthInt.children_log]
  | cons n rest ih =>
    intro acc R h
    simp only [DepthInt.children] at h
    rcases hr : rec n acc.2.1 acc.2.2 with _ | result
    · simp [hr] at h
    · simp only [hr] at h
      obtain ⟨r1, r2, r3, r4⟩ := hrec n acc.2.1 acc.2.2 result hr
      obtain ⟨i1, i2, i3, i4⟩ := ih (max acc.1 result.1, result.2.1, result.2.2) R h
      simp only at i1 i2 i3
      have hlog : DepthInt.children_log rec log (n :: rest) acc
          = log n acc.2.1 acc.2.2 ++
              DepthInt.children_log rec log rest
                (max acc.1 result.1, result.2.1, result.2.2) := by
        simp only [DepthInt.children_log, hr]
      rw [hlog]
      refine ⟨i1.trans r1, fun x hx => i2 x (r2 x hx), ?_, ?_⟩
      · intro x hx
        rcases List.mem_append.mp hx with hx | hx
        · obtain ⟨a, b, c⟩ := r3 x hx
          exact ⟨a, b, i2 x c⟩
        · obtain ⟨a, b, c⟩ := i3 x hx
          refine ⟨?_, by rw [← r1]; exact b, c⟩
          by_contra hcon
          have := r2 x (by simpa using hcon)
          rw [a] at this
          exact Bool.false_ne_true this
      · refine List.Nodup.append r4 i4 ?_
        intro x hx1 hx2
        have h1 := (r3 x hx1).2.2
        rw [(i3 x hx2).1] at h1
        exact Bool.false_ne_true h1

/-- What `DepthInt::get_depth_` expands when it returns: cursors that had no cache
entry and were not in progress, each once, and each has a cache entry afterwards. -/
theorem DepthInt.expansions_spec (g : Cursor GraphCursor) :
    ∀ (fuel : Nat) (cursor : GraphCursor) (stack : List GraphCursor)
      (self : DepthInt GraphCursor) (r : Nat × List GraphCursor × DepthInt GraphCursor),
      DepthInt.get_depth_ g fuel cursor stack self = some r →
      r.2.1 = stack ∧
      (∀ x, count self.depth_ x = true → count r.2.2.depth_ x = true) ∧
      (∀ x ∈ DepthInt.expansions g fuel cursor stack self,
        count self.depth_ x = false ∧ x ∉ stack ∧ count r.2.2.depth_ x = true) ∧
      (DepthInt.expansions g fuel cursor stack self).Nodup := by
  intro fuel
  induction fuel with
  | zero =>
    intro cursor stack self r h
    have hlog : DepthInt.expansions g 0 cursor stack self = [] := rfl
    rw [hlog]
    have h2 : DepthInt.early_return g cursor stack self = some r := h
    exact ⟨DepthInt.early_return_stack g cursor stack self r h2,
      DepthInt.early_return_keeps g cursor stack self r h2,
      fun x hx => absurd hx (List.not_mem_nil x), List.nodup_nil⟩
  | succ fuel ih =>
    intro cursor stack self r h
    have hdef : DepthInt.get_depth_ g (fuel + 1) cursor stack self =
        match DepthInt.early_return g cursor stack self with
        | some r => some r
        | none => DepthInt.expand g (DepthInt.get_depth_ g fuel) cursor stack self := rfl
    have hlogdef : DepthInt.expansions g (fuel + 1) cursor stack self =
        match DepthInt.early_return g cursor stack self with
        | some _ => []
        | none =>
          cursor ::
            DepthInt.children_log (DepthInt.get_depth_ g fuel) (DepthInt.expansions g fuel)
              (g.next cursor)
              (0, set_insert stack cursor,
                DepthInt.mk self.depth_
                  (max self.max_stack_size_ (set_insert stack cursor).length)) := rfl
    rw [hdef] at h
    rw [hlogdef]
    rcases her : DepthInt.early_return g cursor stack self with _ | r0
    · simp only [her] at h ⊢
      obtain ⟨hlive, hin⟩ := DepthInt.di_early_return_none g cursor stack self her
      have hunc := DepthInt.early_return_uncached g cursor stack self her
      unfold DepthInt.expand at h
      simp only at h
      rcases hch : DepthInt.children (DepthInt.get_depth_ g fuel) (g.next cursor)
          (0, set_insert stack cursor,
            DepthInt.mk self.depth_
              (max self.max_stack_size_ (set_insert stack cursor).length)) with _ | R
      · simp [hch] at h
      · simp only [hch] at h
        obtain ⟨c1, c2, c3, c4⟩ := DepthInt.children_log_spec (DepthInt.get_depth_ g fuel)
          (DepthInt.expansions g fuel) (fun n st sf r0 h1 => ih n st sf r0 h1)
          (g.next cursor) _ R hch
        simp only at c1 c2 c3
        have hst : set_erase R.2.1 cursor = stack := by
          rw [c1]; exact set_erase_set_insert stack cursor hin
        rw [hst] at h
        simp only [DepthInt.store, Option.some.injEq] at h
        subst h
        have hmem : cursor ∈ set_insert stack cursor := by
          simp [set_insert, hin]
        have hsub : ∀ x, x ∉ set_insert stack cursor → x ∉ stack := by
          intro x hx hxs
          apply hx
          simp [set_insert, hin, hxs]
        refine ⟨rfl, ?_, ?_, ?_⟩
        · intro x hx
          exact (count_set _ _ _ _).mpr (Or.inr (c2 x hx))
        · intro x hx
          rcases List.mem_cons.mp hx with rfl | hx
          · exact ⟨hunc, hin, (count_set _ _ _ _).mpr (Or.inl rfl)⟩
          · obtain ⟨a, b, c⟩ := c3 x hx
            exact ⟨a, hsub x b, (count_set _ _ _ _).mpr (Or.inr c)⟩
        · refine List.nodup_cons.mpr ⟨?_, c4⟩
          intro hx
          exact (c3 cursor hx).2.1 hmem
    · simp only [her, Option.some.injEq] at h ⊢
      subst h
      exact ⟨DepthInt.early_return_stack g cursor stack self r0 her,
        DepthInt.early_return_keeps g cursor stack self r0 her,
        fun x hx => absurd hx (List.not_mem_nil x), List.nodup_nil⟩

end ExactExpansions

end impl

namespace impl

set_option linter.unusedSectionVars false
set_option linter.unusedVariables false

/-! ## Expansions of the bounded estimator -/

section BoundedExpansions

variable {GraphCursor : Type} [DecidableEq GraphCursor]

theorem Covered.set_covered (depth_ : List (GraphCursor × Estimation)) (cursor : GraphCursor)
    (e : Estimation) (x : GraphCursor) (L : Nat) (h : Covered depth_ x L)
    (he : cursor = x → e.exact = true ∨ L < e.value) :
    Covered (set depth_ cursor e) x L := by
  unfold Covered
  rw [find_set]
  by_cases hc : cursor = x
  · simp only [hc, if_true]
    exact ⟨e, rfl, he hc⟩
  · simp only [hc, if_false]
    exact h

/-- A cursor that is expanded with the stack limit `Lim` had no cache entry that settles
a visit with that limit. -/
theorem DepthAtLeast.early_return_none_covered (g : Cursor GraphCursor) (Lim : Nat)
    (cursor : GraphCursor) (stack : List GraphCursor) (self : DepthAtLeast GraphCursor)
    (h : DepthAtLeast.early_return g Lim cursor stack self = none) (L : Nat)
    (hc : Covered self.depth_ cursor L) : L < Lim := by
  obtain ⟨e, he, hor⟩ := hc
  unfold DepthAtLeast.early_return at h
  by_cases hempty : g.is_empty cursor = true
  · simp [hempty] at h
  · simp only [hempty, Bool.false_eq_true, if_false] at h
    have hce : DepthAtLeast.cached_estimation self cursor Lim
        = if (e.exact || decide (e.value > Lim)) = true then some e else none := by
      unfold DepthAtLeast.cached_estimation
      rw [he]
    by_cases hx : (e.exact || decide (e.value > Lim)) = true
    · rw [if_pos hx] at hce
      simp [hce] at h
    · simp only [Bool.or_eq_true, decide_eq_true_eq, not_or] at hx
      rcases hor with hor | hor
      · exact absurd hor hx.1
      · omega

theorem DepthAtLeast.early_return_covered (g : Cursor GraphCursor) (Lim : Nat)
    (cursor : GraphCursor) (stack : List GraphCursor) (self : DepthAtLeast GraphCursor)
    (r : Estimation × List GraphCursor × DepthAtLeast GraphCursor)
    (h : DepthAtLeast.early_return g Lim cursor stack self = some r) (x : GraphCursor)
    (L : Nat) (hc : Covered self.depth_ x L) : Covered r.2.2.depth_ x L := by
  unfold DepthAtLeast.early_return at h
  by_cases hempty : g.is_empty cursor = true
  · simp only [hempty, if_true, Option.some.injEq] at h
    subst h
    exact Covered.set_covered _ _ _ _ _ hc (fun _ => Or.inl rfl)
  · simp only [hempty, Bool.false_eq_true, if_false] at h
    rcases hce : DepthAtLeast.cached_estimation self cursor Lim with _ | cached
    · simp only [hce] at h
      by_cases hstop : is_stop g cursor = true
      · simp only [hstop, if_true, Option.some.injEq] at h
        subst h
        exact Covered.set_covered _ _ _ _ _ hc (fun _ => Or.inl rfl)
      · simp only [hstop, Bool.false_eq_true, if_false] at h
        by_cases hin : cursor ∈ stack
        · simp only [hin, if_true, Option.some.injEq] at h
          subst h
          exact Covered.set_covered _ _ _ _ _ hc (fun _ => Or.inl rfl)
        · simp [hin] at h
    · simp only [hce, Option.some.injEq] at h
      subst h
      exact hc

theorem DepthAtLeast.children_covered
    (rec : GraphCursor → List GraphCursor → DepthAtLeast GraphCursor →
      Estimation × List GraphCursor × DepthAtLeast GraphCursor)
    (hrec : ∀ n stack self x L, Covered self.depth_ x L →
      Covered (rec n stack self).2.2.depth_ x L) :
    ∀ (nexts : List GraphCursor) (acc : Nat × Bool × List GraphCursor × DepthAtLeast GraphCursor)
      (x : GraphCursor) (L : Nat), Covered acc.2.2.2.depth_ x L →
      Covered (DepthAtLeast.children rec nexts acc).2.2.2.depth_ x L := by
  intro nexts
  induction nexts with
  | nil => intro acc x L h; exact h
  | cons n rest ih =>
    intro acc x L h
    have hdef : DepthAtLeast.children rec (n :: rest) acc
        = DepthAtLeast.children rec rest
            (max acc.1 (rec n acc.2.2.1 acc.2.2.2).1.value,
              acc.2.1 && (rec n acc.2.2.1 acc.2.2.2).1.exact,
              (rec n acc.2.2.1 acc.2.2.2).2.1, (rec n acc.2.2.1 acc.2.2.2).2.2) := rfl
    rw [hdef]
    exact ih _ x L (hrec n acc.2.2.1 acc.2.2.2 x L h)

/-- A cache entry that settles the visits of a cursor up to a stack limit keeps doing so
through every call of `get_depth_`. -/
theorem DepthAtLeast.get_depth_covered (g : Cursor GraphCursor) :
    ∀ (Lim : Nat) (cursor : GraphCursor) (stack : List GraphCursor)
      (self : DepthAtLeast GraphCursor) (x : GraphCursor) (L : Nat),
      Covered self.depth_ x L →
      Covered (DepthAtLeast.get_depth_ g Lim cursor stack self).2.2.depth_ x L := by
  intro Lim
  induction Lim with
  | zero =>
    intro cursor stack self x L hc
    have hdef : DepthAtLeast.get_depth_ g 0 cursor stack self =
        match DepthAtLeast.early_return g 0 cursor stack self with
        | some r => r
        | none => DepthAtLeast.store self cursor { value := 1, exact := false } stack := rfl
    rw [hdef]
    rcases her : DepthAtLeast.early_return g 0 cursor stack self with _ | r
    · simp only
      refine Covered.set_covered _ _ _ _ _ hc ?_
      intro hx
      subst hx
      have := DepthAtLeast.early_return_none_covered g 0 cursor stack self her L hc
      omega
    · simp only
      exact DepthAtLeast.early_return_covered g 0 cursor stack self r her x L hc
  | succ limit ih =>
    intro cursor stack self x L hc
    have hfr := DepthAtLeast.get_depth_frame g (fun _ => True) (CacheWrites.writes_trivial g)
      (limit + 1) cursor stack self True.intro
    have hdef : DepthAtLeast.get_depth_ g (limit + 1) cursor stack self =
        match DepthAtLeast.early_return g (limit + 1) cursor stack self with
        | some r => r
        | none => DepthAtLeast.expand g (DepthAtLeast.get_depth_ g limit) cursor stack self := rfl
    rcases her : DepthAtLeast.early_return g (limit + 1) cursor stack self with _ | r
    · by_cases hx : cursor = x
      · subst hx
        have hlt := DepthAtLeast.early_return_none_covered g (limit + 1) cursor stack self her
          L hc
        refine ⟨_, hfr.2.2.1, ?_⟩
        by_cases hex : (DepthAtLeast.get_depth_ g (limit + 1) cursor stack self).1.exact = true
        · exact Or.inl hex
        · right
          have := hfr.2.2.2 (by simpa using hex)
          omega
      · rw [hdef]
        simp only [her]
        unfold DepthAtLeast.expand
        simp only
        have hch := DepthAtLeast.children_covered (DepthAtLeast.get_depth_ g limit)
          (fun n st sf x L h => ih n st sf x L h) (g.next cursor)
          (0, true, set_insert stack cursor,
            DepthAtLeast.mk self.depth_
              (max self.max_stack_size_ (set_insert stack cursor).length)) x L hc
        split
        · exact Covered.set_covered _ _ _ _ _ hch (fun h => absurd h hx)
        · exact Covered.set_covered _ _ _ _ _ hch (fun h => absurd h hx)
    · rw [hdef]
      simp only [her]
      exact DepthAtLeast.early_return_covered g (limit + 1) cursor stack self r her x L hc

end BoundedExpansions

end impl

namespace impl

set_option linter.unusedSectionVars false
set_option linter.unusedVariables false

section BoundedExpansionLog

variable {GraphCursor : Type} [DecidableEq GraphCursor]

/-- What the loop over the successors of the bounded estimator expands. -/
theorem DepthAtLeast.children_log_facts (Lim : Nat)
    (rec : GraphCursor → List GraphCursor → DepthAtLeast GraphCursor →
      Estimation × List GraphCursor × DepthAtLeast GraphCursor)
    (log : GraphCursor → List GraphCursor → DepthAtLeast GraphCursor →
      List (GraphCursor × Nat))
    (hstack : ∀ n stack self, (rec n stack self).2.1 = stack)
    (hcov : ∀ n stack self x L, Covered self.depth_ x L →
      Covered (rec n stack self).2.2.depth_ x L)
    (hlog : ∀ n stack self,
      (∀ a ∈ log n stack self, a.1 ∉ stack ∧ 1 ≤ a.2 ∧ a.2 ≤ Lim ∧
        Covered (rec n stack self).2.2.depth_ a.1 a.2 ∧
        ∀ L0, Covered self.depth_ a.1 L0 → L0 < a.2) ∧
      (log n stack self).Pairwise (fun a b => a.1 = b.1 → a.2 < b.2)) :
    ∀ (nexts : List GraphCursor) (acc : Nat × Bool × List GraphCursor × DepthAtLeast GraphCursor),
      (∀ a ∈ DepthAtLeast.children_log rec log nexts acc, a.1 ∉ acc.2.2.1 ∧ 1 ≤ a.2 ∧
        a.2 ≤ Lim ∧
        Covered (DepthAtLeast.children rec nexts acc).2.2.2.depth_ a.1 a.2 ∧
        ∀ L0, Covered acc.2.2.2.depth_ a.1 L0 → L0 < a.2) ∧
      (DepthAtLeast.children_log rec log nexts acc).Pairwise
        (fun a b => a.1 = b.1 → a.2 < b.2) := by
  intro nexts
  induction nexts with
  | nil =>
    intro acc
    have hnil : DepthAtLeast.children_log rec log [] acc = [] := rfl
    rw [hnil]
    exact ⟨fun a ha => absurd ha (List.not_mem_nil a), List.Pairwise.nil⟩
  | cons n rest ih =>
    intro acc
    have hdef : DepthAtLeast.children rec (n :: rest) acc
        = DepthAtLeast.children rec rest
            (max acc.1 (rec n acc.2.2.1 acc.2.2.2).1.value,
              acc.2.1 && (rec n acc.2.2.1 acc.2.2.2).1.exact,
              (rec n acc.2.2.1 acc.2.2.2).2.1, (rec n acc.2.2.1 acc.2.2.2).2.2) := rfl
    have hlogdef : DepthAtLeast.children_log rec log (n :: rest) acc
        = log n acc.2.2.1 acc.2.2.2 ++
            DepthAtLeast.children_log rec log rest
              (max acc.1 (rec n acc.2.2.1 acc.2.2.2).1.value,
                acc.2.1 && (rec n acc.2.2.1 acc.2.2.2).1.exact,
                (rec n acc.2.2.1 acc.2.2.2).2.1, (rec n acc.2.2.1 acc.2.2.2).2.2) := rfl
    rw [hdef, hlogdef]
    obtain ⟨l1, l2⟩ := hlog n acc.2.2.1 acc.2.2.2
    obtain ⟨i1, i2⟩ := ih
      (max acc.1 (rec n acc.2.2.1 acc.2.2.2).1.value,
        acc.2.1 && (rec n acc.2.2.1 acc.2.2.2).1.exact,
        (rec n acc.2.2.1 acc.2.2.2).2.1, (rec n acc.2.2.1 acc.2.2.2).2.2)
    simp only at i1
    refine ⟨?_, ?_⟩
    · intro a ha
      rcases List.mem_append.mp ha with ha | ha
      · obtain ⟨a1, a2, a3, a4, a5⟩ := l1 a ha
        exact ⟨a1, a2, a3, DepthAtLeast.children_covered rec hcov rest _ a.1 a.2 a4, a5⟩
      · obtain ⟨a1, a2, a3, a4, a5⟩ := i1 a ha
        rw [hstack] at a1
        exact ⟨a1, a2, a3, a4, fun L0 h0 => a5 L0 (hcov n acc.2.2.1 acc.2.2.2 a.1 L0 h0)⟩
    · refine List.pairwise_append.mpr ⟨l2, i2, ?_⟩
      intro a ha b hb hab
      have hca := (l1 a ha).2.2.2.1
      rw [hab] at hca
      exact (i1 b hb).2.2.2.2 a.2 hca

/-- What `DepthAtLeast::get_depth_` expands: no cursor that is in progress; an expanded
cursor has afterwards a cache entry that settles every visit with the stack limit it was
expanded with, and had none before; and a cursor that is expanded again is expanded
with a greater stack limit. -/
theorem DepthAtLeast.expansions_facts (g : Cursor GraphCursor) :
    ∀ (Lim : Nat) (cursor : GraphCursor) (stack : List GraphCursor)
      (self : DepthAtLeast GraphCursor),
      (∀ a ∈ DepthAtLeast.expansions g Lim cursor stack self, a.1 ∉ stack ∧ 1 ≤ a.2 ∧
        a.2 ≤ Lim ∧
        Covered (DepthAtLeast.get_depth_ g Lim cursor stack self).2.2.depth_ a.1 a.2 ∧
        ∀ L0, Covered self.depth_ a.1 L0 → L0 < a.2) ∧
      (DepthAtLeast.expansions g Lim cursor stack self).Pairwise
        (fun a b => a.1 = b.1 → a.2 < b.2) := by
  intro Lim
  induction Lim with
  | zero =>
    intro cursor stack self
    have hnil : DepthAtLeast.expansions g 0 cursor stack self = [] := rfl
    rw [hnil]
    exact ⟨fun a ha => absurd ha (List.not_mem_nil a), List.Pairwise.nil⟩
  | succ limit ih =>
    intro cursor stack self
    have hfr := DepthAtLeast.get_depth_frame g (fun _ => True) (CacheWrites.writes_trivial g)
      (limit + 1) cursor stack self True.intro
    have hdef : DepthAtLeast.get_depth_ g (limit + 1) cursor stack self =
        match DepthAtLeast.early_return g (limit + 1) cursor stack self with
        | some r => r
        | none => DepthAtLeast.expand g (DepthAtLeast.get_depth_ g limit) cursor stack self := rfl
    have hlogdef : DepthAtLeast.expansions g (limit + 1) cursor stack self =
        match DepthAtLeast.early_return g (limit + 1) cursor stack self with
        | some _ => []
        | none =>
          (cursor, limit + 1) ::
            DepthAtLeast.children_log (DepthAtLeast.get_depth_ g limit)
              (DepthAtLeast.expansions g limit) (g.next cursor)
              (0, true, set_insert stack cursor,
                DepthAtLeast.mk self.depth_
                  (max self.max_stack_size_ (set_insert stack cursor).length)) := rfl
    rw [hlogdef]
    rcases her : DepthAtLeast.early_return g (limit + 1) cursor stack self with _ | r
    · simp only
      obtain ⟨hlive, hin⟩ := DepthAtLeast.early_return_none g (limit + 1) cursor stack self her
      have hmem : cursor ∈ set_insert stack cursor := by
        simp [set_insert, hin]
      have hsub : ∀ x, x ∉ set_insert stack cursor → x ∉ stack := by
        intro x hx hxs
        apply hx
        simp [set_insert, hin, hxs]
      obtain ⟨c1, c2⟩ := DepthAtLeast.children_log_facts limit (DepthAtLeast.get_depth_ g limit)
        (DepthAtLeast.expansions g limit)
        (fun n st sf => (DepthAtLeast.get_depth_frame g (fun _ => True)
          (CacheWrites.writes_trivial g) limit n st sf True.intro).2.1)
        (fun n st sf x L h => DepthAtLeast.get_depth_covered g limit n st sf x L h)
        (fun n st sf => ih n st sf) (g.next cursor)
        (0, true, set_insert stack cursor,
          DepthAtLeast.mk self.depth_
            (max self.max_stack_size_ (set_insert stack cursor).length))
      simp only at c1
      refine ⟨?_, ?_⟩
      · intro a ha
        rcases List.mem_cons.mp ha with rfl | ha
        · refine ⟨hin, by simp, le_refl _, ⟨_, hfr.2.2.1, ?_⟩, ?_⟩
          · by_cases hex :
                (DepthAtLeast.get_depth_ g (limit + 1) cursor stack self).1.exact = true
            · exact Or.inl hex
            · exact Or.inr (hfr.2.2.2 (by simpa using hex))
          · intro L0 h0
            exact DepthAtLeast.early_return_none_covered g (limit + 1) cursor stack self her
              L0 h0
        · obtain ⟨a1, a2, a3, a4, a5⟩ := c1 a ha
          have hne : ¬ cursor = a.1 := by
            intro h
            apply a1
            rw [← h]
            exact hmem
          refine ⟨hsub a.1 a1, a2, by omega, ?_, a5⟩
          rw [hdef]
          simp only [her]
          unfold DepthAtLeast.expand
          simp only
          split
          · exact Covered.set_covered _ _ _ _ _ a4 (fun h => absurd h hne)
          · exact Covered.set_covered _ _ _ _ _ a4 (fun h => absurd h hne)
      · refine List.pairwise_cons.mpr ⟨?_, c2⟩
        intro b hb hcb
        exfalso
        apply (c1 b hb).1
        rw [← hcb]
        exact hmem
    · simp only
      exact ⟨fun a ha => absurd ha (List.not_mem_nil a), List.Pairwise.nil⟩

/-- The number of entries for one cursor in a list of expansions whose stack limits lie
above `lo`, at most at `Lim`, and grow from one entry for a cursor to the next. -/
theorem expansions_count_le (x : GraphCursor) (Lim : Nat) :
    ∀ (l : List (GraphCursor × Nat)) (lo : Nat),
      (∀ a ∈ l, a.1 = x → lo < a.2 ∧ a.2 ≤ Lim) →
      l.Pairwise (fun a b => a.1 = b.1 → a.2 < b.2) →
      (l.map Prod.fst).count x + lo ≤ Lim ∨ (l.map Prod.fst).count x = 0 := by
  intro l
  induction l with
  | nil => intro lo _ _; right; simp
  | cons a t ih =>
    intro lo hl hp
    obtain ⟨hp1, hp2⟩ := List.pairwise_cons.mp hp
    by_cases hax : a.1 = x
    · left
      obtain ⟨h1, h2⟩ := hl a (List.mem_cons_self _ _) hax
      have hcount : ((a :: t).map Prod.fst).count x = (t.map Prod.fst).count x + 1 := by
        simp [List.count_cons, hax]
      rw [hcount]
      rcases ih a.2 (fun b hb hbx =>
          ⟨hp1 b hb (hax.trans hbx.symm), (hl b (List.mem_cons_of_mem _ hb) hbx).2⟩) hp2
        with h | h
      · omega
      · rw [h]; omega
    · have hcount : ((a :: t).map Prod.fst).count x = (t.map Prod.fst).count x := by
        simp [List.count_cons, hax]
      rw [hcount]
      exact ih lo (fun b hb hbx => hl b (List.mem_cons_of_mem _ hb) hbx) hp2

end BoundedExpansionLog

end impl

namespace impl

set_option linter.unusedSectionVars false
set_option linter.unusedVariables false

section ExpansionClaim

variable {GraphCursor : Type} [DecidableEq GraphCursor]

/-- Claim C17 (amended).  During one top-level call the exact estimator `DepthInt`
expands every cursor at most once, for every graph and every cache.  The bounded
estimator `DepthAtLeast` can expand a cursor more than once during the call of
`get_depth_` that a query makes: every expansion has a stack limit between 1 and the
stack limit `max(2 * depth, 10)` of the query, a cursor that is expanded again is
expanded with a greater stack limit than before, and so no cursor is expanded more
often than that stack limit says. -/
theorem expansions_per_call (g : Cursor GraphCursor) :
    (∀ (fuel : Nat) (cursor : GraphCursor) (self : DepthInt GraphCursor)
        (r : Nat × List GraphCursor × DepthInt GraphCursor),
        DepthInt.get_depth_ g fuel cursor [] self = some r →
        (DepthInt.expansions g fuel cursor [] self).Nodup) ∧
    (∀ (self : DepthAtLeast GraphCursor) (cursor : GraphCursor) (depth : Nat),
        (DepthAtLeast.query_expansions g self cursor depth).Pairwise
          (fun a b => a.1 = b.1 → a.2 < b.2) ∧
        (∀ a ∈ DepthAtLeast.query_expansions g self cursor depth,
          1 ≤ a.2 ∧ a.2 ≤ max ((2 * depth) % 2 ^ 64) 10) ∧
        ∀ x, ((DepthAtLeast.query_expansions g self cursor depth).map Prod.fst).count x
          ≤ max ((2 * depth) % 2 ^ 64) 10) := by
  constructor
  · intro fuel cursor self r h
    exact (DepthInt.expansions_spec g fuel cursor [] self r h).2.2.2
  · intro self cursor depth
    have key : ∀ l : List (GraphCursor × Nat),
        l.Pairwise (fun a b => a.1 = b.1 → a.2 < b.2) →
        (∀ a ∈ l, 1 ≤ a.2 ∧ a.2 ≤ max ((2 * depth) % 2 ^ 64) 10) →
        l.Pairwise (fun a b => a.1 = b.1 → a.2 < b.2) ∧
        (∀ a ∈ l, 1 ≤ a.2 ∧ a.2 ≤ max ((2 * depth) % 2 ^ 64) 10) ∧
        ∀ x, (l.map Prod.fst).count x ≤ max ((2 * depth) % 2 ^ 64) 10 := by
      intro l hp hb
      refine ⟨hp, hb, ?_⟩
      intro x
      rcases expansions_count_le x (max ((2 * depth) % 2 ^ 64) 10) l 0
        (fun a ha _ => ⟨(hb a ha).1, (hb a ha).2⟩) hp with h | h
      · omega
      · rw [h]; exact Nat.zero_le _
    have hnil : ([] : List (GraphCursor × Nat)).Pairwise (fun a b => a.1 = b.1 → a.2 < b.2) ∧
        (∀ a ∈ ([] : List (GraphCursor × Nat)),
          1 ≤ a.2 ∧ a.2 ≤ max ((2 * depth) % 2 ^ 64) 10) ∧
        ∀ x, (([] : List (GraphCursor × Nat)).map Prod.fst).count x
          ≤ max ((2 * depth) % 2 ^ 64) 10 :=
      key [] List.Pairwise.nil (fun a ha => absurd ha (List.not_mem_nil a))
    unfold DepthAtLeast.query_expansions
    by_cases hd : depth = 0
    · simp only [hd, if_true]
      simp
    · simp only [hd, if_false]
      rcases hca : DepthAtLeast.cached_answer self cursor depth with _ | a
      · simp only
        split
        · exact hnil
        · split
          · exact hnil
          · obtain ⟨f1, f2⟩ := DepthAtLeast.expansions_facts g
              (max ((2 * depth) % 2 ^ 64) 10) cursor [] self
            exact key _ f2 (fun a ha => ⟨(f1 a ha).2.1, (f1 a ha).2.2.1⟩)
      · simp only
        exact hnil

/-- Counterexample to claim C17 as stated: on the fresh bounded estimator the query
`depth_at_least(1, 1)` on the chain graph returns true, and on its way `get_depth_`
expands cursor 3 twice, with the stack limits 8 (reached along 1, 2, 3) and 9 (reached
along 1, 3); the exact estimator expands every cursor of that graph once. -/
theorem expansions_per_call_counterexample :
    (match DepthAtLeast.depth_at_least chain_graph 1 { depth_ := [], max_stack_size_ := 0 } 1 1 with
      | Except.ok r => some r.1
      | Except.error _ => none) = some true ∧
    ((DepthAtLeast.query_expansions chain_graph { depth_ := [], max_stack_size_ := 0 } 1 1).map
      Prod.fst).count 3 = 2 ∧
    (DepthAtLeast.query_expansions chain_graph { depth_ := [], max_stack_size_ := 0 } 1 1).filter
      (fun a => a.1 = 3) = [(3, 8), (3, 9)] ∧
    DepthInt.expansions chain_graph 21 1 [] { depth_ := [], max_stack_size_ := 0 }
      = [1, 2, 3, 4, 5, 6, 7, 8, 9, 10, 11, 12, 13, 14, 15, 16, 17, 18, 19, 20] := by
  decide

end ExpansionClaim

end impl

namespace impl

set_option linter.unusedSectionVars false
set_option linter.unusedVariables false

/-! ## The threshold and the result of `find_best_path` -/

section ThresholdFacts

variable {K V S : Type} [LinearOrder S]

/-- Every entry that `score_filter` leaves scores at most the threshold. -/
theorem score_filter_le (score_fnc : K × V → S) (n : Nat) (threshold : S)
    (m : List (K × V)) :
    ∀ kv ∈ (score_filter score_fnc n threshold m).1, score_fnc kv ≤ threshold := by
  intro kv hkv
  by_cases hz : min n m.length = 0
  · simp [score_filter, hz] at hkv
  · have hm : m ≠ [] := by
      intro h; subst h; simp at hz
    have hn : 1 ≤ n := by
      rcases Nat.eq_zero_or_pos n with h | h
      · subst h; simp at hz
      · exact h
    obtain ⟨s, _, hs2⟩ := score_filter_cut score_fnc n threshold m hm hn
    rw [hs2] at hkv
    have := (List.mem_filter.mp hkv).2
    simp only [decide_eq_true_eq] at this
    exact le_trans this (min_le_left _ _)

theorem filter_key_subset (p : K → Bool) (m : List (K × V)) :
    ∀ kv ∈ (filter_key p m).1, kv ∈ m := by
  intro kv hkv
  rw [filter_key_eq] at hkv
  exact (List.mem_filter.mp hkv).1

end ThresholdFacts

section BestPath

variable {GraphCursor S : Type} [DecidableEq GraphCursor] [LinearOrder S] [Add S] [Zero S]
  [OrderTop S]

/-- The frontiers that a column of the main loop leaves hold no score above the
threshold. -/
theorem column_step_le (filter : Nat → GraphCursor → Bool) (g : Cursor GraphCursor)
    (fees : Fees S) (thr : S) (fuel : Nat)
    (initial : List GraphCursor) (m : Nat) (fr fr' : Frontiers GraphCursor S)
    (h : column_step_with filter g fees thr fuel initial m fr = some fr') :
    (∀ st ∈ StateSet.states fr'.I, st.score ≤ thr) ∧
    (∀ st ∈ StateSet.states fr'.M, st.score ≤ thr) ∧
    (∀ st ∈ DeletionStateSet.states fr'.D, st.score ≤ thr) := by
  unfold column_step_with at h
  simp only at h
  split at h
  · simp at h
  · rename_i I hI
    simp only [Option.some.injEq] at h
    subst h
    refine ⟨?_, ?_, ?_⟩
    · intro st hst
      simp only [StateSet.states, List.mem_map] at hst
      obtain ⟨kv, hkv, rfl⟩ := hst
      exact score_filter_le StateSet.score_fnc _ thr _ kv (filter_key_subset _ _ kv hkv)
    · intro st hst
      simp only [StateSet.states, List.mem_map] at hst
      obtain ⟨kv, hkv, rfl⟩ := hst
      exact score_filter_le StateSet.score_fnc _ thr _ kv (filter_key_subset _ _ kv hkv)
    · intro st hst
      simp only [DeletionStateSet.states, List.mem_map] at hst
      obtain ⟨kv, hkv, rfl⟩ := hst
      exact score_filter_le DeletionStateSet.score_fnc _ thr _ kv
        (filter_key_subset _ _ kv hkv)

/-- The frontiers after the main loop are those that its last column has left. -/
theorem main_loop_last (filter : Nat → GraphCursor → Bool) (g : Cursor GraphCursor)
    (fees : Fees S) (thr : S) (fuel : Nat) (initial : List GraphCursor) :
    ∀ (k m : Nat) (fr fr' : Frontiers GraphCursor S), 1 ≤ k →
      main_loop filter g fees thr fuel initial k m fr = some fr' →
      ∃ fr0, column_step_with filter g fees thr fuel initial (m + k - 1) fr0 = some fr' := by
  intro k
  induction k with
  | zero => intro m fr fr' hk _; omega
  | succ k ih =>
    intro m fr fr' _ h
    have hdef : main_loop filter g fees thr fuel initial (k + 1) m fr =
        match column_step_with filter g fees thr fuel initial m fr with
        | none => none
        | some fr1 => main_loop filter g fees thr fuel initial k (m + 1) fr1 := rfl
    rw [hdef] at h
    rcases hcs : column_step_with filter g fees thr fuel initial m fr with _ | fr1
    · simp [hcs] at h
    · simp only [hcs] at h
      by_cases hk0 : k = 0
      · subst hk0
        have h0 : main_loop filter g fees thr fuel initial 0 (m + 1) fr1 = some fr1 := rfl
        rw [h0, Option.some.injEq] at h
        subst h
        exact ⟨fr, by simpa using hcs⟩
      · obtain ⟨fr0, hfr0⟩ := ih (m + 1) fr1 fr' (by omega) h
        refine ⟨fr0, ?_⟩
        have : m + 1 + k - 1 = m + (k + 1) - 1 := by omega
        rw [← this]
        exact hfr0

/-- The score of the terminal node is `+infinity` or one of the scores submitted to
it. -/
theorem terminal_merge_cases (g : Cursor GraphCursor) (fees : Fees S)
    (base : PathLink GraphCursor S) (D : DeletionStateSet GraphCursor S)
    (I M : StateSet GraphCursor S) :
    (terminal_merge g fees base D I M).score = ⊤ ∨
      (∃ st ∈ DeletionStateSet.states D,
        (terminal_merge g fees base D I M).score = st.score + fees.t fees.M p7H_DM) ∨
      (∃ st ∈ StateSet.states I,
        (terminal_merge g fees base D I M).score = st.score + fees.t fees.M p7H_DM) ∨
      (∃ st ∈ StateSet.states M,
        (terminal_merge g fees base D I M).score = st.score + fees.t fees.M p7H_MM) := by
  unfold terminal_merge
  simp only []
  obtain ⟨_, _, a3⟩ := upd_terminal_score (DeletionStateSet.states D) (fees.t fees.M p7H_DM)
    ((PathLink.create : PathLink GraphCursor S).update g.empty ⊤ base).1
  obtain ⟨_, _, b3⟩ := upd_terminal_score (StateSet.states I) (fees.t fees.M p7H_DM)
    (upd_terminal ((PathLink.create : PathLink GraphCursor S).update g.empty ⊤ base).1
      (DeletionStateSet.states D) (fees.t fees.M p7H_DM))
  obtain ⟨_, _, c3⟩ := upd_terminal_score (StateSet.states M) (fees.t fees.M p7H_MM)
    (upd_terminal (upd_terminal ((PathLink.create : PathLink GraphCursor S).update g.empty ⊤ base).1
      (DeletionStateSet.states D) (fees.t fees.M p7H_DM)) (StateSet.states I)
      (fees.t fees.M p7H_DM))
  have h0 : ((PathLink.create : PathLink GraphCursor S).update g.empty ⊤ base).1.score = ⊤ := rfl
  rcases c3 with c3 | ⟨st, hst, hs⟩
  · rcases b3 with b3 | ⟨st, hst, hs⟩
    · rcases a3 with a3 | ⟨st, hst, hs⟩
      · left; rw [c3, b3, a3, h0]
      · right; left; exact ⟨st, hst, by rw [c3, b3, hs]⟩
    · right; right; left; exact ⟨st, hst, by rw [c3, hs]⟩
  · right; right; right; exact ⟨st, hst, hs⟩

/-- Claim C19 (amended).  For a profile with at least one column and whatever the
answers of the depth estimator are, whenever `find_best_path` returns, the returned
terminal node is the terminal merge of the frontiers `fr` that the last column has
left; every state of these frontiers has a score of at most the absolute threshold; and
the best score of the terminal node is `+infinity` (no alignment was recorded), or
`s + t[M][DM]` for the score `s` of a state of the last Delete or Insert frontier, or
`s + t[M][MM]` for the score `s` of a state of the last Match frontier.  The threshold
bounds the score before the closing transition, not the returned score. -/
theorem find_best_path_threshold (g : Cursor GraphCursor) (fees : Fees S) (thr : S)
    (fuel : Nat) (depth_at_least : GraphCursor → Rat → Bool)
    (initial_original : List GraphCursor) (terminal : PathLink GraphCursor S)
    (hM : 1 ≤ fees.M)
    (h : find_best_path g fees thr fuel depth_at_least initial_original = some terminal) :
    ∃ fr, find_best_path_columns g fees thr fuel depth_at_least initial_original = some fr ∧
      terminal = terminal_merge g fees PathLink.master_source fr.D fr.I fr.M ∧
      (∀ st ∈ DeletionStateSet.states fr.D, st.score ≤ thr) ∧
      (∀ st ∈ StateSet.states fr.I, st.score ≤ thr) ∧
      (∀ st ∈ StateSet.states fr.M, st.score ≤ thr) ∧
      (terminal.score = ⊤ ∨
        (∃ st ∈ DeletionStateSet.states fr.D,
          terminal.score = st.score + fees.t fees.M p7H_DM) ∨
        (∃ st ∈ StateSet.states fr.I, terminal.score = st.score + fees.t fees.M p7H_DM) ∨
        (∃ st ∈ StateSet.states fr.M, terminal.score = st.score + fees.t fees.M p7H_MM)) := by
  unfold find_best_path at h
  rcases hcols : find_best_path_columns g fees thr fuel depth_at_least initial_original
    with _ | fr
  · rw [hcols] at h
    simp at h
  · rw [hcols] at h
    simp only [Option.some.injEq] at h
    subst h
    have hfr := hcols
    unfold find_best_path_columns at hfr
    simp only at hfr
    split at hfr
    · simp at hfr
    · obtain ⟨fr0, hfr0⟩ := main_loop_last _ g fees thr fuel _ fees.M 1 _ fr hM hfr
      obtain ⟨hI, hMM, hD⟩ := column_step_le _ g fees thr fuel _ _ fr0 fr hfr0
      exact ⟨fr, rfl, rfl, hD, hI, hMM,
        terminal_merge_cases g fees PathLink.master_source fr.D fr.I fr.M⟩

end BestPath

/-- A freshly constructed estimator answers a query whose bound is not positive with
true. -/
theorem fresh_answers_small (g : Cursor Nat) (c : Nat) (d : Rat) (hd : d ≤ 0) :
    fresh_answers g c d = true := by
  simp [fresh_answers, DepthAtLeast.depth_at_least_double, hd]

/-- Witness for claim C19: the run of the counterexample, in which the cursor 0 of the
last Delete frontier has the score 200 and the closing transition costs 200. -/
theorem find_best_path_threshold_witness :
    (1 ≤ steep_fees.M ∧
      find_best_path example_graph steep_fees 250 50 (fresh_answers example_graph) [1]
        = some (PathLink.link 0 400 PathLink.master_source)) ∧
    ∃ fr, find_best_path_columns example_graph steep_fees 250 50
        (fresh_answers example_graph) [1] = some fr ∧
      (PathLink.link 0 400 PathLink.master_source : PathLink Nat (WithTop Int))
        = terminal_merge example_graph steep_fees PathLink.master_source fr.D fr.I fr.M ∧
      (∀ st ∈ DeletionStateSet.states fr.D, st.score ≤ 250) ∧
      (∀ st ∈ StateSet.states fr.I, st.score ≤ 250) ∧
      (∀ st ∈ StateSet.states fr.M, st.score ≤ 250) ∧
      ((PathLink.link 0 400 PathLink.master_source : PathLink Nat (WithTop Int)).score = ⊤ ∨
        (∃ st ∈ DeletionStateSet.states fr.D,
          (PathLink.link 0 400 PathLink.master_source : PathLink Nat (WithTop Int)).score
            = st.score + steep_fees.t steep_fees.M p7H_DM) ∨
        (∃ st ∈ StateSet.states fr.I,
          (PathLink.link 0 400 PathLink.master_source : PathLink Nat (WithTop Int)).score
            = st.score + steep_fees.t steep_fees.M p7H_DM) ∨
        (∃ st ∈ StateSet.states fr.M,
          (PathLink.link 0 400 PathLink.master_source : PathLink Nat (WithTop Int)).score
            = st.score + steep_fees.t steep_fees.M p7H_MM)) :=
  ⟨⟨by decide, by decide!⟩,
    find_best_path_threshold example_graph steep_fees 250 50 (fresh_answers example_graph) [1]
      (PathLink.link 0 400 PathLink.master_source) (by decide) (by decide!)⟩

/-- Counterexample to claim C19 as stated: with the absolute threshold 250, a profile of
one column in which every transition costs 200, and the seed cursor 1 of the example
graph, every score submitted to the terminal node is above 250 (an alignment passes the
filter of the last column with a score of 200 and pays 200 more for the closing
transition), and `find_best_path` returns a terminal node with the best score 400. -/
theorem find_best_path_threshold_counterexample :
    (find_best_path example_graph steep_fees 250 50 (fresh_answers example_graph) [1]).map
        PathLink.score
      = some (400 : WithTop Int) ∧
    ¬ ((400 : WithTop Int) ≤ 250) ∧ (400 : WithTop Int) ≠ ⊤ := by
  decide!

/-- The frontiers that the last column leaves in the run of the counterexample, as
lists of cursors with their scores: cursor 0 in Delete and cursor 1 in Match, both at
the score 200, and nothing in Insert. -/
theorem find_best_path_columns_example :
    (find_best_path_columns example_graph steep_fees 250 50 (fresh_answers example_graph)
        [1]).map
      (fun fr => (fr.D.map (fun kv => (kv.1, kv.2.score)),
        fr.I.map (fun kv => (kv.1, kv.2.score)), fr.M.map (fun kv => (kv.1, kv.2.score))))
      = some ([(0, (200 : WithTop Int))], [], [(1, 200)]) := by
  decide!

end impl

namespace impl

set_option linter.unusedSectionVars false
set_option linter.unusedVariables false

/-! ## The fixpoint solver of the insertion loop -/

section TransferUpd

variable {GraphCursor S : Type} [DecidableEq GraphCursor] [LinearOrder S] [Add S] [Zero S] [OrderTop S]
variable (g : Cursor GraphCursor) (fees : Fees S) (m : Nat)

theorem mem_set_insert (l : List GraphCursor) (x c : GraphCursor) :
    c ∈ set_insert l x ↔ c = x ∨ c ∈ l := by
  unfold set_insert
  by_cases h : x ∈ l
  · simp only [h, if_true]
    constructor
    · intro hc; exact Or.inr hc
    · rintro (rfl | hc)
      · exact h
      · exact hc
  · simp only [h, if_false, List.mem_cons]

theorem step_score_eq (s : S) (v : GraphCursor) :
    s + fees.t m p7H_II + fees.ins m (fees.code (g.letter v)) = step_score g fees m s v := rfl

/-- Two relaxations in a row flag a cursor exactly when the score falls over both. -/
theorem lt_chain (a b c : S) (h1 : c ≤ b) (h2 : b ≤ a) : (b < a ∨ c < b) ↔ c < a := by
  constructor
  · rintro (h | h)
    · exact lt_of_le_of_lt h1 h
    · exact lt_of_lt_of_le h h2
  · intro h
    by_cases hb : b < a
    · exact Or.inl hb
    · right
      have : b = a := le_antisymm h2 (not_lt.mp hb)
      rw [this]; exact h

/-- One call of `to.update` in `transfer_upd`. -/
theorem transfer_upd_step_spec (state : State GraphCursor S)
    (acc : StateSet GraphCursor S × List GraphCursor) (next : GraphCursor) :
    (∀ c, StateSet.score_at
        (transfer_upd_step g fees.code (fees.t m p7H_II) (fees.ins m) state acc next).1 c
      = if next = c then
          min (StateSet.score_at acc.1 next) (step_score g fees m state.score next)
        else StateSet.score_at acc.1 c) ∧
    (∀ c, c ∈ (transfer_upd_step g fees.code (fees.t m p7H_II) (fees.ins m) state acc next).2
      ↔ c ∈ acc.2 ∨
        StateSet.score_at
          (transfer_upd_step g fees.code (fees.t m p7H_II) (fees.ins m) state acc next).1 c
          < StateSet.score_at acc.1 c) ∧
    (∀ c, c ∈ keys
        (transfer_upd_step g fees.code (fees.t m p7H_II) (fees.ins m) state acc next).1
      ↔ c ∈ keys acc.1 ∨ c = next) := by
  have hscore : ∀ c, StateSet.score_at
        (transfer_upd_step g fees.code (fees.t m p7H_II) (fees.ins m) state acc next).1 c
      = if next = c then
          min (StateSet.score_at acc.1 next) (step_score g fees m state.score next)
        else StateSet.score_at acc.1 c := by
    intro c
    simp only [transfer_upd_step]
    rw [StateSet.score_at_update, step_score_eq]
  refine ⟨hscore, ?_, ?_⟩
  · intro c
    rw [hscore c]
    simp only [transfer_upd_step]
    rw [StateSet.st_update_flag, step_score_eq]
    by_cases hflag : step_score g fees m state.score next < StateSet.score_at acc.1 next
    · simp only [hflag, decide_True, if_true]
      rw [mem_set_insert]
      by_cases hc : next = c
      · subst hc
        simp only [if_true, true_or, true_iff]
        right
        rw [min_eq_right (le_of_lt hflag)]
        exact hflag
      · simp only [hc, if_false, lt_irrefl, or_false]
        constructor
        · rintro (h | h)
          · exact absurd h.symm hc
          · exact h
        · intro h; exact Or.inr h
    · simp only [hflag, decide_False, Bool.false_eq_true, if_false]
      by_cases hc : next = c
      · subst hc
        simp only [if_true]
        rw [min_eq_left (not_lt.mp hflag)]
        simp
      · simp only [hc, if_false, lt_irrefl, or_false]
  · intro c
    simp only [transfer_upd_step]
    exact StateSet.keys_update _ _ _ _ _ c

/-- The inner loop of `transfer_upd`, over the successors `ns` of the cursor of one
state. -/
theorem transfer_upd_inner (state : State GraphCursor S) :
    ∀ (ns : List GraphCursor) (acc : StateSet GraphCursor S × List GraphCursor),
      (∀ c, StateSet.score_at
          (ns.foldl (transfer_upd_step g fees.code (fees.t m p7H_II) (fees.ins m) state) acc).1 c
        ≤ StateSet.score_at acc.1 c) ∧
      (∀ c, c ∈ (ns.foldl
            (transfer_upd_step g fees.code (fees.t m p7H_II) (fees.ins m) state) acc).2
        ↔ c ∈ acc.2 ∨
          StateSet.score_at
            (ns.foldl (transfer_upd_step g fees.code (fees.t m p7H_II) (fees.ins m) state) acc).1 c
            < StateSet.score_at acc.1 c) ∧
      (∀ v ∈ ns, StateSet.score_at
          (ns.foldl (transfer_upd_step g fees.code (fees.t m p7H_II) (fees.ins m) state) acc).1 v
        ≤ step_score g fees m state.score v) ∧
      (∀ c, StateSet.score_at
          (ns.foldl (transfer_upd_step g fees.code (fees.t m p7H_II) (fees.ins m) state) acc).1 c
          = StateSet.score_at acc.1 c ∨
        (c ∈ ns ∧ StateSet.score_at
          (ns.foldl (transfer_upd_step g fees.code (fees.t m p7H_II) (fees.ins m) state) acc).1 c
          = step_score g fees m state.score c)) ∧
      (∀ c, c ∈ keys
          (ns.foldl (transfer_upd_step g fees.code (fees.t m p7H_II) (fees.ins m) state) acc).1
        ↔ c ∈ keys acc.1 ∨ c ∈ ns) := by
  intro ns
  induction ns with
  | nil =>
    intro acc
    simp only [List.foldl_nil, List.not_mem_nil, false_and, or_false, lt_irrefl, le_refl,
      implies_true, and_self, false_implies]
  | cons n rest ih =>
    intro acc
    simp only [List.foldl_cons]
    obtain ⟨s1, s2, s3⟩ := transfer_upd_step_spec g fees m state acc n
    obtain ⟨i1, i2, i3, i4, i5⟩ := ih
      (transfer_upd_step g fees.code (fees.t m p7H_II) (fees.ins m) state acc n)
    have hle1 : ∀ c, StateSet.score_at
        (transfer_upd_step g fees.code (fees.t m p7H_II) (fees.ins m) state acc n).1 c
        ≤ StateSet.score_at acc.1 c := by
      intro c
      rw [s1 c]
      by_cases hc : n = c
      · subst hc; simp only [if_true]; exact min_le_left _ _
      · simp only [hc, if_false, le_refl]
    refine ⟨fun c => le_trans (i1 c) (hle1 c), ?_, ?_, ?_, ?_⟩
    · intro c
      rw [i2 c, s2 c, or_assoc, lt_chain _ _ _ (i1 c) (hle1 c)]
    · intro v hv
      rcases List.mem_cons.mp hv with rfl | hv
      · refine le_trans (i1 v) ?_
        rw [s1 v]
        simp only [if_true]
        exact min_le_right _ _
      · exact i3 v hv
    · intro c
      rcases i4 c with h | ⟨hc, h⟩
      · rw [h, s1 c]
        by_cases hc : n = c
        · subst hc
          simp only [if_true]
          rcases min_choice (StateSet.score_at acc.1 n) (step_score g fees m state.score n)
            with hm | hm
          · left; exact hm
          · right; exact ⟨List.mem_cons_self _ _, hm⟩
        · left; simp only [hc, if_false]
      · right; exact ⟨List.mem_cons_of_mem _ hc, h⟩
    · intro c
      rw [i5 c, s3 c, List.mem_cons, or_assoc]

/-- What `transfer_upd` does to the scores of `to`, and which cursors it returns: those
whose score has fallen. -/
theorem transfer_upd_spec :
    ∀ (src : List (State GraphCursor S)) (acc : StateSet GraphCursor S × List GraphCursor),
      (∀ c, StateSet.score_at
          (src.foldl (transfer_upd_state g fees.code (fees.t m p7H_II) (fees.ins m)) acc).1 c
        ≤ StateSet.score_at acc.1 c) ∧
      (∀ c, c ∈ (src.foldl (transfer_upd_state g fees.code (fees.t m p7H_II) (fees.ins m)) acc).2
        ↔ c ∈ acc.2 ∨
          StateSet.score_at
            (src.foldl (transfer_upd_state g fees.code (fees.t m p7H_II) (fees.ins m)) acc).1 c
            < StateSet.score_at acc.1 c) ∧
      (∀ st ∈ src, ∀ v ∈ g.next st.cursor, StateSet.score_at
          (src.foldl (transfer_upd_state g fees.code (fees.t m p7H_II) (fees.ins m)) acc).1 v
        ≤ step_score g fees m st.score v) ∧
      (∀ c, StateSet.score_at
          (src.foldl (transfer_upd_state g fees.code (fees.t m p7H_II) (fees.ins m)) acc).1 c
          = StateSet.score_at acc.1 c ∨
        ∃ st ∈ src, c ∈ g.next st.cursor ∧ StateSet.score_at
          (src.foldl (transfer_upd_state g fees.code (fees.t m p7H_II) (fees.ins m)) acc).1 c
          = step_score g fees m st.score c) ∧
      (∀ c, c ∈ keys
          (src.foldl (transfer_upd_state g fees.code (fees.t m p7H_II) (fees.ins m)) acc).1
        ↔ c ∈ keys acc.1 ∨ ∃ st ∈ src, c ∈ g.next st.cursor) := by
  intro src
  induction src with
  | nil =>
    intro acc
    simp only [List.foldl_nil, List.not_mem_nil, false_and, exists_false, or_false, lt_irrefl,
      le_refl, implies_true, and_self, false_implies]
  | cons st0 rest ih =>
    intro acc
    simp only [List.foldl_cons]
    have hstate : transfer_upd_state g fees.code (fees.t m p7H_II) (fees.ins m) acc st0
        = (g.next st0.cursor).foldl
            (transfer_upd_step g fees.code (fees.t m p7H_II) (fees.ins m) st0) acc := rfl
    obtain ⟨s1, s2, s3, s4, s5⟩ := transfer_upd_inner g fees m st0 (g.next st0.cursor) acc
    rw [← hstate] at s1 s2 s3 s4 s5
    obtain ⟨i1, i2, i3, i4, i5⟩ := ih
      (transfer_upd_state g fees.code (fees.t m p7H_II) (fees.ins m) acc st0)
    refine ⟨fun c => le_trans (i1 c) (s1 c), ?_, ?_, ?_, ?_⟩
    · intro c
      rw [i2 c, s2 c, or_assoc, lt_chain _ _ _ (i1 c) (s1 c)]
    · intro st hst v hv
      rcases List.mem_cons.mp hst with rfl | hst
      · exact le_trans (i1 v) (s3 v hv)
      · exact i3 st hst v hv
    · intro c
      rcases i4 c with h | ⟨st, hst, hc, h⟩
      · rcases s4 c with h2 | ⟨hc, h2⟩
        · left; rw [h, h2]
        · right; exact ⟨st0, List.mem_cons_self _ _, hc, by rw [h, h2]⟩
      · right; exact ⟨st, List.mem_cons_of_mem _ hst, hc, h⟩
    · intro c
      rw [i5 c, s5 c, or_assoc]
      constructor
      · rintro (h | h | ⟨st, hst, hc⟩)
        · exact Or.inl h
        · exact Or.inr ⟨st0, List.mem_cons_self _ _, h⟩
        · exact Or.inr ⟨st, List.mem_cons_of_mem _ hst, hc⟩
      · rintro (h | ⟨st, hst, hc⟩)
        · exact Or.inl h
        · rcases List.mem_cons.mp hst with rfl | hst
          · exact Or.inr (Or.inl hc)
          · exact Or.inr (Or.inr ⟨st, hst, hc⟩)

end TransferUpd

end impl

namespace impl

set_option linter.unusedSectionVars false
set_option linter.unusedVariables false

section NegativeRounds

variable {GraphCursor S : Type} [DecidableEq GraphCursor] [LinearOrder S] [Add S] [Zero S] [OrderTop S]
variable (g : Cursor GraphCursor) (fees : Fees S) (m : Nat) (I0 : StateSet GraphCursor S)

theorem PathLen.path_snoc (n : Nat) (a b c : GraphCursor) (h : PathLen g n a b)
    (hc : c ∈ g.next b) : PathLen g (n + 1) a c := by
  induction h with
  | start x => exact PathLen.cons 0 x c c hc (PathLen.start c)
  | cons k x y z hy _ ih => exact PathLen.cons (k + 1) x y c hy (ih hc)

theorem PathLen.has_walk_of (n : Nat) (a c : GraphCursor) (h : PathLen g n a c) :
    has_walk g n a = true := by
  induction h with
  | start x => rfl
  | cons k x y z hy _ ih =>
    simp only [has_walk, List.any_eq_true]
    exact ⟨y, hy, ih⟩

theorem StateSet.score_at_of_find (M : StateSet GraphCursor S) (c : GraphCursor)
    (node : PathLink GraphCursor S) (h : find M c = some node) :
    StateSet.score_at M c = node.score := by
  unfold StateSet.score_at
  rw [h]

theorem StateSet.score_at_absent (M : StateSet GraphCursor S) (c : GraphCursor)
    (h : c ∉ keys M) : StateSet.score_at M c = ⊤ := by
  unfold StateSet.score_at
  rw [(find_eq_none_iff M c).mpr h]

theorem StateSet.clone_eq (M : StateSet GraphCursor S) : StateSet.clone M = M := by
  unfold StateSet.clone PathLink.clone
  simp

/-- The range `states(keys)` has one state for every key, with the score of its
entry. -/
theorem StateSet.states_of_spec (M : StateSet GraphCursor S) :
    ∀ ks : List GraphCursor, (∀ u ∈ ks, u ∈ keys M) →
      ∃ src, StateSet.states_of M ks = some src ∧
        (∀ st ∈ src, st.cursor ∈ ks ∧ st.score = StateSet.score_at M st.cursor) ∧
        (∀ u ∈ ks, ∃ st ∈ src, st.cursor = u) := by
  intro ks
  induction ks with
  | nil =>
    intro _
    exact ⟨[], rfl, fun st hst => absurd hst (List.not_mem_nil st),
      fun u hu => absurd hu (List.not_mem_nil u)⟩
  | cons k rest ih =>
    intro hks
    obtain ⟨src, h1, h2, h3⟩ := ih (fun u hu => hks u (List.mem_cons_of_mem _ hu))
    have hk := (find_isSome_iff M k).mpr (hks k (List.mem_cons_self _ _))
    obtain ⟨node, hnode⟩ := Option.isSome_iff_exists.mp hk
    refine ⟨StateSet.kv2state (k, node) :: src, ?_, ?_, ?_⟩
    · simp only [StateSet.states_of, hnode, h1]
    · intro st hst
      rcases List.mem_cons.mp hst with rfl | hst
      · refine ⟨List.mem_cons_self _ _, ?_⟩
        simp only [StateSet.kv2state]
        exact (StateSet.score_at_of_find M k node hnode).symm
      · exact ⟨List.mem_cons_of_mem _ (h2 st hst).1, (h2 st hst).2⟩
    · intro u hu
      rcases List.mem_cons.mp hu with rfl | hu
      · exact ⟨_, List.mem_cons_self _ _, rfl⟩
      · obtain ⟨st, hst, hc⟩ := h3 u hu
        exact ⟨st, List.mem_cons_of_mem _ hst, hc⟩

theorem StateSet.score_at_set (M : StateSet GraphCursor S) (k : GraphCursor)
    (node : PathLink GraphCursor S) (c : GraphCursor) :
    StateSet.score_at (set M k node) c = if k = c then node.score else StateSet.score_at M c := by
  unfold StateSet.score_at
  rw [find_set]
  by_cases h : k = c
  · simp only [h, if_true]
  · simp only [h, if_false]

theorem keys_set (M : StateSet GraphCursor S) (k : GraphCursor)
    (node : PathLink GraphCursor S) (c : GraphCursor) :
    c ∈ keys (set M k node) ↔ c ∈ keys M ∨ c = k := by
  rw [← find_isSome_iff, ← find_isSome_iff]
  have := count_set M k node c
  unfold count at this
  rw [this]
  constructor
  · rintro (h | h)
    · exact Or.inr h.symm
    · exact Or.inl h
  · rintro (h | h)
    · exact Or.inr h
    · exact Or.inl h.symm

/-- The loop that copies the updated entries of `Inew` to `I`. -/
theorem copy_updated_spec (Inew : StateSet GraphCursor S) :
    ∀ (us : List GraphCursor) (I : StateSet GraphCursor S), (∀ u ∈ us, u ∈ keys Inew) →
      ∃ I', copy_updated Inew us I = some I' ∧
        (∀ c, StateSet.score_at I' c
          = if c ∈ us then StateSet.score_at Inew c else StateSet.score_at I c) ∧
        (∀ c, c ∈ keys I' ↔ c ∈ keys I ∨ c ∈ us) := by
  intro us
  induction us with
  | nil =>
    intro I _
    exact ⟨I, rfl, fun c => by simp, fun c => by simp⟩
  | cons k rest ih =>
    intro I hus
    have hk := (find_isSome_iff Inew k).mpr (hus k (List.mem_cons_self _ _))
    obtain ⟨node, hnode⟩ := Option.isSome_iff_exists.mp hk
    obtain ⟨I', h1, h2, h3⟩ := ih (set I k node.clone)
      (fun u hu => hus u (List.mem_cons_of_mem _ hu))
    refine ⟨I', ?_, ?_, ?_⟩
    · simp only [copy_updated, hnode, h1]
    · intro c
      rw [h2 c]
      by_cases hc : c ∈ rest
      · simp only [hc, if_true, List.mem_cons, or_true]
      · simp only [hc, if_false, List.mem_cons, or_false]
        rw [StateSet.score_at_set]
        by_cases hkc : k = c
        · subst hkc
          simp only [if_true, PathLink.clone]
          exact (StateSet.score_at_of_find Inew k node hnode).symm
        · have hck : ¬ c = k := fun h => hkc h.symm
          simp only [hkc, hck, if_false]
    · intro c
      rw [h3 c, keys_set, List.mem_cons, or_assoc]

/-- One round of the fixpoint solver returns and keeps the invariant; the cursors it
marks as updated are successors of the cursors that were marked before. -/
theorem NegInv.round (htop : ∀ v, step_score g fees m ⊤ v = ⊤)
    (st : NegState GraphCursor S) (hinv : NegInv g fees m I0 st) :
    ∃ st', i_loop_negative_round g fees m st = some st' ∧ NegInv g fees m I0 st' ∧
      ∀ c ∈ st'.updated, ∃ u ∈ st.updated, c ∈ g.next u := by
  obtain ⟨src, hsrc, hs1, hs2⟩ := StateSet.states_of_spec st.I st.updated hinv.updated_keys
  obtain ⟨t1, t2, t3, t4, t5⟩ := transfer_upd_spec g fees m src (st.Inew, [])
  have hdef : src.foldl (transfer_upd_state g fees.code (fees.t m p7H_II) (fees.ins m))
      (st.Inew, []) = transfer_upd g fees.code st.Inew src (fees.t m p7H_II) (fees.ins m) := rfl
  obtain ⟨r, hr⟩ : ∃ r, transfer_upd g fees.code st.Inew src (fees.t m p7H_II) (fees.ins m) = r :=
    ⟨_, rfl⟩
  rw [hdef, hr] at t1 t2 t3 t4 t5
  simp only [List.not_mem_nil, false_or] at t2
  have hupdkeys : ∀ u ∈ r.2, u ∈ keys r.1 := by
    intro u hu
    by_contra hcon
    have hlt := (t2 u).mp hu
    rw [StateSet.score_at_absent r.1 u hcon] at hlt
    exact absurd hlt (not_lt.mpr le_top)
  obtain ⟨I', hI', c1, c2⟩ := copy_updated_spec r.1 r.2 st.I hupdkeys
  have hsame : ∀ c, c ∉ r.2 → StateSet.score_at r.1 c = StateSet.score_at st.Inew c := by
    intro c hc
    exact le_antisymm (t1 c) (not_lt.mp (fun h => hc ((t2 c).mpr h)))
  refine ⟨{ I := I', Inew := r.1, updated := r.2 }, ?_, ?_, ?_⟩
  · simp only [i_loop_negative_round, hsrc, hr, hI']
  · refine ⟨?_, ?_, ?_, ?_, ?_⟩
    · intro u hu
      exact (c2 u).mpr (Or.inr hu)
    · intro c
      simp only
      rw [c1 c]
      by_cases hc : c ∈ r.2
      · simp only [hc, if_true]
      · simp only [hc, if_false]
        rw [hinv.same_score c, hsame c hc]
    · intro c
      simp only
      rcases t4 c with h | ⟨sx, hsx, hc, h⟩
      · rw [h]; exact hinv.sound c
      · obtain ⟨hx1, hx2⟩ := hs1 sx hsx
        rw [hinv.same_score] at hx2
        rcases hinv.sound sx.cursor with htop' | hwalk
        · left
          rw [h, hx2, htop']
          exact htop c
        · right
          rw [h, hx2]
          exact IWalk.step sx.cursor c _ hwalk hc
    · intro c
      exact le_trans (t1 c) (hinv.below c)
    · intro u hu v hv
      simp only at hu ⊢
      rw [hsame u hu]
      by_cases hold : u ∈ st.updated
      · obtain ⟨sx, hsx, hcx⟩ := hs2 u hold
        have := t3 sx hsx v (hcx ▸ hv)
        rw [(hs1 sx hsx).2, hcx, hinv.same_score] at this
        exact this
      · exact le_trans (t1 v) (hinv.relaxed u hold v hv)
  · intro c hc
    simp only at hc
    have hlt := (t2 c).mp hc
    rcases t4 c with h | ⟨sx, hsx, hcx, _⟩
    · rw [h] at hlt; exact absurd hlt (lt_irrefl _)
    · exact ⟨sx.cursor, (hs1 sx hsx).1, hcx⟩

/-- Any number of rounds of the fixpoint solver returns and keeps the invariant; after
`k` more rounds the cursors marked as updated end walks that are `k` edges longer. -/
theorem NegInv.rounds (htop : ∀ v, step_score g fees m ⊤ v = ⊤) :
    ∀ (k j : Nat) (st : NegState GraphCursor S), NegInv g fees m I0 st →
      (∀ c ∈ st.updated, ∃ u0 ∈ keys I0, PathLen g j u0 c) →
      ∃ st', i_loop_negative_rounds g fees m k st = some st' ∧ NegInv g fees m I0 st' ∧
        ∀ c ∈ st'.updated, ∃ u0 ∈ keys I0, PathLen g (j + k) u0 c := by
  intro k
  induction k with
  | zero =>
    intro j st hinv hpath
    exact ⟨st, rfl, hinv, hpath⟩
  | succ k ih =>
    intro j st hinv hpath
    obtain ⟨st1, h1, hinv1, hsucc⟩ := NegInv.round g fees m I0 htop st hinv
    have hpath1 : ∀ c ∈ st1.updated, ∃ u0 ∈ keys I0, PathLen g (j + 1) u0 c := by
      intro c hc
      obtain ⟨u, hu, hcu⟩ := hsucc c hc
      obtain ⟨u0, hu0, hp⟩ := hpath u hu
      exact ⟨u0, hu0, PathLen.path_snoc g j u0 u c hp hcu⟩
    obtain ⟨st', h2, hinv2, hpath2⟩ := ih (j + 1) st1 hinv1 hpath1
    refine ⟨st', ?_, hinv2, ?_⟩
    · simp only [i_loop_negative_rounds, h1, h2]
    · intro c hc
      obtain ⟨u0, hu0, hp⟩ := hpath2 c hc
      have : j + 1 + k = j + (k + 1) := by omega
      rw [← this]
      exact ⟨u0, hu0, hp⟩

theorem mem_foldl_set_insert (ks : List GraphCursor) :
    ∀ (acc : List GraphCursor) (c : GraphCursor),
      c ∈ ks.foldl set_insert acc ↔ c ∈ acc ∨ c ∈ ks := by
  induction ks with
  | nil => intro acc c; simp
  | cons k rest ih =>
    intro acc c
    simp only [List.foldl_cons]
    rw [ih, mem_set_insert, List.mem_cons]
    constructor
    · rintro ((h | h) | h)
      · exact Or.inr (Or.inl h)
      · exact Or.inl h
      · exact Or.inr (Or.inr h)
    · rintro (h | h | h)
      · exact Or.inl (Or.inr h)
      · exact Or.inl (Or.inl h)
      · exact Or.inr h

/-- The fixpoint solver returns, and when no walk of 31 edges starts at a cursor of the
incoming frontier it leaves at every cursor the least cost of a walk from an entry of
the incoming frontier: a score that is `+infinity` or the cost of such a walk, and that
no such walk undercuts. -/
theorem i_loop_negative_run (hS : RoundedAdd S) (htop : ∀ v, step_score g fees m ⊤ v = ⊤)
    (hwalks : ∀ u ∈ keys I0, has_walk g 31 u = false) :
    ∃ Ineg, i_loop_processing_negative g fees I0 m = some Ineg ∧
      (∀ c, StateSet.score_at Ineg c = ⊤ ∨ IWalk g fees m I0 c (StateSet.score_at Ineg c)) ∧
      (∀ c x, IWalk g fees m I0 c x → StateSet.score_at Ineg c ≤ x) := by
  have hinit : NegInv g fees m I0
      { I := I0, Inew := StateSet.clone I0, updated := (keys I0).foldl set_insert [] } := by
    rw [StateSet.clone_eq]
    refine ⟨?_, fun c => rfl, ?_, fun c => le_refl _, ?_⟩
    · intro u hu
      simp only at hu
      rw [mem_foldl_set_insert] at hu
      rcases hu with hu | hu
      · exact absurd hu (List.not_mem_nil u)
      · exact hu
    · intro c
      simp only
      rcases hf : find I0 c with _ | node
      · left
        unfold StateSet.score_at
        rw [hf]
      · right
        rw [StateSet.score_at_of_find I0 c node hf]
        exact IWalk.seed c node hf
    · intro u hu v hv
      simp only at hu ⊢
      have hu2 : u ∉ keys I0 := by
        intro h
        apply hu
        rw [mem_foldl_set_insert]
        exact Or.inr h
      rw [StateSet.score_at_absent I0 u hu2, htop]
      exact le_top
  obtain ⟨st, hst, hinv, hpath⟩ := NegInv.rounds g fees m I0 htop max_insertions 0 _ hinit
    (by
      intro c hc
      simp only at hc
      rw [mem_foldl_set_insert] at hc
      rcases hc with hc | hc
      · exact absurd hc (List.not_mem_nil c)
      · exact ⟨c, hc, PathLen.start c⟩)
  have hrelaxed : ∀ u, ∀ v ∈ g.next u,
      StateSet.score_at st.Inew v ≤ step_score g fees m (StateSet.score_at st.Inew u) v := by
    intro u v hv
    by_cases hu : u ∈ st.updated
    · exfalso
      obtain ⟨u0, hu0, hp⟩ := hpath u hu
      have hp2 := PathLen.path_snoc g _ u0 u v hp hv
      have hw := PathLen.has_walk_of g _ u0 v hp2
      have h31 : 0 + max_insertions + 1 = 31 := rfl
      rw [h31, hwalks u0 hu0] at hw
      exact Bool.false_ne_true hw
    · exact hinv.relaxed u hu v hv
  refine ⟨st.Inew, ?_, hinv.sound, ?_⟩
  · simp only [i_loop_processing_negative, hst]
  · intro c x hw
    induction hw with
    | seed c node hfind =>
      have := hinv.below c
      rw [StateSet.score_at_of_find I0 c node hfind] at this
      exact this
    | step u v x _ hv ih =>
      exact le_trans (hrelaxed u v hv) (step_score_mono g fees m hS _ _ v ih)

end NegativeRounds

end impl

namespace impl

set_option linter.unusedSectionVars false
set_option linter.unusedVariables false

/-! ## The two solvers of the insertion loop agree within the threshold -/

section SolversAgree

variable {GraphCursor S : Type} [DecidableEq GraphCursor] [LinearOrder S] [Add S] [Zero S] [OrderTop S]
variable (g : Cursor GraphCursor) (fees : Fees S) (m : Nat) (thr : S)
  (filter : GraphCursor → Bool) (I0 : StateSet GraphCursor S)

/-- When the loop of the non-negative solver exits, a processed cursor holds the cost
of a walk from a seed and every other cursor holds its incoming score. -/
theorem i_loop_while_sound (hS : RoundedAdd S) (hstep : ∀ x n, x ≤ step_score g fees m x n) :
    ∀ (fuel : Nat) (st st' : ILoopState GraphCursor S),
      ILoopInv g fees m thr filter I0 st →
      i_loop_while g fees.code (fees.t m p7H_II) (fees.ins m) thr filter fuel st = some st' →
      ∀ c, SeedWalk g fees m thr filter I0 c (StateSet.score_at st'.I c) ∨
        StateSet.score_at st'.I c = StateSet.score_at I0 c := by
  intro fuel
  induction fuel with
  | zero => intro st st' _ h; simp [i_loop_while] at h
  | succ fuel ih =>
    intro st st' hinv h c
    have hfinal : SeedWalk g fees m thr filter I0 c (StateSet.score_at st.I c) ∨
        StateSet.score_at st.I c = StateSet.score_at I0 c := by
      by_cases hc : c ∈ st.processed
      · exact Or.inl (hinv.processed_exact c hc).1
      · exact Or.inr (hinv.unprocessed_same c hc)
    simp only [i_loop_while] at h
    rcases hpop : pop_min st.q with _ | ⟨e, q'⟩
    · simp only [hpop, Option.some.injEq] at h
      subst h
      exact hfinal
    · simp only [hpop] at h
      by_cases hthr : e.score > thr
      · simp only [hthr, if_true, Option.some.injEq] at h
        subst h
        exact hfinal
      · simp only [hthr, if_false] at h
        by_cases hproc : e.current_cursor ∈ st.processed
        · have hcont : st.processed.contains e.current_cursor = true := by simpa using hproc
          simp only [hcont, if_true] at h
          exact ih _ st' (ILoopInv.skip g fees m thr filter I0 st hinv e q' hpop hproc _) h c
        · have hcont : st.processed.contains e.current_cursor = false := by simpa using hproc
          simp only [hcont, Bool.false_eq_true, if_false] at h
          rcases hf : find (StateSet.update st.I e.current_cursor e.score e.source_cursor
              e.source_state).1 e.current_cursor with _ | id
          · simp [hf] at h
          · simp only [hf] at h
            exact ih _ st'
              (ILoopInv.process g fees m thr filter I0 hS hstep st hinv e q' hpop hthr hproc id _)
              h c

/-- The non-negative solver returns on a finite graph with enough fuel; afterwards a
cursor whose least walk cost is within the threshold holds that cost, and every cursor
holds the cost of a walk from a seed or its incoming score. -/
theorem i_loop_non_negative_run (nodes : List GraphCursor)
    (hclosed : closed_under_next g nodes)
    (hkeys : ∀ c ∈ keys I0, c ∈ nodes) (hwf : wf I0)
    (hlinks : ∀ kv ∈ I0, kv.2.best_ancestor ≠ none)
    (hS : RoundedAdd S) (hstep : ∀ x n, x ≤ step_score g fees m x n)
    (fuel : Nat) (hfuel : i_loop_fuel g nodes I0 ≤ fuel) :
    ∃ st, i_loop_processing_non_negative g fees thr fuel I0 m filter = some st ∧
      (∀ c d, SeedWalk g fees m thr filter I0 c d →
        (∀ x, SeedWalk g fees m thr filter I0 c x → d ≤ x) → d ≤ thr →
        StateSet.score_at st.I c = d) ∧
      (∀ c, SeedWalk g fees m thr filter I0 c (StateSet.score_at st.I c) ∨
        StateSet.score_at st.I c = StateSet.score_at I0 c) := by
  obtain ⟨pushed, hseed, hlen, hsound, hcomplete⟩ := i_loop_seed_eq thr filter I0 [] hlinks
  simp only [List.nil_append] at hseed
  have hinv : ILoopInv g fees m thr filter I0
      { I := I0, q := pushed, processed := [], taken_values := 0 } := by
    refine ⟨?_, ?_, ?_, ?_, ?_⟩
    · intro e he
      obtain ⟨kv, hkv, hc, hs, hf, ht⟩ := hsound e he
      have : SeedWalk g fees m thr filter I0 kv.1 kv.2.score :=
        SeedWalk.seed kv.1 kv.2 (find_of_mem I0 hwf kv hkv) hf ht
      rw [hc, hs]
      exact this
    · intro p hp; simp at hp
    · intro c _; rfl
    · intro c node hfind hfilter hscore
      right
      obtain ⟨e, he, hc, hs⟩ := hcomplete (c, node) (mem_of_find I0 c node hfind) hfilter hscore
      exact ⟨e, he, hc, le_of_eq hs⟩
    · intro p hp; simp at hp
  have hmeasure : i_loop_measure g nodes
      ({ I := I0, q := pushed, processed := [], taken_values := 0 } : ILoopState GraphCursor S)
      < fuel := by
    simp only [i_loop_measure, i_loop_fuel] at hfuel ⊢
    have : (nodes.filter (fun v => !([] : List GraphCursor).contains v)) = nodes := by
      rw [List.filter_eq_self]; intro a _; simp
    rw [this]
    omega
  obtain ⟨st, hst⟩ := i_loop_while_terminates g fees m thr filter nodes hclosed fuel
    { I := I0, q := pushed, processed := [], taken_values := 0 }
    (by
      intro e he
      obtain ⟨kv, hkv, hc, _⟩ := hsound e he
      rw [hc]
      exact hkeys kv.1 (List.mem_map_of_mem Prod.fst hkv))
    hmeasure
  refine ⟨st, ?_, ?_, ?_⟩
  · simp only [i_loop_processing_non_negative, hseed, hst]
  · intro c d hw hmin hd
    exact i_loop_while_correct g fees m thr filter I0 hS hstep fuel _ st hinv hst c d hw hmin hd
  · exact i_loop_while_sound g fees m thr filter I0 hS hstep fuel _ st hinv hst

theorem SeedWalk.to_IWalk (c : GraphCursor) (x : S)
    (h : SeedWalk g fees m thr filter I0 c x) : IWalk g fees m I0 c x := by
  induction h with
  | seed c node hfind _ _ => exact IWalk.seed c node hfind
  | step u v x _ hv _ ih => exact IWalk.step u v x ih hv

/-- With non-negative step costs a walk whose cost is within the threshold starts at an
entry whose score is within the threshold. -/
theorem IWalk.to_SeedWalk (hS : RoundedAdd S) (hstep : ∀ x n, x ≤ step_score g fees m x n) (c : GraphCursor) (x : S)
    (h : IWalk g fees m I0 c x) :
    x ≤ thr → SeedWalk g fees m thr (fun _ => false) I0 c x := by
  induction h with
  | seed c node hfind =>
    intro hx
    exact SeedWalk.seed c node hfind rfl hx
  | step u v x _ hv ih =>
    intro hx
    have hle : x ≤ step_score g fees m x v := hstep x v
    exact SeedWalk.step u v x (ih (le_trans hle hx)) hv rfl

/-- Claim C11 (amended).  Let the scores have the laws of `RoundedAdd`, which hold for
`double`, and let no insertion step of column `m` lower a score (`x ≤ x + t[m][II] +
ins[m][code(letter(n))]`, summed from left to right).  On a finite graph in which no
walk of 31 edges starts at any cursor, for an incoming Insert frontier with distinct
cursors whose entries have a best ancestor, and a depth filter that rejects no cursor,
both solvers return; the score that the fixpoint solver leaves at a cursor is at most
the score that the non-negative solver leaves there, and the two are equal at every
cursor at which either of them is within the absolute threshold. -/
theorem i_loop_solvers_agree (nodes : List GraphCursor)
    (hclosed : closed_under_next g nodes)
    (hkeys : ∀ c ∈ keys I0, c ∈ nodes) (hwf : wf I0)
    (hlinks : ∀ kv ∈ I0, kv.2.best_ancestor ≠ none)
    (hS : RoundedAdd S) (hstep : ∀ x n, x ≤ step_score g fees m x n)
    (hwalks : ∀ u ∈ nodes, has_walk g 31 u = false)
    (fuel : Nat) (hfuel : i_loop_fuel g nodes I0 ≤ fuel) :
    ∃ st Ineg,
      i_loop_processing_non_negative g fees thr fuel I0 m (fun _ => false) = some st ∧
      i_loop_processing_negative g fees I0 m = some Ineg ∧
      (∀ c, StateSet.score_at Ineg c ≤ StateSet.score_at st.I c) ∧
      (∀ c, StateSet.score_at Ineg c ≤ thr ∨ StateSet.score_at st.I c ≤ thr →
        StateSet.score_at st.I c = StateSet.score_at Ineg c) := by
  obtain ⟨st, hst, nn1, nn2⟩ := i_loop_non_negative_run g fees m thr (fun _ => false) I0 nodes
    hclosed hkeys hwf hlinks hS hstep fuel hfuel
  obtain ⟨Ineg, hneg, ng1, ng2⟩ := i_loop_negative_run g fees m I0 hS
    (fun v => le_antisymm le_top (hstep ⊤ v))
    (fun u hu => hwalks u (hkeys u hu))
  have hbelow : ∀ c, StateSet.score_at Ineg c ≤ StateSet.score_at I0 c := by
    intro c
    rcases hf : find I0 c with _ | node
    · have : StateSet.score_at I0 c = ⊤ := by
        unfold StateSet.score_at; rw [hf]
      rw [this]; exact le_top
    · rw [StateSet.score_at_of_find I0 c node hf]
      exact ng2 c _ (IWalk.seed c node hf)
  have hle : ∀ c, StateSet.score_at Ineg c ≤ StateSet.score_at st.I c := by
    intro c
    rcases nn2 c with h | h
    · exact ng2 c _ (SeedWalk.to_IWalk g fees m thr _ I0 c _ h)
    · rw [h]; exact hbelow c
  have heq : ∀ c, StateSet.score_at Ineg c ≤ thr →
      StateSet.score_at st.I c = StateSet.score_at Ineg c := by
    intro c hc
    rcases ng1 c with htop | hwalk
    · apply le_antisymm _ (hle c)
      rw [htop]; exact le_top
    · exact nn1 c _ (IWalk.to_SeedWalk g fees m thr I0 hS hstep c _ hwalk hc)
        (fun x hx => ng2 c x (SeedWalk.to_IWalk g fees m thr _ I0 c x hx)) hc
  refine ⟨st, Ineg, hst, hneg, hle, ?_⟩
  intro c hc
  rcases hc with hc | hc
  · exact heq c hc
  · exact heq c (le_trans (hle c) hc)

end SolversAgree

section SolversExample

/-- Witness for claim C11: column 0 of the fee table `double_fees` on the chain graph,
from the frontier `double_I3`, in the model of `double`. -/
theorem i_loop_solvers_agree_witness :
    (closed_under_next chain_graph (List.range 21) ∧
      (∀ c ∈ keys double_I3, c ∈ List.range 21) ∧ wf double_I3 ∧
      (∀ kv ∈ double_I3, kv.2.best_ancestor ≠ none) ∧
      RoundedAdd Double ∧
      (∀ x n, x ≤ step_score chain_graph double_fees 0 x n) ∧
      (∀ u ∈ List.range 21, has_walk chain_graph 31 u = false) ∧
      i_loop_fuel chain_graph (List.range 21) double_I3 ≤ 100) ∧
    ∃ st Ineg,
      i_loop_processing_non_negative chain_graph double_fees (Double.of_int 250) 100 double_I3 0
        (fun _ => false) = some st ∧
      i_loop_processing_negative chain_graph double_fees double_I3 0 = some Ineg ∧
      (∀ c, StateSet.score_at Ineg c ≤ StateSet.score_at st.I c) ∧
      (∀ c, StateSet.score_at Ineg c ≤ Double.of_int 250 ∨
          StateSet.score_at st.I c ≤ Double.of_int 250 →
        StateSet.score_at st.I c = StateSet.score_at Ineg c) :=
  ⟨⟨by decide, by decide, by decide, by decide, Double.rounded_add,
      step_score_le_of_nonneg chain_graph double_fees 0 Double.rounded_add
        (by decide! : (0 : Double) ≤ Double.of_int 1)
        (fun _ => (by decide! : (0 : Double) ≤ Double.half)),
      by decide, by decide⟩,
    i_loop_solvers_agree chain_graph double_fees 0 (Double.of_int 250) double_I3 (List.range 21)
      (by decide) (by decide) (by decide) (by decide) Double.rounded_add
      (step_score_le_of_nonneg chain_graph double_fees 0 Double.rounded_add
        (by decide! : (0 : Double) ≤ Double.of_int 1)
        (fun _ => (by decide! : (0 : Double) ≤ Double.half)))
      (by decide) 100 (by decide)⟩

/-- Counterexample to claim C11 as stated: on the acyclic chain graph, whose walks have
at most 20 edges, with the step cost 6, the threshold 250, a depth filter that rejects
nothing and the incoming frontier that holds cursor 1 with the score 240, the
non-negative solver leaves the cursors 1, 2 and 3 (it stops at the first score above
the threshold), while the fixpoint solver leaves all of the cursors 1 to 20, cursor 4
with the score 252. -/
theorem i_loop_solvers_agree_counterexample :
    (∀ n, 0 ≤ step_cost chain_graph example_fees 0 n) ∧
    (∀ u ∈ List.range 21, has_walk chain_graph 31 u = false) ∧
    (i_loop_processing_non_negative chain_graph example_fees 250 100 example_I3 0
        (fun _ => false)).map (fun st => (keys st.I, StateSet.score_at st.I 4))
      = some ([1, 2, 3], ⊤) ∧
    (i_loop_processing_negative chain_graph example_fees example_I3 0).map
        (fun I => (keys I, StateSet.score_at I 4))
      = some ([1, 2, 3, 4, 5, 6, 7, 8, 9, 10, 11, 12, 13, 14, 15, 16, 17, 18, 19, 20], 252) := by
  refine ⟨fun _ => (by decide : (0 : WithTop Int) ≤ ((4 + 1 : Nat) : WithTop Int) + 1),
    by decide, by decide, by decide⟩

/-- Why the amended claim asks that no step lowers a score: in the model of `double`,
with the fee table `cancelling_fees` every step cost `t[0][II] + ins[0][code(letter)]`
is `2^53 + (-2^53) = 0`, yet on the acyclic chain graph and the frontier that holds
cursor 2 at 0.5 and cursor 1 at 1 the non-negative solver leaves 0.5 at cursor 2 and
the fixpoint solver leaves `(1 + 2^53) + (-2^53) = 0` there. -/
theorem i_loop_solvers_rounding_example :
    (∀ n, 0 ≤ step_cost chain_graph cancelling_fees 0 n) ∧
    (∀ u ∈ List.range 21, has_walk chain_graph 31 u = false) ∧
    (i_loop_processing_non_negative chain_graph cancelling_fees (Double.of_int 250) 100
        double_I4 0 (fun _ => false)).map (fun st => StateSet.score_at st.I 2)
      = some Double.half ∧
    (i_loop_processing_negative chain_graph cancelling_fees double_I4 0).map
        (fun I => StateSet.score_at I 2)
      = some 0 ∧
    (0 : Double) ≠ Double.half :=
  ⟨fun _ => (by decide! : (0 : Double) ≤ Double.two53 + Double.neg_two53),
    by decide, by decide!, by decide!, by decide!⟩

end SolversExample

end impl

namespace impl

set_option linter.unusedSectionVars false
set_option linter.unusedVariables false

/-! ## Frames and enumeration order of the propagation steps -/

section IncrementFrame

variable {GraphCursor S : Type} [DecidableEq GraphCursor] [LinearOrderedAddCommMonoidWithTop S]

/-- Claim C21.  After `D.increment(fee)` the frontier has the same cursors in the same
order, and the entry of every cursor has its old backpointer and its old score plus
`fee`. -/
theorem increment_frame (D : DeletionStateSet GraphCursor S) (fee : S) :
    keys (DeletionStateSet.increment D fee) = keys D ∧
    (∀ c, find (DeletionStateSet.increment D fee) c
      = (find D c).map (fun v => { plink := v.plink, score := v.score + fee })) ∧
    (∀ c, DeletionStateSet.score_at (DeletionStateSet.increment D fee) c
      = DeletionStateSet.score_at D c + fee) := by
  refine ⟨DeletionStateSet.keys_increment D fee, ?_,
    DeletionStateSet.score_at_increment D fee⟩
  intro c
  rw [DeletionStateSet.find_increment]

end IncrementFrame

section NoCap

variable {K V S : Type} [LinearOrder S]

/-- With `n` at least the size of the frontier, `score_filter(n, threshold)` leaves
exactly the entries whose score is at most the threshold. -/
theorem score_filter_no_cap (score_fnc : K × V → S) (n : Nat) (threshold : S)
    (m : List (K × V)) (hn : m.length ≤ n) :
    (score_filter score_fnc n threshold m).1
      = m.filter (fun kv => decide (score_fnc kv ≤ threshold)) := by
  by_cases hm : m = []
  · subst hm
    simp [score_filter]
  · have hlen : 0 < m.length := List.length_pos.mpr hm
    obtain ⟨s, hs1, hs2⟩ := score_filter_cut score_fnc n threshold m hm (by omega)
    rw [hs2]
    have hmin : min n m.length = m.length := min_eq_right hn
    rw [hmin] at hs1
    have hall : ∀ kv ∈ m, score_fnc kv ≤ s := by
      have heq : m.countP (fun kv => decide (score_fnc kv ≤ s)) = m.length :=
        le_antisymm (List.countP_le_length _) hs1
      intro kv hkv
      have := (List.countP_eq_length (p := fun kv => decide (score_fnc kv ≤ s))).mp heq kv hkv
      simpa using this
    apply List.filter_congr
    intro kv hkv
    have hle := hall kv hkv
    by_cases h : score_fnc kv ≤ threshold
    · simp [h, le_min h hle]
    · have : ¬ score_fnc kv ≤ min threshold s := fun h2 => h (le_trans h2 (min_le_left _ _))
      simp [h, this]

end NoCap

section ColumnNoCap

variable {GraphCursor S : Type} [DecidableEq GraphCursor] [LinearOrderedAddCommMonoidWithTop S]

/-- Claim C24.  In a column `m ≤ 25` the three `score_filter` calls of the main loop
are given `top = |D| + |I| + |M|`, which caps nothing: what the column leaves is, for
each of the frontiers `I`, `M` and `D` as they are after the insertion loop, the entries
whose score is at most the absolute threshold, less the entries that the depth filter
evicts. -/
theorem column_step_no_cap (g : Cursor GraphCursor) (fees : Fees S) (thr : S) (fuel : Nat)
    (initial : List GraphCursor) (m : Nat) (fr : Frontiers GraphCursor S) (hm : m ≤ 25) :
    column_step g fees thr fuel initial m fr =
      (i_loop_processing g fees thr fuel
          (transfer g fees.code initial [] (StateSet.states (dm_new g fees initial fr.D fr.M fr.I m).2)
            (fees.t m p7H_MI) (fees.ins m)) m (depth_filter_cursor g (fees.M - m))).map
        (fun I =>
          { I := (filter_key (depth_filter_cursor g (fees.M - m))
              (I.filter (fun kv => decide (StateSet.score_fnc kv ≤ thr)))).1,
            M := (filter_key (depth_filter_cursor g (fees.M - m))
              ((dm_new g fees initial fr.D fr.M fr.I m).2.filter
                (fun kv => decide (StateSet.score_fnc kv ≤ thr)))).1,
            D := (filter_key (depth_filter_cursor g (fees.M - m))
              ((dm_new g fees initial fr.D fr.M fr.I m).1.filter
                (fun kv => decide (DeletionStateSet.score_fnc kv ≤ thr)))).1 }) := by
  unfold column_step column_step_with
  simp only
  have h25 : ¬ m > 25 := by omega
  have h100 : ¬ m > 100 := by omega
  have h500 : ¬ m > 500 := by omega
  simp only [h25, h100, h500, if_false]
  rcases i_loop_processing g fees thr fuel
      (transfer g fees.code initial [] (StateSet.states (dm_new g fees initial fr.D fr.M fr.I m).2)
        (fees.t m p7H_MI) (fees.ins m)) m (depth_filter_cursor g (fees.M - m)) with _ | I
  · rfl
  · simp only [Option.map]
    rw [score_filter_no_cap StateSet.score_fnc _ thr I (by omega),
      score_filter_no_cap StateSet.score_fnc _ thr _ (by omega),
      score_filter_no_cap DeletionStateSet.score_fnc _ thr _ (by omega)]

/-- Witness for claim C24: column 1 of the example profile on the example graph. -/
theorem column_step_no_cap_witness :
    (1 ≤ 25) ∧
    column_step example_graph example_fees 250 20 [1] 1 example_frontiers =
      (i_loop_processing example_graph example_fees 250 20
          (transfer example_graph example_fees.code [1] []
            (StateSet.states
              (dm_new example_graph example_fees [1] example_frontiers.D example_frontiers.M
                example_frontiers.I 1).2)
            (example_fees.t 1 p7H_MI) (example_fees.ins 1)) 1
          (depth_filter_cursor example_graph (example_fees.M - 1))).map
        (fun I =>
          { I := (filter_key (depth_filter_cursor example_graph (example_fees.M - 1))
              (I.filter (fun kv => decide (StateSet.score_fnc kv ≤ 250)))).1,
            M := (filter_key (depth_filter_cursor example_graph (example_fees.M - 1))
              ((dm_new example_graph example_fees [1] example_frontiers.D example_frontiers.M
                example_frontiers.I 1).2.filter
                (fun kv => decide (StateSet.score_fnc kv ≤ 250)))).1,
            D := (filter_key (depth_filter_cursor example_graph (example_fees.M - 1))
              ((dm_new example_graph example_fees [1] example_frontiers.D example_frontiers.M
                example_frontiers.I 1).1.filter
                (fun kv => decide (DeletionStateSet.score_fnc kv ≤ 250)))).1 }) :=
  ⟨by decide,
    column_step_no_cap example_graph example_fees 250 20 [1] 1 example_frontiers (by decide)⟩

end ColumnNoCap

end impl

namespace impl

set_option linter.unusedSectionVars false
set_option linter.unusedVariables false

/-! ## Independence of the enumeration order -/

section OrderIndependence

variable {GraphCursor S : Type} [DecidableEq GraphCursor] [LinearOrderedAddCommMonoidWithTop S]

/-- A sequence of `StateSet::update` calls leaves no greater a score than another one
holding only calls of the first, from the same frontier. -/
theorem apply_updates_le (M : StateSet GraphCursor S)
    (us us' : List (GraphCursor × S × GraphCursor × PathLink GraphCursor S))
    (h : ∀ u ∈ us', u ∈ us) (n : GraphCursor) :
    StateSet.score_at (apply_updates M us) n ≤ StateSet.score_at (apply_updates M us') n := by
  obtain ⟨_, h2, h3, _, _⟩ := apply_updates_spec us M n
  obtain ⟨_, _, _, h4, _⟩ := apply_updates_spec us' M n
  rcases h4 with h4 | ⟨u, hu, hun, hf⟩
  · have : StateSet.score_at (apply_updates M us') n = StateSet.score_at M n := by
      unfold StateSet.score_at; rw [h4]
    rw [this]; exact h2
  · have : StateSet.score_at (apply_updates M us') n = u.2.1 := by
      unfold StateSet.score_at; rw [hf]; rfl
    rw [this]; exact h3 u (h u hu) hun

/-- Two sequences of `StateSet::update` calls that hold the same calls leave the same
cursors and the same scores. -/
theorem apply_updates_congr (M : StateSet GraphCursor S)
    (us us' : List (GraphCursor × S × GraphCursor × PathLink GraphCursor S))
    (h : ∀ u, u ∈ us' ↔ u ∈ us) (n : GraphCursor) :
    (n ∈ keys (apply_updates M us') ↔ n ∈ keys (apply_updates M us)) ∧
    StateSet.score_at (apply_updates M us') n = StateSet.score_at (apply_updates M us) n := by
  obtain ⟨h1, _⟩ := apply_updates_spec us M n
  obtain ⟨h1', _⟩ := apply_updates_spec us' M n
  refine ⟨?_, le_antisymm (apply_updates_le M us' us (fun u hu => (h u).mpr hu) n)
    (apply_updates_le M us us' (fun u hu => (h u).mp hu) n)⟩
  rw [h1, h1']
  constructor
  · rintro (hk | ⟨u, hu, hun⟩)
    · exact Or.inl hk
    · exact Or.inr ⟨u, (h u).mp hu, hun⟩
  · rintro (hk | ⟨u, hu, hun⟩)
    · exact Or.inl hk
    · exact Or.inr ⟨u, (h u).mpr hu, hun⟩

/-- The calls of `transfer` are the same, as a set, for every enumeration order of the
source states, of the seeds and of the successors of each cursor. -/
theorem mem_transfer_updates_perm (g g' : Cursor GraphCursor) (code : Char → Nat)
    (initial initial' : List GraphCursor) (transfer_fee : S) (emission_fees : Nat → S)
    (src src' : List (State GraphCursor S))
    (hempty : ∀ c, g'.is_empty c = g.is_empty c) (hletter : ∀ c, g'.letter c = g.letter c)
    (hnext : ∀ c, (g'.next c).Perm (g.next c)) (hinit : initial'.Perm initial)
    (hsrc : src'.Perm src) (u : GraphCursor × S × GraphCursor × PathLink GraphCursor S) :
    u ∈ transfer_updates g' code initial' transfer_fee emission_fees src' ↔
      u ∈ transfer_updates g code initial transfer_fee emission_fees src := by
  rw [mem_transfer_updates, mem_transfer_updates]
  have hsucc : ∀ c n, n ∈ successors g' initial' c ↔ n ∈ successors g initial c := by
    intro c n
    unfold successors
    rw [hempty c]
    split
    · exact hinit.mem_iff
    · exact (hnext c).mem_iff
  constructor
  · rintro ⟨state, hs, hn, he⟩
    refine ⟨state, hsrc.mem_iff.mp hs, (hsucc _ _).mp hn, ?_⟩
    rw [← hletter]; exact he
  · rintro ⟨state, hs, hn, he⟩
    refine ⟨state, hsrc.mem_iff.mpr hs, (hsucc _ _).mpr hn, ?_⟩
    rw [hletter]; exact he

/-- In a range of states with distinct cursors, the first state of a cursor is the only
one. -/
theorem find?_of_mem_nodup (Ss : List (State GraphCursor S)) (c : GraphCursor)
    (st : State GraphCursor S) (hS : (Ss.map State.cursor).Nodup) (hst : st ∈ Ss)
    (hc : st.cursor = c) : Ss.find? (fun s => decide (s.cursor = c)) = some st := by
  induction Ss with
  | nil => simp at hst
  | cons a rest ih =>
    simp only [List.map_cons, List.nodup_cons] at hS
    by_cases ha : a.cursor = c
    · have hast : st = a := by
        rcases List.mem_cons.mp hst with h | h
        · exact h
        · exfalso
          apply hS.1
          rw [ha, ← hc]
          exact List.mem_map_of_mem _ h
      simp [List.find?_cons, ha, hast]
    · have hne : st ≠ a := fun h => ha (h ▸ hc)
      have hmem : st ∈ rest := by
        rcases List.mem_cons.mp hst with h | h
        · exact absurd h hne
        · exact h
      simp only [List.find?_cons, ha, decide_False]
      exact ih hS.2 hmem

/-- The score a range of states with distinct cursors gives a cursor does not depend on
the order of the range. -/
theorem states_score_at_perm (Ss Ss' : List (State GraphCursor S)) (c : GraphCursor)
    (hS : (Ss.map State.cursor).Nodup) (hperm : Ss'.Perm Ss) :
    states_score_at Ss' c = states_score_at Ss c := by
  have hS' : (Ss'.map State.cursor).Nodup := (hperm.map State.cursor).nodup_iff.mpr hS
  have key : Ss'.find? (fun s => decide (s.cursor = c))
      = Ss.find? (fun s => decide (s.cursor = c)) := by
    rcases hf : Ss.find? (fun s => decide (s.cursor = c)) with _ | st
    · rcases hf' : Ss'.find? (fun s => decide (s.cursor = c)) with _ | st'
      · rw [hf', hf]
      · exfalso
        have hmem : st' ∈ Ss := hperm.mem_iff.mp (List.mem_of_find?_eq_some hf')
        have hc : st'.cursor = c := by simpa using List.find?_some hf'
        rw [find?_of_mem_nodup Ss c st' hS hmem hc] at hf
        cases hf
    · have hmem : st ∈ Ss' := hperm.mem_iff.mpr (List.mem_of_find?_eq_some hf)
      have hc : st.cursor = c := by simpa using List.find?_some hf
      rw [hf]
      exact find?_of_mem_nodup Ss' c st hS' hmem hc
  unfold states_score_at
  rw [key]

/-- Claim C25.  The cursors and the scores that `transfer` and `DeletionStateSet::merge`
leave in the destination do not depend on the enumeration order: with the successors of
every cursor, the seeds and the states of the source frontier each enumerated in another
order, `transfer` leaves the same set of cursors and the same score at every cursor, and
so does `merge` for another order of the states of its source (a destination map and a
source frontier with distinct cursors). -/
theorem propagation_order_independent (g g' : Cursor GraphCursor) (code : Char → Nat)
    (initial initial' : List GraphCursor) (dst : StateSet GraphCursor S)
    (src src' : List (State GraphCursor S)) (transfer_fee : S) (emission_fees : Nat → S)
    (D : DeletionStateSet GraphCursor S) (Ss Ss' : List (State GraphCursor S)) (fee : S)
    (hempty : ∀ c, g'.is_empty c = g.is_empty c) (hletter : ∀ c, g'.letter c = g.letter c)
    (hnext : ∀ c, (g'.next c).Perm (g.next c)) (hinit : initial'.Perm initial)
    (hsrc : src'.Perm src)
    (hD : wf D) (hS : (Ss.map State.cursor).Nodup) (hperm : Ss'.Perm Ss) :
    (∀ c,
      (c ∈ keys (transfer g' code initial' dst src' transfer_fee emission_fees) ↔
        c ∈ keys (transfer g code initial dst src transfer_fee emission_fees)) ∧
      StateSet.score_at (transfer g' code initial' dst src' transfer_fee emission_fees) c
        = StateSet.score_at (transfer g code initial dst src transfer_fee emission_fees) c) ∧
    (∀ c,
      (c ∈ keys (DeletionStateSet.merge D Ss' fee).1 ↔
        c ∈ keys (DeletionStateSet.merge D Ss fee).1) ∧
      DeletionStateSet.score_at (DeletionStateSet.merge D Ss' fee).1 c
        = DeletionStateSet.score_at (DeletionStateSet.merge D Ss fee).1 c) := by
  constructor
  · intro c
    rw [transfer_eq, transfer_eq]
    exact apply_updates_congr dst _ _
      (mem_transfer_updates_perm g g' code initial initial' transfer_fee emission_fees src src'
        hempty hletter hnext hinit hsrc) c
  · intro c
    have hS' : (Ss'.map State.cursor).Nodup := (hperm.map State.cursor).nodup_iff.mpr hS
    obtain ⟨_, k1, s1⟩ := DeletionStateSet.merge_facts D Ss fee hD hS
    obtain ⟨_, k2, s2⟩ := DeletionStateSet.merge_facts D Ss' fee hD hS'
    refine ⟨?_, ?_⟩
    · rw [k1, k2, (hperm.map State.cursor).mem_iff]
    · rw [s1, s2, states_score_at_perm Ss Ss' c hS hperm]

/-- Witness for claim C25: the example graph with every successor list reversed, the
seeds and the source states reversed. -/
theorem propagation_order_independent_witness :
    ((∀ c, example_graph_rev.is_empty c = example_graph.is_empty c) ∧
      (∀ c, example_graph_rev.letter c = example_graph.letter c) ∧
      (∀ c, (example_graph_rev.next c).Perm (example_graph.next c)) ∧
      (([1, 2] : List Nat).reverse).Perm [1, 2] ∧
      ((StateSet.states example_M).reverse).Perm (StateSet.states example_M) ∧
      wf example_D ∧
      ((StateSet.states example_M).map State.cursor).Nodup ∧
      ((StateSet.states example_M).reverse).Perm (StateSet.states example_M)) ∧
    ((∀ c,
      (c ∈ keys (transfer example_graph_rev example_fees.code ([1, 2] : List Nat).reverse
            example_I (StateSet.states example_M).reverse (example_fees.t 1 p7H_MI)
            (example_fees.ins 1)) ↔
        c ∈ keys (transfer example_graph example_fees.code [1, 2] example_I
            (StateSet.states example_M) (example_fees.t 1 p7H_MI) (example_fees.ins 1))) ∧
      StateSet.score_at (transfer example_graph_rev example_fees.code
            ([1, 2] : List Nat).reverse example_I (StateSet.states example_M).reverse
            (example_fees.t 1 p7H_MI) (example_fees.ins 1)) c
        = StateSet.score_at (transfer example_graph example_fees.code [1, 2] example_I
            (StateSet.states example_M) (example_fees.t 1 p7H_MI) (example_fees.ins 1)) c) ∧
    (∀ c,
      (c ∈ keys (DeletionStateSet.merge example_D (StateSet.states example_M).reverse
            (example_fees.t 0 p7H_MD)).1 ↔
        c ∈ keys (DeletionStateSet.merge example_D (StateSet.states example_M)
            (example_fees.t 0 p7H_MD)).1) ∧
      DeletionStateSet.score_at (DeletionStateSet.merge example_D
            (StateSet.states example_M).reverse (example_fees.t 0 p7H_MD)).1 c
        = DeletionStateSet.score_at (DeletionStateSet.merge example_D
            (StateSet.states example_M) (example_fees.t 0 p7H_MD)).1 c)) :=
  ⟨⟨fun _ => rfl, fun _ => rfl, fun _ => List.reverse_perm _, List.reverse_perm _,
      List.reverse_perm _, by decide, by decide, List.reverse_perm _⟩,
    propagation_order_independent example_graph example_graph_rev example_fees.code
      [1, 2] ([1, 2] : List Nat).reverse example_I (StateSet.states example_M)
      (StateSet.states example_M).reverse (example_fees.t 1 p7H_MI) (example_fees.ins 1)
      example_D (StateSet.states example_M) (StateSet.states example_M).reverse
      (example_fees.t 0 p7H_MD)
      (fun _ => rfl) (fun _ => rfl) (fun _ => List.reverse_perm _) (List.reverse_perm _)
      (List.reverse_perm _) (by decide) (by decide) (List.reverse_perm _)⟩

end OrderIndependence

end impl

namespace impl

set_option linter.unusedSectionVars false
set_option linter.unusedVariables false

/-! ## Answers of the bounded estimator, whenever it returns -/

section EstimatorSound

variable {GraphCursor : Type} [DecidableEq GraphCursor]

/-- The body of `depth_at_least` answers rightly whenever it returns from a right cache,
as long as the call of itself does. -/
theorem DepthAtLeast.body_sound (g : Cursor GraphCursor)
    (again : DepthAtLeast GraphCursor → Except Abort (Bool × DepthAtLeast GraphCursor))
    (cursor : GraphCursor) (depth : Nat)
    (hagain : ∀ s answer s', CacheInv g s.depth_ → again s = Except.ok (answer, s') →
      answer = walk_at_least g depth cursor)
    (self : DepthAtLeast GraphCursor) (answer : Bool)
    (self' : DepthAtLeast GraphCursor) (hinv : CacheInv g self.depth_) (hd : depth ≤ INF)
    (h : DepthAtLeast.depth_at_least_body g again self cursor depth = Except.ok (answer, self')) :
    answer = walk_at_least g depth cursor := by
  unfold DepthAtLeast.depth_at_least_body at h
  by_cases hz : depth = 0
  · simp only [hz, if_true, Except.ok.injEq, Prod.mk.injEq] at h
    rw [← h.1, hz]; rfl
  · simp only [hz, if_false] at h
    rcases hca : DepthAtLeast.cached_answer self cursor depth with _ | a
    · simp only [hca] at h
      split at h
      · simp at h
      · split at h
        · simp at h
        · split at h
          · simp at h
          · split at h
            · simp at h
            · exact hagain _ answer self'
                (DepthAtLeast.get_depth_spec g _ cursor [] self hinv (StackInv.nil g cursor)).2.1 h
    · simp only [hca, Except.ok.injEq, Prod.mk.injEq] at h
      rw [← h.1]
      exact DepthAtLeast.cached_answer_sound g self cursor depth a hinv hd hca

/-- Whenever `depth_at_least` returns from a right cache, its answer says whether a walk
of length `depth` starts at the cursor. -/
theorem DepthAtLeast.depth_at_least_sound (g : Cursor GraphCursor) (cursor : GraphCursor)
    (depth : Nat) (hd : depth ≤ INF) :
    ∀ (fuel : Nat) (self : DepthAtLeast GraphCursor) (answer : Bool)
      (self' : DepthAtLeast GraphCursor), CacheInv g self.depth_ →
      DepthAtLeast.depth_at_least g fuel self cursor depth = Except.ok (answer, self') →
      answer = walk_at_least g depth cursor := by
  intro fuel
  induction fuel with
  | zero =>
    intro self answer self' hinv h
    exact DepthAtLeast.body_sound g _ cursor depth (fun s a s' _ hs => by simp at hs) self
      answer self' hinv hd h
  | succ fuel ih =>
    intro self answer self' hinv h
    exact DepthAtLeast.body_sound g _ cursor depth
      (fun s a s' hs hq => ih s a s' hs hq) self answer self' hinv hd h

/-- In every estimator state that queries can reach, the answer of a query through the
`double` overload that returns is determined by the cursor and the bound: the answers
of the estimator object are the values of a function of the query. -/
theorem DepthAtLeast.depth_at_least_double_determined (g : Cursor GraphCursor)
    (cursor : GraphCursor) (x : Rat) (fuel : Nat) (self self' : DepthAtLeast GraphCursor)
    (answer : Bool) (hreach : DepthAtLeast.Reachable g self)
    (h : DepthAtLeast.depth_at_least_double g fuel self cursor x = Except.ok (answer, self')) :
    answer = (decide (x ≤ 0) || walk_at_least g (Int.toNat (Int.floor x) % 2 ^ 64) cursor) := by
  unfold DepthAtLeast.depth_at_least_double at h
  by_cases hx : x ≤ 0
  · simp only [hx, if_true, Except.ok.injEq, Prod.mk.injEq] at h
    rw [← h.1]
    simp [hx]
  · simp only [hx, if_false] at h
    have hdI : Int.toNat (Int.floor x) % 2 ^ 64 ≤ INF := by
      have := Nat.mod_lt (Int.toNat (Int.floor x)) (show 0 < 2 ^ 64 by norm_num)
      unfold INF; omega
    have hsound := DepthAtLeast.depth_at_least_sound g cursor _ hdI fuel self answer self'
      (DepthAtLeast.Reachable.cacheInv g self hreach) h
    rw [hsound]
    simp [hx]

/-- The depth prune of the witness, evaluated: with 45 columns left the bound is 5, and
the entry at cursor 3 of the example Insert frontier is evicted, while an entry at
cursor 1, which lies on a cycle, stays. -/
theorem depth_prune_example :
    (filter_key (depth_filter_cursor example_graph (46 - 1)) example_I).1 = [] ∧
    (filter_key (depth_filter_cursor example_graph (46 - 1)) example_I3).1 = example_I3 := by
  decide!

end EstimatorSound

end impl

namespace impl

set_option linter.unusedSectionVars false
set_option linter.unusedVariables false

/-! ## The cache of the bounded estimator -/

section CacheEntries

variable {GraphCursor : Type} [DecidableEq GraphCursor]

/-- On a finite graph a walk of length `INF` from a cursor means walks of every
length. -/
theorem walk_INF_unbounded (g : Cursor GraphCursor) (nodes : List GraphCursor)
    (hclosed : closed_under_next g nodes) (hlen : nodes.length < INF) (c : GraphCursor)
    (hc : c ∈ nodes) (hw : walk_at_least g INF c = true) (n : Nat) :
    walk_at_least g n c = true := by
  rcases walk_long g nodes hclosed INF c [] List.nodup_nil (by simp) (by simp) hc hw
      (by simpa using hlen) with h | h
  · exact walk_empty g n c h
  · exact Unbounded.walk g c h n

/-- Claim C26.  In every state of the bounded estimator that queries can reach, a
cached entry `(value, exact)` of a cursor `c` has a walk of length `value` from `c`
(`value` is at most the depth of `c`); when `exact` is set, there is no longer walk if
`value` is not `INF` and, on a finite graph, there are walks of every length if it is
(`value` is the depth of `c`); an inexact value below the requested bound decides no
query; and a query that returns false from the state is right to do so. -/
theorem cache_entries_valid (g : Cursor GraphCursor) (self : DepthAtLeast GraphCursor)
    (hreach : DepthAtLeast.Reachable g self) (c : GraphCursor) (e : Estimation)
    (hf : find self.depth_ c = some e) :
    walk_at_least g e.value c = true ∧
    (e.exact = true → e.value < INF → walk_at_least g (e.value + 1) c = false) ∧
    (e.exact = true → e.value = INF → ∀ nodes : List GraphCursor,
      closed_under_next g nodes → nodes.length < INF → c ∈ nodes →
      ∀ n, walk_at_least g n c = true) ∧
    (∀ d, e.exact = false → e.value < d → DepthAtLeast.cached_answer self c d = none) ∧
    (∀ (fuel d : Nat) (self' : DepthAtLeast GraphCursor), d ≤ INF →
      DepthAtLeast.depth_at_least g fuel self c d = Except.ok (false, self') →
      walk_at_least g d c = false) := by
  have hinv := DepthAtLeast.Reachable.cacheInv g self hreach
  obtain ⟨hv1, hv2⟩ := hinv c e hf
  refine ⟨hv1, hv2, ?_, ?_, ?_⟩
  · intro _ hI nodes hclosed hlen hc n
    rw [hI] at hv1
    exact walk_INF_unbounded g nodes hclosed hlen c hc hv1 n
  · intro d hex hlt
    unfold DepthAtLeast.cached_answer
    rw [hf]
    have hge : ¬ e.value ≥ d := by omega
    simp [hge, hex]
  · intro fuel d self' hd h
    exact (DepthAtLeast.depth_at_least_sound g c d hd fuel self false self' hinv h).symm

/-- Witness for claim C26: the estimator after the query `depth_at_least(3, 1)` on the
example graph, and its entry for cursor 3. -/
theorem cache_entries_valid_witness :
    (DepthAtLeast.Reachable example_graph example_estimator ∧
      find example_estimator.depth_ 3 = some { value := 1, exact := true }) ∧
    (walk_at_least example_graph ({ value := 1, exact := true } : Estimation).value 3 = true ∧
    (({ value := 1, exact := true } : Estimation).exact = true →
      ({ value := 1, exact := true } : Estimation).value < INF →
      walk_at_least example_graph (({ value := 1, exact := true } : Estimation).value + 1) 3
        = false) ∧
    (({ value := 1, exact := true } : Estimation).exact = true →
      ({ value := 1, exact := true } : Estimation).value = INF → ∀ nodes : List Nat,
      closed_under_next example_graph nodes → nodes.length < INF → 3 ∈ nodes →
      ∀ n, walk_at_least example_graph n 3 = true) ∧
    (∀ d, ({ value := 1, exact := true } : Estimation).exact = false →
      ({ value := 1, exact := true } : Estimation).value < d →
      DepthAtLeast.cached_answer example_estimator 3 d = none) ∧
    (∀ (fuel d : Nat) (self' : DepthAtLeast Nat), d ≤ INF →
      DepthAtLeast.depth_at_least example_graph fuel example_estimator 3 d
        = Except.ok (false, self') →
      walk_at_least example_graph d 3 = false)) :=
  ⟨⟨DepthAtLeast.Reachable.query { depth_ := [], max_stack_size_ := 0 } 1 3 1 true
        example_estimator DepthAtLeast.Reachable.fresh rfl, by decide⟩,
    cache_entries_valid example_graph example_estimator
      (DepthAtLeast.Reachable.query { depth_ := [], max_stack_size_ := 0 } 1 3 1 true
        example_estimator DepthAtLeast.Reachable.fresh rfl)
      3 { value := 1, exact := true } (by decide)⟩

end CacheEntries

end impl

namespace impl

set_option linter.unusedSectionVars false
set_option linter.unusedVariables false

/-! ## The size of the in-progress set -/

section StackSize

variable {GraphCursor : Type} [DecidableEq GraphCursor]

theorem length_set_insert (stack : List GraphCursor) (c : GraphCursor) :
    (set_insert stack c).length ≤ stack.length + 1 := by
  unfold set_insert
  split
  · omega
  · simp

/-- The early returns of `get_depth_` leave `max_stack_size_` alone. -/
theorem DepthAtLeast.early_return_stack_size (g : Cursor GraphCursor) (L : Nat)
    (cursor : GraphCursor) (stack : List GraphCursor) (self : DepthAtLeast GraphCursor)
    (r : Estimation × List GraphCursor × DepthAtLeast GraphCursor)
    (h : DepthAtLeast.early_return g L cursor stack self = some r) :
    r.2.2.max_stack_size_ = self.max_stack_size_ := by
  unfold DepthAtLeast.early_return at h
  split at h
  · simp only [Option.some.injEq] at h; subst h; rfl
  · split at h
    · simp only [Option.some.injEq] at h; subst h; rfl
    · split at h
      · simp only [Option.some.injEq] at h; subst h; rfl
      · split at h
        · simp only [Option.some.injEq] at h; subst h; rfl
        · cases h

/-- The loop over the successors keeps `max_stack_size_` within the bound that every
recursive call keeps. -/
theorem DepthAtLeast.children_stack_size (L : Nat)
    (rec : GraphCursor → List GraphCursor → DepthAtLeast GraphCursor →
      Estimation × List GraphCursor × DepthAtLeast GraphCursor)
    (hrec : ∀ n stack self,
      (rec n stack self).2.2.max_stack_size_ ≤ max self.max_stack_size_ (stack.length + L) ∧
      (rec n stack self).2.1 = stack) :
    ∀ (nexts : List GraphCursor) (acc : Nat × Bool × List GraphCursor × DepthAtLeast GraphCursor),
      (DepthAtLeast.children rec nexts acc).2.2.2.max_stack_size_
        ≤ max acc.2.2.2.max_stack_size_ (acc.2.2.1.length + L) := by
  intro nexts
  induction nexts with
  | nil => intro acc; exact le_max_left _ _
  | cons n rest ih =>
    intro acc
    obtain ⟨r1, r2⟩ := hrec n acc.2.2.1 acc.2.2.2
    have hdef : DepthAtLeast.children rec (n :: rest) acc
        = DepthAtLeast.children rec rest
            (max acc.1 (rec n acc.2.2.1 acc.2.2.2).1.value,
              acc.2.1 && (rec n acc.2.2.1 acc.2.2.2).1.exact,
              (rec n acc.2.2.1 acc.2.2.2).2.1, (rec n acc.2.2.1 acc.2.2.2).2.2) := rfl
    rw [hdef]
    refine le_trans (ih _) ?_
    simp only [r2]
    exact max_le r1 (le_max_right _ _)

/-- Method `get_depth_` with stack limit `L` raises `max_stack_size_` to no more than
the size of the in-progress set it is given plus `L`. -/
theorem DepthAtLeast.get_depth_stack_size (g : Cursor GraphCursor) :
    ∀ (L : Nat) (cursor : GraphCursor) (stack : List GraphCursor)
      (self : DepthAtLeast GraphCursor),
      (DepthAtLeast.get_depth_ g L cursor stack self).2.2.max_stack_size_
        ≤ max self.max_stack_size_ (stack.length + L) := by
  intro L
  induction L with
  | zero =>
    intro cursor stack self
    have hdef : DepthAtLeast.get_depth_ g 0 cursor stack self =
        match DepthAtLeast.early_return g 0 cursor stack self with
        | some r => r
        | none => DepthAtLeast.store self cursor { value := 1, exact := false } stack := rfl
    rw [hdef]
    rcases her : DepthAtLeast.early_return g 0 cursor stack self with _ | r
    · exact le_max_left _ _
    · simp only
      rw [DepthAtLeast.early_return_stack_size g 0 cursor stack self r her]
      exact le_max_left _ _
  | succ limit ih =>
    intro cursor stack self
    have hdef : DepthAtLeast.get_depth_ g (limit + 1) cursor stack self =
        match DepthAtLeast.early_return g (limit + 1) cursor stack self with
        | some r => r
        | none => DepthAtLeast.expand g (DepthAtLeast.get_depth_ g limit) cursor stack self := rfl
    rw [hdef]
    rcases her : DepthAtLeast.early_return g (limit + 1) cursor stack self with _ | r
    · simp only
      have hch := DepthAtLeast.children_stack_size limit (DepthAtLeast.get_depth_ g limit)
        (fun n st s => ⟨ih n st s,
          (DepthAtLeast.get_depth_frame g (fun _ => True) (CacheWrites.writes_trivial g)
            limit n st s True.intro).2.1⟩)
        (g.next cursor)
        (0, true, set_insert stack cursor,
          { depth_ := self.depth_,
            max_stack_size_ := max self.max_stack_size_ (set_insert stack cursor).length })
      have hlen := length_set_insert stack cursor
      unfold DepthAtLeast.expand
      simp only
      split
      · simp only [DepthAtLeast.store]
        refine le_trans hch ?_
        simp only
        omega
      · simp only [DepthAtLeast.store]
        refine le_trans hch ?_
        simp only
        omega
    · simp only
      rw [DepthAtLeast.early_return_stack_size g (limit + 1) cursor stack self r her]
      exact le_max_left _ _

/-- The body of `depth_at_least` raises `max_stack_size_` to no more than
`min(max(2 * depth, 10), 50000)`, as long as the call of itself does. -/
theorem DepthAtLeast.body_stack_size (g : Cursor GraphCursor)
    (again : DepthAtLeast GraphCursor → Except Abort (Bool × DepthAtLeast GraphCursor))
    (cursor : GraphCursor) (depth : Nat)
    (hagain : ∀ s answer s', again s = Except.ok (answer, s') →
      s'.max_stack_size_ ≤ max s.max_stack_size_ (min (max (2 * depth) 10) 50000))
    (self : DepthAtLeast GraphCursor) (answer : Bool) (self' : DepthAtLeast GraphCursor)
    (h : DepthAtLeast.depth_at_least_body g again self cursor depth = Except.ok (answer, self')) :
    self'.max_stack_size_ ≤ max self.max_stack_size_ (min (max (2 * depth) 10) 50000) := by
  unfold DepthAtLeast.depth_at_least_body at h
  by_cases hz : depth = 0
  · simp only [hz, if_true, Except.ok.injEq, Prod.mk.injEq] at h
    rw [← h.2]; exact le_max_left _ _
  · simp only [hz, if_false] at h
    rcases hca : DepthAtLeast.cached_answer self cursor depth with _ | a
    · simp only [hca] at h
      split at h
      · simp at h
      · split at h
        · simp at h
        · rename_i hlim
          split at h
          · simp at h
          · split at h
            · simp at h
            · have h1 := hagain _ answer self' h
              have h2 := DepthAtLeast.get_depth_stack_size g
                (max ((2 * depth) % 2 ^ 64) 10) cursor [] self
              have h3 : (2 * depth) % 2 ^ 64 ≤ 2 * depth := Nat.mod_le _ _
              have h4 : max ((2 * depth) % 2 ^ 64) 10 ≤ 50000 := by
                unfold STACK_LIMIT at hlim
                omega
              simp only [List.length_nil, Nat.zero_add] at h2
              omega
    · simp only [hca, Except.ok.injEq, Prod.mk.injEq] at h
      rw [← h.2]; exact le_max_left _ _

/-- A query `depth_at_least(cursor, depth)` that returns raises `max_stack_size_` to no
more than `min(max(2 * depth, 10), 50000)`. -/
theorem DepthAtLeast.depth_at_least_stack_size (g : Cursor GraphCursor) (cursor : GraphCursor)
    (depth : Nat) :
    ∀ (fuel : Nat) (self : DepthAtLeast GraphCursor) (answer : Bool)
      (self' : DepthAtLeast GraphCursor),
      DepthAtLeast.depth_at_least g fuel self cursor depth = Except.ok (answer, self') →
      self'.max_stack_size_ ≤ max self.max_stack_size_ (min (max (2 * depth) 10) 50000) := by
  intro fuel
  induction fuel with
  | zero =>
    intro self answer self' h
    exact DepthAtLeast.body_stack_size g _ cursor depth (fun s a s' hs => by simp at hs) self
      answer self' h
  | succ fuel ih =>
    intro self answer self' h
    refine DepthAtLeast.body_stack_size g _ cursor depth ?_ self answer self' h
    intro s a s' hq
    exact ih s a s' hq

/-- Claim C27.  In an estimator state reached by queries of the depths `ds`,
`max_stack_size_` is at most the greatest of `max(2 * d, 10)` over `d` in `ds`, and at
most 50000; and a further query `depth_at_least(c, d)`, run with the high-water mark
reset to 0, leaves a mark of at most `max(2 * d, 10)`: the in-progress set, whose
greatest size the mark records, never holds more cursors than that. -/
theorem max_stack_size_bound (g : Cursor GraphCursor) (ds : List Nat)
    (self : DepthAtLeast GraphCursor) (h : DepthAtLeast.Queried g ds self) :
    self.max_stack_size_ ≤ (ds.map (fun d => max (2 * d) 10)).foldr max 0 ∧
    self.max_stack_size_ ≤ 50000 ∧
    (∀ (fuel : Nat) (c : GraphCursor) (d : Nat) (answer : Bool)
      (self' : DepthAtLeast GraphCursor),
      DepthAtLeast.depth_at_least g fuel { self with max_stack_size_ := 0 } c d
        = Except.ok (answer, self') →
      self'.max_stack_size_ ≤ max (2 * d) 10) := by
  refine ⟨?_, ?_, ?_⟩
  · induction h with
    | fresh => simp
    | query ds self fuel cursor depth answer self' _ hq ih =>
      have := DepthAtLeast.depth_at_least_stack_size g cursor depth fuel self answer self' hq
      simp only [List.map_cons, List.foldr_cons]
      omega
  · induction h with
    | fresh => simp
    | query ds self fuel cursor depth answer self' _ hq ih =>
      have := DepthAtLeast.depth_at_least_stack_size g cursor depth fuel self answer self' hq
      omega
  · intro fuel c d answer self' hq
    have := DepthAtLeast.depth_at_least_stack_size g c d fuel _ answer self' hq
    simp only at this
    omega

/-- Witness for claim C27: the estimator after the query `depth_at_least(3, 1)` on the
example graph. -/
theorem max_stack_size_bound_witness :
    DepthAtLeast.Queried example_graph [1] example_estimator ∧
    (example_estimator.max_stack_size_ ≤ (([1] : List Nat).map (fun d => max (2 * d) 10)).foldr max 0 ∧
    example_estimator.max_stack_size_ ≤ 50000 ∧
    (∀ (fuel : Nat) (c : Nat) (d : Nat) (answer : Bool) (self' : DepthAtLeast Nat),
      DepthAtLeast.depth_at_least example_graph fuel
          { example_estimator with max_stack_size_ := 0 } c d
        = Except.ok (answer, self') →
      self'.max_stack_size_ ≤ max (2 * d) 10)) :=
  ⟨DepthAtLeast.Queried.query [] { depth_ := [], max_stack_size_ := 0 } 1 3 1 true
      example_estimator DepthAtLeast.Queried.fresh rfl,
    max_stack_size_bound example_graph [1] example_estimator
      (DepthAtLeast.Queried.query [] { depth_ := [], max_stack_size_ := 0 } 1 3 1 true
        example_estimator DepthAtLeast.Queried.fresh rfl)⟩

end StackSize

end impl

namespace impl

set_option linter.unusedSectionVars false
set_option linter.unusedVariables false

/-! ## The insertion loop: pop order, commits and pushes -/

section LoopLogFacts

variable {GraphCursor S : Type} [DecidableEq GraphCursor] [LinearOrder S] [Add S] [Zero S] [OrderTop S]
variable (g : Cursor GraphCursor) (fees : Fees S) (m : Nat) (thr : S)
  (filter : GraphCursor → Bool)

/-- One iteration of the `while` loop, as the log of the popped elements sees it: the
popped element is the top of the queue, and the queue of the next iteration holds
elements of the rest of the queue and elements pushed at the score that a step gives from
the score of the popped element. -/
theorem i_loop_popped_step (fuel : Nat) (st : ILoopState GraphCursor S) :
    i_loop_popped g fees.code (fees.t m p7H_II) (fees.ins m) thr filter (fuel + 1) st = [] ∨
    ∃ e q' rest, pop_min st.q = some (e, q') ∧
      i_loop_popped g fees.code (fees.t m p7H_II) (fees.ins m) thr filter (fuel + 1) st
        = e :: rest ∧
      (rest = [] ∨ ∃ st1,
        rest = i_loop_popped g fees.code (fees.t m p7H_II) (fees.ins m) thr filter fuel st1 ∧
        ∀ x ∈ st1.q, x ∈ q' ∨ x.score = step_score g fees m e.score x.current_cursor) := by
  simp only [i_loop_popped]
  rcases hpop : pop_min st.q with _ | ⟨e, q'⟩
  · left; rfl
  · right
    refine ⟨e, q', _, rfl, rfl, ?_⟩
    by_cases hthr : e.score > thr
    · left; simp only [hthr, if_true]
    · simp only [hthr, if_false]
      by_cases hproc : st.processed.contains e.current_cursor = true
      · right
        simp only [hproc, if_true]
        exact ⟨_, rfl, fun x hx => Or.inl hx⟩
      · simp only [hproc, if_false]
        rcases hf : find (StateSet.update st.I e.current_cursor e.score e.source_cursor
            e.source_state).1 e.current_cursor with _ | id
        · left; rfl
        · right
          refine ⟨_, rfl, ?_⟩
          intro x hx
          simp only [i_loop_push_eq, List.mem_append, List.mem_map, List.mem_filter] at hx
          rcases hx with hx | ⟨n, _, rfl⟩
          · exact Or.inl hx
          · right
            exact step_score_eq g fees m e.score n

/-- When no step lowers a score, every popped element scores at least a lower bound of
the queue, and the popped scores never decrease. -/
theorem i_loop_popped_sorted (hstep : ∀ x n, x ≤ step_score g fees m x n) :
    ∀ (fuel : Nat) (st : ILoopState GraphCursor S) (lo : S),
      (∀ x ∈ st.q, lo ≤ x.score) →
      (∀ e ∈ i_loop_popped g fees.code (fees.t m p7H_II) (fees.ins m) thr filter fuel st,
        lo ≤ e.score) ∧
      ((i_loop_popped g fees.code (fees.t m p7H_II) (fees.ins m) thr filter fuel st).map
        QueueElement.score).Pairwise (fun a b => a ≤ b) := by
  intro fuel
  induction fuel with
  | zero =>
    intro st lo _
    simp [i_loop_popped]
  | succ fuel ih =>
    intro st lo hlo
    rcases i_loop_popped_step g fees m thr filter fuel st with h | ⟨e, q', rest, hpop, heq, hrest⟩
    · rw [h]; simp
    · rw [heq]
      obtain ⟨hperm, hmin⟩ := pop_min_some st.q e q' hpop
      have he : lo ≤ e.score := hlo e (hperm.mem_iff.mpr (List.mem_cons_self _ _))
      rcases hrest with hnil | ⟨st1, hst1, hq1⟩
      · subst hnil
        refine ⟨?_, by simp⟩
        intro x hx
        simp only [List.mem_singleton] at hx
        rw [hx]; exact he
      · have hq1' : ∀ x ∈ st1.q, e.score ≤ x.score := by
          intro x hx
          rcases hq1 x hx with h | h
          · exact hmin x (hperm.mem_iff.mpr (List.mem_cons_of_mem _ h))
          · rw [h]
            exact hstep _ _
        obtain ⟨i1, i2⟩ := ih st1 e.score hq1'
        rw [hst1]
        refine ⟨?_, ?_⟩
        · intro x hx
          simp only [List.mem_cons] at hx
          rcases hx with rfl | hx
          · exact he
          · exact le_trans he (i1 x hx)
        · simp only [List.map_cons, List.pairwise_cons]
          refine ⟨?_, i2⟩
          intro y hy
          simp only [List.mem_map] at hy
          obtain ⟨x, hx, rfl⟩ := hy
          exact i1 x hx

/-- Claim C28 (amended).  When no insertion step of the column lowers a score, that is
`x ≤ x + t[m][II] + ins[m][code(letter(n))]` for every score `x` and cursor `n`, the sum
being formed from left to right as the code forms it (so it is in `double` when neither
`t[m][II]` nor an insert emission is negative, and in exact arithmetic when every step
cost is non-negative), the scores of the elements that the `while` loop of
`i_loop_processing_non_negative` pops from the queue, in the order in which they are
popped, never decrease, whatever the state in which the loop starts. -/
theorem popped_scores_sorted (hstep : ∀ x n, x ≤ step_score g fees m x n) (fuel : Nat)
    (st : ILoopState GraphCursor S) :
    ((i_loop_popped g fees.code (fees.t m p7H_II) (fees.ins m) thr filter fuel st).map
      QueueElement.score).Pairwise (fun a b => a ≤ b) := by
  rcases hpop : pop_min st.q with _ | ⟨e, q'⟩
  · cases fuel with
    | zero => simp [i_loop_popped]
    | succ fuel => simp [i_loop_popped, hpop]
  · obtain ⟨_, hmin⟩ := pop_min_some st.q e q' hpop
    exact (i_loop_popped_sorted g fees m thr filter hstep fuel st e.score hmin).2

end LoopLogFacts

/-- Witness for claim C28: the insertion loop of column 0 of the fee table `double_fees`
(transitions 1, insert emissions 0.5), from its start on the frontier `double_I`, in the
model of `double`. -/
theorem popped_scores_sorted_witness :
    (∀ x n, x ≤ step_score example_graph double_fees 0 x n) ∧
    ((i_loop_popped example_graph double_fees.code (double_fees.t 0 p7H_II)
        (double_fees.ins 0) (Double.of_int 250) (fun _ => false) 20 double_loop_state).map
      QueueElement.score).Pairwise (fun a b => a ≤ b) :=
  ⟨step_score_le_of_nonneg example_graph double_fees 0 Double.rounded_add
      (by decide! : (0 : Double) ≤ Double.of_int 1)
      (fun _ => (by decide! : (0 : Double) ≤ Double.half)),
    popped_scores_sorted example_graph double_fees 0 (Double.of_int 250) (fun _ => false)
      (step_score_le_of_nonneg example_graph double_fees 0 Double.rounded_add
        (by decide! : (0 : Double) ≤ Double.of_int 1)
        (fun _ => (by decide! : (0 : Double) ≤ Double.half)))
      20 double_loop_state⟩

/-- Counterexample to claim C28 as stated, in the model of `double`: with the fee table
`cancelling_fees` every insertion step cost `t[0][II] + ins[0][code(letter)]` is
`2^53 + (-2^53) = 0`, which is not negative; from its start on the frontier `half_I` the
loop pops the seed of score 0.5 and then the successor, to which it has given the score
`(0.5 + 2^53) + (-2^53) = 0`: the popped scores 0.5, 0, 0, 0 decrease. -/
theorem popped_scores_sorted_counterexample :
    (∀ n, 0 ≤ step_cost example_graph cancelling_fees 0 n) ∧
    i_loop_start (Double.of_int 250) (fun _ => false) half_I = some half_loop_state ∧
    (i_loop_popped example_graph cancelling_fees.code (cancelling_fees.t 0 p7H_II)
        (cancelling_fees.ins 0) (Double.of_int 250) (fun _ => false) 20 half_loop_state).map
      (fun e => (e.current_cursor, e.score)) = [(1, Double.half), (2, 0), (3, 0), (4, 0)] ∧
    ¬ (Double.half ≤ (0 : Double)) :=
  ⟨fun _ => (by decide! : (0 : Double) ≤ Double.two53 + Double.neg_two53),
    by decide!, by decide!, by decide!⟩

/-- The pop order of a run in exact arithmetic, evaluated: the loop starts in
`example_loop_state` and pops the scores 7, 13, 19, 25, 30. -/
theorem i_loop_popped_example :
    i_loop_start (250 : WithTop Int) (fun _ => false) example_I2 = some example_loop_state ∧
    (i_loop_popped example_graph example_fees.code (example_fees.t 0 p7H_II)
        (example_fees.ins 0) 250 (fun _ => false) 20 example_loop_state).map
      (fun e => (e.current_cursor, e.score)) = [(1, 7), (2, 13), (3, 19), (4, 25), (3, 30)] :=
  ⟨rfl, by decide⟩

end impl

namespace impl

set_option linter.unusedSectionVars false
set_option linter.unusedVariables false

/-! ## The insertion loop: what is committed, and how much is pushed -/

section LoopCommits

variable {GraphCursor S : Type} [DecidableEq GraphCursor] [LinearOrderedAddCommMonoidWithTop S]
variable (g : Cursor GraphCursor) (fees : Fees S) (m : Nat) (thr : S)
  (filter : GraphCursor → Bool)

/-- Every element for which the loop calls `I.update` scores at most the threshold. -/
theorem i_loop_committed_le :
    ∀ (fuel : Nat) (st : ILoopState GraphCursor S),
      ∀ e ∈ i_loop_committed g fees.code (fees.t m p7H_II) (fees.ins m) thr filter fuel st,
        e.score ≤ thr := by
  intro fuel
  induction fuel with
  | zero => intro st e he; simp [i_loop_committed] at he
  | succ fuel ih =>
    intro st e he
    simp only [i_loop_committed] at he
    rcases hpop : pop_min st.q with _ | ⟨elt, q'⟩
    · simp [hpop] at he
    · simp only [hpop] at he
      by_cases hthr : elt.score > thr
      · simp [hthr] at he
      · simp only [hthr, if_false] at he
        by_cases hproc : st.processed.contains elt.current_cursor = true
        · simp only [hproc, if_true] at he
          exact ih _ e he
        · have hcont := Bool.eq_false_iff.mpr hproc
          simp only [hcont, Bool.false_eq_true, if_false] at he
          rcases hf : find (StateSet.update st.I elt.current_cursor elt.score elt.source_cursor
              elt.source_state).1 elt.current_cursor with _ | id
          · simp only [hf, List.mem_singleton] at he
            rw [he]; exact not_lt.mp hthr
          · simp only [hf, List.mem_cons] at he
            rcases he with rfl | he
            · exact not_lt.mp hthr
            · exact ih _ e he

/-- What a run of the `while` loop that exits leaves: the frontier is the old one after
the logged `I.update` calls, the processed cursors are the old ones and, before them,
the cursors of the logged calls with the latest first, and the pushes number at most
the successors of the cursors of the logged calls. -/
theorem i_loop_while_log :
    ∀ (fuel : Nat) (st st' : ILoopState GraphCursor S),
      i_loop_while g fees.code (fees.t m p7H_II) (fees.ins m) thr filter fuel st = some st' →
      st'.I = apply_updates st.I
        ((i_loop_committed g fees.code (fees.t m p7H_II) (fees.ins m) thr filter fuel st).map
          (fun e => (e.current_cursor, e.score, e.source_cursor, e.source_state))) ∧
      st'.processed
        = ((i_loop_committed g fees.code (fees.t m p7H_II) (fees.ins m) thr filter fuel st).map
            QueueElement.current_cursor).reverse ++ st.processed ∧
      (st.processed.Nodup → st'.processed.Nodup) ∧
      i_loop_pushes g fees.code (fees.t m p7H_II) (fees.ins m) thr filter fuel st
        ≤ ((i_loop_committed g fees.code (fees.t m p7H_II) (fees.ins m) thr filter fuel st).map
            (fun e => (g.next e.current_cursor).length)).sum := by
  intro fuel
  induction fuel with
  | zero => intro st st' h; simp [i_loop_while] at h
  | succ fuel ih =>
    intro st st' h
    simp only [i_loop_while] at h
    simp only [i_loop_committed, i_loop_pushes]
    rcases hpop : pop_min st.q with _ | ⟨elt, q'⟩
    · simp only [hpop, Option.some.injEq] at h
      subst h
      simp [apply_updates]
    · simp only [hpop] at h ⊢
      by_cases hthr : elt.score > thr
      · simp only [hthr, if_true, Option.some.injEq] at h ⊢
        subst h
        simp [apply_updates]
      · simp only [hthr, if_false] at h ⊢
        by_cases hproc : st.processed.contains elt.current_cursor = true
        · simp only [hproc, if_true] at h ⊢
          exact ih _ st' h
        · have hcont := Bool.eq_false_iff.mpr hproc
          simp only [hcont, Bool.false_eq_true, if_false] at h ⊢
          rcases hf : find (StateSet.update st.I elt.current_cursor elt.score elt.source_cursor
              elt.source_state).1 elt.current_cursor with _ | id
          · simp [hf] at h
          · simp only [hf] at h ⊢
            obtain ⟨i1, i2, i3, i4⟩ := ih _ st' h
            refine ⟨?_, ?_, ?_, ?_⟩
            · rw [i1]; rfl
            · rw [i2]
              simp only [List.map_cons, List.reverse_cons, List.append_assoc,
                List.singleton_append]
            · intro hnd
              apply i3
              simp only [List.nodup_cons]
              refine ⟨?_, hnd⟩
              intro hmem
              apply hproc
              simpa using hmem
            · simp only [List.map_cons, List.sum_cons]
              have hlen : (i_loop_push g fees.code (fees.t m p7H_II) (fees.ins m) filter
                  (elt.current_cursor :: st.processed) elt id (g.next elt.current_cursor)
                  q').length - q'.length ≤ (g.next elt.current_cursor).length := by
                rw [i_loop_push_eq]
                simp only [List.length_append, List.length_map]
                have := List.length_filter_le
                  (fun n => !(elt.current_cursor :: st.processed).contains n && !filter n)
                  (g.next elt.current_cursor)
                omega
              omega

/-- Claim C29.  The `while` loop of `i_loop_processing_non_negative` calls `I.update`
only with scores that are at most the absolute threshold; the frontier it leaves is the
one it started from after exactly these calls; and every cursor that the frontier holds
afterwards and did not hold before has a score that is at most the threshold, in a run
of the loop from any state and in a run of `i_loop_processing_non_negative` on an
incoming Insert frontier. -/
theorem committed_within_threshold (fuel : Nat) (st : ILoopState GraphCursor S) :
    (∀ e ∈ i_loop_committed g fees.code (fees.t m p7H_II) (fees.ins m) thr filter fuel st,
      e.score ≤ thr) ∧
    (∀ st', i_loop_while g fees.code (fees.t m p7H_II) (fees.ins m) thr filter fuel st
        = some st' →
      st'.I = apply_updates st.I
        ((i_loop_committed g fees.code (fees.t m p7H_II) (fees.ins m) thr filter fuel st).map
          (fun e => (e.current_cursor, e.score, e.source_cursor, e.source_state))) ∧
      ∀ c, c ∈ keys st'.I → c ∉ keys st.I → StateSet.score_at st'.I c ≤ thr) ∧
    (∀ (I : StateSet GraphCursor S) (st' : ILoopState GraphCursor S),
      i_loop_processing_non_negative g fees thr fuel I m filter = some st' →
      ∀ c, c ∈ keys st'.I → c ∉ keys I → StateSet.score_at st'.I c ≤ thr) := by
  have hle := i_loop_committed_le g fees m thr filter
  have key : ∀ (s s' : ILoopState GraphCursor S),
      i_loop_while g fees.code (fees.t m p7H_II) (fees.ins m) thr filter fuel s = some s' →
      ∀ c, c ∈ keys s'.I → c ∉ keys s.I → StateSet.score_at s'.I c ≤ thr := by
    intro s s' h c hc hnc
    obtain ⟨i1, _⟩ := i_loop_while_log g fees m thr filter fuel s s' h
    rw [i1] at hc ⊢
    obtain ⟨a1, _, a3, _, _⟩ := apply_updates_spec
      ((i_loop_committed g fees.code (fees.t m p7H_II) (fees.ins m) thr filter fuel s).map
        (fun e => (e.current_cursor, e.score, e.source_cursor, e.source_state))) s.I c
    rcases a1.mp hc with hk | ⟨u, hu, huc⟩
    · exact absurd hk hnc
    · refine le_trans (a3 u hu huc) ?_
      simp only [List.mem_map] at hu
      obtain ⟨e, he, rfl⟩ := hu
      exact hle fuel s e he
  refine ⟨hle fuel st, ?_, ?_⟩
  · intro st' h
    exact ⟨(i_loop_while_log g fees m thr filter fuel st st' h).1, key st st' h⟩
  · intro I st' h c hc hnc
    unfold i_loop_processing_non_negative at h
    simp only at h
    rcases hseed : i_loop_seed thr filter I [] with _ | q
    · simp [hseed] at h
    · simp only [hseed] at h
      exact key _ st' h c hc hnc

/-- Claim C30.  On a finite graph, cyclic or not, and for any insertion costs, the
`while` loop of `i_loop_processing_non_negative` exits, within `i_loop_fuel` iterations:
the solver returns, no cursor is put into `processed` twice, the seeding loop pushes at
most one element for each entry of the incoming frontier, and the pushes altogether
number at most the entries of the incoming frontier plus the sum of the numbers of
successors of the processed cursors. -/
theorem i_loop_terminates_bounded (I : StateSet GraphCursor S) (nodes : List GraphCursor)
    (hclosed : closed_under_next g nodes) (hkeys : ∀ c ∈ keys I, c ∈ nodes)
    (hlinks : ∀ kv ∈ I, kv.2.best_ancestor ≠ none)
    (fuel : Nat) (hfuel : i_loop_fuel g nodes I ≤ fuel) :
    ∃ st0 st', i_loop_start thr filter I = some st0 ∧
      i_loop_processing_non_negative g fees thr fuel I m filter = some st' ∧
      st'.processed.Nodup ∧
      st0.q.length ≤ I.length ∧
      st0.q.length
          + i_loop_pushes g fees.code (fees.t m p7H_II) (fees.ins m) thr filter fuel st0
        ≤ I.length + (st'.processed.map (fun c => (g.next c).length)).sum := by
  obtain ⟨pushed, hseed, hlen, hsound, _⟩ := i_loop_seed_eq thr filter I [] hlinks
  simp only [List.nil_append] at hseed
  have hmeasure : i_loop_measure g nodes
      ({ I := I, q := pushed, processed := [], taken_values := 0 } : ILoopState GraphCursor S)
      < fuel := by
    simp only [i_loop_measure, i_loop_fuel] at hfuel ⊢
    have : (nodes.filter (fun v => !([] : List GraphCursor).contains v)) = nodes := by
      rw [List.filter_eq_self]; intro a _; simp
    rw [this]
    omega
  obtain ⟨st', hst⟩ := i_loop_while_terminates g fees m thr filter nodes hclosed fuel
    { I := I, q := pushed, processed := [], taken_values := 0 }
    (by
      intro e he
      obtain ⟨kv, hkv, hc, _⟩ := hsound e he
      rw [hc]
      exact hkeys kv.1 (List.mem_map_of_mem Prod.fst hkv))
    hmeasure
  obtain ⟨_, l2, l3, l4⟩ := i_loop_while_log g fees m thr filter fuel _ st' hst
  refine ⟨{ I := I, q := pushed, processed := [], taken_values := 0 }, st', ?_, ?_, ?_, hlen, ?_⟩
  · simp only [i_loop_start, hseed]
  · simp only [i_loop_processing_non_negative, hseed, hst]
  · exact l3 List.nodup_nil
  · have hsum : (st'.processed.map (fun c => (g.next c).length)).sum
        = ((i_loop_committed g fees.code (fees.t m p7H_II) (fees.ins m) thr filter fuel
            { I := I, q := pushed, processed := [], taken_values := 0 }).map
            (fun e => (g.next e.current_cursor).length)).sum := by
      rw [l2]
      simp only [List.append_nil, List.map_reverse, List.sum_reverse, List.map_map]
      rfl
    rw [hsum]
    simp only
    omega

end LoopCommits

/-- Witness for claim C30: the insertion loop of column 0 of the example profile on the
example graph, which has the cycle 1, 2, 1. -/
theorem i_loop_terminates_bounded_witness :
    (closed_under_next example_graph [0, 1, 2, 3, 4] ∧
      (∀ c ∈ keys example_I2, c ∈ [0, 1, 2, 3, 4]) ∧
      (∀ kv ∈ example_I2, kv.2.best_ancestor ≠ none) ∧
      i_loop_fuel example_graph [0, 1, 2, 3, 4] example_I2 ≤ 20) ∧
    ∃ st0 st', i_loop_start (250 : WithTop Int) (fun _ => false) example_I2 = some st0 ∧
      i_loop_processing_non_negative example_graph example_fees 250 20 example_I2 0
        (fun _ => false) = some st' ∧
      st'.processed.Nodup ∧
      st0.q.length ≤ example_I2.length ∧
      st0.q.length
          + i_loop_pushes example_graph example_fees.code (example_fees.t 0 p7H_II)
              (example_fees.ins 0) 250 (fun _ => false) 20 st0
        ≤ example_I2.length + (st'.processed.map (fun c => (example_graph.next c).length)).sum :=
  ⟨⟨by decide, by decide, by decide, by decide⟩,
    i_loop_terminates_bounded example_graph example_fees 0 250 (fun _ => false) example_I2
      [0, 1, 2, 3, 4] (by decide) (by decide) (by decide) 20 (by decide)⟩

/-- The run of the witness, evaluated: four commits, at the scores 7, 13, 19 and 25, and
three pushes after the two of the seeding loop. -/
theorem i_loop_log_example :
    (i_loop_committed example_graph example_fees.code (example_fees.t 0 p7H_II)
        (example_fees.ins 0) 250 (fun _ => false) 20 example_loop_state).map
      (fun e => (e.current_cursor, e.score)) = [(1, 7), (2, 13), (3, 19), (4, 25)] ∧
    i_loop_pushes example_graph example_fees.code (example_fees.t 0 p7H_II)
        (example_fees.ins 0) 250 (fun _ => false) 20 example_loop_state = 3 := by
  decide

end impl

namespace impl

set_option linter.unusedSectionVars false
set_option linter.unusedVariables false

/-! ## The entries that the updates of a frontier leave -/

section EntryFacts

variable {K V : Type} [DecidableEq K]

theorem mem_assign (m : List (K × V)) (k : K) (v : V) (kv : K × V)
    (h : kv ∈ assign m k v) : kv ∈ m ∨ kv = (k, v) := by
  induction m with
  | nil => simp [assign] at h
  | cons x rest ih =>
    simp only [assign] at h
    by_cases hx : x.1 = k
    · simp only [hx, if_true, List.mem_cons] at h
      rcases h with h | h
      · exact Or.inr h
      · exact Or.inl (List.mem_cons_of_mem _ h)
    · simp only [hx, if_false, List.mem_cons] at h
      rcases h with h | h
      · left; rw [h]; exact List.mem_cons_self _ _
      · rcases ih h with h | h
        · exact Or.inl (List.mem_cons_of_mem _ h)
        · exact Or.inr h

theorem mem_set (m : List (K × V)) (k : K) (v : V) (kv : K × V)
    (h : kv ∈ set m k v) : kv ∈ m ∨ kv = (k, v) := by
  unfold set at h
  split at h
  · exact mem_assign m k v kv h
  · simp only [List.mem_append, List.mem_singleton] at h
    exact h

theorem assign_cons_ne (x : K × V) (rest : List (K × V)) (k : K) (v : V) (hne : x.1 ≠ k) :
    assign (x :: rest) k v = x :: assign rest k v := by
  simp [assign, hne]

theorem find_cons_ne (x : K × V) (rest : List (K × V)) (k : K) (hne : x.1 ≠ k) :
    find (x :: rest) k = find rest k := by
  simp [find, hne]

theorem find_cons_self (x : K × V) (rest : List (K × V)) :
    find (x :: rest) x.1 = some x.2 := by
  simp [find]

end EntryFacts

section FrontierEntries

variable {GraphCursor S : Type} [DecidableEq GraphCursor] [LinearOrder S] [Add S] [Zero S]
  [OrderTop S]

/-- An entry that `StateSet::update` leaves is an entry from before or the entry that
the update records. -/
theorem StateSet.update_mem (M : StateSet GraphCursor S) (c : GraphCursor) (s : S)
    (src : GraphCursor) (p : PathLink GraphCursor S) (kv : GraphCursor × PathLink GraphCursor S)
    (h : kv ∈ (StateSet.update M c s src p).1) :
    kv ∈ M ∨ kv = (c, PathLink.link src s p) := by
  rw [StateSet.st_update_eq] at h
  rcases hf : find M c with _ | node
  · simp only [hf, List.mem_append, List.mem_singleton] at h
    exact h
  · simp only [hf] at h
    rcases mem_assign _ _ _ _ h with h1 | h1
    · exact Or.inl h1
    · rcases PathLink.update_cases node src s p with hu | hu
      · left
        rw [h1, hu]
        exact mem_of_find M c node hf
      · right
        rw [h1, hu]

theorem StateSet.update_cons_ne (x : GraphCursor × PathLink GraphCursor S)
    (rest : StateSet GraphCursor S) (c : GraphCursor) (s : S) (src : GraphCursor)
    (p : PathLink GraphCursor S) (hne : x.1 ≠ c) :
    (StateSet.update (x :: rest) c s src p).1 = x :: (StateSet.update rest c s src p).1 := by
  rw [StateSet.st_update_eq, StateSet.st_update_eq, find_cons_ne x rest c hne]
  rcases find rest c with _ | node
  · rfl
  · simp only [assign_cons_ne x rest c _ hne]

theorem apply_updates_cons (M : StateSet GraphCursor S)
    (u : GraphCursor × S × GraphCursor × PathLink GraphCursor S)
    (us : List (GraphCursor × S × GraphCursor × PathLink GraphCursor S)) :
    apply_updates M (u :: us)
      = apply_updates (StateSet.update M u.1 u.2.1 u.2.2.1 u.2.2.2).1 us := rfl

theorem apply_updates_mem (us : List (GraphCursor × S × GraphCursor × PathLink GraphCursor S)) :
    ∀ (M : StateSet GraphCursor S) (kv : GraphCursor × PathLink GraphCursor S),
      kv ∈ apply_updates M us →
      kv ∈ M ∨ ∃ u ∈ us, kv = (u.1, PathLink.link u.2.2.1 u.2.1 u.2.2.2) := by
  induction us with
  | nil => intro M kv h; exact Or.inl h
  | cons u rest ih =>
    intro M kv h
    rw [apply_updates_cons] at h
    rcases ih _ kv h with h1 | ⟨u', hu', h1⟩
    · rcases StateSet.update_mem M _ _ _ _ kv h1 with h2 | h2
      · exact Or.inl h2
      · exact Or.inr ⟨u, List.mem_cons_self _ _, h2⟩
    · exact Or.inr ⟨u', List.mem_cons_of_mem _ hu', h1⟩

theorem apply_updates_cons_ne (x : GraphCursor × PathLink GraphCursor S)
    (us : List (GraphCursor × S × GraphCursor × PathLink GraphCursor S))
    (hne : ∀ u ∈ us, x.1 ≠ u.1) :
    ∀ rest : StateSet GraphCursor S,
      apply_updates (x :: rest) us = x :: apply_updates rest us := by
  induction us with
  | nil => intro rest; rfl
  | cons u tail ih =>
    intro rest
    rw [apply_updates_cons, apply_updates_cons,
      StateSet.update_cons_ne x rest _ _ _ _ (hne u (List.mem_cons_self _ _))]
    exact ih (fun u' hu' => hne u' (List.mem_cons_of_mem _ hu')) _

theorem apply_updates_wf (us : List (GraphCursor × S × GraphCursor × PathLink GraphCursor S)) :
    ∀ M : StateSet GraphCursor S, wf M → wf (apply_updates M us) := by
  induction us with
  | nil => intro M h; exact h
  | cons u rest ih =>
    intro M h
    rw [apply_updates_cons]
    exact ih _ (StateSet.st_wf_update M _ _ _ _ h)

/-- An entry that `transfer` leaves is an entry from before or records a step from a
state of the source range to one of the successors of its cursor. -/
theorem transfer_mem (g : Cursor GraphCursor) (code : Char → Nat) (initial : List GraphCursor)
    (dst : StateSet GraphCursor S) (src : List (State GraphCursor S)) (transfer_fee : S)
    (emission_fees : Nat → S) (kv : GraphCursor × PathLink GraphCursor S)
    (h : kv ∈ transfer g code initial dst src transfer_fee emission_fees) :
    kv ∈ dst ∨ ∃ st ∈ src, kv.1 ∈ successors g initial st.cursor ∧
      kv.2 = PathLink.link st.cursor
        (st.score + transfer_fee + emission_fees (code (g.letter kv.1))) st.plink := by
  rw [transfer_eq] at h
  rcases apply_updates_mem _ dst kv h with h1 | ⟨u, hu, h1⟩
  · exact Or.inl h1
  · right
    obtain ⟨st, hst, hsucc, hu2⟩ := (mem_transfer_updates g code initial transfer_fee
      emission_fees src u).mp hu
    refine ⟨st, hst, ?_, ?_⟩
    · rw [h1]; exact hsucc
    · rw [h1]
      simp only
      rw [hu2]

/-- An entry that `DeletionStateSet::update` leaves is an entry from before or the entry
that the update records. -/
theorem DeletionStateSet.del_update_mem (D : DeletionStateSet GraphCursor S) (c : GraphCursor)
    (s : S) (p : PathLink GraphCursor S) (kv : GraphCursor × ScoredPLink GraphCursor S)
    (h : kv ∈ (DeletionStateSet.update D c s p).1) :
    kv ∈ D ∨ kv = (c, { plink := p, score := s }) := by
  rw [DeletionStateSet.del_update_eq] at h
  rcases hf : find D c with _ | prev
  · simp only [hf, List.mem_append, List.mem_singleton] at h
    exact h
  · simp only [hf] at h
    by_cases hlt : s < prev.score
    · simp only [hlt, if_true] at h
      exact mem_assign _ _ _ _ h
    · simp only [hlt, if_false] at h
      exact Or.inl h

theorem DeletionStateSet.del_update_cons_ne (x : GraphCursor × ScoredPLink GraphCursor S)
    (rest : DeletionStateSet GraphCursor S) (c : GraphCursor) (s : S)
    (p : PathLink GraphCursor S) (hne : x.1 ≠ c) :
    (DeletionStateSet.update (x :: rest) c s p).1
      = x :: (DeletionStateSet.update rest c s p).1 := by
  rw [DeletionStateSet.del_update_eq, DeletionStateSet.del_update_eq, find_cons_ne x rest c hne]
  rcases find rest c with _ | prev
  · rfl
  · by_cases hlt : s < prev.score
    · simp only [hlt, if_true, assign_cons_ne x rest c _ hne]
    · simp only [hlt, if_false]

theorem DeletionStateSet.del_update_cons_keep (x : GraphCursor × ScoredPLink GraphCursor S)
    (rest : DeletionStateSet GraphCursor S) (s : S) (p : PathLink GraphCursor S)
    (h : ¬ s < x.2.score) :
    (DeletionStateSet.update (x :: rest) x.1 s p).1 = x :: rest := by
  rw [DeletionStateSet.del_update_eq, find_cons_self]
  simp only [h, if_false]

/-- A merge into a Delete frontier keeps the first entry in place when no merged state
improves on it, and the entries after it stay at other cursors, at scores that are at
least its score when the merged scores are. -/
theorem DeletionStateSet.merge_head (x : GraphCursor × ScoredPLink GraphCursor S) (fee : S) :
    ∀ (Ss : List (State GraphCursor S)) (rest : DeletionStateSet GraphCursor S),
      (∀ st ∈ Ss, x.2.score ≤ st.score + fee) →
      (∀ kv ∈ rest, kv.1 ≠ x.1 ∧ x.2.score ≤ kv.2.score) →
      ∃ rest', (DeletionStateSet.merge (x :: rest) Ss fee).1 = x :: rest' ∧
        ∀ kv ∈ rest', kv.1 ≠ x.1 ∧ x.2.score ≤ kv.2.score ∧
          (kv ∈ rest ∨ ∃ st ∈ Ss, kv = (st.cursor, { plink := st.plink, score := st.score + fee }))
    := by
  have key : ∀ (Ss : List (State GraphCursor S)) (rest : DeletionStateSet GraphCursor S)
      (n : Nat),
      (∀ st ∈ Ss, x.2.score ≤ st.score + fee) →
      (∀ kv ∈ rest, kv.1 ≠ x.1 ∧ x.2.score ≤ kv.2.score) →
      ∃ rest', (Ss.foldl
          (fun acc state =>
            let r := DeletionStateSet.update acc.1 state.cursor (state.score + fee) state.plink
            (r.1, acc.2 + (if r.2 then 1 else 0))) (x :: rest, n)).1 = x :: rest' ∧
        ∀ kv ∈ rest', kv.1 ≠ x.1 ∧ x.2.score ≤ kv.2.score ∧
          (kv ∈ rest ∨
            ∃ st ∈ Ss, kv = (st.cursor, { plink := st.plink, score := st.score + fee })) := by
    intro Ss
    induction Ss with
    | nil =>
      intro rest n _ hrest
      exact ⟨rest, rfl, fun kv hkv => ⟨(hrest kv hkv).1, (hrest kv hkv).2, Or.inl hkv⟩⟩
    | cons st tail ih =>
      intro rest n hSs hrest
      simp only [List.foldl_cons]
      have hst := hSs st (List.mem_cons_self _ _)
      have htail : ∀ st' ∈ tail, x.2.score ≤ st'.score + fee :=
        fun st' h => hSs st' (List.mem_cons_of_mem _ h)
      by_cases hc : x.1 = st.cursor
      · have hkeep : (DeletionStateSet.update (x :: rest) st.cursor (st.score + fee) st.plink).1
            = x :: rest := by
          rw [← hc]
          exact DeletionStateSet.del_update_cons_keep x rest _ _ (not_lt.mpr hst)
        rw [hkeep]
        obtain ⟨rest', h1, h2⟩ := ih rest _ htail hrest
        refine ⟨rest', h1, ?_⟩
        intro kv hkv
        obtain ⟨a, b, c'⟩ := h2 kv hkv
        refine ⟨a, b, ?_⟩
        rcases c' with c' | ⟨st', hst', c'⟩
        · exact Or.inl c'
        · exact Or.inr ⟨st', List.mem_cons_of_mem _ hst', c'⟩
      · rw [DeletionStateSet.del_update_cons_ne x rest _ _ _ hc]
        have hrest2 : ∀ kv ∈ (DeletionStateSet.update rest st.cursor (st.score + fee)
            st.plink).1, kv.1 ≠ x.1 ∧ x.2.score ≤ kv.2.score := by
          intro kv hkv
          rcases DeletionStateSet.del_update_mem rest _ _ _ kv hkv with h | h
          · exact hrest kv h
          · rw [h]
            exact ⟨fun e => hc e.symm, hst⟩
        obtain ⟨rest', h1, h2⟩ := ih _ _ htail hrest2
        refine ⟨rest', h1, ?_⟩
        intro kv hkv
        obtain ⟨a, b, c'⟩ := h2 kv hkv
        refine ⟨a, b, ?_⟩
        rcases c' with c' | ⟨st', hst', c'⟩
        · rcases DeletionStateSet.del_update_mem rest _ _ _ kv c' with h | h
          · exact Or.inl h
          · exact Or.inr ⟨st, List.mem_cons_self _ _, h⟩
        · exact Or.inr ⟨st', List.mem_cons_of_mem _ hst', c'⟩
  intro Ss rest hSs hrest
  exact key Ss rest 0 hSs hrest

end FrontierEntries

end impl

namespace impl

set_option linter.unusedSectionVars false
set_option linter.unusedVariables false

/-! ## A lower bound on the scores that the insertion loop leaves -/

section LoopLower

variable {GraphCursor S : Type} [DecidableEq GraphCursor] [LinearOrder S] [Add S] [Zero S]
  [OrderTop S]
variable (g : Cursor GraphCursor) (fees : Fees S) (m : Nat) (thr : S)
  (filter : GraphCursor → Bool)

/-- When no step lowers a score, the `while` loop of the non-negative solver keeps a
lower bound of the scores of the frontier and of the queue. -/
theorem i_loop_while_lower (hstep : ∀ x n, x ≤ step_score g fees m x n) (L : S) :
    ∀ (fuel : Nat) (st st' : ILoopState GraphCursor S),
      (∀ kv ∈ st.I, L ≤ kv.2.score) → (∀ e ∈ st.q, L ≤ e.score) →
      i_loop_while g fees.code (fees.t m p7H_II) (fees.ins m) thr filter fuel st = some st' →
      ∀ kv ∈ st'.I, L ≤ kv.2.score := by
  intro fuel
  induction fuel with
  | zero => intro st st' _ _ h; simp [i_loop_while] at h
  | succ fuel ih =>
    intro st st' hI hq h
    simp only [i_loop_while] at h
    rcases hpop : pop_min st.q with _ | ⟨e, q'⟩
    · simp only [hpop, Option.some.injEq] at h
      subst h
      exact hI
    · simp only [hpop] at h
      obtain ⟨hperm, _⟩ := pop_min_some st.q e q' hpop
      have hmem : ∀ x, x ∈ st.q ↔ x = e ∨ x ∈ q' := by
        intro x; rw [hperm.mem_iff]; simp
      have he : L ≤ e.score := hq e ((hmem e).mpr (Or.inl rfl))
      have hq' : ∀ x ∈ q', L ≤ x.score := fun x hx => hq x ((hmem x).mpr (Or.inr hx))
      by_cases hthr : e.score > thr
      · simp only [hthr, if_true, Option.some.injEq] at h
        subst h
        exact hI
      · simp only [hthr, if_false] at h
        by_cases hproc : st.processed.contains e.current_cursor = true
        · simp only [hproc, if_true] at h
          exact ih { I := st.I, q := q', processed := st.processed,
                     taken_values := st.taken_values + 1 } st' hI hq' h
        · have hcont := Bool.eq_false_iff.mpr hproc
          simp only [hcont, Bool.false_eq_true, if_false] at h
          rcases hf : find (StateSet.update st.I e.current_cursor e.score e.source_cursor
              e.source_state).1 e.current_cursor with _ | id
          · simp [hf] at h
          · simp only [hf] at h
            refine ih _ st' ?_ ?_ h
            · intro kv hkv
              simp only at hkv
              rcases StateSet.update_mem st.I _ _ _ _ kv hkv with h1 | h1
              · exact hI kv h1
              · rw [h1]; exact he
            · intro x hx
              simp only [i_loop_push_eq, List.mem_append, List.mem_map] at hx
              rcases hx with hx | ⟨n, _, rfl⟩
              · exact hq' x hx
              · exact le_trans he (hstep e.score n)

/-- The non-negative solver returns on a finite graph with enough fuel and keeps a lower
bound of the scores of the frontier when no step lowers a score. -/
theorem i_loop_non_negative_lower (hstep : ∀ x n, x ≤ step_score g fees m x n) (L : S)
    (I : StateSet GraphCursor S) (nodes : List GraphCursor)
    (hclosed : closed_under_next g nodes) (hkeys : ∀ c ∈ keys I, c ∈ nodes)
    (hlinks : ∀ kv ∈ I, kv.2.best_ancestor ≠ none) (hL : ∀ kv ∈ I, L ≤ kv.2.score)
    (fuel : Nat) (hfuel : i_loop_fuel g nodes I ≤ fuel) :
    ∃ st, i_loop_processing_non_negative g fees thr fuel I m filter = some st ∧
      ∀ kv ∈ st.I, L ≤ kv.2.score := by
  obtain ⟨pushed, hseed, hlen, hsound, _⟩ := i_loop_seed_eq thr filter I [] hlinks
  simp only [List.nil_append] at hseed
  have hmeasure : i_loop_measure g nodes
      ({ I := I, q := pushed, processed := [], taken_values := 0 } : ILoopState GraphCursor S)
      < fuel := by
    simp only [i_loop_measure, i_loop_fuel] at hfuel ⊢
    have : (nodes.filter (fun v => !([] : List GraphCursor).contains v)) = nodes := by
      rw [List.filter_eq_self]; intro a _; simp
    rw [this]
    omega
  obtain ⟨st, hst⟩ := i_loop_while_terminates g fees m thr filter nodes hclosed fuel
    { I := I, q := pushed, processed := [], taken_values := 0 }
    (by
      intro e he
      obtain ⟨kv, hkv, hc, _⟩ := hsound e he
      rw [hc]
      exact hkeys kv.1 (List.mem_map_of_mem Prod.fst hkv))
    hmeasure
  refine ⟨st, ?_, ?_⟩
  · simp only [i_loop_processing_non_negative, hseed, hst]
  · refine i_loop_while_lower g fees m thr filter hstep L fuel _ st hL ?_ hst
    intro e he
    obtain ⟨kv, hkv, _, hs, _⟩ := hsound e he
    rw [hs]
    exact hL kv hkv

theorem StateSet.states_of_mem (M : StateSet GraphCursor S) :
    ∀ (ks : List GraphCursor) (src : List (State GraphCursor S)),
      StateSet.states_of M ks = some src →
      ∀ st ∈ src, ∃ kv ∈ M, st.score = kv.2.score := by
  intro ks
  induction ks with
  | nil =>
    intro src h st hst
    simp only [StateSet.states_of, Option.some.injEq] at h
    subst h
    exact absurd hst (List.not_mem_nil st)
  | cons k rest ih =>
    intro src h st hst
    simp only [StateSet.states_of] at h
    rcases hf : find M k with _ | node
    · simp [hf] at h
    · simp only [hf] at h
      rcases hr : StateSet.states_of M rest with _ | l
      · simp [hr] at h
      · simp only [hr, Option.some.injEq] at h
        subst h
        rcases List.mem_cons.mp hst with rfl | hst
        · exact ⟨(k, node), mem_of_find M k node hf, rfl⟩
        · exact ih l hr st hst

/-- The inner loop of `transfer_upd` keeps a lower bound of the scores of `to` when the
scores it submits are above the bound. -/
theorem transfer_upd_lower (L : S) :
    ∀ (src : List (State GraphCursor S)) (acc : StateSet GraphCursor S × List GraphCursor),
      (∀ kv ∈ acc.1, L ≤ kv.2.score) →
      (∀ st ∈ src, ∀ n, L ≤ step_score g fees m st.score n) →
      ∀ kv ∈ (src.foldl (transfer_upd_state g fees.code (fees.t m p7H_II) (fees.ins m)) acc).1,
        L ≤ kv.2.score := by
  have inner : ∀ (state : State GraphCursor S) (ns : List GraphCursor)
      (acc : StateSet GraphCursor S × List GraphCursor),
      (∀ kv ∈ acc.1, L ≤ kv.2.score) → (∀ n, L ≤ step_score g fees m state.score n) →
      ∀ kv ∈ (ns.foldl (transfer_upd_step g fees.code (fees.t m p7H_II) (fees.ins m) state)
        acc).1, L ≤ kv.2.score := by
    intro state ns
    induction ns with
    | nil => intro acc hacc _; exact hacc
    | cons n rest ih =>
      intro acc hacc hst
      simp only [List.foldl_cons]
      refine ih _ ?_ hst
      intro kv hkv
      simp only [transfer_upd_step] at hkv
      rcases StateSet.update_mem acc.1 _ _ _ _ kv hkv with h | h
      · exact hacc kv h
      · rw [h]; exact hst n
  intro src
  induction src with
  | nil => intro acc hacc _; exact hacc
  | cons st rest ih =>
    intro acc hacc hsrc
    simp only [List.foldl_cons]
    refine ih _ ?_ (fun st' h => hsrc st' (List.mem_cons_of_mem _ h))
    exact inner st (g.next st.cursor) acc hacc (hsrc st (List.mem_cons_self _ _))

theorem copy_updated_lower (L : S) (Inew : StateSet GraphCursor S)
    (hnew : ∀ kv ∈ Inew, L ≤ kv.2.score) :
    ∀ (us : List GraphCursor) (I I' : StateSet GraphCursor S),
      (∀ kv ∈ I, L ≤ kv.2.score) → copy_updated Inew us I = some I' →
      ∀ kv ∈ I', L ≤ kv.2.score := by
  intro us
  induction us with
  | nil =>
    intro I I' hI h
    simp only [copy_updated, Option.some.injEq] at h
    subst h
    exact hI
  | cons u rest ih =>
    intro I I' hI h
    simp only [copy_updated] at h
    rcases hf : find Inew u with _ | node
    · simp [hf] at h
    · simp only [hf] at h
      refine ih _ I' ?_ h
      intro kv hkv
      rcases mem_set I u _ kv hkv with h1 | h1
      · exact hI kv h1
      · rw [h1]
        exact hnew (u, node) (mem_of_find Inew u node hf)

/-- The rounds of the fixpoint solver keep a lower bound of the scores of `I` and `Inew`
when no step lowers a score. -/
theorem i_loop_negative_rounds_lower (hstep : ∀ x n, x ≤ step_score g fees m x n) (L : S) :
    ∀ (k : Nat) (st st' : NegState GraphCursor S),
      (∀ kv ∈ st.I, L ≤ kv.2.score) → (∀ kv ∈ st.Inew, L ≤ kv.2.score) →
      i_loop_negative_rounds g fees m k st = some st' →
      ∀ kv ∈ st'.Inew, L ≤ kv.2.score := by
  intro k
  induction k with
  | zero =>
    intro st st' _ hnew h
    simp only [i_loop_negative_rounds, Option.some.injEq] at h
    subst h
    exact hnew
  | succ k ih =>
    intro st st' hI hnew h
    simp only [i_loop_negative_rounds] at h
    rcases hr : i_loop_negative_round g fees m st with _ | st1
    · simp [hr] at h
    · simp only [hr] at h
      unfold i_loop_negative_round at hr
      rcases hs : StateSet.states_of st.I st.updated with _ | src
      · simp [hs] at hr
      · simp only [hs] at hr
        rcases hc : copy_updated
            (transfer_upd g fees.code st.Inew src (fees.t m p7H_II) (fees.ins m)).1
            (transfer_upd g fees.code st.Inew src (fees.t m p7H_II) (fees.ins m)).2 st.I
          with _ | I1
        · simp [hc] at hr
        · simp only [hc, Option.some.injEq] at hr
          subst hr
          have hsrc : ∀ sx ∈ src, ∀ n, L ≤ step_score g fees m sx.score n := by
            intro sx hsx n
            obtain ⟨kv, hkv, hscore⟩ := StateSet.states_of_mem st.I st.updated src hs sx hsx
            rw [hscore]
            exact le_trans (hI kv hkv) (hstep _ n)
          have hnew1 : ∀ kv ∈ (transfer_upd g fees.code st.Inew src (fees.t m p7H_II)
              (fees.ins m)).1, L ≤ kv.2.score :=
            transfer_upd_lower g fees m L src (st.Inew, []) hnew hsrc
          exact ih _ st' (copy_updated_lower L _ hnew1 _ st.I I1 hI hc) hnew1 h

theorem has_walk_mono (n : Nat) :
    ∀ (k : Nat) (c : GraphCursor), has_walk g (n + k) c = true → has_walk g n c = true := by
  induction n with
  | zero => intro k c _; rfl
  | succ n ih =>
    intro k c h
    have hk : n + 1 + k = (n + k) + 1 := by omega
    rw [hk] at h
    simp only [has_walk, List.any_eq_true] at h ⊢
    obtain ⟨v, hv, hw⟩ := h
    exact ⟨v, hv, ih k v hw⟩

/-- The insertion loop returns, whichever solver runs, on a finite graph without a walk
of 31 edges and with enough fuel, and it keeps a lower bound of the scores of the
frontier when no step lowers a score. -/
theorem i_loop_processing_lower (hS : RoundedAdd S)
    (hstep : ∀ x n, x ≤ step_score g fees m x n) (L : S)
    (I : StateSet GraphCursor S) (nodes : List GraphCursor)
    (hclosed : closed_under_next g nodes) (hkeys : ∀ c ∈ keys I, c ∈ nodes)
    (hlinks : ∀ kv ∈ I, kv.2.best_ancestor ≠ none) (hL : ∀ kv ∈ I, L ≤ kv.2.score)
    (hwalks : ∀ u ∈ nodes, has_walk g 31 u = false)
    (fuel : Nat) (hfuel : i_loop_fuel g nodes I ≤ fuel) :
    ∃ I', i_loop_processing g fees thr fuel I m filter = some I' ∧
      ∀ kv ∈ I', L ≤ kv.2.score := by
  unfold i_loop_processing
  cases fees.is_i_loop_non_negative m with
  | true =>
    simp only [if_true]
    obtain ⟨st, hst, hlow⟩ := i_loop_non_negative_lower g fees m thr filter hstep L I nodes
      hclosed hkeys hlinks hL fuel hfuel
    exact ⟨st.I, by rw [hst], hlow⟩
  | false =>
    simp only [Bool.false_eq_true, if_false]
    obtain ⟨Ineg, hneg, _, _⟩ := i_loop_negative_run g fees m I hS
      (fun v => le_antisymm le_top (hstep ⊤ v)) (fun u hu => hwalks u (hkeys u hu))
    refine ⟨Ineg, hneg, ?_⟩
    unfold i_loop_processing_negative at hneg
    simp only at hneg
    rcases hr : i_loop_negative_rounds g fees m max_insertions
        { I := I, Inew := StateSet.clone I, updated := (keys I).foldl set_insert [] }
      with _ | st
    · simp [hr] at hneg
    · simp only [hr, Option.some.injEq] at hneg
      subst hneg
      refine i_loop_negative_rounds_lower g fees m hstep L max_insertions _ st hL ?_ hr
      simp only
      rw [StateSet.clone_eq]
      exact hL

end LoopLower

end impl

namespace impl

set_option linter.unusedSectionVars false
set_option linter.unusedVariables false

/-! ## A profile of length 1 on a graph with one edge -/

section SingleMatchRun

variable {S : Type} [LinearOrder S] [Add S] [Zero S] [OrderTop S]

theorem RoundedAdd.le_add_right (hS : RoundedAdd S) (a b : S) (hb : 0 ≤ b) : a ≤ a + b := by
  have := hS.add_le_add_left a 0 b hb
  rw [hS.add_zero] at this
  exact this

theorem one_edge_successors (initial : List Nat) (c : Nat) (n : Nat)
    (hc : c ≠ 0) (hn : n ∈ successors one_edge_graph initial c) : n = 0 := by
  unfold successors one_edge_graph at hn
  simp only [decide_eq_true_eq, hc, if_false] at hn
  by_cases h1 : c = 1
  · simp only [h1, if_true, List.mem_singleton] at hn
    exact hn
  · simp only [h1, if_false, List.not_mem_nil] at hn

/-- The Insert frontier of column 0: the seed, entered from the start. -/
theorem first_insert_frontier (fees : Fees S) :
    transfer one_edge_graph fees.code [1] ([] : StateSet Nat S)
        (StateSet.states (set [] one_edge_graph.empty PathLink.master_source))
        (fees.t 0 p7H_MI) (fees.ins 0)
      = [(1, PathLink.link 0 (0 + fees.t 0 p7H_MI + fees.ins 0 (fees.code 'x'))
          PathLink.master_source)] := by
  simp [transfer, StateSet.states, set, count, find, StateSet.kv2state, one_edge_graph,
    StateSet.update, insert, assign, PathLink.update, PathLink.score]

/-- The insertion loop of column 0 returns a frontier whose scores are at least
`t[0][MI]`. -/
theorem first_insert_loop (hS : RoundedAdd S) (fees : Fees S) (thr : S) (fuel : Nat)
    (filter : Nat → Bool) (ht : ∀ m k, 0 ≤ fees.t m k) (hins : ∀ m k, 0 ≤ fees.ins m k)
    (hfuel : 6 ≤ fuel) :
    ∃ I', i_loop_processing one_edge_graph fees thr fuel
        [(1, PathLink.link 0 (0 + fees.t 0 p7H_MI + fees.ins 0 (fees.code 'x'))
          PathLink.master_source)] 0 filter = some I' ∧
      ∀ kv ∈ I', fees.t 0 p7H_MI ≤ kv.2.score := by
  refine i_loop_processing_lower one_edge_graph fees 0 thr filter hS
    (step_score_le_of_nonneg one_edge_graph fees 0 hS (ht 0 p7H_II) (hins 0))
    (fees.t 0 p7H_MI) _ [0, 1] (by decide) ?_ ?_ ?_ (by decide) fuel ?_
  · intro c hc
    simp only [keys, List.map_cons, List.map_nil, List.mem_singleton] at hc
    rw [hc]
    decide
  · intro kv hkv
    simp only [List.mem_singleton] at hkv
    rw [hkv]
    simp [PathLink.best_ancestor]
  · intro kv hkv
    simp only [List.mem_singleton] at hkv
    rw [hkv]
    simp only [PathLink.score]
    have h1 : fees.t 0 p7H_MI ≤ 0 + fees.t 0 p7H_MI := by rw [hS.zero_add]
    exact le_trans h1 (RoundedAdd.le_add_right hS _ _ (hins 0 _))
  · simp only [i_loop_fuel, one_edge_graph, List.length_singleton, List.map_cons, List.map_nil,
      List.sum_cons, List.sum_nil]
    simp
    omega

/-- Lambda `dm_new` in column 1: the Delete frontier holds the start at `t[0][MD]`, and
the Match frontier begins with the cursor `1`, reached from the start at `t[0][MM]`;
what follows it sits at the cursor `0` at scores of at least `t[0][MM]`. -/
theorem first_column_dm (hS : RoundedAdd S) (fees : Fees S) (I0 : StateSet Nat S)
    (hI : ∀ kv ∈ I0, fees.t 0 p7H_MI ≤ kv.2.score)
    (hins0 : fees.t 0 p7H_MM ≤ fees.t 0 p7H_MI + fees.t 0 p7H_IM)
    (hmat : fees.mat 1 (fees.code 'x') = 0) (hmatn : ∀ m k, 0 ≤ fees.mat m k) :
    ∃ restM, dm_new one_edge_graph fees [1] []
        (set [] one_edge_graph.empty PathLink.master_source) I0 1
      = ([(0, { plink := PathLink.master_source, score := fees.t 0 p7H_MD })],
         (1, PathLink.link 0 (fees.t 0 p7H_MM) PathLink.master_source) :: restM) ∧
      ∀ kv ∈ restM, kv.1 = 0 ∧ kv.2.best_ancestor ≠ none ∧ fees.t 0 p7H_MM ≤ kv.2.score := by
  have hD : (DeletionStateSet.merge (DeletionStateSet.increment [] (fees.t (1 - 1) p7H_DD))
      (StateSet.states (set ([] : StateSet Nat S) one_edge_graph.empty PathLink.master_source))
      (fees.t (1 - 1) p7H_MD)).1
      = [(0, { plink := PathLink.master_source, score := fees.t 0 p7H_MD })] := by
    simp [DeletionStateSet.increment, DeletionStateSet.merge, StateSet.states,
      StateSet.kv2state, set, count, find, DeletionStateSet.update, insert,
      one_edge_graph, PathLink.score, hS.zero_add]
  have hP0 : (DeletionStateSet.merge (DeletionStateSet.increment [] (fees.t (1 - 1) p7H_DM))
      (StateSet.states (set ([] : StateSet Nat S) one_edge_graph.empty PathLink.master_source))
      (fees.t (1 - 1) p7H_MM)).1
      = [(0, { plink := PathLink.master_source, score := fees.t 0 p7H_MM })] := by
    simp [DeletionStateSet.increment, DeletionStateSet.merge, StateSet.states,
      StateSet.kv2state, set, count, find, DeletionStateSet.update, insert,
      one_edge_graph, PathLink.score, hS.zero_add]
  obtain ⟨rest', hP1, hrest'⟩ := DeletionStateSet.merge_head
    ((0, { plink := PathLink.master_source, score := fees.t 0 p7H_MM }) :
      Nat × ScoredPLink Nat S) (fees.t 0 p7H_IM) (StateSet.states I0) []
    (by
      intro st hst
      simp only [StateSet.states, List.mem_map] at hst
      obtain ⟨kv, hkv, rfl⟩ := hst
      simp only [StateSet.kv2state]
      exact le_trans hins0 (hS.add_le_add_right _ _ _ (hI kv hkv)))
    (fun kv hkv => absurd hkv (List.not_mem_nil kv))
  have hupd : ∀ u ∈ transfer_updates one_edge_graph fees.code [1] (0 : S) (fees.mat 1)
      (DeletionStateSet.states rest'),
      u.1 = 0 ∧ fees.t 0 p7H_MM ≤ u.2.1 := by
    intro u hu
    obtain ⟨st, hst, hsucc, hu2⟩ := (mem_transfer_updates one_edge_graph fees.code [1] 0
      (fees.mat 1) (DeletionStateSet.states rest') u).mp hu
    simp only [DeletionStateSet.states, List.mem_map] at hst
    obtain ⟨kv, hkv, rfl⟩ := hst
    obtain ⟨hne, hle, _⟩ := hrest' kv hkv
    simp only [DeletionStateSet.kv2state] at hsucc hu2
    refine ⟨one_edge_successors [1] kv.1 u.1 hne hsucc, ?_⟩
    rw [hu2]
    simp only
    exact le_trans hle (le_trans (RoundedAdd.le_add_right hS _ _ (le_refl 0))
      (RoundedAdd.le_add_right hS _ _ (hmatn 1 _)))
  refine ⟨apply_updates [] (transfer_updates one_edge_graph fees.code [1] (0 : S) (fees.mat 1)
      (DeletionStateSet.states rest')), ?_, ?_⟩
  · unfold dm_new
    simp only
    rw [hD, hP0]
    have h10 : (1 : Nat) - 1 = 0 := rfl
    rw [h10, hP1, transfer_eq]
    congr 1
    have hsplit : transfer_updates one_edge_graph fees.code [1] (0 : S) (fees.mat 1)
        (DeletionStateSet.states
          ((0, { plink := PathLink.master_source, score := fees.t 0 p7H_MM }) :: rest'))
        = [(1, fees.t 0 p7H_MM, 0, PathLink.master_source)]
          ++ transfer_updates one_edge_graph fees.code [1] (0 : S) (fees.mat 1)
              (DeletionStateSet.states rest') := by
      simp only [DeletionStateSet.states, List.map_cons, transfer_updates,
        DeletionStateSet.kv2state, successors, one_edge_graph, decide_True, if_true,
        List.map_nil, hmat, hS.add_zero]
    rw [hsplit]
    unfold apply_updates
    rw [List.foldl_append]
    have hfirst : ([(1, fees.t 0 p7H_MM, 0, PathLink.master_source)] :
          List (Nat × S × Nat × PathLink Nat S)).foldl
        (fun M u => (StateSet.update M u.1 u.2.1 u.2.2.1 u.2.2.2).1) []
        = [(1, PathLink.link 0 (fees.t 0 p7H_MM) PathLink.master_source)] := by
      simp [StateSet.update, insert, count, find, assign, PathLink.update]
    rw [hfirst]
    exact apply_updates_cons_ne _ _ (fun u hu => by
      rw [(hupd u hu).1]
      exact Nat.one_ne_zero) []
  · intro kv hkv
    rcases apply_updates_mem _ [] kv hkv with h | ⟨u, hu, h⟩
    · exact absurd h (List.not_mem_nil kv)
    · rw [h]
      exact ⟨(hupd u hu).1, by simp [PathLink.best_ancestor], (hupd u hu).2⟩

/-- In a column `m ≤ 25` the `score_filter` calls cap nothing. -/
theorem column_step_with_no_cap {GraphCursor : Type} [DecidableEq GraphCursor]
    (filter : Nat → GraphCursor → Bool) (g : Cursor GraphCursor) (fees : Fees S) (thr : S)
    (fuel : Nat) (initial : List GraphCursor) (m : Nat) (fr : Frontiers GraphCursor S)
    (hm : m ≤ 25) :
    column_step_with filter g fees thr fuel initial m fr =
      (i_loop_processing g fees thr fuel
          (transfer g fees.code initial [] (StateSet.states (dm_new g fees initial fr.D fr.M fr.I m).2)
            (fees.t m p7H_MI) (fees.ins m)) m (filter (fees.M - m))).map
        (fun I =>
          { I := (filter_key (filter (fees.M - m))
              (I.filter (fun kv => decide (StateSet.score_fnc kv ≤ thr)))).1,
            M := (filter_key (filter (fees.M - m))
              ((dm_new g fees initial fr.D fr.M fr.I m).2.filter
                (fun kv => decide (StateSet.score_fnc kv ≤ thr)))).1,
            D := (filter_key (filter (fees.M - m))
              ((dm_new g fees initial fr.D fr.M fr.I m).1.filter
                (fun kv => decide (DeletionStateSet.score_fnc kv ≤ thr)))).1 }) := by
  unfold column_step_with
  simp only
  have h25 : ¬ m > 25 := by omega
  have h100 : ¬ m > 100 := by omega
  have h500 : ¬ m > 500 := by omega
  simp only [h25, h100, h500, if_false]
  rcases i_loop_processing g fees thr fuel
      (transfer g fees.code initial [] (StateSet.states (dm_new g fees initial fr.D fr.M fr.I m).2)
        (fees.t m p7H_MI) (fees.ins m)) m (filter (fees.M - m)) with _ | I
  · rfl
  · simp only [Option.map]
    rw [score_filter_no_cap StateSet.score_fnc _ thr I (by omega),
      score_filter_no_cap StateSet.score_fnc _ thr _ (by omega),
      score_filter_no_cap DeletionStateSet.score_fnc _ thr _ (by omega)]

theorem filter_key_none {K V : Type} (p : K → Bool) (hp : ∀ k, p k = false)
    (m : List (K × V)) : (filter_key p m).1 = m := by
  rw [filter_key_eq]
  simp only
  rw [List.filter_eq_self]
  intro kv _
  rw [hp kv.1]
  rfl

/-- Column 1 of the run: the Match frontier begins with the cursor `1`, reached from the
start at `t[0][MM]`, and continues with scores of at least `t[0][MM]`; the Delete
frontier holds scores `t[0][MD]`, and the Insert frontier scores of at least
`t[0][MM] + t[1][MI]`. -/
theorem single_column_step (hS : RoundedAdd S) (fees : Fees S) (thr : S) (fuel : Nat)
    (filter : Nat → Nat → Bool) (I0 : StateSet Nat S)
    (hI : ∀ kv ∈ I0, fees.t 0 p7H_MI ≤ kv.2.score)
    (hM : fees.M = 1)
    (hins0 : fees.t 0 p7H_MM ≤ fees.t 0 p7H_MI + fees.t 0 p7H_IM)
    (hmat : fees.mat 1 (fees.code 'x') = 0)
    (ht : ∀ m k, 0 ≤ fees.t m k) (hins : ∀ m k, 0 ≤ fees.ins m k)
    (hmatn : ∀ m k, 0 ≤ fees.mat m k)
    (ha : fees.t 0 p7H_MM ≤ thr) (hfilter : ∀ c, filter 0 c = false) (hfuel : 6 ≤ fuel) :
    ∃ fr restM, column_step_with filter one_edge_graph fees thr fuel [1] 1
        { I := I0, M := set [] one_edge_graph.empty PathLink.master_source, D := [] }
        = some fr ∧
      fr.M = (1, PathLink.link 0 (fees.t 0 p7H_MM) PathLink.master_source) :: restM ∧
      (∀ kv ∈ restM, fees.t 0 p7H_MM ≤ kv.2.score) ∧
      (∀ kv ∈ fr.D, kv.2.score = fees.t 0 p7H_MD) ∧
      (∀ kv ∈ fr.I, fees.t 0 p7H_MM + fees.t 1 p7H_MI ≤ kv.2.score) := by
  obtain ⟨restM, hdm, hrestM⟩ := first_column_dm hS fees I0 hI hins0 hmat hmatn
  have hM1 : ∀ kv ∈ ((1, PathLink.link 0 (fees.t 0 p7H_MM) PathLink.master_source) :: restM :
      StateSet Nat S), (kv.1 = 0 ∨ kv.1 = 1) ∧ fees.t 0 p7H_MM ≤ kv.2.score := by
    intro kv hkv
    rcases List.mem_cons.mp hkv with h | h
    · rw [h]
      exact ⟨Or.inr rfl, le_refl _⟩
    · exact ⟨Or.inl (hrestM kv h).1, (hrestM kv h).2.2⟩
  have hI1 : ∀ kv ∈ transfer one_edge_graph fees.code [1] ([] : StateSet Nat S)
      (StateSet.states ((1, PathLink.link 0 (fees.t 0 p7H_MM) PathLink.master_source) :: restM))
      (fees.t 1 p7H_MI) (fees.ins 1),
      kv.1 ∈ [0, 1] ∧ kv.2.best_ancestor ≠ none ∧
        fees.t 0 p7H_MM + fees.t 1 p7H_MI ≤ kv.2.score := by
    intro kv hkv
    rcases transfer_mem _ _ _ _ _ _ _ kv hkv with h | ⟨st, hst, hsucc, hnode⟩
    · exact absurd h (List.not_mem_nil kv)
    · simp only [StateSet.states, List.mem_map] at hst
      obtain ⟨kv', hkv', rfl⟩ := hst
      obtain ⟨hkey, hscore⟩ := hM1 kv' hkv'
      simp only [StateSet.kv2state] at hsucc hnode
      refine ⟨?_, ?_, ?_⟩
      · rcases hkey with h0 | h1
        · rw [h0] at hsucc
          simp [successors, one_edge_graph] at hsucc
          rw [hsucc]; decide
        · rw [h1] at hsucc
          simp [successors, one_edge_graph] at hsucc
          rw [hsucc]; decide
      · rw [hnode]
        simp [PathLink.best_ancestor]
      · rw [hnode]
        simp only [PathLink.score]
        exact le_trans (hS.add_le_add_right _ _ _ hscore)
          (RoundedAdd.le_add_right hS _ _ (hins 1 _))
  have hwf : wf (transfer one_edge_graph fees.code [1] ([] : StateSet Nat S)
      (StateSet.states ((1, PathLink.link 0 (fees.t 0 p7H_MM) PathLink.master_source) :: restM))
      (fees.t 1 p7H_MI) (fees.ins 1)) := by
    rw [transfer_eq]
    exact apply_updates_wf _ [] (by simp [wf, keys])
  have hlen : (transfer one_edge_graph fees.code [1] ([] : StateSet Nat S)
      (StateSet.states ((1, PathLink.link 0 (fees.t 0 p7H_MM) PathLink.master_source) :: restM))
      (fees.t 1 p7H_MI) (fees.ins 1)).length ≤ 2 := by
    have hsub : keys (transfer one_edge_graph fees.code [1] ([] : StateSet Nat S)
        (StateSet.states ((1, PathLink.link 0 (fees.t 0 p7H_MM) PathLink.master_source) :: restM))
        (fees.t 1 p7H_MI) (fees.ins 1)) ⊆ [0, 1] := by
      intro c hc
      simp only [keys, List.mem_map] at hc
      obtain ⟨kv, hkv, rfl⟩ := hc
      exact (hI1 kv hkv).1
    have := (List.Nodup.subperm hwf hsub).length_le
    simpa [keys] using this
  have hfuel2 : ∀ I : StateSet Nat S, I.length ≤ 2 →
      i_loop_fuel one_edge_graph [0, 1] I ≤ fuel := by
    intro I hI
    simp only [i_loop_fuel, one_edge_graph, List.map_cons, List.map_nil,
      List.sum_cons, List.sum_nil]
    simp
    omega
  obtain ⟨I1, hloop, hI1low⟩ := i_loop_processing_lower one_edge_graph fees 1 thr
    (filter (fees.M - 1)) hS
    (step_score_le_of_nonneg one_edge_graph fees 1 hS (ht 1 p7H_II) (hins 1))
    (fees.t 0 p7H_MM + fees.t 1 p7H_MI) _ [0, 1] (by decide)
    (by
      intro c hc
      simp only [keys, List.mem_map] at hc
      obtain ⟨kv, hkv, rfl⟩ := hc
      exact (hI1 kv hkv).1)
    (fun kv hkv => (hI1 kv hkv).2.1) (fun kv hkv => (hI1 kv hkv).2.2) (by decide) fuel
    (hfuel2 _ hlen)
  have hf0 : ∀ c, filter (fees.M - 1) c = false := by
    intro c
    rw [hM]
    exact hfilter c
  rw [column_step_with_no_cap filter one_edge_graph fees thr fuel [1] 1 _ (by omega)]
  simp only
  rw [hdm]
  simp only
  rw [hloop]
  simp only [Option.map]
  refine ⟨_, restM.filter (fun kv => decide (StateSet.score_fnc kv ≤ thr)), rfl, ?_, ?_, ?_, ?_⟩
  · simp only
    rw [filter_key_none _ hf0]
    simp [List.filter_cons, StateSet.score_fnc, PathLink.score, ha]
  · intro kv hkv
    exact (hrestM kv (List.mem_filter.mp hkv).1).2.2
  · intro kv hkv
    simp only at hkv
    rw [filter_key_none _ hf0] at hkv
    have := (List.mem_filter.mp hkv).1
    simp only [List.mem_singleton] at this
    rw [this]
  · intro kv hkv
    simp only at hkv
    rw [filter_key_none _ hf0] at hkv
    exact hI1low kv (List.mem_filter.mp hkv).1

theorem PathLink.update_lt {GraphCursor : Type} (node : PathLink GraphCursor S)
    (gp : GraphCursor) (s : S) (pl : PathLink GraphCursor S) (h : s < node.score) :
    (node.update gp s pl).1 = PathLink.link gp s pl := by
  cases node with
  | create => rfl
  | master_source =>
    simp only [PathLink.score] at h
    simp [PathLink.update, h]
  | link g s0 p =>
    simp only [PathLink.score] at h
    simp [PathLink.update, h]

/-- Scores that are all above a bound leave the terminal node above the bound. -/
theorem upd_terminal_above {GraphCursor : Type} [DecidableEq GraphCursor] (c fee : S)
    (Ss : List (State GraphCursor S)) (terminal : PathLink GraphCursor S)
    (hT : c < terminal.score) (hall : ∀ st ∈ Ss, c < st.score + fee) :
    c < (upd_terminal terminal Ss fee).score := by
  obtain ⟨_, _, h3⟩ := upd_terminal_score Ss fee terminal
  rcases h3 with h3 | ⟨st, hst, h3⟩
  · rw [h3]; exact hT
  · rw [h3]; exact hall st hst

/-- Scores that do not improve on the terminal node leave it as it is. -/
theorem upd_terminal_keep {GraphCursor : Type} [DecidableEq GraphCursor] (fee : S)
    (terminal : PathLink GraphCursor S) (hT : terminal ≠ PathLink.create) :
    ∀ Ss : List (State GraphCursor S), (∀ st ∈ Ss, ¬ st.score + fee < terminal.score) →
      upd_terminal terminal Ss fee = terminal := by
  intro Ss
  induction Ss with
  | nil => intro _; rfl
  | cons st rest ih =>
    intro hall
    have hstep : upd_terminal terminal (st :: rest) fee
        = upd_terminal (terminal.update st.cursor (st.score + fee) st.plink).1 rest fee := rfl
    rw [hstep, PathLink.pl_update_flag terminal _ _ _ (hall st (List.mem_cons_self _ _)) hT]
    exact ih (fun st' h => hall st' (List.mem_cons_of_mem _ h))

/-- Claim C22 (amended).  Let the scores have the laws of `RoundedAdd`, which hold for
`double` and for exact arithmetic.  For a profile of length 1 whose match column emits
`x` at cost 0, on the graph whose only edge leads from the cursor `1` (letter `x`) to
the empty sentinel and with `1` as the only seed, let no fee be negative, let the
alignment through the match state cost less than the one through the Delete state
(`t[0][MM] + t[1][MM] < t[0][MD] + t[1][DM]`) and less than the one that adds an
insertion in column 1 (`t[0][MM] + t[1][MM] < t[0][MM] + t[1][MI] + t[1][DM]`, the
Insert states being closed at the fee `t[1][DM]`), let an insertion in column 0 not be
cheaper than the match (`t[0][MM] ≤ t[0][MI] + t[0][IM]`), and let `t[0][MM]` be within
the threshold.  Then, whichever solver the insertion loops run and whatever the depth
estimator answers to queries with a positive bound, `find_best_path` returns with six
units of fuel the terminal node of best score `t[0][MM] + t[1][MM]` whose best
predecessor is the cursor `1`, reached from the start at the score `t[0][MM]`. -/
theorem single_match_alignment (hS : RoundedAdd S) (fees : Fees S) (thr : S) (fuel : Nat)
    (depth_at_least : Nat → Rat → Bool)
    (hM : fees.M = 1) (hmat : fees.mat 1 (fees.code 'x') = 0)
    (ht : ∀ m k, 0 ≤ fees.t m k) (hins : ∀ m k, 0 ≤ fees.ins m k)
    (hmatn : ∀ m k, 0 ≤ fees.mat m k)
    (hdel : fees.t 0 p7H_MM + fees.t 1 p7H_MM < fees.t 0 p7H_MD + fees.t 1 p7H_DM)
    (hins1 : fees.t 0 p7H_MM + fees.t 1 p7H_MM
      < fees.t 0 p7H_MM + fees.t 1 p7H_MI + fees.t 1 p7H_DM)
    (hins0 : fees.t 0 p7H_MM ≤ fees.t 0 p7H_MI + fees.t 0 p7H_IM)
    (ha : fees.t 0 p7H_MM ≤ thr)
    (hdepth : ∀ c d, d ≤ 0 → depth_at_least c d = true) (hfuel : 6 ≤ fuel) :
    find_best_path one_edge_graph fees thr fuel depth_at_least [1]
      = some (PathLink.link 1 (fees.t 0 p7H_MM + fees.t 1 p7H_MM)
          (PathLink.link 0 (fees.t 0 p7H_MM) PathLink.master_source)) := by
  have hinit : ([1] : List Nat).filter
      (fun cursor => depth_at_least cursor ((fees.M : Rat) / 3 - 10)) = [1] := by
    have hle : ((fees.M : Nat) : Rat) / 3 - 10 ≤ 0 := by
      rw [hM]; norm_num
    simp [hdepth 1 _ hle]
  have hfilter : ∀ c, depth_filter_cursor_with depth_at_least 0 c = false := by
    intro c
    unfold depth_filter_cursor_with
    rw [hdepth c _ (by norm_num)]
    rfl
  obtain ⟨I0, hloop0, hI0⟩ := first_insert_loop hS fees thr fuel
    (depth_filter_cursor_with depth_at_least fees.M) ht hins hfuel
  obtain ⟨fr, restM, hcol, hfrM, hrest, hfrD, hfrI⟩ := single_column_step hS fees thr fuel
    (depth_filter_cursor_with depth_at_least) I0 hI0 hM hins0 hmat ht hins hmatn ha hfilter hfuel
  have hcols : find_best_path_columns one_edge_graph fees thr fuel depth_at_least [1]
      = some fr := by
    unfold find_best_path_columns
    simp only
    rw [hinit, first_insert_frontier, hloop0]
    simp only
    rw [hM]
    simp only [main_loop]
    rw [hcol]
  have hc_top : fees.t 0 p7H_MM + fees.t 1 p7H_MM < ⊤ := lt_of_lt_of_le hdel le_top
  have hT1 := upd_terminal_above (fees.t 0 p7H_MM + fees.t 1 p7H_MM) (fees.t 1 p7H_DM)
    (DeletionStateSet.states fr.D)
    ((PathLink.create : PathLink Nat S).update one_edge_graph.empty ⊤ PathLink.master_source).1
    hc_top
    (by
      intro st hst
      simp only [DeletionStateSet.states, List.mem_map] at hst
      obtain ⟨kv, hkv, rfl⟩ := hst
      simp only [DeletionStateSet.kv2state]
      rw [hfrD kv hkv]
      exact hdel)
  have hT2 := upd_terminal_above (fees.t 0 p7H_MM + fees.t 1 p7H_MM) (fees.t 1 p7H_DM)
    (StateSet.states fr.I) _ hT1
    (by
      intro st hst
      simp only [StateSet.states, List.mem_map] at hst
      obtain ⟨kv, hkv, rfl⟩ := hst
      simp only [StateSet.kv2state]
      exact lt_of_lt_of_le hins1 (hS.add_le_add_right _ _ _ (hfrI kv hkv)))
  unfold find_best_path
  rw [hcols]
  simp only
  congr 1
  unfold terminal_merge
  simp only
  rw [hM, hfrM]
  have hstates : StateSet.states
      ((1, PathLink.link 0 (fees.t 0 p7H_MM) PathLink.master_source) :: restM : StateSet Nat S)
      = { cursor := 1, plink := PathLink.link 0 (fees.t 0 p7H_MM) PathLink.master_source,
          score := fees.t 0 p7H_MM } :: StateSet.states restM := rfl
  rw [hstates]
  have hstep : ∀ T : PathLink Nat S,
      upd_terminal T
        ({ cursor := 1, plink := PathLink.link 0 (fees.t 0 p7H_MM) PathLink.master_source,
           score := fees.t 0 p7H_MM } :: StateSet.states restM) (fees.t 1 p7H_MM)
      = upd_terminal (T.update 1 (fees.t 0 p7H_MM + fees.t 1 p7H_MM)
          (PathLink.link 0 (fees.t 0 p7H_MM) PathLink.master_source)).1
          (StateSet.states restM) (fees.t 1 p7H_MM) := fun _ => rfl
  rw [hstep, PathLink.update_lt _ _ _ _ hT2]
  apply upd_terminal_keep
  · simp
  · intro st hst
    simp only [StateSet.states, List.mem_map] at hst
    obtain ⟨kv, hkv, rfl⟩ := hst
    simp only [StateSet.kv2state, PathLink.score]
    exact not_lt.mpr (hS.add_le_add_right _ _ _ (hrest kv hkv))

end SingleMatchRun

/-- Witness for claim C22: the fee table `plain_fees` in the model of `double`, with
finite fees for the insertions: `t[0][MM] + t[1][MM] = 10`, `t[0][MD] + t[1][DM] = 200`,
`t[0][MM] + t[1][MI] + t[1][DM] = 110` and `t[0][MI] + t[0][IM] = 10`. -/
theorem single_match_alignment_witness :
    (RoundedAdd Double ∧ plain_fees.M = 1 ∧ plain_fees.mat 1 (plain_fees.code 'x') = 0 ∧
      (∀ m k, 0 ≤ plain_fees.t m k) ∧ (∀ m k, 0 ≤ plain_fees.ins m k) ∧
      (∀ m k, 0 ≤ plain_fees.mat m k) ∧
      plain_fees.t 0 p7H_MM + plain_fees.t 1 p7H_MM
        < plain_fees.t 0 p7H_MD + plain_fees.t 1 p7H_DM ∧
      plain_fees.t 0 p7H_MM + plain_fees.t 1 p7H_MM
        < plain_fees.t 0 p7H_MM + plain_fees.t 1 p7H_MI + plain_fees.t 1 p7H_DM ∧
      plain_fees.t 0 p7H_MM ≤ plain_fees.t 0 p7H_MI + plain_fees.t 0 p7H_IM ∧
      plain_fees.t 0 p7H_MM ≤ Double.of_int 250 ∧
      (∀ c d, d ≤ 0 → fresh_answers one_edge_graph c d = true) ∧ 6 ≤ 6) ∧
    find_best_path one_edge_graph plain_fees (Double.of_int 250) 6
        (fresh_answers one_edge_graph) [1]
      = some (PathLink.link 1 (plain_fees.t 0 p7H_MM + plain_fees.t 1 p7H_MM)
          (PathLink.link 0 (plain_fees.t 0 p7H_MM) PathLink.master_source)) :=
  ⟨⟨Double.rounded_add, by decide, by decide!,
      fun _ k => by
        show (0 : Double) ≤ if k = p7H_MD ∨ k = p7H_DM then Double.of_int 100 else Double.of_int 5
        split
        · decide!
        · decide!,
      fun _ _ => (by decide! : (0 : Double) ≤ Double.half),
      fun _ _ => (by decide! : (0 : Double) ≤ 0),
      by decide!, by decide!, by decide!, by decide!,
      fresh_answers_small one_edge_graph, by decide⟩,
    single_match_alignment Double.rounded_add plain_fees (Double.of_int 250) 6
      (fresh_answers one_edge_graph) (by decide) (by decide!)
      (fun _ k => by
        show (0 : Double) ≤ if k = p7H_MD ∨ k = p7H_DM then Double.of_int 100 else Double.of_int 5
        split
        · decide!
        · decide!)
      (fun _ _ => (by decide! : (0 : Double) ≤ Double.half))
      (fun _ _ => (by decide! : (0 : Double) ≤ 0))
      (by decide!) (by decide!) (by decide!) (by decide!)
      (fresh_answers_small one_edge_graph) (by decide)⟩

/-- The run of the witness, evaluated: the terminal node has the best score 10 and the
best predecessor 1, which was reached from the start at the score 5. -/
theorem single_match_alignment_example :
    find_best_path one_edge_graph plain_fees (Double.of_int 250) 6
        (fresh_answers one_edge_graph) [1]
      = some (PathLink.link 1 (Double.of_int 10)
          (PathLink.link 0 (Double.of_int 5) PathLink.master_source)) := by
  decide!

/-- Counterexample to claim C22 as stated: with the fee table `cheap_delete_fees`, whose
match column emits at cost 0, the alignment through the Delete state costs
`t[0][MD] + t[1][DM] = 2`, less than `t[0][MM] + t[1][MM] = 10`; `find_best_path`
returns the terminal node of best score 2, whose best predecessor is the empty cursor
of the start and not the cursor `1`. -/
theorem single_match_alignment_counterexample :
    cheap_delete_fees.M = 1 ∧ cheap_delete_fees.mat 1 (cheap_delete_fees.code 'x') = 0 ∧
    find_best_path one_edge_graph cheap_delete_fees 250 10 (fresh_answers one_edge_graph) [1]
      = some (PathLink.link 0 2 PathLink.master_source) ∧
    (PathLink.link 0 2 PathLink.master_source : PathLink Nat (WithTop Int)).score
      ≠ cheap_delete_fees.t 0 p7H_MM + cheap_delete_fees.t 1 p7H_MM := by
  decide!

end impl

namespace impl

set_option linter.unusedSectionVars false
set_option linter.unusedVariables false

/-! ## The score filter applied twice, and with `n = 0` -/

section ScoreFilterTwice

variable {K V S : Type} [LinearOrder S]

/-- On a non-empty frontier and for `n ≥ 1`, the cutoff score `s` of `score_filter` has
rank `k = min n size`: fewer than `k` entries score below `s` and at least `k` score at
most `s`; the entries kept are those scoring at most `min threshold s`, and the
returned number counts the others. -/
theorem score_filter_rank (score_fnc : K × V → S) (n : Nat) (threshold : S)
    (m : List (K × V)) (hm : m ≠ []) (hn : 1 ≤ n) :
    ∃ s, m.countP (fun kv => decide (score_fnc kv < s)) < min n m.length ∧
      min n m.length ≤ m.countP (fun kv => decide (score_fnc kv ≤ s)) ∧
      (score_filter score_fnc n threshold m).1
        = m.filter (fun kv => decide (score_fnc kv ≤ min threshold s)) ∧
      (score_filter score_fnc n threshold m).2
        = m.countP (fun kv => decide (min threshold s < score_fnc kv)) := by
  have hlen : 0 < m.length := List.length_pos.mpr hm
  have hk : min n m.length ≠ 0 := by omega
  have hperm : ((scores score_fnc m).insertionSort (· ≤ ·)).Perm (scores score_fnc m) :=
    List.perm_insertionSort _ _
  have hsorted : ((scores score_fnc m).insertionSort (· ≤ ·)).Sorted (· ≤ ·) :=
    List.sorted_insertionSort _ _
  have hlt : min n m.length - 1 < ((scores score_fnc m).insertionSort (· ≤ ·)).length := by
    rw [hperm.length_eq]; simp [scores]; omega
  obtain ⟨s, hs⟩ : ∃ s, ((scores score_fnc m).insertionSort (· ≤ ·)).get? (min n m.length - 1)
      = some s := ⟨_, List.get?_eq_get hlt⟩
  refine ⟨s, ?_, ?_, ?_, ?_⟩
  · have h1 := countP_lt_sorted _ hsorted _ _ hs
    rw [hperm.countP_eq] at h1
    simp only [scores, List.countP_map] at h1
    have : m.countP (fun kv => decide (score_fnc kv < s))
        = m.countP ((fun y => decide (y < s)) ∘ score_fnc) := rfl
    omega
  · have h1 := countP_le_sorted _ hsorted _ _ hs
    rw [hperm.countP_eq] at h1
    simp only [scores, List.countP_map] at h1
    have : m.countP (fun kv => decide (score_fnc kv ≤ s))
        = m.countP ((fun y => decide (y ≤ s)) ∘ score_fnc) := rfl
    omega
  · simp only [score_filter, nth_element, hk, if_false, hs, filter_key_value_eq]
    congr 1
    funext kv
    by_cases h : score_fnc kv ≤ min threshold s
    · simp [h, not_lt.mpr h]
    · simp [h, not_le.mp h]
  · simp only [score_filter, nth_element, hk, if_false, hs, filter_key_value_eq]

/-- Claim C33.  Applying `score_filter(n, threshold)` to the frontier that
`score_filter(n, threshold)` has left removes nothing and returns 0, for every frontier,
`n` and threshold. -/
theorem score_filter_idempotent (score_fnc : K × V → S) (n : Nat) (threshold : S)
    (m : List (K × V)) :
    score_filter score_fnc n threshold (score_filter score_fnc n threshold m).1
      = ((score_filter score_fnc n threshold m).1, 0) := by
  by_cases hz : min n m.length = 0
  · have h1 : (score_filter score_fnc n threshold m).1 = [] := by
      simp [score_filter, hz]
    rw [h1]
    simp [score_filter]
  · have hm : m ≠ [] := by
      intro h; subst h; simp at hz
    have hn : 1 ≤ n := by
      rcases Nat.eq_zero_or_pos n with h | h
      · subst h; simp at hz
      · exact h
    obtain ⟨s1, a1, a2, a3, _⟩ := score_filter_rank score_fnc n threshold m hm hn
    by_cases hm1 : (score_filter score_fnc n threshold m).1 = []
    · rw [hm1]
      simp [score_filter]
    · obtain ⟨s2, b1, b2, b3, b4⟩ := score_filter_rank score_fnc n threshold
        (score_filter score_fnc n threshold m).1 hm1 hn
      have hall : ∀ kv ∈ (score_filter score_fnc n threshold m).1,
          score_fnc kv ≤ min threshold s2 := by
        intro kv hkv
        have hkv1 : score_fnc kv ≤ min threshold s1 := by
          rw [a3, List.mem_filter] at hkv
          simpa using hkv.2
        refine le_min (le_trans hkv1 (min_le_left _ _)) ?_
        by_contra hcon
        have hlt : s2 < score_fnc kv := not_le.mp hcon
        have hs21 : s2 < s1 := lt_of_lt_of_le hlt (le_trans hkv1 (min_le_right _ _))
        have c1 : (score_filter score_fnc n threshold m).1.countP
              (fun kv => decide (score_fnc kv ≤ s2))
            ≤ (score_filter score_fnc n threshold m).1.countP
              (fun kv => decide (score_fnc kv < s1)) := by
          apply List.countP_mono_left
          intro x _ hx
          simp only [decide_eq_true_eq] at hx ⊢
          exact lt_of_le_of_lt hx hs21
        have c2 : (score_filter score_fnc n threshold m).1.countP
              (fun kv => decide (score_fnc kv < s1))
            ≤ m.countP (fun kv => decide (score_fnc kv < s1)) := by
          rw [a3]
          exact (List.filter_sublist m).countP_le _
        have hlen : (score_filter score_fnc n threshold m).1.length
            ≤ (score_filter score_fnc n threshold m).1.countP
              (fun kv => decide (score_fnc kv ≤ s2)) := by
          omega
        have heq : (score_filter score_fnc n threshold m).1.countP
              (fun kv => decide (score_fnc kv ≤ s2))
            = (score_filter score_fnc n threshold m).1.length :=
          le_antisymm (List.countP_le_length _) hlen
        have := (List.countP_eq_length
          (p := fun kv => decide (score_fnc kv ≤ s2))).mp heq kv hkv
        simp only [decide_eq_true_eq] at this
        exact hcon this
      apply Prod.ext
      · rw [b3]
        simp only
        rw [List.filter_eq_self]
        intro kv hkv
        simpa using hall kv hkv
      · rw [b4]
        simp only
        rw [List.countP_eq_zero]
        intro kv hkv
        simpa using hall kv hkv

/-- Claim C34.  For every frontier and every threshold, `score_filter(0, threshold)`
leaves the empty frontier and returns 0; when the frontier was not empty, the returned 0
is less than the number of entries removed, which is the size the frontier had. -/
theorem score_filter_zero (score_fnc : K × V → S) (threshold : S) (m : List (K × V)) :
    score_filter score_fnc 0 threshold m = ([], 0) ∧
    (m ≠ [] →
      (score_filter score_fnc 0 threshold m).2
        < m.length - (score_filter score_fnc 0 threshold m).1.length) := by
  have h : score_filter score_fnc 0 threshold m = ([], 0) := by
    simp [score_filter]
  refine ⟨h, ?_⟩
  intro hm
  rw [h]
  simpa using List.length_pos.mpr hm

end ScoreFilterTwice

/-- The two claims on an example: the scores 4, 1, 3, 1 of a frontier, `n = 2` and the
threshold 3. -/
theorem score_filter_twice_example :
    (score_filter (fun kv : Nat × Int => kv.2) 2 3 [(1, 4), (2, 1), (3, 3), (4, 1)])
      = ([(2, 1), (4, 1)], 2) ∧
    (score_filter (fun kv : Nat × Int => kv.2) 2 3 [(2, 1), (4, 1)]) = ([(2, 1), (4, 1)], 0) ∧
    (score_filter (fun kv : Nat × Int => kv.2) 0 3 [(1, 4), (2, 1), (3, 3), (4, 1)])
      = ([], 0) := by
  decide

end impl

namespace impl

set_option linter.unusedSectionVars false
set_option linter.unusedVariables false

/-! ## The assertions of `depth_at_least`, and the depth prune near the end of the profile -/

section Assertions

variable {GraphCursor : Type} [DecidableEq GraphCursor]

/-- For `1 ≤ depth ≤ 25000` the body of `depth_at_least` fails no assertion, whatever
the cache holds, as long as the call of itself fails none. -/
theorem DepthAtLeast.body_no_assertion (g : Cursor GraphCursor)
    (again : DepthAtLeast GraphCursor → Except Abort (Bool × DepthAtLeast GraphCursor))
    (hagain : ∀ s, again s ≠ Except.error Abort.assertion)
    (self : DepthAtLeast GraphCursor) (cursor : GraphCursor) (depth : Nat)
    (h1 : 1 ≤ depth) (h2 : depth ≤ 25000) :
    DepthAtLeast.depth_at_least_body g again self cursor depth
      ≠ Except.error Abort.assertion := by
  have hd : ¬ depth = 0 := by omega
  obtain ⟨b1, b2⟩ := stack_limit_bounds depth h1 h2
  obtain ⟨_, s1, s4, _⟩ := DepthAtLeast.get_depth_frame g (fun _ => True)
    (CacheWrites.writes_trivial g) (max ((2 * depth) % 2 ^ 64) 10) cursor [] self True.intro
  have hcount : count (DepthAtLeast.get_depth_ g (max ((2 * depth) % 2 ^ 64) 10) cursor []
      self).2.2.depth_ cursor = true := by
    unfold count; rw [s4]; rfl
  unfold DepthAtLeast.depth_at_least_body
  simp only [hd, if_false]
  rcases hca : DepthAtLeast.cached_answer self cursor depth with _ | a
  · simp only [b1, b2, s1, hcount, not_true_eq_false, if_false]
    exact hagain _
  · simp

/-- For `1 ≤ depth ≤ 25000` no call of `depth_at_least` fails an assertion. -/
theorem DepthAtLeast.depth_at_least_no_assertion (g : Cursor GraphCursor)
    (cursor : GraphCursor) (depth : Nat) (h1 : 1 ≤ depth) (h2 : depth ≤ 25000) :
    ∀ (fuel : Nat) (self : DepthAtLeast GraphCursor),
      DepthAtLeast.depth_at_least g fuel self cursor depth ≠ Except.error Abort.assertion := by
  intro fuel
  induction fuel with
  | zero =>
    intro self
    exact DepthAtLeast.body_no_assertion g _ (fun _ => by simp) self cursor depth h1 h2
  | succ fuel ih =>
    intro self
    exact DepthAtLeast.body_no_assertion g _ (fun s => ih s) self cursor depth h1 h2

/-- Claim C36.  For every graph, cursor, cache state and `1 ≤ d ≤ 25000`, the four
assertions of `depth_at_least` hold: the stack limit `max(2 d, 10)` is at least `d` and
at most `STACK_LIMIT`, `get_depth_` leaves the in-progress set empty and a cache entry
for the queried cursor; no call fails an assertion, whatever the fuel, and with one unit
of fuel the call returns. -/
theorem depth_at_least_assertions (g : Cursor GraphCursor) (self : DepthAtLeast GraphCursor)
    (cursor : GraphCursor) (d : Nat) (h1 : 1 ≤ d) (h2 : d ≤ 25000) :
    max ((2 * d) % 2 ^ 64) 10 ≥ d ∧
    max ((2 * d) % 2 ^ 64) 10 ≤ STACK_LIMIT ∧
    (DepthAtLeast.get_depth_ g (max ((2 * d) % 2 ^ 64) 10) cursor [] self).2.1 = [] ∧
    count (DepthAtLeast.get_depth_ g (max ((2 * d) % 2 ^ 64) 10) cursor [] self).2.2.depth_
      cursor = true ∧
    (∀ fuel, DepthAtLeast.depth_at_least g fuel self cursor d
      ≠ Except.error Abort.assertion) ∧
    (∀ fuel, 1 ≤ fuel → ∃ r, DepthAtLeast.depth_at_least g fuel self cursor d = Except.ok r) := by
  obtain ⟨b1, b2⟩ := stack_limit_bounds d h1 h2
  obtain ⟨_, s1, s4, _⟩ := DepthAtLeast.get_depth_frame g (fun _ => True)
    (CacheWrites.writes_trivial g) (max ((2 * d) % 2 ^ 64) 10) cursor [] self True.intro
  refine ⟨b1, b2, s1, ?_, ?_, ?_⟩
  · unfold count; rw [s4]; rfl
  · intro fuel
    exact DepthAtLeast.depth_at_least_no_assertion g cursor d h1 h2 fuel self
  · intro fuel hfuel
    obtain ⟨f, rfl⟩ : ∃ f, fuel = f + 1 := ⟨fuel - 1, by omega⟩
    rcases hca : DepthAtLeast.cached_answer self cursor d with _ | a
    · obtain ⟨answer, _, h⟩ := DepthAtLeast.depth_at_least_miss g f self cursor d h1 h2 hca
      exact ⟨_, h⟩
    · exact ⟨_, DepthAtLeast.depth_at_least_cached g (f + 1) self cursor d a (by omega) hca⟩

/-- Witness for claim C36: the query for `d = 25000` at cursor 1 of the example graph,
on a cache that holds an inexact estimation. -/
theorem depth_at_least_assertions_witness :
    (1 ≤ 25000 ∧ 25000 ≤ 25000) ∧
    (max ((2 * 25000) % 2 ^ 64) 10 ≥ 25000 ∧
    max ((2 * 25000) % 2 ^ 64) 10 ≤ STACK_LIMIT ∧
    (DepthAtLeast.get_depth_ example_graph (max ((2 * 25000) % 2 ^ 64) 10) 1 []
      example_cache).2.1 = [] ∧
    count (DepthAtLeast.get_depth_ example_graph (max ((2 * 25000) % 2 ^ 64) 10) 1 []
      example_cache).2.2.depth_ 1 = true ∧
    (∀ fuel, DepthAtLeast.depth_at_least example_graph fuel example_cache 1 25000
      ≠ Except.error Abort.assertion) ∧
    (∀ fuel, 1 ≤ fuel →
      ∃ r, DepthAtLeast.depth_at_least example_graph fuel example_cache 1 25000
        = Except.ok r)) :=
  ⟨⟨by decide, by decide⟩,
    depth_at_least_assertions example_graph example_cache 1 25000 (by decide) (by decide)⟩

end Assertions

section PruneInactive

variable {GraphCursor : Type} [DecidableEq GraphCursor]

/-- With at most 32 columns left the bound `n / 3 - 10` is below 1, and the `double`
overload answers true without a look at the graph or the cache. -/
theorem DepthAtLeast.depth_at_least_double_small (g : Cursor GraphCursor) (n : Nat)
    (hn : n ≤ 32) (fuel : Nat) (self : DepthAtLeast GraphCursor) (cursor : GraphCursor) :
    DepthAtLeast.depth_at_least_double g fuel self cursor ((n : Rat) / 3 - 10)
      = Except.ok (true, self) := by
  unfold DepthAtLeast.depth_at_least_double
  by_cases hx : (n : Rat) / 3 - 10 ≤ 0
  · simp only [hx, if_true]
  · simp only [hx, if_false]
    have hn' : (n : Rat) ≤ 32 := by exact_mod_cast hn
    have hfl : Int.floor ((n : Rat) / 3 - 10) = 0 := by
      rw [Int.floor_eq_iff]
      constructor
      · simp only [Int.cast_zero]
        exact le_of_lt (not_le.mp hx)
      · simp only [Int.cast_zero]
        linarith
    rw [hfl]
    exact DepthAtLeast.depth_zero_eq g fuel self cursor

/-- Claim C37.  With at most 32 profile columns left (`positions_left ≤ 32`) the depth
prune of `find_best_path` is inactive: the predicate `depth_filter_cursor` is false at
every cursor, `filter_key` with it removes nothing from a frontier and returns 0, the
query behind it answers true in every estimator state and leaves the state alone, and
the seed filter with `fees.M = positions_left` keeps the seed list as it is. -/
theorem depth_prune_inactive {V : Type} (g : Cursor GraphCursor) (positions_left : Nat)
    (h : positions_left ≤ 32) :
    (∀ c, depth_filter_cursor g positions_left c = false) ∧
    (∀ X : List (GraphCursor × V),
      filter_key (depth_filter_cursor g positions_left) X = (X, 0)) ∧
    (∀ (fuel : Nat) (self : DepthAtLeast GraphCursor) (c : GraphCursor),
      DepthAtLeast.depth_at_least_double g fuel self c ((positions_left : Rat) / 3 - 10)
        = Except.ok (true, self)) ∧
    (∀ initial_original : List GraphCursor,
      initial_original.filter
          (fun cursor => decide (depth_query g positions_left cursor = some true))
        = initial_original) := by
  have hq : ∀ c, depth_query g positions_left c = some true := by
    intro c
    unfold depth_query
    rw [DepthAtLeast.depth_at_least_double_small g positions_left h]
  have hf : ∀ c, depth_filter_cursor g positions_left c = false := by
    intro c
    unfold depth_filter_cursor
    rw [hq c]
    rfl
  refine ⟨hf, ?_, ?_, ?_⟩
  · intro X
    induction X with
    | nil => rfl
    | cons kv rest ih =>
      simp only [filter_key, hf kv.1, ih, Bool.false_eq_true, if_false]
  · intro fuel self c
    exact DepthAtLeast.depth_at_least_double_small g positions_left h fuel self c
  · intro initial_original
    rw [List.filter_eq_self]
    intro c _
    simp [hq c]

/-- Witness for claim C37: 32 columns left, on the example graph. -/
theorem depth_prune_inactive_witness :
    (32 ≤ 32) ∧
    ((∀ c, depth_filter_cursor example_graph 32 c = false) ∧
    (∀ X : List (Nat × PathLink Nat (WithTop Int)),
      filter_key (depth_filter_cursor example_graph 32) X = (X, 0)) ∧
    (∀ (fuel : Nat) (self : DepthAtLeast Nat) (c : Nat),
      DepthAtLeast.depth_at_least_double example_graph fuel self c (((32 : Nat) : Rat) / 3 - 10)
        = Except.ok (true, self)) ∧
    (∀ initial_original : List Nat,
      initial_original.filter
          (fun cursor => decide (depth_query example_graph 32 cursor = some true))
        = initial_original)) :=
  ⟨by decide, depth_prune_inactive example_graph 32 (by decide)⟩

/-- The bound 32 on an example: with 33 columns left the bound is 1, and the predicate
evicts cursor 4 of the example graph, which carries the stop letter. -/
theorem depth_prune_active_example :
    depth_filter_cursor example_graph 33 4 = true ∧
    depth_filter_cursor example_graph 32 4 = false := by
  decide!

end PruneInactive

end impl

namespace impl

set_option linter.unusedSectionVars false
set_option linter.unusedVariables false

/-! ## The insertion loop: the recorded predecessors -/

section LoopPredecessors

variable {GraphCursor S : Type} [DecidableEq GraphCursor] [LinearOrderedAddCommMonoidWithTop S]

/-- Calls of `StateSet::update` at other cursors leave the entry of a cursor alone. -/
theorem apply_updates_find_other
    (us : List (GraphCursor × S × GraphCursor × PathLink GraphCursor S)) (c : GraphCursor)
    (h : ∀ u ∈ us, u.1 ≠ c) :
    ∀ M : StateSet GraphCursor S, find (apply_updates M us) c = find M c := by
  induction us with
  | nil => intro M; rfl
  | cons u rest ih =>
    intro M
    have hstep : apply_updates M (u :: rest)
        = apply_updates (StateSet.update M u.1 u.2.1 u.2.2.1 u.2.2.2).1 rest := rfl
    rw [hstep, ih (fun x hx => h x (List.mem_cons_of_mem _ hx)), StateSet.st_find_update]
    simp [h u (List.mem_cons_self _ _)]

/-- In a sequence of `StateSet::update` calls at distinct cursors, the entry of the
cursor of a call is what that call alone leaves. -/
theorem apply_updates_find_nodup
    (us : List (GraphCursor × S × GraphCursor × PathLink GraphCursor S))
    (hnd : (us.map Prod.fst).Nodup) (u : GraphCursor × S × GraphCursor × PathLink GraphCursor S)
    (hu : u ∈ us) :
    ∀ M : StateSet GraphCursor S,
      find (apply_updates M us) u.1
        = find (StateSet.update M u.1 u.2.1 u.2.2.1 u.2.2.2).1 u.1 := by
  induction us with
  | nil => simp at hu
  | cons a rest ih =>
    intro M
    simp only [List.map_cons, List.nodup_cons] at hnd
    have hstep : apply_updates M (a :: rest)
        = apply_updates (StateSet.update M a.1 a.2.1 a.2.2.1 a.2.2.2).1 rest := rfl
    rw [hstep]
    rcases List.mem_cons.mp hu with rfl | hmem
    · apply apply_updates_find_other rest u.1
      intro x hx hxu
      apply hnd.1
      rw [← hxu]
      exact List.mem_map_of_mem Prod.fst hx
    · have hne : a.1 ≠ u.1 := by
        intro h
        apply hnd.1
        rw [h]
        exact List.mem_map_of_mem Prod.fst hmem
      rw [ih hnd.2 hmem, StateSet.st_find_update, StateSet.st_find_update,
        StateSet.st_find_update, if_pos rfl, if_pos rfl, if_neg hne]

variable (g : Cursor GraphCursor) (fees : Fees S) (m : Nat) (thr : S)
  (filter : GraphCursor → Bool)

/-- The logged `I.update` calls are at distinct cursors, none of which was processed
before. -/
theorem i_loop_committed_fresh :
    ∀ (fuel : Nat) (st : ILoopState GraphCursor S),
      ((i_loop_committed g fees.code (fees.t m p7H_II) (fees.ins m) thr filter fuel st).map
        QueueElement.current_cursor).Nodup ∧
      ∀ e ∈ i_loop_committed g fees.code (fees.t m p7H_II) (fees.ins m) thr filter fuel st,
        e.current_cursor ∉ st.processed := by
  intro fuel
  induction fuel with
  | zero => intro st; simp [i_loop_committed]
  | succ fuel ih =>
    intro st
    simp only [i_loop_committed]
    rcases hpop : pop_min st.q with _ | ⟨elt, q'⟩
    · simp
    · simp only
      by_cases hthr : elt.score > thr
      · simp [hthr]
      · simp only [hthr, if_false]
        by_cases hproc : st.processed.contains elt.current_cursor = true
        · simp only [hproc, if_true]
          exact ih _
        · have hcont := Bool.eq_false_iff.mpr hproc
          have hnot : elt.current_cursor ∉ st.processed := by
            intro hmem; apply hproc; simpa using hmem
          simp only [hcont, Bool.false_eq_true, if_false]
          rcases hf : find (StateSet.update st.I elt.current_cursor elt.score elt.source_cursor
              elt.source_state).1 elt.current_cursor with _ | id
          · simp only [List.map_cons, List.map_nil, List.nodup_cons, List.not_mem_nil,
              not_false_eq_true, List.nodup_nil, and_self, List.mem_singleton, true_and]
            intro e he
            rw [he]; exact hnot
          · simp only
            obtain ⟨i1, i2⟩ := ih
              { I := (StateSet.update st.I elt.current_cursor elt.score elt.source_cursor
                  elt.source_state).1,
                q := i_loop_push g fees.code (fees.t m p7H_II) (fees.ins m) filter
                  (elt.current_cursor :: st.processed) elt id (g.next elt.current_cursor) q',
                processed := elt.current_cursor :: st.processed,
                taken_values := st.taken_values + 1 }
            refine ⟨?_, ?_⟩
            · simp only [List.map_cons, List.nodup_cons]
              refine ⟨?_, i1⟩
              intro hmem
              simp only [List.mem_map] at hmem
              obtain ⟨e, he, hec⟩ := hmem
              have := i2 e he
              simp only [List.mem_cons, not_or] at this
              exact this.1 hec
            · intro e he
              simp only [List.mem_cons] at he
              rcases he with rfl | he
              · exact hnot
              · have := i2 e he
                simp only [List.mem_cons, not_or] at this
                exact this.2

/-- A run of the loop leaves the entry of a processed cursor alone. -/
theorem i_loop_while_keeps (fuel : Nat) (st st' : ILoopState GraphCursor S)
    (h : i_loop_while g fees.code (fees.t m p7H_II) (fees.ins m) thr filter fuel st = some st')
    (c : GraphCursor) (hc : c ∈ st.processed) : find st'.I c = find st.I c := by
  obtain ⟨l1, _⟩ := i_loop_while_log g fees m thr filter fuel st st' h
  rw [l1]
  apply apply_updates_find_other
  intro u hu huc
  simp only [List.mem_map] at hu
  obtain ⟨e, he, rfl⟩ := hu
  have hec : e.current_cursor = c := huc
  exact (i_loop_committed_fresh g fees m thr filter fuel st).2 e he (hec ▸ hc)

/-- Every logged `I.update` call is for an element of the starting queue, or for an
element whose source cursor is the cursor of an earlier logged call, another cursor,
and whose source node is the entry that the frontier holds for that cursor at exit. -/
theorem i_loop_committed_source :
    ∀ (fuel : Nat) (st st' : ILoopState GraphCursor S),
      i_loop_while g fees.code (fees.t m p7H_II) (fees.ins m) thr filter fuel st = some st' →
      ∀ (j : Nat) (e : QueueElement GraphCursor S),
        (i_loop_committed g fees.code (fees.t m p7H_II) (fees.ins m) thr filter fuel st).get? j
          = some e →
        e ∈ st.q ∨
        ∃ i e', i < j ∧
          (i_loop_committed g fees.code (fees.t m p7H_II) (fees.ins m) thr filter fuel st).get? i
            = some e' ∧
          e'.current_cursor = e.source_cursor ∧ e'.current_cursor ≠ e.current_cursor ∧
          find st'.I e'.current_cursor = some e.source_state := by
  intro fuel
  induction fuel with
  | zero => intro st st' h; simp [i_loop_while] at h
  | succ fuel ih =>
    intro st st' h j e hj
    simp only [i_loop_while] at h
    rcases hpop : pop_min st.q with _ | ⟨elt, q'⟩
    · simp [i_loop_committed, hpop] at hj
    · simp only [hpop] at h
      obtain ⟨hperm, _⟩ := pop_min_some st.q elt q' hpop
      have hq' : ∀ x, x ∈ q' → x ∈ st.q :=
        fun x hx => hperm.mem_iff.mpr (List.mem_cons_of_mem _ hx)
      by_cases hthr : elt.score > thr
      · simp [i_loop_committed, hpop, hthr] at hj
      · simp only [hthr, if_false] at h
        by_cases hproc : st.processed.contains elt.current_cursor = true
        · simp only [hproc, if_true] at h
          have hL : i_loop_committed g fees.code (fees.t m p7H_II) (fees.ins m) thr filter
              (fuel + 1) st
              = i_loop_committed g fees.code (fees.t m p7H_II) (fees.ins m) thr filter fuel
                  { st with q := q', taken_values := st.taken_values + 1 } := by
            simp only [i_loop_committed, hpop, hthr, if_false, hproc, if_true]
          rw [hL] at hj ⊢
          rcases ih _ st' h j e hj with hq | hex
          · exact Or.inl (hq' e hq)
          · exact Or.inr hex
        · have hcont := Bool.eq_false_iff.mpr hproc
          simp only [hcont, Bool.false_eq_true, if_false] at h
          rcases hf : find (StateSet.update st.I elt.current_cursor elt.score elt.source_cursor
              elt.source_state).1 elt.current_cursor with _ | id
          · simp [hf] at h
          · simp only [hf] at h
            have hL : i_loop_committed g fees.code (fees.t m p7H_II) (fees.ins m) thr filter
                (fuel + 1) st
                = elt :: i_loop_committed g fees.code (fees.t m p7H_II) (fees.ins m) thr filter
                    fuel
                    { I := (StateSet.update st.I elt.current_cursor elt.score
                        elt.source_cursor elt.source_state).1,
                      q := i_loop_push g fees.code (fees.t m p7H_II) (fees.ins m) filter
                        (elt.current_cursor :: st.processed) elt id
                        (g.next elt.current_cursor) q',
                      processed := elt.current_cursor :: st.processed,
                      taken_values := st.taken_values + 1 } := by
              simp only [i_loop_committed, hpop, hthr, if_false, hcont, Bool.false_eq_true, hf]
            rw [hL] at hj ⊢
            cases j with
            | zero =>
              simp only [List.get?_cons_zero, Option.some.injEq] at hj
              left
              rw [← hj]
              exact hperm.mem_iff.mpr (List.mem_cons_self _ _)
            | succ j' =>
              simp only [List.get?_cons_succ] at hj
              rcases ih _ st' h j' e hj with hq | ⟨i, e', hi, hget, h1, h2, h3⟩
              · simp only [i_loop_push_eq, List.mem_append, List.mem_map, List.mem_filter] at hq
                rcases hq with hq | ⟨n, ⟨_, hn⟩, rfl⟩
                · exact Or.inl (hq' e hq)
                · right
                  refine ⟨0, elt, Nat.succ_pos _, List.get?_cons_zero, rfl, ?_, ?_⟩
                  · simp only
                    intro heq
                    rw [← heq] at hn
                    simp at hn
                  · have hkeep := i_loop_while_keeps g fees m thr filter fuel _ st' h
                      elt.current_cursor (List.mem_cons_self _ _)
                    rw [hkeep]
                    exact hf
              · right
                refine ⟨i + 1, e', Nat.succ_lt_succ hi, ?_, h1, h2, h3⟩
                rw [List.get?_cons_succ]
                exact hget

/-- Claim C31.  In a run of the `while` loop of `i_loop_processing_non_negative` that
exits, the `I.update` calls are made at distinct cursors, in the order in which the
cursors are finalised; a call for an element that was not in the queue when the loop
started has as its source cursor a cursor finalised by a strictly earlier call, other
than the cursor being finalised, and as its source node the node that the frontier
holds for that cursor; and the call leaves at its cursor the node that records this
source, or the node that was there before.  The positions in the order of finalisation
strictly decrease along the recorded predecessors, so these form no cycle, whatever the
graph. -/
theorem committed_predecessor_earlier (fuel : Nat) (st st' : ILoopState GraphCursor S)
    (h : i_loop_while g fees.code (fees.t m p7H_II) (fees.ins m) thr filter fuel st = some st') :
    ((i_loop_committed g fees.code (fees.t m p7H_II) (fees.ins m) thr filter fuel st).map
      QueueElement.current_cursor).Nodup ∧
    (∀ (j : Nat) (e : QueueElement GraphCursor S),
      (i_loop_committed g fees.code (fees.t m p7H_II) (fees.ins m) thr filter fuel st).get? j
        = some e →
      e ∉ st.q →
      ∃ i e', i < j ∧
        (i_loop_committed g fees.code (fees.t m p7H_II) (fees.ins m) thr filter fuel st).get? i
          = some e' ∧
        e'.current_cursor = e.source_cursor ∧ e'.current_cursor ≠ e.current_cursor ∧
        find st'.I e'.current_cursor = some e.source_state) ∧
    (∀ e ∈ i_loop_committed g fees.code (fees.t m p7H_II) (fees.ins m) thr filter fuel st,
      find st'.I e.current_cursor
          = some (PathLink.link e.source_cursor e.score e.source_state) ∨
        find st'.I e.current_cursor = find st.I e.current_cursor) := by
  obtain ⟨hnd, _⟩ := i_loop_committed_fresh g fees m thr filter fuel st
  refine ⟨hnd, ?_, ?_⟩
  · intro j e hj hnq
    rcases i_loop_committed_source g fees m thr filter fuel st st' h j e hj with hq | hex
    · exact absurd hq hnq
    · exact hex
  · intro e he
    obtain ⟨l1, _⟩ := i_loop_while_log g fees m thr filter fuel st st' h
    have hnd' : (((i_loop_committed g fees.code (fees.t m p7H_II) (fees.ins m) thr filter fuel
        st).map (fun e => (e.current_cursor, e.score, e.source_cursor, e.source_state))).map
        Prod.fst).Nodup := by
      rw [List.map_map]
      exact hnd
    have hfind := apply_updates_find_nodup _ hnd'
      (e.current_cursor, e.score, e.source_cursor, e.source_state)
      (List.mem_map_of_mem _ he) st.I
    rw [l1, hfind, StateSet.st_find_update, if_pos rfl]
    rcases hold : find st.I e.current_cursor with _ | node
    · left; rfl
    · simp only
      rcases PathLink.update_cases node e.source_cursor e.score e.source_state with hu | hu
      · right; rw [hu]
      · left; rw [hu]

end LoopPredecessors

/-- Witness for claim C31: the insertion loop of column 0 of the example profile on the
example graph, which has the cycle 1, 2, 1. -/
theorem committed_predecessor_earlier_witness :
    (i_loop_while example_graph example_fees.code (example_fees.t 0 p7H_II)
        (example_fees.ins 0) 250 (fun _ => false) 20 example_loop_state
      = some example_loop_final) ∧
    (((i_loop_committed example_graph example_fees.code (example_fees.t 0 p7H_II)
        (example_fees.ins 0) 250 (fun _ => false) 20 example_loop_state).map
      QueueElement.current_cursor).Nodup ∧
    (∀ (j : Nat) (e : QueueElement Nat (WithTop Int)),
      (i_loop_committed example_graph example_fees.code (example_fees.t 0 p7H_II)
        (example_fees.ins 0) 250 (fun _ => false) 20 example_loop_state).get? j
        = some e →
      e ∉ example_loop_state.q →
      ∃ i e', i < j ∧
        (i_loop_committed example_graph example_fees.code (example_fees.t 0 p7H_II)
          (example_fees.ins 0) 250 (fun _ => false) 20 example_loop_state).get? i
          = some e' ∧
        e'.current_cursor = e.source_cursor ∧ e'.current_cursor ≠ e.current_cursor ∧
        find example_loop_final.I e'.current_cursor = some e.source_state) ∧
    (∀ e ∈ i_loop_committed example_graph example_fees.code (example_fees.t 0 p7H_II)
        (example_fees.ins 0) 250 (fun _ => false) 20 example_loop_state,
      find example_loop_final.I e.current_cursor
          = some (PathLink.link e.source_cursor e.score e.source_state) ∨
        find example_loop_final.I e.current_cursor
          = find example_loop_state.I e.current_cursor)) :=
  ⟨rfl,
    committed_predecessor_earlier example_graph example_fees 0 250 (fun _ => false) 20
      example_loop_state example_loop_final rfl⟩

/-- The log of the witness, evaluated: the cursors 1, 2, 3, 4 are finalised in this
order, with the source cursors 0 (the predecessor that the seed had), 1, 2 and 3. -/
theorem i_loop_sources_example :
    (i_loop_committed example_graph example_fees.code (example_fees.t 0 p7H_II)
        (example_fees.ins 0) 250 (fun _ => false) 20 example_loop_state).map
      (fun e => (e.current_cursor, e.source_cursor)) = [(1, 0), (2, 1), (3, 2), (4, 3)] := by
  decide

end impl

namespace impl

set_option linter.unusedSectionVars false
set_option linter.unusedVariables false

/-! ## Merging of k-mer clusters -/

section CanMerge

variable {U : Type}

/-- When `canMerge` returns true, the sum of the two sizes as it computes it is at most
2500, and a size above 1875 comes with a size of at most 50. -/
theorem canMerge_true (ops : ConcurrentDSU U) (uf : U) (x y : Int)
    (h : canMerge ops uf x y = true) :
    (ops.set_size uf x % 2 ^ 64 + ops.set_size uf y % 2 ^ 64) % 2 ^ 64 ≤ 2500 ∧
    (ops.set_size uf x % 2 ^ 64 > 1875 → ops.set_size uf y % 2 ^ 64 ≤ 50) ∧
    (ops.set_size uf y % 2 ^ 64 > 1875 → ops.set_size uf x % 2 ^ 64 ≤ 50) := by
  unfold canMerge at h
  simp only at h
  split at h
  · cases h
  · rename_i h1
    split at h
    · cases h
    · rename_i h2
      simp only [Bool.or_eq_true, Bool.and_eq_true, decide_eq_true_eq, not_or, not_and,
        not_lt] at h2
      refine ⟨not_lt.mp h1, ?_, ?_⟩
      · intro hx
        exact h2.1 (by omega)
      · intro hy
        exact h2.2 (by omega)

/-- Every logged `unite` call of the inner loop is made in a state in which the test of
the loop holds for its arguments. -/
theorem processBlockQuadratic_inner_log_test (ops : ConcurrentDSU U)
    (close : Nat → Nat → Bool) (x : Nat) :
    ∀ (ys : List Nat) (uf : U),
      ∀ e ∈ processBlockQuadratic_inner_log ops close x ys uf,
        merge_test ops close e.1 e.2.1 e.2.2 = true := by
  intro ys
  induction ys with
  | nil => intro uf e he; simp [processBlockQuadratic_inner_log] at he
  | cons y rest ih =>
    intro uf e he
    simp only [processBlockQuadratic_inner_log] at he
    by_cases ht : merge_test ops close uf x y = true
    · simp only [ht, if_true, List.mem_cons] at he
      rcases he with rfl | he
      · exact ht
      · exact ih _ e he
    · simp only [ht, if_false] at he
      exact ih _ e he

/-- Every logged `unite` call of `processBlockQuadratic` is made in a state in which the
test of the loop holds for its arguments. -/
theorem processBlockQuadratic_log_test (ops : ConcurrentDSU U) (close : Nat → Nat → Bool) :
    ∀ (block : List Nat) (uf : U),
      ∀ e ∈ processBlockQuadratic_log ops close block uf,
        merge_test ops close e.1 e.2.1 e.2.2 = true := by
  intro block
  induction block with
  | nil => intro uf e he; simp [processBlockQuadratic_log] at he
  | cons x rest ih =>
    intro uf e he
    simp only [processBlockQuadratic_log, List.mem_append] at he
    rcases he with he | he
    · exact processBlockQuadratic_inner_log_test ops close x rest uf e he
    · exact ih _ e he

/-- An index below `2 ^ 31` is passed to `canMerge` unchanged. -/
theorem int_of_size_t_small (x : Nat) (hx : x < 2 ^ 31) : int_of_size_t x = (x : Int) := by
  unfold int_of_size_t
  have h1 : x % 2 ^ 32 = x := Nat.mod_eq_of_lt (by omega)
  rw [h1]
  exact if_pos hx

/-- Claim C32.  Whenever `canMerge(uf, x, y)` returns true, the sum of `set_size(x)` and
`set_size(y)` as `canMerge` computes it is at most 2500, and so is their sum as numbers
when it is below `2 ^ 64`, as the sizes of two sets of one structure are; and every
`unite(x, y)` call of `processBlockQuadratic` is made in a state of the structure in
which `x` and `y` have different representatives and `canMerge` returns true for them,
so that the two sets that it merges have at most 2500 members together. -/
theorem canMerge_bound (ops : ConcurrentDSU U) (close : Nat → Nat → Bool) :
    (∀ (uf : U) (x y : Int), canMerge ops uf x y = true →
      (ops.set_size uf x % 2 ^ 64 + ops.set_size uf y % 2 ^ 64) % 2 ^ 64 ≤ 2500 ∧
      (ops.set_size uf x + ops.set_size uf y < 2 ^ 64 →
        ops.set_size uf x + ops.set_size uf y ≤ 2500)) ∧
    (∀ (block : List Nat) (uf : U),
      ∀ e ∈ processBlockQuadratic_log ops close block uf,
        ops.find_set e.1 e.2.1 ≠ ops.find_set e.1 e.2.2 ∧
        canMerge ops e.1 (int_of_size_t e.2.1) (int_of_size_t e.2.2) = true ∧
        (e.2.1 < 2 ^ 31 → e.2.2 < 2 ^ 31 →
          ops.set_size e.1 (e.2.1 : Int) + ops.set_size e.1 (e.2.2 : Int) < 2 ^ 64 →
          ops.set_size e.1 (e.2.1 : Int) + ops.set_size e.1 (e.2.2 : Int) ≤ 2500)) := by
  have key : ∀ (uf : U) (x y : Int), canMerge ops uf x y = true →
      ops.set_size uf x + ops.set_size uf y < 2 ^ 64 →
      ops.set_size uf x + ops.set_size uf y ≤ 2500 := by
    intro uf x y h hlt
    obtain ⟨h1, _⟩ := canMerge_true ops uf x y h
    have hx : ops.set_size uf x % 2 ^ 64 = ops.set_size uf x := Nat.mod_eq_of_lt (by omega)
    have hy : ops.set_size uf y % 2 ^ 64 = ops.set_size uf y := Nat.mod_eq_of_lt (by omega)
    rw [hx, hy, Nat.mod_eq_of_lt hlt] at h1
    exact h1
  refine ⟨?_, ?_⟩
  · intro uf x y h
    exact ⟨(canMerge_true ops uf x y h).1, key uf x y h⟩
  · intro block uf e he
    have ht := processBlockQuadratic_log_test ops close block uf e he
    unfold merge_test at ht
    simp only [Bool.and_eq_true, decide_eq_true_eq] at ht
    refine ⟨ht.1.1, ht.1.2, ?_⟩
    intro hx hy hlt
    have hc := ht.1.2
    rw [int_of_size_t_small _ hx, int_of_size_t_small _ hy] at hc
    exact key e.1 _ _ hc hlt

end CanMerge

/-- The claim on examples: sets of the sizes 3 and 2 may be merged; so may, for
`canMerge`, two sets whose sizes `2 ^ 64 - 1` and 2 have a sum that wraps to 1, sizes
that no structure in memory has; and `processBlockQuadratic` on the block `0, 1, 5`
makes the one call `unite(0, 5)` when only `0` and `5` are close. -/
theorem canMerge_example :
    canMerge example_dsu [[0, 1, 2], [5, 6]] 0 5 = true ∧
    canMerge { example_dsu with set_size := fun _ x => if x = 0 then 2 ^ 64 - 1 else 2 }
      [[0, 1, 2], [5, 6]] 0 5 = true ∧
    processBlockQuadratic_log example_dsu (fun x y => decide (x + 5 = y)) [0, 1, 5]
      [[0, 1, 2], [5, 6]] = [([[0, 1, 2], [5, 6]], 0, 5)] ∧
    processBlockQuadratic example_dsu (fun x y => decide (x + 5 = y)) [0, 1, 5]
      [[0, 1, 2], [5, 6]] = [[0, 1, 2, 5, 6]] := by
  decide

end impl

namespace impl

set_option linter.unusedSectionVars false
set_option linter.unusedVariables false

/-! ## Function `depth_subset`: the queue and the initial map -/

section SubsetQueue

variable {GraphCursor : Type} [DecidableEq GraphCursor]

theorem pop_max_none (q : List (CursorWithDepth GraphCursor)) (h : pop_max q = none) :
    q = [] := by
  cases q with
  | nil => rfl
  | cons e rest =>
    simp only [pop_max] at h
    rcases hr : pop_max rest with _ | ⟨b, rest'⟩
    · simp [hr] at h
    · simp only [hr] at h
      split at h <;> simp at h

/-- The popped element has greatest depth, and the queue is it and the rest. -/
theorem pop_max_some (q : List (CursorWithDepth GraphCursor)) :
    ∀ (e : CursorWithDepth GraphCursor) (q' : List (CursorWithDepth GraphCursor)),
      pop_max q = some (e, q') → q.Perm (e :: q') ∧ ∀ x ∈ q, x.depth ≤ e.depth := by
  induction q with
  | nil => intro e q' h; simp [pop_max] at h
  | cons a rest ih =>
    intro e q' h
    simp only [pop_max] at h
    rcases hr : pop_max rest with _ | ⟨b, rest'⟩
    · simp only [hr, Option.some.injEq, Prod.mk.injEq] at h
      obtain ⟨rfl, rfl⟩ := h
      have := pop_max_none rest hr
      subst this
      exact ⟨List.Perm.refl _, by simp⟩
    · simp only [hr] at h
      obtain ⟨hperm, hmax⟩ := ih b rest' hr
      by_cases hlt : a.depth < b.depth
      · simp only [hlt, if_true, Option.some.injEq, Prod.mk.injEq] at h
        obtain ⟨rfl, rfl⟩ := h
        refine ⟨?_, ?_⟩
        · exact (List.Perm.cons a hperm).trans (List.Perm.swap b a rest')
        · intro x hx
          simp only [List.mem_cons] at hx
          rcases hx with rfl | hx
          · exact le_of_lt hlt
          · exact hmax x hx
      · simp only [hlt, if_false, Option.some.injEq, Prod.mk.injEq] at h
        obtain ⟨rfl, rfl⟩ := h
        refine ⟨List.Perm.refl _, ?_⟩
        intro x hx
        simp only [List.mem_cons] at hx
        rcases hx with rfl | hx
        · exact le_refl _
        · exact le_trans (hmax x hx) (not_lt.mp hlt)

/-- The pushes of the loop over the successors: one element for each successor that is
not visited. -/
theorem depth_subset_push_eq (visited : List GraphCursor) (depth : Nat) :
    ∀ (cursors : List GraphCursor) (q : List (CursorWithDepth GraphCursor)),
      depth_subset_push visited depth cursors q
        = q ++ (cursors.filter (fun c => !visited.contains c)).map
            (fun c => { cursor := c, depth := depth - 1 }) := by
  intro cursors
  induction cursors with
  | nil => intro q; simp [depth_subset_push]
  | cons c rest ih =>
    intro q
    simp only [depth_subset_push]
    cases hv : visited.contains c with
    | true =>
      simp only [Bool.not_true, Bool.false_eq_true, if_false, ih, List.filter_cons, hv]
    | false =>
      simp only [Bool.not_false, if_true, ih, List.filter_cons, hv, List.map_cons,
        List.append_assoc, List.singleton_append]

theorem length_set {V : Type} (m : List (GraphCursor × V)) (k : GraphCursor) (v : V) :
    (set m k v).length ≤ m.length + 1 := by
  unfold set
  split
  · have : (assign m k v).length = m.length := by
      have := congrArg List.length (keys_assign m k v)
      simpa [keys] using this
    omega
  · simp

theorem wf_set {V : Type} (m : List (GraphCursor × V)) (k : GraphCursor) (v : V)
    (hm : wf m) : wf (set m k v) := by
  unfold set
  by_cases h : count m k = true
  · simp only [h, if_true]
    exact wf_assign m k v hm
  · simp only [h, if_false]
    apply wf_append_single m k v hm
    unfold count at h
    cases hf : find m k with
    | none => rfl
    | some x => simp [hf] at h

/-- The loop that fills the initial map, from any map: the map stays a map, it grows by
at most one entry for each pair, every depth it holds was there before or is the depth
of a pair, no depth falls, and every pair finds at least its depth. -/
theorem initial_map_fold (rest : List (GraphCursor × Nat)) :
    ∀ m : List (GraphCursor × Nat), wf m →
      wf (rest.foldl (fun m cd => set m cd.1 (max ((find m cd.1).getD 0) cd.2)) m) ∧
      (rest.foldl (fun m cd => set m cd.1 (max ((find m cd.1).getD 0) cd.2)) m).length
        ≤ m.length + rest.length ∧
      (∀ c v, find (rest.foldl
          (fun m cd => set m cd.1 (max ((find m cd.1).getD 0) cd.2)) m) c = some v →
        find m c = some v ∨ (c, v) ∈ rest) ∧
      (∀ c v, find m c = some v →
        ∃ v', find (rest.foldl
          (fun m cd => set m cd.1 (max ((find m cd.1).getD 0) cd.2)) m) c = some v' ∧ v ≤ v') ∧
      (∀ ck ∈ rest,
        ∃ v', find (rest.foldl
          (fun m cd => set m cd.1 (max ((find m cd.1).getD 0) cd.2)) m) ck.1 = some v' ∧
          ck.2 ≤ v') := by
  induction rest with
  | nil =>
    intro m hm
    refine ⟨hm, by simp, fun c v h => Or.inl h, fun c v h => ⟨v, h, le_refl _⟩, by simp⟩
  | cons cd rest ih =>
    intro m hm
    simp only [List.foldl_cons]
    obtain ⟨i1, i2, i3, i4, i5⟩ := ih (set m cd.1 (max ((find m cd.1).getD 0) cd.2))
      (wf_set m _ _ hm)
    have hself : find (set m cd.1 (max ((find m cd.1).getD 0) cd.2)) cd.1
        = some (max ((find m cd.1).getD 0) cd.2) := by
      rw [find_set]; simp
    refine ⟨i1, ?_, ?_, ?_, ?_⟩
    · have := length_set m cd.1 (max ((find m cd.1).getD 0) cd.2)
      simp only [List.length_cons]
      omega
    · intro c v h
      rcases i3 c v h with h3 | h3
      · rw [find_set] at h3
        by_cases hc : cd.1 = c
        · subst hc
          simp only [if_true, Option.some.injEq] at h3
          rcases le_total ((find m cd.1).getD 0) cd.2 with hle | hle
          · right
            rw [max_eq_right hle] at h3
            rw [← h3]
            exact List.mem_cons_self _ _
          · rw [max_eq_left hle] at h3
            rcases hf : find m cd.1 with _ | x
            · right
              rw [hf] at h3 hle
              simp only [Option.getD_none] at h3 hle
              have h0 : cd.2 = v := by omega
              rw [← h0]
              exact List.mem_cons_self _ _
            · left
              rw [hf] at h3
              simp only [Option.getD_some] at h3
              rw [h3]
        · simp only [hc, if_false] at h3
          exact Or.inl h3
      · exact Or.inr (List.mem_cons_of_mem _ h3)
    · intro c v h
      by_cases hc : cd.1 = c
      · subst hc
        obtain ⟨v', h4, hle⟩ := i4 cd.1 _ hself
        refine ⟨v', h4, ?_⟩
        rw [h] at hle
        simp only [Option.getD_some] at hle
        omega
      · have : find (set m cd.1 (max ((find m cd.1).getD 0) cd.2)) c = some v := by
          rw [find_set]; simp [hc, h]
        exact i4 c v this
    · intro ck hck
      rcases List.mem_cons.mp hck with rfl | hmem
      · obtain ⟨v', h4, hle⟩ := i4 ck.1 _ hself
        exact ⟨v', h4, by omega⟩
      · exact i5 ck hmem

/-- The initial map of `depth_subset`: a map with at most one entry for each pair, whose
entries are among the pairs, and in which every pair finds at least its depth. -/
theorem initial_map_facts (initial : List (GraphCursor × Nat)) :
    wf (depth_subset_initial_map initial) ∧
    (depth_subset_initial_map initial).length ≤ initial.length ∧
    (∀ kv ∈ depth_subset_initial_map initial, kv ∈ initial) ∧
    (∀ ck ∈ initial, ∃ kv ∈ depth_subset_initial_map initial, kv.1 = ck.1 ∧ ck.2 ≤ kv.2) := by
  have hnil : wf ([] : List (GraphCursor × Nat)) := by simp [wf, keys]
  obtain ⟨i1, i2, i3, _, i5⟩ := initial_map_fold initial [] hnil
  refine ⟨i1, by simpa using i2, ?_, ?_⟩
  · intro kv hkv
    have hf := find_of_mem _ i1 kv hkv
    rcases i3 kv.1 kv.2 hf with h | h
    · simp [find] at h
    · exact h
  · intro ck hck
    obtain ⟨v', hf, hle⟩ := i5 ck hck
    exact ⟨(ck.1, v'), mem_of_find _ _ _ hf, rfl, hle⟩

end SubsetQueue

end impl

namespace impl

set_option linter.unusedSectionVars false
set_option linter.unusedVariables false

/-! ## Function `depth_subset`: the loop -/

section SubsetLoop

variable {GraphCursor : Type} [DecidableEq GraphCursor]
variable (succ : GraphCursor → List GraphCursor) (initial : List (GraphCursor × Nat))

/-- A cursor reached with `r` steps to spare lies at the end of a walk from an initial
pair that leaves `r` of its depth over. -/
theorem DepthReach.to_steps (v : GraphCursor) (r : Nat) (h : DepthReach succ initial v r) :
    ∃ ck ∈ initial, ∃ n, Steps succ n ck.1 v ∧ n + r = ck.2 := by
  induction h with
  | seed c k h => exact ⟨(c, k), h, 0, Steps.start c, by simp⟩
  | step u w r _ hw ih =>
    obtain ⟨ck, hck, n, hs, hn⟩ := ih
    exact ⟨ck, hck, n + 1, Steps.snoc n ck.1 u w hs hw, by omega⟩

/-- The end of a walk of `n` steps from an initial pair of depth `n + r` is reached with
`r` steps to spare. -/
theorem DepthReach.of_steps (c : GraphCursor) (k : Nat) (hck : (c, k) ∈ initial) (n : Nat)
    (v : GraphCursor) (hs : Steps succ n c v) :
    ∀ r, n + r = k → DepthReach succ initial v r := by
  induction hs with
  | start c =>
    intro r hr
    have : r = k := by omega
    subst this
    exact DepthReach.seed c r hck
  | snoc n a b c _ hc ih =>
    intro r hr
    exact DepthReach.step b c r (ih hck (r + 1) (by omega)) hc

/-- Under the invariant, a cursor reached with `r` steps to spare is visited, or some
queue element carries a depth of at least `r`. -/
theorem SubsetInv.subset_frontier (D : GraphCursor → Nat) (q : List (CursorWithDepth GraphCursor))
    (visited : List GraphCursor) (hinv : SubsetInv succ initial D q visited)
    (v : GraphCursor) (r : Nat) (h : DepthReach succ initial v r) :
    v ∈ visited ∨ ∃ e ∈ q, r ≤ e.depth := by
  induction h with
  | seed c k h =>
    rcases hinv.seeds_pending (c, k) h with hv | ⟨e, he, _, hle⟩
    · exact Or.inl hv
    · exact Or.inr ⟨e, he, hle⟩
  | step u w r hu hw ih =>
    rcases ih with hv | ⟨e, he, hle⟩
    · have hD : r + 1 ≤ D u := hinv.visited_max u hv (r + 1) hu
      rcases hinv.edges_pending u hv (by omega) w hw with hw' | ⟨e, he, _, hle⟩
      · exact Or.inl hw'
      · exact Or.inr ⟨e, he, by omega⟩
    · exact Or.inr ⟨e, he, by omega⟩

/-- The invariant after an iteration that takes an element of a visited cursor. -/
theorem SubsetInv.subset_skip (D : GraphCursor → Nat) (q : List (CursorWithDepth GraphCursor))
    (visited : List GraphCursor) (hinv : SubsetInv succ initial D q visited)
    (e : CursorWithDepth GraphCursor) (q' : List (CursorWithDepth GraphCursor))
    (hpop : pop_max q = some (e, q')) (hv : e.cursor ∈ visited) :
    SubsetInv succ initial D q' visited := by
  obtain ⟨hperm, _⟩ := pop_max_some q e q' hpop
  have hmem : ∀ x, x ∈ q ↔ x = e ∨ x ∈ q' := by
    intro x; rw [hperm.mem_iff]; simp
  refine ⟨?_, hinv.visited_sound, hinv.visited_max, ?_, ?_⟩
  · intro x hx
    exact hinv.queue_sound x ((hmem x).mpr (Or.inr hx))
  · intro u hu hD w hw
    rcases hinv.edges_pending u hu hD w hw with h | ⟨x, hx, hxc, hle⟩
    · exact Or.inl h
    · rcases (hmem x).mp hx with rfl | hx'
      · left; rw [← hxc]; exact hv
      · exact Or.inr ⟨x, hx', hxc, hle⟩
  · intro ck hck
    rcases hinv.seeds_pending ck hck with h | ⟨x, hx, hxc, hle⟩
    · exact Or.inl h
    · rcases (hmem x).mp hx with rfl | hx'
      · left; rw [← hxc]; exact hv
      · exact Or.inr ⟨x, hx', hxc, hle⟩

/-- The invariant after an iteration that visits a cursor, for a new queue that keeps
the rest of the old one and holds, when the depth taken is positive, an element of that
depth less one for every successor that is not visited. -/
theorem SubsetInv.subset_visit (D : GraphCursor → Nat) (q : List (CursorWithDepth GraphCursor))
    (visited : List GraphCursor) (hinv : SubsetInv succ initial D q visited)
    (e : CursorWithDepth GraphCursor) (q' qn : List (CursorWithDepth GraphCursor))
    (hpop : pop_max q = some (e, q')) (hv : e.cursor ∉ visited)
    (h1 : ∀ x ∈ q', x ∈ qn)
    (h2 : ∀ x ∈ qn, x ∈ q' ∨
      (0 < e.depth ∧ x.cursor ∈ succ e.cursor ∧ x.depth = e.depth - 1))
    (h3 : 0 < e.depth → ∀ w ∈ succ e.cursor,
      w ∈ e.cursor :: visited ∨ ∃ x ∈ qn, x.cursor = w ∧ x.depth = e.depth - 1) :
    SubsetInv succ initial (fun v => if v = e.cursor then e.depth else D v) qn
      (e.cursor :: visited) := by
  obtain ⟨hperm, hmax⟩ := pop_max_some q e q' hpop
  have hmem : ∀ x, x ∈ q ↔ x = e ∨ x ∈ q' := by
    intro x; rw [hperm.mem_iff]; simp
  have he : DepthReach succ initial e.cursor e.depth :=
    hinv.queue_sound e ((hmem e).mpr (Or.inl rfl))
  have hne : ∀ v ∈ visited, ¬ v = e.cursor := fun v hvv h => hv (h ▸ hvv)
  refine ⟨?_, ?_, ?_, ?_, ?_⟩
  · intro x hx
    rcases h2 x hx with h | ⟨hpos, hxc, hxd⟩
    · exact hinv.queue_sound x ((hmem x).mpr (Or.inr h))
    · rw [hxd]
      have he' : DepthReach succ initial e.cursor (e.depth - 1 + 1) := by
        have : e.depth - 1 + 1 = e.depth := by omega
        rw [this]; exact he
      exact DepthReach.step e.cursor x.cursor (e.depth - 1) he' hxc
  · intro v hvv
    rcases List.mem_cons.mp hvv with rfl | hvv
    · simp only [if_true]; exact he
    · simp only [hne v hvv, if_false]
      exact hinv.visited_sound v hvv
  · intro v hvv r hr
    rcases List.mem_cons.mp hvv with rfl | hvv
    · simp only [if_true]
      rcases SubsetInv.subset_frontier succ initial D q visited hinv e.cursor r hr with h | ⟨x, hx, hle⟩
      · exact absurd h hv
      · exact le_trans hle (hmax x hx)
    · simp only [hne v hvv, if_false]
      exact hinv.visited_max v hvv r hr
  · intro u hu hD w hw
    rcases List.mem_cons.mp hu with rfl | hu
    · simp only [if_true] at hD ⊢
      rcases h3 hD w hw with h | ⟨x, hx, hxc, hxd⟩
      · exact Or.inl h
      · exact Or.inr ⟨x, hx, hxc, by omega⟩
    · simp only [hne u hu, if_false] at hD ⊢
      rcases hinv.edges_pending u hu hD w hw with h | ⟨x, hx, hxc, hle⟩
      · exact Or.inl (List.mem_cons_of_mem _ h)
      · rcases (hmem x).mp hx with rfl | hx'
        · left; rw [← hxc]; exact List.mem_cons_self _ _
        · exact Or.inr ⟨x, h1 x hx', hxc, hle⟩
  · intro ck hck
    rcases hinv.seeds_pending ck hck with h | ⟨x, hx, hxc, hle⟩
    · exact Or.inl (List.mem_cons_of_mem _ h)
    · rcases (hmem x).mp hx with rfl | hx'
      · left; rw [← hxc]; exact List.mem_cons_self _ _
      · exact Or.inr ⟨x, h1 x hx', hxc, hle⟩

end SubsetLoop

section SubsetRun

variable {GraphCursor : Type} [DecidableEq GraphCursor]
variable (g : Cursor GraphCursor) (forward : Bool) (initial : List (GraphCursor × Nat))

/-- On a finite graph the loop of `depth_subset` exits within `depth_subset_measure`
iterations, and the set it leaves has no duplicates and holds exactly the cursors
reached from an initial pair. -/
theorem depth_subset_while_spec (nodes : List GraphCursor)
    (hclosed : ∀ c ∈ nodes, ∀ n ∈ successors_dir g forward c, n ∈ nodes) :
    ∀ (fuel : Nat) (q : List (CursorWithDepth GraphCursor)) (visited : List GraphCursor)
      (D : GraphCursor → Nat),
      SubsetInv (successors_dir g forward) initial D q visited → visited.Nodup →
      (∀ e ∈ q, e.cursor ∈ nodes) →
      depth_subset_measure (successors_dir g forward) nodes q visited < fuel →
      ∃ result, depth_subset_while g forward fuel q visited = some result ∧ result.Nodup ∧
        ∀ v, v ∈ result ↔ ∃ r, DepthReach (successors_dir g forward) initial v r := by
  intro fuel
  induction fuel with
  | zero => intro q visited D _ _ _ h; omega
  | succ fuel ih =>
    intro q visited D hinv hnd hq hlt
    simp only [depth_subset_while]
    rcases hpop : pop_max q with _ | ⟨e, q'⟩
    · refine ⟨visited, rfl, hnd, ?_⟩
      have hq0 := pop_max_none q hpop
      subst hq0
      intro v
      constructor
      · intro hv
        exact ⟨D v, hinv.visited_sound v hv⟩
      · rintro ⟨r, hr⟩
        rcases SubsetInv.subset_frontier _ initial D [] visited hinv v r hr with h | ⟨x, hx, _⟩
        · exact h
        · simp at hx
    · simp only
      obtain ⟨hperm, _⟩ := pop_max_some q e q' hpop
      have hmem : ∀ x, x ∈ q ↔ x = e ∨ x ∈ q' := by
        intro x; rw [hperm.mem_iff]; simp
      have hlen : q.length = q'.length + 1 := by
        rw [hperm.length_eq]; simp
      have hq' : ∀ x ∈ q', x.cursor ∈ nodes := fun x hx => hq x ((hmem x).mpr (Or.inr hx))
      by_cases hv : e.cursor ∈ visited
      · have hcont : visited.contains e.cursor = true := by simpa using hv
        simp only [hcont, if_true]
        apply ih q' visited D (SubsetInv.subset_skip _ initial D q visited hinv e q' hpop hv) hnd hq'
        simp only [depth_subset_measure] at hlt ⊢
        omega
      · have hcont : visited.contains e.cursor = false := by simpa using hv
        have hins : set_insert visited e.cursor = e.cursor :: visited := by
          simp [set_insert, hv]
        have hnd' : (e.cursor :: visited).Nodup := List.nodup_cons.mpr ⟨hv, hnd⟩
        have hu : e.cursor ∈ nodes := hq e ((hmem e).mpr (Or.inl rfl))
        have hsum := sum_filter_processed
          (fun v => (successors_dir g forward v).length + 1) visited e.cursor hv nodes hu
        beta_reduce at hsum
        simp only [hcont, Bool.false_eq_true, if_false, hins]
        by_cases hpos : e.depth > 0
        · simp only [hpos, if_true]
          apply ih _ (e.cursor :: visited) (fun v => if v = e.cursor then e.depth else D v)
            (SubsetInv.subset_visit _ initial D q visited hinv e q' _ hpop hv ?_ ?_ ?_) hnd'
          · intro x hx
            simp only [depth_subset_push_eq, List.mem_append, List.mem_map, List.mem_filter] at hx
            rcases hx with hx | ⟨n, ⟨hn, _⟩, rfl⟩
            · exact hq' x hx
            · exact hclosed _ hu n hn
          · simp only [depth_subset_measure, depth_subset_push_eq, List.length_append,
              List.length_map] at hlt ⊢
            have h1 := List.length_filter_le
              (fun c => !(e.cursor :: visited).contains c) (successors_dir g forward e.cursor)
            omega
          · intro x hx
            rw [depth_subset_push_eq]
            exact List.mem_append_left _ hx
          · intro x hx
            simp only [depth_subset_push_eq, List.mem_append, List.mem_map, List.mem_filter] at hx
            rcases hx with hx | ⟨n, ⟨hn, _⟩, rfl⟩
            · exact Or.inl hx
            · exact Or.inr ⟨hpos, hn, rfl⟩
          · intro _ w hw
            by_cases hwv : w ∈ e.cursor :: visited
            · exact Or.inl hwv
            · right
              refine ⟨{ cursor := w, depth := e.depth - 1 }, ?_, rfl, rfl⟩
              rw [depth_subset_push_eq]
              apply List.mem_append_right
              rw [List.mem_map]
              refine ⟨w, ?_, rfl⟩
              rw [List.mem_filter]
              refine ⟨hw, ?_⟩
              simpa using hwv
        · simp only [hpos, if_false]
          apply ih q' (e.cursor :: visited) (fun v => if v = e.cursor then e.depth else D v)
            (SubsetInv.subset_visit _ initial D q visited hinv e q' q' hpop hv (fun x hx => hx)
              (fun x hx => Or.inl hx) (fun h => absurd h hpos)) hnd' hq'
          simp only [depth_subset_measure] at hlt ⊢
          omega

/-- On a finite graph that holds the initial cursors, `depth_subset` returns, with
`depth_subset_fuel` iterations of fuel, a list without duplicates of exactly the cursors
reached from an initial pair. -/
theorem depth_subset_run (nodes : List GraphCursor)
    (hclosed : ∀ c ∈ nodes, ∀ n ∈ successors_dir g forward c, n ∈ nodes)
    (hinit : ∀ ck ∈ initial, ck.1 ∈ nodes) (fuel : Nat)
    (hfuel : depth_subset_fuel (successors_dir g forward) nodes initial ≤ fuel) :
    ∃ result, depth_subset g fuel initial forward = some result ∧ result.Nodup ∧
      ∀ v, v ∈ result ↔ ∃ r, DepthReach (successors_dir g forward) initial v r := by
  obtain ⟨_, m2, m3, m4⟩ := initial_map_facts initial
  unfold depth_subset
  simp only
  apply depth_subset_while_spec g forward initial nodes hclosed fuel _ [] (fun _ => 0)
  · refine ⟨?_, ?_, ?_, ?_, ?_⟩
    · intro e he
      simp only [List.mem_map] at he
      obtain ⟨kv, hkv, rfl⟩ := he
      exact DepthReach.seed kv.1 kv.2 (m3 kv hkv)
    · intro v hv; simp at hv
    · intro v hv; simp at hv
    · intro u hu; simp at hu
    · intro ck hck
      right
      obtain ⟨kv, hkv, hk1, hk2⟩ := m4 ck hck
      exact ⟨{ cursor := kv.1, depth := kv.2 }, List.mem_map_of_mem _ hkv, hk1, hk2⟩
  · exact List.nodup_nil
  · intro e he
    simp only [List.mem_map] at he
    obtain ⟨kv, hkv, rfl⟩ := he
    exact hinit kv (m3 kv hkv)
  · simp only [depth_subset_measure, depth_subset_fuel, List.length_map] at hfuel ⊢
    have : (nodes.filter (fun v => !([] : List GraphCursor).contains v)) = nodes := by
      rw [List.filter_eq_self]; intro a _; simp
    rw [this]
    omega

end SubsetRun

end impl

namespace impl

set_option linter.unusedSectionVars false
set_option linter.unusedVariables false

/-! ## Function `depth_subset`: what it returns -/

section SubsetResult

variable {GraphCursor : Type} [DecidableEq GraphCursor]

/-- Claim C35.  On a finite graph (a list of cursors that holds the initial cursors and
the successors, in the chosen direction, of each of its members), `depth_subset`
returns, with `depth_subset_fuel` iterations of fuel, a list without duplicates whose
members are exactly the cursors `v` for which some initial pair `(c, k)` has a walk of
at most `k` steps from `c` to `v`, along `next()` when `forward` is true and along
`prev()` otherwise; every initial cursor is a member; the overload for one cursor is the
call on the one pair, and with the depth 0 it returns just the cursor, on every
graph. -/
theorem depth_subset_exact (g : Cursor GraphCursor) (forward : Bool)
    (initial : List (GraphCursor × Nat)) (nodes : List GraphCursor)
    (hclosed : ∀ c ∈ nodes, ∀ n ∈ successors_dir g forward c, n ∈ nodes)
    (hinit : ∀ ck ∈ initial, ck.1 ∈ nodes) (fuel : Nat)
    (hfuel : depth_subset_fuel (successors_dir g forward) nodes initial ≤ fuel) :
    (∃ result, depth_subset g fuel initial forward = some result ∧ result.Nodup ∧
      (∀ v, v ∈ result ↔
        ∃ ck ∈ initial, ∃ n, n ≤ ck.2 ∧ Steps (successors_dir g forward) n ck.1 v) ∧
      (∀ ck ∈ initial, ck.1 ∈ result)) ∧
    (∀ (c : GraphCursor) (d f : Nat),
      depth_subset_single g f c d forward = depth_subset g f [(c, d)] forward) ∧
    (∀ (c : GraphCursor) (f : Nat), 2 ≤ f →
      depth_subset_single g f c 0 forward = some [c]) := by
  refine ⟨?_, fun _ _ _ => rfl, ?_⟩
  · obtain ⟨result, h1, h2, h3⟩ := depth_subset_run g forward initial nodes hclosed hinit
      fuel hfuel
    have h4 : ∀ v, v ∈ result ↔
        ∃ ck ∈ initial, ∃ n, n ≤ ck.2 ∧ Steps (successors_dir g forward) n ck.1 v := by
      intro v
      rw [h3 v]
      constructor
      · rintro ⟨r, hr⟩
        obtain ⟨ck, hck, n, hs, hn⟩ := DepthReach.to_steps _ initial v r hr
        exact ⟨ck, hck, n, by omega, hs⟩
      · rintro ⟨ck, hck, n, hn, hs⟩
        exact ⟨ck.2 - n, DepthReach.of_steps _ initial ck.1 ck.2 hck n v hs (ck.2 - n)
          (by omega)⟩
    refine ⟨result, h1, h2, h4, ?_⟩
    intro ck hck
    exact (h4 ck.1).mpr ⟨ck, hck, 0, Nat.zero_le _, Steps.start ck.1⟩
  · intro c f hf
    obtain ⟨f', rfl⟩ : ∃ f', f = f' + 2 := ⟨f - 2, by omega⟩
    simp [depth_subset_single, depth_subset, depth_subset_initial_map, set, count, find,
      depth_subset_while, pop_max, set_insert]

/-- Witness for claim C35: the pairs `(1, 2)` and `(3, 0)` on the example graph, which
has the cycle 1, 2, 1, in the forward direction. -/
theorem depth_subset_exact_witness :
    ((∀ c ∈ [0, 1, 2, 3, 4], ∀ n ∈ successors_dir example_graph true c, n ∈ [0, 1, 2, 3, 4]) ∧
      (∀ ck ∈ [((1 : Nat), 2), (3, 0)], ck.1 ∈ [0, 1, 2, 3, 4]) ∧
      depth_subset_fuel (successors_dir example_graph true) [0, 1, 2, 3, 4] [(1, 2), (3, 0)]
        ≤ 20) ∧
    ((∃ result, depth_subset example_graph 20 [(1, 2), (3, 0)] true = some result ∧
      result.Nodup ∧
      (∀ v, v ∈ result ↔
        ∃ ck ∈ [((1 : Nat), 2), (3, 0)], ∃ n, n ≤ ck.2 ∧
          Steps (successors_dir example_graph true) n ck.1 v) ∧
      (∀ ck ∈ [((1 : Nat), 2), (3, 0)], ck.1 ∈ result)) ∧
    (∀ (c : Nat) (d f : Nat),
      depth_subset_single example_graph f c d true
        = depth_subset example_graph f [(c, d)] true) ∧
    (∀ (c : Nat) (f : Nat), 2 ≤ f →
      depth_subset_single example_graph f c 0 true = some [c])) :=
  ⟨⟨by decide, by decide, by decide⟩,
    depth_subset_exact example_graph true [(1, 2), (3, 0)] [0, 1, 2, 3, 4]
      (by decide) (by decide) 20 (by decide)⟩

/-- Runs of `depth_subset` on the example graph, evaluated: forward from `(1, 2)` and
`(3, 0)`, where the pair `(1, 1)` adds nothing to `(1, 2)`; backward from `(3, 1)`; and
forward from cursor 2 with the depth 0. -/
theorem depth_subset_example :
    depth_subset example_graph 20 [(1, 1), (1, 2), (3, 0)] true = some [3, 2, 1] ∧
    depth_subset example_graph 20 [(3, 1)] false = some [2, 3] ∧
    depth_subset_single example_graph 2 2 0 true = some [2] := by
  decide

end SubsetResult

end impl
